import Mathlib

/-!
# Chromap core: a shallow embedding of `src/chromap.cc`

Machine integers are natural numbers or integers with the reductions modulo
`2^32` / `2^64` / `2^16` written out.  Sequences are lists of byte values; the
byte-to-base-code table `SequenceBatch::CharToUint8` lives outside
`chromap.cc`, so every function that consults it takes it as the parameter
`c2u`.
-/

namespace Chromap

/-! ## Mapping quality (chromap.cc 607-614 and 792-799) -/

/-- The MAPQ block of `GenerateBestMappingsForPairedEndRead`. -/
def mapqPairedEnd (num_best_mappings num_second_best_mappings : Int) : Nat :=
  if num_best_mappings = 1 ∧ num_second_best_mappings = 0 then 60
  else if num_best_mappings = 1 then 30
  else if num_best_mappings < 5 then 5
  else 0

/-- The MAPQ block of `GenerateBestMappingsForSingleEndRead`. -/
def mapqSingleEnd (num_best_mappings num_second_best_mappings : Int) : Nat :=
  if num_best_mappings = 1 ∧ num_second_best_mappings = 0 then 60
  else if num_best_mappings = 1 then 30
  else if num_best_mappings < 5 then 5
  else 0

/-! ## 32-bit registers -/

/-- The modulus of a `uint32_t`. -/
def U32 : Nat := 4294967296

/-- Bitwise complement `~x` of a `uint32_t`. -/
def not32 (x : Nat) : Nat := x ^^^ 4294967295

/-- The register file `uint32_t Peq[5]`, indexed by base code. -/
abbrev PeqTable := Nat → Nat

/-- The assignment `Peq[base] = Peq[base] | mask`. -/
def peqOr (Peq : PeqTable) (base mask : Nat) : PeqTable :=
  fun a => if a = base then Peq a ||| mask else Peq a

/-- The loop `for (ai = 0; ai < 5; ai++) Peq[ai] >>= 1`. -/
def peqShift (Peq : PeqTable) : PeqTable :=
  fun a => if a < 5 then Peq a >>> 1 else Peq a

/-- The first loop of `BandedAlignPatternToText`: bits `0 .. 2E-1` of `Peq`
are filled from `pattern[0 .. 2E-1]`.  `k` counts the remaining iterations,
`i` is the loop variable. -/
def peqInit (c2u : Nat → Nat) (pattern : List Nat) : Nat → Nat → PeqTable → PeqTable
  | 0, _, Peq => Peq
  | k + 1, i, Peq =>
      peqInit c2u pattern k (i + 1) (peqOr Peq (c2u (pattern.getD i 0)) ((1 <<< i) % U32))

/-- The registers that survive one iteration of the column loop. -/
structure BandState where
  Peq : PeqTable
  VP : Nat
  VN : Nat
  num_errors_at_band_start_position : Int

/-- The value of `D0` computed in one column from `X = Peq[text[i]] | VN`. -/
def d0Of (VP X : Nat) : Nat := (((VP + (X &&& VP)) % U32) ^^^ VP) ||| X

/-- One iteration of the column loop of `BandedAlignPatternToText`, up to
and including the update of the error counter (the early-exit test and the
shift of `Peq` follow in `alignLoop`). `pattern_base` and `text_base` are the
codes of `pattern[i + 2E]` and `text[i]`. -/
def columnStep (E : Nat) (pattern_base text_base : Nat) (s : BandState) : BandState :=
  let highest_bit_in_band_mask := (1 <<< (2 * E)) % U32
  let Peq := peqOr s.Peq pattern_base highest_bit_in_band_mask
  let X := Peq text_base ||| s.VN
  let D0 := d0Of s.VP X
  let HN := s.VP &&& D0
  let HP := s.VN ||| not32 (s.VP ||| D0)
  let X := D0 >>> 1
  let VN := X &&& HP
  let VP := HN ||| not32 (X ||| HP)
  { Peq := Peq, VP := VP, VN := VN,
    num_errors_at_band_start_position :=
      s.num_errors_at_band_start_position + ((1 - (D0 &&& 1) : Nat) : Int) }

/-- The column loop of `BandedAlignPatternToText` with its early return:
`none` is the return of `error_threshold_ + 1`. `k` counts the remaining
iterations, `i` is the loop variable. -/
def alignLoop (c2u : Nat → Nat) (E : Nat) (pattern text : List Nat) :
    Nat → Nat → BandState → Option BandState
  | 0, _, s => some s
  | k + 1, i, s =>
      let s1 := columnStep E (c2u (pattern.getD (i + 2 * E) 0)) (c2u (text.getD i 0)) s
      if s1.num_errors_at_band_start_position > 3 * (E : Int) then none
      else alignLoop c2u E pattern text k (i + 1) { s1 with Peq := peqShift s1.Peq }

/-- The state of the final scan over the band: the running count, the minimum
and the end position. -/
structure ScanState where
  num_errors_at_band_start_position : Int
  min_num_errors : Int
  mapping_end_position : Int

/-- The final loop of `BandedAlignPatternToText` over the bits `0 .. 2E-1` of
`VP` and `VN`. -/
def endScan (VP VN : Nat) (band_start_position : Int) : Nat → Nat → ScanState → ScanState
  | 0, _, t => t
  | k + 1, i, t =>
      let n1 := t.num_errors_at_band_start_position + (((VP >>> i) &&& 1 : Nat) : Int)
      let n2 := n1 - (((VN >>> i) &&& 1 : Nat) : Int)
      if n2 < t.min_num_errors then
        endScan VP VN band_start_position k (i + 1)
          { num_errors_at_band_start_position := n2, min_num_errors := n2,
            mapping_end_position := band_start_position + 1 + i }
      else
        endScan VP VN band_start_position k (i + 1)
          { t with num_errors_at_band_start_position := n2 }

/-- What `BandedAlignPatternToText` hands back: the returned error count and
the value stored through `mapping_end_position` (`none` when the early return
leaves it unwritten). -/
structure AlignResult where
  num_errors : Int
  mapping_end_position : Option Int
deriving DecidableEq

/-- The initial registers of the column loop. -/
def initBand (c2u : Nat → Nat) (E : Nat) (pattern : List Nat) : BandState :=
  { Peq := peqInit c2u pattern (2 * E) 0 (fun _ => 0), VP := 0, VN := 0,
    num_errors_at_band_start_position := 0 }

/-- `Chromap::BandedAlignPatternToText` (chromap.cc 1010-1055). -/
def BandedAlignPatternToText (c2u : Nat → Nat) (E : Nat) (pattern text : List Nat)
    (read_length : Nat) : AlignResult :=
  match alignLoop c2u E pattern text read_length 0 (initBand c2u E pattern) with
  | none => { num_errors := (E : Int) + 1, mapping_end_position := none }
  | some s =>
      let band_start_position : Int := (read_length : Int) - 1
      let t := endScan s.VP s.VN band_start_position (2 * E) 0
        { num_errors_at_band_start_position := s.num_errors_at_band_start_position,
          min_num_errors := s.num_errors_at_band_start_position,
          mapping_end_position := band_start_position }
      { num_errors := t.min_num_errors, mapping_end_position := some t.mapping_end_position }

/-- The carry into bit `k` of `VP + (X & VP)`. -/
def carryOf (VP X k : Nat) : Bool :=
  BitVec.carry k (BitVec.ofNat 32 VP) (BitVec.ofNat 32 (X &&& VP)) false

/-- Bit `k` of a register as an integer. -/
def bitI (x k : Nat) : Int := ((x.testBit k).toNat : Int)

/-- The count the final scan reaches after `j` bits: the counter at the band
start plus the vertical deltas `VP - VN` of the first `j` rows. -/
def bandVal (VP VN : Nat) (num : Int) : Nat → Int
  | 0 => num
  | j + 1 => bandVal VP VN num j + bitI VP j - bitI VN j

/-- The `VN` register after a column with diagonal vector `D0`. -/
def vnNext (VP VN D0 : Nat) : Nat := (D0 >>> 1) &&& (VN ||| not32 (VP ||| D0))

/-- The `VP` register after a column with diagonal vector `D0`. -/
def vpNext (VP VN D0 : Nat) : Nat :=
  (VP &&& D0) ||| not32 ((D0 >>> 1) ||| (VN ||| not32 (VP ||| D0)))

/-- The vector `X = Peq[text[i]] | VN` of one column. -/
def xOf (E : Nat) (pattern_base text_base : Nat) (s : BandState) : Nat :=
  peqOr s.Peq pattern_base ((1 <<< (2 * E)) % U32) text_base ||| s.VN

/-- The part of the loop invariant that needs no knowledge of the sequences:
the registers stay within 32 bits, no row carries both deltas, and every
count the final scan can reach is non-negative. -/
structure BandInv (s : BandState) : Prop where
  excl : ∀ k, k < 32 → ¬ (s.VP.testBit k = true ∧ s.VN.testBit k = true)
  vp_hi : ∀ k, 32 ≤ k → s.VP.testBit k = false
  vn_hi : ∀ k, 31 ≤ k → s.VN.testBit k = false
  peq_hi : ∀ a k, 32 ≤ k → (s.Peq a).testBit k = false
  nonneg : ∀ j, j ≤ 31 → 0 ≤ bandVal s.VP s.VN s.num_errors_at_band_start_position j

/-! ## Traceback (chromap.cc 1058-1112) -/

/-- The Hamming count of `BandedTraceback`: positions `i < read_length` at
which `pattern[i + E] != text[i]` (bytes, not base codes). -/
def hammingCount (E : Nat) (pattern text : List Nat) : Nat → Nat
  | 0 => 0
  | i + 1 =>
      hammingCount E pattern text i +
        (if pattern.getD (i + E) 0 ≠ text.getD i 0 then 1 else 0)

/-- The first loop of the bit-parallel part of `BandedTraceback`: bit `i` of
`Peq` is filled from `pattern[read_length - 1 + 2E - i]`. -/
def peqInitRev (c2u : Nat → Nat) (E : Nat) (pattern : List Nat) (read_length : Nat) :
    Nat → Nat → PeqTable → PeqTable
  | 0, _, Peq => Peq
  | k + 1, i, Peq =>
      peqInitRev c2u E pattern read_length k (i + 1)
        (peqOr Peq (c2u (pattern.getD (read_length - 1 + 2 * E - i) 0)) ((1 <<< i) % U32))

/-- The column loop of `BandedTraceback`: the same register updates as in
`BandedAlignPatternToText`, on the reversed sequences and without an early
return. -/
def tracebackLoop (c2u : Nat → Nat) (E : Nat) (pattern text : List Nat) (read_length : Nat) :
    Nat → Nat → BandState → BandState
  | 0, _, s => s
  | k + 1, i, s =>
      let s1 := columnStep E (c2u (pattern.getD (read_length - 1 - i) 0))
        (c2u (text.getD (read_length - 1 - i) 0)) s
      tracebackLoop c2u E pattern text read_length k (i + 1) { s1 with Peq := peqShift s1.Peq }

/-- The final loop of `BandedTraceback`: `acc` is the pair of the running
count and `*mapping_start_position`. -/
def startScan (E : Nat) (min_num_errors : Int) (VP VN : Nat) : Nat → Nat → Int × Int → Int × Int
  | 0, _, acc => acc
  | k + 1, i, acc =>
      let n1 := acc.1 + (((VP >>> i) &&& 1 : Nat) : Int)
      let n2 := n1 - (((VN >>> i) &&& 1 : Nat) : Int)
      if n2 = min_num_errors then
        startScan E min_num_errors VP VN k (i + 1) (n2, 2 * (E : Int) - (1 + (i : Int)))
      else
        startScan E min_num_errors VP VN k (i + 1) (n2, acc.2)

/-- `Chromap::BandedTraceback`: the value stored through
`mapping_start_position`. -/
def BandedTraceback (c2u : Nat → Nat) (E : Nat) (min_num_errors : Int)
    (pattern text : List Nat) (read_length : Nat) : Int :=
  if min_num_errors = 0 then (E : Int)
  else if (hammingCount E pattern text read_length : Int) = min_num_errors then (E : Int)
  else
    let s0 : BandState :=
      { Peq := peqInitRev c2u E pattern read_length (2 * E) 0 (fun _ => 0), VP := 0, VN := 0,
        num_errors_at_band_start_position := 0 }
    let s := tracebackLoop c2u E pattern text read_length read_length 0 s0
    (startScan E min_num_errors s.VP s.VN (2 * E) 0
      (s.num_errors_at_band_start_position, 2 * (E : Int))).2

/-- The contents of `Peq` on entry to column `i`: bit `k < 2E` of `Peq[a]`
says that `pattern[i + k]` has code `a`. -/
def PeqAt (c2u : Nat → Nat) (E : Nat) (pattern : List Nat) (i : Nat) (Peq : PeqTable) : Prop :=
  ∀ a k, a < 5 →
    (Peq a).testBit k = (decide (k < 2 * E) && decide (c2u (pattern.getD (i + k) 0) = a))

/-! ## The banded edit-distance programme of §4.1, stated without registers -/

/-- The substitution cost of aligning text base `c` with the pattern base at
band offset `k` of column `c`, i.e. `pattern[c + k]`. -/
def bandCost (c2u : Nat → Nat) (pattern text : List Nat) (c k : Nat) : Nat :=
  if c2u (pattern.getD (c + k) 0) = c2u (text.getD c 0) then 0 else 1

/-- One column of the edit-distance programme restricted to the band of
offsets `0 .. 2E`: the cell at offset `k` is reached diagonally from offset `k`
of the previous column (cost `cost k`), horizontally from offset `k + 1` of
the previous column when that is inside the band (cost 1), and vertically from
offset `k - 1` of the same column when that is inside the band (cost 1). -/
def nextColumn (E : Nat) (cost old : Nat → Nat) : Nat → Nat
  | 0 =>
      let d := old 0 + cost 0
      if 0 < 2 * E then min d (old 1 + 1) else d
  | k + 1 =>
      let d := old (k + 1) + cost (k + 1)
      let h := if k + 1 < 2 * E then min d (old (k + 2) + 1) else d
      min h (nextColumn E cost old k + 1)

/-- The banded programme: `bandColumn c k` is the least number of edits that
aligns the first `c` bases of the text with a stretch of the pattern that
starts at any offset `0 .. 2E` (free of charge) and ends just before
`pattern[c + k]`, all cells on the way staying inside the band. -/
def bandColumn (c2u : Nat → Nat) (E : Nat) (pattern text : List Nat) : Nat → Nat → Nat
  | 0 => fun _ => 0
  | c + 1 => nextColumn E (bandCost c2u pattern text c) (bandColumn c2u E pattern text c)

/-- The loop invariant of the column loop against the banded programme, on
entry to column `i`. -/
structure ExactInv (c2u : Nat → Nat) (E : Nat) (pattern text : List Nat) (i : Nat)
    (s : BandState) : Prop where
  base : BandInv s
  peq : PeqAt c2u E pattern i s.Peq
  vn_band : ∀ k, 2 * E ≤ k → s.VN.testBit k = false
  cells : ∀ j, j ≤ 2 * E →
    bandVal s.VP s.VN s.num_errors_at_band_start_position j =
      (bandColumn c2u E pattern text i j : Int)

/-- The least value of a column over the offsets `0 .. K`. -/
def colMin (col : Nat → Nat) : Nat → Nat
  | 0 => col 0
  | K + 1 => min (colMin col K) (col (K + 1))

/-- The banded edit distance of the whole text against the pattern: the least
cell of the last column over all end offsets of the band. -/
def bandedDistance (c2u : Nat → Nat) (E : Nat) (pattern text : List Nat) (n : Nat) : Nat :=
  colMin (bandColumn c2u E pattern text n) (2 * E)

/-! ## Candidate verification (chromap.cc 958-1007) -/

/-- The modulus of a `uint64_t`. -/
def U64 : Nat := 18446744073709551616

/-- The two strands, `enum Direction` of chromap.h. -/
inductive Direction where
  | kPositive
  | kNegative
deriving DecidableEq

/-- What `SequenceBatch` serves for one read: `GetSequenceAt`,
`GetNegativeSequenceAt`, `GetSequenceLengthAt` and `GetSequenceIdAt`. -/
structure ReadRecord where
  sequence : List Nat
  negative_sequence : List Nat
  length : Nat
  id : Nat

/-- The reference batch: `reference rid` is `GetSequenceAt(rid)`, its length
is `GetSequenceLengthAt(rid)`. -/
abbrev Reference := Nat → List Nat

/-- The out-parameters of `VerifyCandidatesOnOneDirection`: the mapping vector
of the direction at hand and the four counters. -/
structure VerifyState where
  mappings : List (Int × Nat)
  min_num_errors : Int
  num_best_mappings : Int
  second_min_num_errors : Int
  num_second_best_mappings : Int
deriving DecidableEq

/-- The `uint32_t position` of a candidate as the loop body of
`VerifyCandidatesOnOneDirection` computes it. -/
def candidatePosition (candidate_direction : Direction) (read_length candidate : Nat) : Nat :=
  match candidate_direction with
  | Direction.kPositive => candidate % U32
  | Direction.kNegative => (candidate % U32 + U32 - read_length % U32 + 1) % U32

/-- The bounds test of `VerifyCandidatesOnOneDirection` that makes the loop
`continue`. -/
def candidateSkipped (E : Nat) (reference : Reference) (read_length rid position : Nat) : Bool :=
  decide (position < E % U32) || decide (position ≥ (reference rid).length) ||
    decide ((position + read_length + E) % U32 ≥ (reference rid).length)

/-- The counter update of `VerifyCandidatesOnOneDirection` for one accepted
error count. -/
def updateCounters (num_errors : Int) (st : VerifyState) : VerifyState :=
  if num_errors < st.min_num_errors then
    { st with second_min_num_errors := st.min_num_errors,
              num_second_best_mappings := st.num_best_mappings,
              min_num_errors := num_errors,
              num_best_mappings := 1 }
  else if num_errors = st.min_num_errors then
    { st with num_best_mappings := st.num_best_mappings + 1 }
  else if num_errors = st.second_min_num_errors then
    { st with num_second_best_mappings := st.num_second_best_mappings + 1 }
  else st

/-- The packed end position stored with an accepted alignment. -/
def mappingPosition (candidate_direction : Direction) (E read_length candidate : Nat)
    (mapping_end_position : Int) : Nat :=
  match candidate_direction with
  | Direction.kPositive =>
      (((candidate : Int) - E + mapping_end_position) % (U64 : Int)).toNat
  | Direction.kNegative =>
      (((candidate : Int) - read_length + 1 - E + mapping_end_position) % (U64 : Int)).toNat

/-- The body of the loop of `VerifyCandidatesOnOneDirection` for one
candidate. -/
def verifyOne (c2u : Nat → Nat) (E : Nat) (candidate_direction : Direction)
    (read : ReadRecord) (reference : Reference) (st : VerifyState) (candidate : Nat) :
    VerifyState :=
  let rid := (candidate / U32) % U32
  let position := candidatePosition candidate_direction read.length candidate
  if candidateSkipped E reference read.length rid position then st
  else
    let r := BandedAlignPatternToText c2u E ((reference rid).drop (position - E))
      (match candidate_direction with
        | Direction.kPositive => read.sequence
        | Direction.kNegative => read.negative_sequence) read.length
    if r.num_errors ≤ (E : Int) then
      let st1 := updateCounters r.num_errors st
      { st1 with mappings := st1.mappings ++
          [(r.num_errors, mappingPosition candidate_direction E read.length candidate
              (r.mapping_end_position.getD 0))] }
    else st

/-- `Chromap::VerifyCandidatesOnOneDirection`. -/
def VerifyCandidatesOnOneDirection (c2u : Nat → Nat) (E : Nat) (candidate_direction : Direction)
    (read : ReadRecord) (reference : Reference) (candidates : List Nat) (st : VerifyState) :
    VerifyState :=
  candidates.foldl (verifyOne c2u E candidate_direction read reference) st

/-- The out-parameters of `VerifyCandidates`. -/
structure VerifyResult where
  positive_mappings : List (Int × Nat)
  negative_mappings : List (Int × Nat)
  min_num_errors : Int
  num_best_mappings : Int
  second_min_num_errors : Int
  num_second_best_mappings : Int
deriving DecidableEq

/-- `Chromap::VerifyCandidates`; `positive_mappings` and `negative_mappings`
are the vectors the caller passes in. -/
def VerifyCandidates (c2u : Nat → Nat) (E : Nat) (read : ReadRecord) (reference : Reference)
    (positive_candidates negative_candidates : List Nat)
    (positive_mappings negative_mappings : List (Int × Nat)) : VerifyResult :=
  let p := VerifyCandidatesOnOneDirection c2u E Direction.kPositive read reference
    positive_candidates
    { mappings := positive_mappings, min_num_errors := (E : Int) + 1, num_best_mappings := 0,
      second_min_num_errors := (E : Int) + 1, num_second_best_mappings := 0 }
  let n := VerifyCandidatesOnOneDirection c2u E Direction.kNegative read reference
    negative_candidates { p with mappings := negative_mappings }
  { positive_mappings := p.mappings, negative_mappings := n.mappings,
    min_num_errors := n.min_num_errors, num_best_mappings := n.num_best_mappings,
    second_min_num_errors := n.second_min_num_errors,
    num_second_best_mappings := n.num_second_best_mappings }

/-- The alignment that the loop body of `VerifyCandidatesOnOneDirection`
appends for one candidate, if it appends one: the candidate passes the bounds
test and the aligner returns at most `E` errors. -/
def acceptedAlignment (c2u : Nat → Nat) (E : Nat) (candidate_direction : Direction)
    (read : ReadRecord) (reference : Reference) (candidate : Nat) : Option (Int × Nat) :=
  let rid := (candidate / U32) % U32
  let position := candidatePosition candidate_direction read.length candidate
  if candidateSkipped E reference read.length rid position then none
  else
    let r := BandedAlignPatternToText c2u E ((reference rid).drop (position - E))
      (match candidate_direction with
        | Direction.kPositive => read.sequence
        | Direction.kNegative => read.negative_sequence) read.length
    if r.num_errors ≤ (E : Int) then
      some (r.num_errors, mappingPosition candidate_direction E read.length candidate
        (r.mapping_end_position.getD 0))
    else none

/-- The counter updates of a run of accepted error counts, in order. -/
def foldCounters (errs : List Int) (st : VerifyState) : VerifyState :=
  errs.foldl (fun s e => updateCounters e s) st

/-- The counters `VerifyCandidates` starts from. -/
def initCounters (E : Nat) (mappings : List (Int × Nat)) : VerifyState :=
  { mappings := mappings, min_num_errors := (E : Int) + 1, num_best_mappings := 0,
    second_min_num_errors := (E : Int) + 1, num_second_best_mappings := 0 }

/-- The best-count invariant of the counter updates after the error counts
`seen`. -/
def BestInv (E : Nat) (seen : List Int) (st : VerifyState) : Prop :=
  (seen = [] → st.min_num_errors = (E : Int) + 1) ∧
  (∀ e, e ∈ seen → st.min_num_errors ≤ e) ∧
  (seen ≠ [] → st.min_num_errors ∈ seen) ∧
  st.num_best_mappings = (seen.count st.min_num_errors : Int)

/-- The error counts of the alignments that `VerifyCandidates` appends, those
of the positive list first, as the code visits them. -/
def appendedErrors (c2u : Nat → Nat) (E : Nat) (read : ReadRecord) (reference : Reference)
    (positive_candidates negative_candidates : List Nat) : List Int :=
  (positive_candidates.filterMap (acceptedAlignment c2u E Direction.kPositive read reference) ++
    negative_candidates.filterMap
      (acceptedAlignment c2u E Direction.kNegative read reference)).map Prod.fst

/-! ## Candidate reduction by insert size (chromap.cc 435-461) -/

/-- The local variables and the two output vectors of
`ReduceCandidatesForPairedEndReadOnOneDirection`. -/
structure ReduceState where
  i1 : Nat
  i2 : Nat
  previous_end_i2 : Nat
  filtered_candidates1 : List Nat
  filtered_candidates2 : List Nat
deriving DecidableEq

/-- The inner `while` loop of the reduction: `current_i2` runs over
`candidates2` while the candidate is at most `bound = candidates1[i1] + W`
and appends the candidates at or beyond `previous_end_i2`. `k` bounds the
number of iterations; the result is the final `current_i2` and the output
vector. -/
def reduceScan (bound : Nat) (candidates2 : List Nat) (previous_end_i2 : Nat) :
    Nat → Nat → List Nat → Nat × List Nat
  | 0, current_i2, f2 => (current_i2, f2)
  | k + 1, current_i2, f2 =>
      if current_i2 < candidates2.length ∧ candidates2.getD current_i2 0 ≤ bound then
        reduceScan bound candidates2 previous_end_i2 k (current_i2 + 1)
          (if current_i2 ≥ previous_end_i2 then f2 ++ [candidates2.getD current_i2 0] else f2)
      else (current_i2, f2)

/-- The outer `while` loop of the reduction; `k` bounds the number of
iterations. `W` is `mapping_positions_distance`, the additions are those of
`uint64_t`. -/
def reduceLoop (W : Nat) (candidates1 candidates2 : List Nat) :
    Nat → ReduceState → ReduceState
  | 0, st => st
  | k + 1, st =>
      if st.i1 < candidates1.length ∧ st.i2 < candidates2.length then
        if candidates1.getD st.i1 0 > (candidates2.getD st.i2 0 + W) % U64 then
          reduceLoop W candidates1 candidates2 k { st with i2 := st.i2 + 1 }
        else if candidates2.getD st.i2 0 > (candidates1.getD st.i1 0 + W) % U64 then
          reduceLoop W candidates1 candidates2 k { st with i1 := st.i1 + 1 }
        else
          let r := reduceScan ((candidates1.getD st.i1 0 + W) % U64) candidates2
            st.previous_end_i2 (candidates2.length - st.i2) st.i2 st.filtered_candidates2
          reduceLoop W candidates1 candidates2 k
            { i1 := st.i1 + 1, i2 := st.i2, previous_end_i2 := r.1,
              filtered_candidates1 := st.filtered_candidates1 ++ [candidates1.getD st.i1 0],
              filtered_candidates2 := r.2 }
      else st

/-- `Chromap::ReduceCandidatesForPairedEndReadOnOneDirection`: the two output
vectors after the call, given their contents before it. `max_insert_size` is
the non-negative `int` member `max_insert_size_`, stored unchanged into the
`uint32_t mapping_positions_distance`. Every iteration of the outer loop
advances `i1` or `i2`, so `|candidates1| + |candidates2|` iterations are
enough for it to run to its end. -/
def ReduceCandidatesForPairedEndReadOnOneDirection (max_insert_size : Nat)
    (candidates1 candidates2 filtered_candidates1 filtered_candidates2 : List Nat) :
    List Nat × List Nat :=
  let st := reduceLoop max_insert_size candidates1 candidates2
    (candidates1.length + candidates2.length)
    { i1 := 0, i2 := 0, previous_end_i2 := 0,
      filtered_candidates1 := filtered_candidates1,
      filtered_candidates2 := filtered_candidates2 }
  (st.filtered_candidates1, st.filtered_candidates2)

/-- Two packed positions are within `W` of each other. -/
def withinDistance (W c1 c2 : Nat) : Bool := decide (c1 ≤ c2 + W) && decide (c2 ≤ c1 + W)

/-- The half-open range of indices `lo .. hi - 1`. -/
def indexRange (lo hi : Nat) : List Nat := List.range' lo (hi - lo)

/-- A mate-1 candidate is kept when some mate-2 candidate is within `W`. -/
def mate1Kept (W : Nat) (candidates2 : List Nat) (c1 : Nat) : Bool :=
  candidates2.any (fun c2 => withinDistance W c1 c2)

/-- A mate-2 candidate is kept when some mate-1 candidate is within `W`. -/
def mate2Kept (W : Nat) (candidates1 : List Nat) (c2 : Nat) : Bool :=
  candidates1.any (fun c1 => withinDistance W c1 c2)

/-- A list is ascending, stated on indices. -/
def Ascending (l : List Nat) : Prop :=
  ∀ i j, i ≤ j → j < l.length → l.getD i 0 ≤ l.getD j 0

/-- Adding `W` to an element of the list does not wrap around `2^64`. -/
def NoWrap (W : Nat) (l : List Nat) : Prop := ∀ i, i < l.length → l.getD i 0 + W < U64

/-- The loop invariant of the reduction. -/
structure ReduceInv (W : Nat) (A B f10 f20 : List Nat) (st : ReduceState) : Prop where
  i1_le : st.i1 ≤ A.length
  i2_le : st.i2 ≤ B.length
  pe_le : st.previous_end_i2 ≤ B.length
  out1 : st.filtered_candidates1 =
    f10 ++ ((List.range st.i1).filter (fun i => mate1Kept W B (A.getD i 0))).map
      (fun i => A.getD i 0)
  out2 : st.filtered_candidates2 =
    f20 ++ ((List.range st.previous_end_i2).filter (fun j => mate2Kept W A (B.getD j 0))).map
      (fun j => B.getD j 0)
  small : ∀ j i, j < st.i2 → st.i1 ≤ i → i < A.length → B.getD j 0 + W < A.getD i 0
  big : ∀ j i, st.previous_end_i2 ≤ j → j < B.length → i < st.i1 →
    withinDistance W (A.getD i 0) (B.getD j 0) = false
  notbig : ∀ j i, j < st.previous_end_i2 → st.i1 ≤ i → i < A.length →
    B.getD j 0 ≤ A.getD i 0 + W

/-! ## Paired alignments under the insert-size window (chromap.cc 469-504) -/

/-- The parameters that `GenerateBestMappingsForPairedEndReadOnOneDirection`
reads besides the alignment lists: the arm, `max_insert_size_`,
`min_read_length_` (the `min_overlap_length`) and the two read lengths. -/
structure PairWindow where
  first_read_direction : Direction
  max_insert_size : Nat
  min_overlap_length : Nat
  read1_length : Nat
  read2_length : Nat

/-- The test of the first branch of the outer loop (`++i2`), in `uint64_t`
arithmetic: the mate-2 end position `p2` is too far below `p1`. -/
def pairTooLow (w : PairWindow) (p1 p2 : Nat) : Bool :=
  (decide (w.first_read_direction = Direction.kNegative) &&
      decide ((p1 : Int) >
        ((p2 : Int) + w.max_insert_size - w.read1_length) % (U64 : Int))) ||
    (decide (w.first_read_direction = Direction.kPositive) &&
      decide ((p1 : Int) >
        ((p2 : Int) + w.read2_length - w.min_overlap_length) % (U64 : Int)))

/-- The test of the second branch of the outer loop (`++i1`): `p2` is too far
above `p1`. -/
def pairTooHigh (w : PairWindow) (p1 p2 : Nat) : Bool :=
  (decide (w.first_read_direction = Direction.kPositive) &&
      decide ((p2 : Int) >
        ((p1 : Int) + w.max_insert_size - w.read2_length) % (U64 : Int))) ||
    (decide (w.first_read_direction = Direction.kNegative) &&
      decide ((p2 : Int) >
        ((p1 : Int) + w.read1_length - w.min_overlap_length) % (U64 : Int)))

/-- The test of the inner loop: `p2` is still within reach above `p1`. -/
def pairInReach (w : PairWindow) (p1 p2 : Nat) : Bool :=
  (decide (w.first_read_direction = Direction.kPositive) &&
      decide ((p2 : Int) ≤
        ((p1 : Int) + w.max_insert_size - w.read2_length) % (U64 : Int))) ||
    (decide (w.first_read_direction = Direction.kNegative) &&
      decide ((p2 : Int) ≤
        ((p1 : Int) + w.read1_length - w.min_overlap_length) % (U64 : Int)))

/-- The out-parameters of `GenerateBestMappingsForPairedEndReadOnOneDirection`
and, as a trace that the source does not keep, the list `enumerated` of the
index pairs `(i1, current_i2)` for which the body of the inner loop runs. -/
structure PairOut where
  best_mappings : List (Nat × Nat)
  min_sum_errors : Int
  num_best_mappings : Int
  second_min_sum_errors : Int
  num_second_best_mappings : Int
  enumerated : List (Nat × Nat)
deriving DecidableEq

/-- The body of the inner loop for the pair `(i1, current_i2)` with error sum
`current_sum_errors`. -/
def pairBody (current_sum_errors : Int) (i1 current_i2 : Nat) (o : PairOut) : PairOut :=
  let o := { o with enumerated := o.enumerated ++ [(i1, current_i2)] }
  if current_sum_errors < o.min_sum_errors then
    { o with second_min_sum_errors := o.min_sum_errors,
             num_second_best_mappings := o.num_best_mappings,
             min_sum_errors := current_sum_errors,
             num_best_mappings := 1,
             best_mappings := o.best_mappings ++ [(i1, current_i2)] }
  else if current_sum_errors = o.min_sum_errors then
    { o with num_best_mappings := o.num_best_mappings + 1,
             best_mappings := o.best_mappings ++ [(i1, current_i2)] }
  else if current_sum_errors = o.second_min_sum_errors then
    { o with num_second_best_mappings := o.num_second_best_mappings + 1 }
  else o

/-- The inner `while` loop over `current_i2`; `k` bounds the number of
iterations. -/
def pairScan (w : PairWindow) (mappings1 mappings2 : List (Int × Nat)) (i1 : Nat) :
    Nat → Nat → PairOut → PairOut
  | 0, _, o => o
  | k + 1, current_i2, o =>
      if current_i2 < mappings2.length ∧
          pairInReach w (mappings1.getD i1 (0, 0)).2 (mappings2.getD current_i2 (0, 0)).2 = true
      then
        pairScan w mappings1 mappings2 i1 k (current_i2 + 1)
          (pairBody ((mappings1.getD i1 (0, 0)).1 + (mappings2.getD current_i2 (0, 0)).1)
            i1 current_i2 o)
      else o

/-- The outer `while` loop over `i1` and `i2`; `k` bounds the number of
iterations. -/
def pairLoop (w : PairWindow) (mappings1 mappings2 : List (Int × Nat)) :
    Nat → Nat → Nat → PairOut → PairOut
  | 0, _, _, o => o
  | k + 1, i1, i2, o =>
      if i1 < mappings1.length ∧ i2 < mappings2.length then
        if pairTooLow w (mappings1.getD i1 (0, 0)).2 (mappings2.getD i2 (0, 0)).2 = true then
          pairLoop w mappings1 mappings2 k i1 (i2 + 1) o
        else if pairTooHigh w (mappings1.getD i1 (0, 0)).2 (mappings2.getD i2 (0, 0)).2 = true
        then
          pairLoop w mappings1 mappings2 k (i1 + 1) i2 o
        else
          pairLoop w mappings1 mappings2 k (i1 + 1) i2
            (pairScan w mappings1 mappings2 i1 (mappings2.length - i2) i2 o)
      else o

/-- `Chromap::GenerateBestMappingsForPairedEndReadOnOneDirection`: the
out-parameters after the call, given their values before it. Every iteration
of the outer loop advances `i1` or `i2`, so `|mappings1| + |mappings2|`
iterations are enough for it to run to its end. -/
def GenerateBestMappingsForPairedEndReadOnOneDirection (w : PairWindow)
    (mappings1 mappings2 : List (Int × Nat)) (o : PairOut) : PairOut :=
  pairLoop w mappings1 mappings2 (mappings1.length + mappings2.length) 0 0 o

/-- The three tests of the enumeration loop are consistent with the order of
the two alignment lists: "too low" persists towards larger `i1` and smaller
`i2`, "too high" towards smaller `i1` and larger `i2`, and "in reach" is the
negation of "too high". -/
structure WindowMonotone (w : PairWindow) (mappings1 mappings2 : List (Int × Nat)) : Prop where
  low : ∀ i i' j j', i ≤ i' → i' < mappings1.length → j' ≤ j → j < mappings2.length →
    pairTooLow w (mappings1.getD i (0, 0)).2 (mappings2.getD j (0, 0)).2 = true →
    pairTooLow w (mappings1.getD i' (0, 0)).2 (mappings2.getD j' (0, 0)).2 = true
  high : ∀ i i' j j', i' ≤ i → i < mappings1.length → j ≤ j' → j' < mappings2.length →
    pairTooHigh w (mappings1.getD i (0, 0)).2 (mappings2.getD j (0, 0)).2 = true →
    pairTooHigh w (mappings1.getD i' (0, 0)).2 (mappings2.getD j' (0, 0)).2 = true
  reach : ∀ i j, i < mappings1.length → j < mappings2.length →
    pairInReach w (mappings1.getD i (0, 0)).2 (mappings2.getD j (0, 0)).2 =
      !pairTooHigh w (mappings1.getD i (0, 0)).2 (mappings2.getD j (0, 0)).2

/-- The FR window of a run with `max_insert_size = 400`, `min_read_length = 30`
and two reads of 50 bases. -/
def windowFR400 : PairWindow :=
  { first_read_direction := Direction.kPositive, max_insert_size := 400,
    min_overlap_length := 30, read1_length := 50, read2_length := 50 }

/-- The FR window of a run with `max_insert_size = 400`, `min_read_length = 30`,
a first read of 30 bases and a second read of 50 bases. -/
def windowFR400Short : PairWindow :=
  { first_read_direction := Direction.kPositive, max_insert_size := 400,
    min_overlap_length := 30, read1_length := 30, read2_length := 50 }

/-- Two alignments of mate 1 (errors, end position), sorted by end position. -/
def windowMappings1 : List (Int × Nat) := [(0, 1000), (1, 2000)]

/-- Four alignments of mate 2 (errors, end position), sorted by end position. -/
def windowMappings2 : List (Int × Nat) := [(0, 900), (2, 1300), (0, 2350), (1, 2351)]

/-- Out-parameters before the first call: no best pair yet, the counters at
`2E + 1` for `E = 3`. -/
def pairOutInit : PairOut :=
  { best_mappings := [], min_sum_errors := 7, num_best_mappings := 0,
    second_min_sum_errors := 7, num_second_best_mappings := 0, enumerated := [] }

/-- A read of four bases (codes 0..3 for A, C, G, T), with its reverse
complement, for the runs of `VerifyCandidates` below. -/
def readACGT : ReadRecord :=
  { sequence := [0, 1, 2, 3], negative_sequence := [0, 1, 2, 3], length := 4, id := 0 }

/-- A reference of one sequence of 14 bases that holds `ACGT` at position 1
and `ACGA` at position 7. -/
def referenceTwoHits : Reference :=
  fun rid => if rid = 0 then [3, 0, 1, 2, 3, 3, 3, 0, 1, 2, 0, 3, 3, 3] else []

/-! ## Emission of the best pairs (chromap.cc 516-597) -/

/-- The modulus of a `uint16_t`. -/
def U16 : Nat := 65536

/-- A `PairedEndMappingWithBarcode`; the variant without barcode has the same
fields except `barcode`. -/
structure PairedEndMapping where
  read_id : Nat
  barcode : Nat
  fragment_start_position : Nat
  fragment_length : Nat
  mapq : Nat
  positive_alignment_length : Nat
  negative_alignment_length : Nat
deriving DecidableEq

/-- The `uint32_t verification_window_start_position` that
`ProcessBestMappingsForPairedEndReadOnOneDirection` recomputes from the end
position of an alignment. -/
def verificationWindowStart (E read_length reference_length position : Nat) : Nat :=
  let v : Nat :=
    if (position + 1) % U32 > (read_length + E) % U32 then
      (((position : Int) + 1 - read_length - E) % (U32 : Int)).toNat
    else 0
  if (position + E) % U32 ≥ reference_length then
    (((reference_length : Int) - E - read_length) % (U32 : Int)).toNat
  else v

/-- The local variables that `ProcessBestMappingsForPairedEndReadOnOneDirection`
updates through pointers: the two counters and the per-reference buffers. -/
structure ProcessState where
  best_mapping_index : Int
  num_best_mappings_reported : Int
  mappings_on_diff_ref_seqs : Nat → List PairedEndMapping

/-- What stays fixed during one call of
`ProcessBestMappingsForPairedEndReadOnOneDirection`. `barcode_key` is the value
of the local of that name (0 for bulk data, else the seed of the barcode). -/
structure ProcessArgs where
  c2u : Nat → Nat
  error_threshold : Nat
  max_num_best_mappings : Int
  first_read_direction : Direction
  mapq : Nat
  read1 : ReadRecord
  read2 : ReadRecord
  reference : Reference
  barcode_key : Nat
  best_mapping_indices : List Int
  mappings1 : List (Int × Nat)
  mappings2 : List (Int × Nat)
  min_sum_errors : Int
  num_best_mappings : Int

/-- The record that the loop body builds for the pair `(i1, i2)`, with the
reference id `rid1` of the buffer it is appended to. -/
def pairedRecord (a : ProcessArgs) (i1 i2 : Nat) : Nat × PairedEndMapping :=
  let E := a.error_threshold
  let m1 := a.mappings1.getD i1 (0, 0)
  let m2 := a.mappings2.getD i2 (0, 0)
  let rid1 := (m1.2 / U32) % U32
  let position1 := m1.2 % U32
  let vws1 := verificationWindowStart E a.read1.length (a.reference rid1).length position1
  let rid2 := (m2.2 / U32) % U32
  let position2 := m2.2 % U32
  let vws2 := verificationWindowStart E a.read2.length (a.reference rid2).length position2
  match a.first_read_direction with
  | Direction.kPositive =>
      let msp1 := BandedTraceback a.c2u E m1.1 ((a.reference rid1).drop vws1)
        a.read1.sequence a.read1.length
      let msp2 := BandedTraceback a.c2u E m2.1 ((a.reference rid2).drop vws2)
        a.read2.negative_sequence a.read2.length
      let fragment_start_position := (((vws1 : Int) + msp1) % (U32 : Int)).toNat
      let fragment_length :=
        (((position2 : Int) - fragment_start_position + 1) % (U16 : Int)).toNat
      let positive_alignment_length :=
        (((position1 : Int) + 1 - fragment_start_position) % (U16 : Int)).toNat
      let positive_alignment_length := (positive_alignment_length * 2) % U16 ||| 1
      let negative_alignment_length :=
        (((position2 : Int) + 1 - ((vws2 : Int) + msp2)) % (U16 : Int)).toNat
      (rid1, { read_id := a.read1.id, barcode := a.barcode_key,
               fragment_start_position := fragment_start_position,
               fragment_length := fragment_length, mapq := a.mapq,
               positive_alignment_length := positive_alignment_length,
               negative_alignment_length := negative_alignment_length })
  | Direction.kNegative =>
      let msp1 := BandedTraceback a.c2u E m1.1 ((a.reference rid1).drop vws1)
        a.read1.negative_sequence a.read1.length
      let msp2 := BandedTraceback a.c2u E m2.1 ((a.reference rid2).drop vws2)
        a.read2.sequence a.read2.length
      let fragment_start_position := (((vws2 : Int) + msp2) % (U32 : Int)).toNat
      let fragment_length :=
        (((position1 : Int) - fragment_start_position + 1) % (U16 : Int)).toNat
      let positive_alignment_length :=
        (((position2 : Int) + 1 - fragment_start_position) % (U16 : Int)).toNat
      let positive_alignment_length := (positive_alignment_length * 2) % U16
      let negative_alignment_length :=
        (((position1 : Int) + 1 - ((vws1 : Int) + msp1)) % (U16 : Int)).toNat
      (rid1, { read_id := a.read1.id, barcode := a.barcode_key,
               fragment_start_position := fragment_start_position,
               fragment_length := fragment_length, mapq := a.mapq,
               positive_alignment_length := positive_alignment_length,
               negative_alignment_length := negative_alignment_length })

/-- The `for` loop of `ProcessBestMappingsForPairedEndReadOnOneDirection` over
the remaining entries of `best_mappings`, with its `break`. -/
def processLoop (a : ProcessArgs) : List (Nat × Nat) → ProcessState → ProcessState
  | [], st => st
  | (i1, i2) :: rest, st =>
      let current_sum_errors := (a.mappings1.getD i1 (0, 0)).1 + (a.mappings2.getD i2 (0, 0)).1
      if current_sum_errors = a.min_sum_errors then
        if st.best_mapping_index =
            a.best_mapping_indices.getD st.num_best_mappings_reported.toNat 0 then
          let r := pairedRecord a i1 i2
          let st1 : ProcessState :=
            { best_mapping_index := st.best_mapping_index,
              num_best_mappings_reported := st.num_best_mappings_reported + 1,
              mappings_on_diff_ref_seqs := fun rid =>
                if rid = r.1 then st.mappings_on_diff_ref_seqs rid ++ [r.2]
                else st.mappings_on_diff_ref_seqs rid }
          if st1.num_best_mappings_reported = min a.max_num_best_mappings a.num_best_mappings
          then st1
          else processLoop a rest { st1 with best_mapping_index := st1.best_mapping_index + 1 }
        else processLoop a rest { st with best_mapping_index := st.best_mapping_index + 1 }
      else processLoop a rest st

/-- `Chromap::ProcessBestMappingsForPairedEndReadOnOneDirection`. -/
def ProcessBestMappingsForPairedEndReadOnOneDirection (a : ProcessArgs)
    (best_mappings : List (Nat × Nat)) (st : ProcessState) : ProcessState :=
  processLoop a best_mappings st

/-- The FR path of the paired-end pipeline for one read pair, with
`error_threshold_ = 1`, `max_insert_size_ = 10`, `min_read_length_ = 2` and
`max_num_best_mappings_ = 10`: the positive candidates of mate 1 and the
negative candidates of mate 2 are verified by `VerifyCandidates`, the FR arm is
enumerated by `GenerateBestMappingsForPairedEndReadOnOneDirection` from the
counters `2E + 1 = 3`, and the best pairs are emitted by
`ProcessBestMappingsForPairedEndReadOnOneDirection` with the MAPQ of the
counters and the identity `best_mapping_indices`. The result is the buffer of
reference 0. -/
def pairedEndRunFR (reference : Reference) (read1 read2 : ReadRecord)
    (positive_candidates1 negative_candidates2 : List Nat) : List PairedEndMapping :=
  let c2u : Nat → Nat := fun x => x % 5
  let v1 := VerifyCandidates c2u 1 read1 reference positive_candidates1 [] [] []
  let v2 := VerifyCandidates c2u 1 read2 reference [] negative_candidates2 [] []
  let g := GenerateBestMappingsForPairedEndReadOnOneDirection
    { first_read_direction := Direction.kPositive, max_insert_size := 10,
      min_overlap_length := 2, read1_length := read1.length,
      read2_length := read2.length }
    v1.positive_mappings v2.negative_mappings
    { best_mappings := [], min_sum_errors := 3, num_best_mappings := 0,
      second_min_sum_errors := 3, num_second_best_mappings := 0, enumerated := [] }
  let p := ProcessBestMappingsForPairedEndReadOnOneDirection
    { c2u := c2u, error_threshold := 1, max_num_best_mappings := 10,
      first_read_direction := Direction.kPositive,
      mapq := mapqPairedEnd g.num_best_mappings g.num_second_best_mappings,
      read1 := read1, read2 := read2, reference := reference, barcode_key := 0,
      best_mapping_indices := [0, 1, 2, 3, 4, 5, 6, 7, 8, 9],
      mappings1 := v1.positive_mappings, mappings2 := v2.negative_mappings,
      min_sum_errors := g.min_sum_errors, num_best_mappings := g.num_best_mappings }
    g.best_mappings
    { best_mapping_index := 0, num_best_mappings_reported := 0,
      mappings_on_diff_ref_seqs := fun _ => [] }
  p.mappings_on_diff_ref_seqs 0

/-- A reference of one sequence of 20 bases, `TTACGGTACGGATTTTTTTT` (codes 0..3
for A, C, G, T). -/
def indelReference : Reference :=
  fun rid =>
    if rid = 0 then [3, 3, 0, 1, 2, 2, 3, 0, 1, 2, 2, 0, 3, 3, 3, 3, 3, 3, 3, 3] else []

/-- Mate 1, `ACGTAC`: the reference holds it at `[2, 9)` with one extra base. -/
def indelRead1 : ReadRecord :=
  { sequence := [0, 1, 2, 3, 0, 1], negative_sequence := [2, 3, 0, 1, 2, 3], length := 6,
    id := 0 }

/-- Mate 2, `ATCCGT`, whose reverse complement `ACGGAT` is the reference at
`[7, 13)`. -/
def indelRead2 : ReadRecord :=
  { sequence := [0, 3, 1, 1, 2, 3], negative_sequence := [0, 1, 2, 2, 0, 3], length := 6,
    id := 0 }

/-- A reference of one sequence of 24 bases, `TTACGTACTTGACTTTTTTTTTTT`. -/
def pairReference : Reference :=
  fun rid =>
    if rid = 0 then
      [3, 3, 0, 1, 2, 3, 0, 1, 3, 3, 2, 0, 1, 3, 3, 3, 3, 3, 3, 3, 3, 3, 3, 3]
    else []

/-- Mate 1, `ACGTAC`, equal to `pairReference` at `[2, 8)`. -/
def pairRead1 : ReadRecord :=
  { sequence := [0, 1, 2, 3, 0, 1], negative_sequence := [2, 3, 0, 1, 2, 3], length := 6,
    id := 0 }

/-- Mate 2, `AGTC`, whose reverse complement `GACT` is `pairReference` at
`[10, 14)`. -/
def pairRead2 : ReadRecord :=
  { sequence := [0, 2, 3, 1], negative_sequence := [2, 0, 1, 3], length := 4, id := 0 }

/-! ## The final output pass (chromap.cc 405-433) -/

/-- The arguments of one call of `GeneratePairedEndTagAlignLine`; both sequence
names of a call are the name of reference `reference_id`. -/
structure TagAlignLine where
  strand : Nat
  reference_id : Nat
  positive_read_start : Nat
  positive_read_end : Nat
  negative_read_start : Nat
  negative_read_end : Nat
deriving DecidableEq

/-- The body of the `if` in `OutputPairedEndMappingsInVector`: the locals
`strand`, `positive_alignment_length`, `positive_read_end`, `negative_read_end`
and `negative_read_start` computed from the record `it` of reference `ri`. -/
def tagAlignLine (ri : Nat) (it : PairedEndMapping) : TagAlignLine :=
  let strand := (it.positive_alignment_length &&& 1) % 256
  let positive_alignment_length := (it.positive_alignment_length >>> 1) % U16
  let positive_read_end := (it.fragment_start_position + positive_alignment_length) % U32
  let negative_read_end := (it.fragment_start_position + it.fragment_length) % U32
  let negative_read_start :=
    (((negative_read_end : Int) - it.negative_alignment_length) % (U32 : Int)).toNat
  { strand := strand, reference_id := ri,
    positive_read_start := it.fragment_start_position,
    positive_read_end := positive_read_end,
    negative_read_start := negative_read_start,
    negative_read_end := negative_read_end }

/-- The inner loop of `OutputPairedEndMappingsInVector` over the records of
reference `ri`; `out` is the sequence of lines appended so far. -/
def outputVectorLoop (mapq_threshold ri : Nat) :
    List PairedEndMapping → List TagAlignLine → List TagAlignLine
  | [], out => out
  | it :: rest, out =>
      if it.mapq ≥ mapq_threshold then
        outputVectorLoop mapq_threshold ri rest (out ++ [tagAlignLine ri it])
      else outputVectorLoop mapq_threshold ri rest out

/-- The outer loop of `OutputPairedEndMappingsInVector`; `k` counts the
remaining reference sequences, `ri` is the loop variable. -/
def outputReferenceLoop (mapq_threshold : Nat) (mappings : Nat → List PairedEndMapping) :
    Nat → Nat → List TagAlignLine → List TagAlignLine
  | 0, _, out => out
  | k + 1, ri, out =>
      outputReferenceLoop mapq_threshold mappings k (ri + 1)
        (outputVectorLoop mapq_threshold ri (mappings ri) out)

/-- `Chromap::OutputPairedEndMappingsInVector`, as a function of the lines
already appended to the output. -/
def OutputPairedEndMappingsInVector (mapq_threshold num_reference_sequences : Nat)
    (mappings : Nat → List PairedEndMapping) (out : List TagAlignLine) : List TagAlignLine :=
  outputReferenceLoop mapq_threshold mappings num_reference_sequences 0 out

/-- `Chromap::OutputPairedEndMappings`: the lines appended between
`InitializeMappingOutput` and `FinalizeMappingOutput`. The two flags and the
member `allocated_multi_mappings_on_diff_ref_seqs_` are parameters. -/
def OutputPairedEndMappings (allocate_multi_mappings only_output_unique_mappings : Bool)
    (num_reference_sequences : Nat) (mappings : Nat → List PairedEndMapping)
    (allocated_multi_mappings_on_diff_ref_seqs : Nat → List PairedEndMapping) :
    List TagAlignLine :=
  let mapq_threshold : Nat :=
    if allocate_multi_mappings || only_output_unique_mappings then 30 else 0
  let out := OutputPairedEndMappingsInVector mapq_threshold num_reference_sequences mappings []
  if allocate_multi_mappings && !only_output_unique_mappings then
    OutputPairedEndMappingsInVector 0 num_reference_sequences
      allocated_multi_mappings_on_diff_ref_seqs out
  else out

/-- The lines of the records of `mappings` with `mapq ≥ mapq_threshold`, in
the order of the reference sequences and of the vectors. -/
def emittedLines (mapq_threshold num_reference_sequences : Nat)
    (mappings : Nat → List PairedEndMapping) : List TagAlignLine :=
  (List.range num_reference_sequences).flatMap fun ri =>
    ((mappings ri).filter fun it => decide (mapq_threshold ≤ it.mapq)).map (tagAlignLine ri)

/-- Two records of read 7 on reference 0, both with MAPQ 5. -/
def multiMappedPair : Nat → List PairedEndMapping :=
  fun ri =>
    if ri = 0 then
      [{ read_id := 7, barcode := 0, fragment_start_position := 10, fragment_length := 50,
         mapq := 5, positive_alignment_length := 41, negative_alignment_length := 20 },
       { read_id := 7, barcode := 0, fragment_start_position := 300, fragment_length := 50,
         mapq := 5, positive_alignment_length := 41, negative_alignment_length := 20 }]
    else []

/-- The first record of `multiMappedPair`, as the allocated mapping of read 7. -/
def multiMappedAllocated : Nat → List PairedEndMapping :=
  fun ri => (multiMappedPair ri).take 1

/-- The arguments of the FR arm for `pairRead1` and `pairRead2` on
`pairReference`, with end positions 7 and 13. -/
def strandArgs : ProcessArgs :=
  { c2u := fun x => x % 5, error_threshold := 1, max_num_best_mappings := 10,
    first_read_direction := Direction.kPositive, mapq := 60, read1 := pairRead1,
    read2 := pairRead2, reference := pairReference, barcode_key := 0,
    best_mapping_indices := [0], mappings1 := [(0, 7)], mappings2 := [(0, 13)],
    min_sum_errors := 0, num_best_mappings := 1 }

/-- A record of read 7 starting at 10, with an empty length field. -/
def strandRecord : PairedEndMapping :=
  { read_id := 7, barcode := 0, fragment_start_position := 10, fragment_length := 50,
    mapq := 5, positive_alignment_length := 0, negative_alignment_length := 20 }

/-! ## Selection of the best mappings (chromap.cc 599-638 and 751-820) -/

/-- The member variables that the selectors read; `barcode_key` is the value
of the local of that name for the read at hand. -/
structure SelectorParams where
  c2u : Nat → Nat
  error_threshold : Nat
  max_insert_size : Nat
  min_read_length : Nat
  max_num_best_mappings : Int
  drop_repetitive_reads : Int
  barcode_key : Nat

/-- The vector `best_mapping_indices` of `max_num_best_mappings_` ints after
`std::iota(begin, end, 0)`. -/
def iotaIndices (max_num_best_mappings : Int) : List Int :=
  (List.range max_num_best_mappings.toNat).map Int.ofNat

/-- The reservoir loop `for (i = max_num_best_mappings_; i < num_best_mappings;
++i)`. `draw i` is the value `j` that `distribution(generator)` returns in
iteration `i`, a value of `[0, i]`; `k` counts the remaining iterations. -/
def reservoirLoop (max_num_best_mappings : Int) (draw : Nat → Nat) :
    Nat → Nat → List Int → List Int
  | 0, _, best_mapping_indices => best_mapping_indices
  | k + 1, i, best_mapping_indices =>
      let j := draw i
      reservoirLoop max_num_best_mappings draw k (i + 1)
        (if (j : Int) < max_num_best_mappings then best_mapping_indices.set j (i : Int)
         else best_mapping_indices)

/-- The vector `best_mapping_indices` that both selectors build: `std::iota`,
then, if there are more best mappings than `max_num_best_mappings_`, the
reservoir loop and `std::sort`. -/
def sampleBestMappingIndices (max_num_best_mappings num_best_mappings : Int)
    (draw : Nat → Nat) : List Int :=
  let best_mapping_indices := iotaIndices max_num_best_mappings
  if num_best_mappings > max_num_best_mappings then
    (reservoirLoop max_num_best_mappings draw
      (num_best_mappings - max_num_best_mappings).toNat max_num_best_mappings.toNat
      best_mapping_indices).insertionSort (· ≤ ·)
  else best_mapping_indices

/-- The arguments of one call of
`ProcessBestMappingsForPairedEndReadOnOneDirection` from
`GenerateBestMappingsForPairedEndRead`. -/
def pairedArgs (p : SelectorParams) (first_read_direction : Direction)
    (read1 read2 : ReadRecord) (reference : Reference) (mappings1 mappings2 : List (Int × Nat))
    (mapq : Nat) (best_mapping_indices : List Int) (min_sum_errors num_best_mappings : Int) :
    ProcessArgs :=
  { c2u := p.c2u, error_threshold := p.error_threshold,
    max_num_best_mappings := p.max_num_best_mappings,
    first_read_direction := first_read_direction, mapq := mapq, read1 := read1,
    read2 := read2, reference := reference, barcode_key := p.barcode_key,
    best_mapping_indices := best_mapping_indices, mappings1 := mappings1,
    mappings2 := mappings2, min_sum_errors := min_sum_errors,
    num_best_mappings := num_best_mappings }

/-- The out-parameters of `GenerateBestMappingsForPairedEndRead`. -/
structure PairedEndSelection where
  F1R2_best_mappings : List (Nat × Nat)
  F2R1_best_mappings : List (Nat × Nat)
  min_sum_errors : Int
  num_best_mappings : Int
  second_min_sum_errors : Int
  num_second_best_mappings : Int
  mappings_on_diff_ref_seqs : Nat → List PairedEndMapping

/-- The first call of `GenerateBestMappingsForPairedEndReadOnOneDirection` in
`GenerateBestMappingsForPairedEndRead` (the F1R2 arm), from the counters reset
to `2E + 1` and 0. -/
def generateF1R2 (p : SelectorParams) (read1 read2 : ReadRecord)
    (positive_mappings1 negative_mappings2 : List (Int × Nat))
    (F1R2_best_mappings : List (Nat × Nat)) : PairOut :=
  let min_sum_errors : Int := 2 * (p.error_threshold : Int) + 1
  GenerateBestMappingsForPairedEndReadOnOneDirection
    { first_read_direction := Direction.kPositive, max_insert_size := p.max_insert_size,
      min_overlap_length := p.min_read_length, read1_length := read1.length,
      read2_length := read2.length }
    positive_mappings1 negative_mappings2
    { best_mappings := F1R2_best_mappings, min_sum_errors := min_sum_errors,
      num_best_mappings := 0, second_min_sum_errors := min_sum_errors,
      num_second_best_mappings := 0, enumerated := [] }

/-- The second call (the F2R1 arm), which continues from the counters `f` that
the first call left and fills the other vector. -/
def generateF2R1 (p : SelectorParams) (read1 read2 : ReadRecord)
    (negative_mappings1 positive_mappings2 : List (Int × Nat))
    (F2R1_best_mappings : List (Nat × Nat)) (f : PairOut) : PairOut :=
  GenerateBestMappingsForPairedEndReadOnOneDirection
    { first_read_direction := Direction.kNegative, max_insert_size := p.max_insert_size,
      min_overlap_length := p.min_read_length, read1_length := read1.length,
      read2_length := read2.length }
    negative_mappings1 positive_mappings2 { f with best_mappings := F2R1_best_mappings }

/-- `Chromap::GenerateBestMappingsForPairedEndRead`. The two vectors of best
pairs and the buffers come in with the contents the caller left in them; the
counters are overwritten. -/
def GenerateBestMappingsForPairedEndRead (p : SelectorParams) (draw : Nat → Nat)
    (read1 read2 : ReadRecord) (reference : Reference)
    (positive_mappings1 negative_mappings1 positive_mappings2 negative_mappings2 :
      List (Int × Nat))
    (F1R2_best_mappings F2R1_best_mappings : List (Nat × Nat))
    (mappings_on_diff_ref_seqs : Nat → List PairedEndMapping) : PairedEndSelection :=
  let f := generateF1R2 p read1 read2 positive_mappings1 negative_mappings2 F1R2_best_mappings
  let r := generateF2R1 p read1 read2 negative_mappings1 positive_mappings2
    F2R1_best_mappings f
  let mapq := mapqPairedEnd r.num_best_mappings r.num_second_best_mappings
  let buffers :=
    if r.num_best_mappings ≤ p.drop_repetitive_reads then
      let best_mapping_indices :=
        sampleBestMappingIndices p.max_num_best_mappings r.num_best_mappings draw
      let st := ProcessBestMappingsForPairedEndReadOnOneDirection
        (pairedArgs p Direction.kPositive read1 read2 reference positive_mappings1
          negative_mappings2 mapq best_mapping_indices r.min_sum_errors r.num_best_mappings)
        f.best_mappings
        { best_mapping_index := 0, num_best_mappings_reported := 0,
          mappings_on_diff_ref_seqs := mappings_on_diff_ref_seqs }
      if st.num_best_mappings_reported ≠ min p.max_num_best_mappings r.num_best_mappings then
        (ProcessBestMappingsForPairedEndReadOnOneDirection
          (pairedArgs p Direction.kNegative read1 read2 reference negative_mappings1
            positive_mappings2 mapq best_mapping_indices r.min_sum_errors r.num_best_mappings)
          r.best_mappings st).mappings_on_diff_ref_seqs
      else st.mappings_on_diff_ref_seqs
    else mappings_on_diff_ref_seqs
  { F1R2_best_mappings := f.best_mappings, F2R1_best_mappings := r.best_mappings,
    min_sum_errors := r.min_sum_errors, num_best_mappings := r.num_best_mappings,
    second_min_sum_errors := r.second_min_sum_errors,
    num_second_best_mappings := r.num_second_best_mappings,
    mappings_on_diff_ref_seqs := buffers }

/-- The single-end `MappingRecord` as `ProcessBestMappingsForSingleEndRead`
brace-initialises it: read id, start position, length, MAPQ. -/
structure SingleEndMapping where
  read_id : Nat
  fragment_start_position : Nat
  fragment_length : Nat
  mapq : Nat
deriving DecidableEq

/-- The locals that `ProcessBestMappingsForSingleEndRead` updates through
pointers. -/
structure SingleState where
  best_mapping_index : Int
  num_best_mappings_reported : Int
  mappings_on_diff_ref_seqs : Nat → List SingleEndMapping

/-- What stays fixed during one call of `ProcessBestMappingsForSingleEndRead`. -/
structure SingleArgs where
  c2u : Nat → Nat
  error_threshold : Nat
  max_num_best_mappings : Int
  mapping_direction : Direction
  mapq : Nat
  min_num_errors : Int
  num_best_mappings : Int
  read : ReadRecord
  reference : Reference
  best_mapping_indices : List Int

/-- The record that the loop body of `ProcessBestMappingsForSingleEndRead`
builds for the alignment `m`, with the reference id of the buffer it is
appended to. -/
def singleRecord (a : SingleArgs) (m : Int × Nat) : Nat × SingleEndMapping :=
  let rid := (m.2 / U32) % U32
  let position := m.2 % U32
  let verification_window_start_position :=
    (((position : Int) + 1 - a.read.length - a.error_threshold) % (U32 : Int)).toNat
  let mapping_start_position :=
    BandedTraceback a.c2u a.error_threshold a.min_num_errors
      ((a.reference rid).drop verification_window_start_position)
      (match a.mapping_direction with
        | Direction.kPositive => a.read.sequence
        | Direction.kNegative => a.read.negative_sequence) a.read.length
  let start_position :=
    (((verification_window_start_position : Int) + mapping_start_position) %
      (U32 : Int)).toNat
  (rid, { read_id := a.read.id, fragment_start_position := start_position,
          fragment_length := (((position : Int) - start_position) % (U16 : Int)).toNat,
          mapq := a.mapq })

/-- The `for` loop of `ProcessBestMappingsForSingleEndRead` over the remaining
alignments, with its `break`. -/
def singleLoop (a : SingleArgs) : List (Int × Nat) → SingleState → SingleState
  | [], st => st
  | m :: rest, st =>
      if m.1 = a.min_num_errors then
        if st.best_mapping_index =
            a.best_mapping_indices.getD st.num_best_mappings_reported.toNat 0 then
          let r := singleRecord a m
          let st1 : SingleState :=
            { best_mapping_index := st.best_mapping_index,
              num_best_mappings_reported := st.num_best_mappings_reported + 1,
              mappings_on_diff_ref_seqs := fun rid =>
                if rid = r.1 then st.mappings_on_diff_ref_seqs rid ++ [r.2]
                else st.mappings_on_diff_ref_seqs rid }
          if st1.num_best_mappings_reported = min a.max_num_best_mappings a.num_best_mappings
          then st1
          else singleLoop a rest { st1 with best_mapping_index := st1.best_mapping_index + 1 }
        else singleLoop a rest { st with best_mapping_index := st.best_mapping_index + 1 }
      else singleLoop a rest st

/-- `Chromap::ProcessBestMappingsForSingleEndRead`. -/
def ProcessBestMappingsForSingleEndRead (a : SingleArgs) (mappings : List (Int × Nat))
    (st : SingleState) : SingleState :=
  singleLoop a mappings st

/-- The arguments of one call of `ProcessBestMappingsForSingleEndRead` from
`GenerateBestMappingsForSingleEndRead`. -/
def singleArgs (p : SelectorParams) (mapping_direction : Direction) (read : ReadRecord)
    (reference : Reference) (mapq : Nat) (best_mapping_indices : List Int)
    (min_num_errors num_best_mappings : Int) : SingleArgs :=
  { c2u := p.c2u, error_threshold := p.error_threshold,
    max_num_best_mappings := p.max_num_best_mappings,
    mapping_direction := mapping_direction, mapq := mapq, min_num_errors := min_num_errors,
    num_best_mappings := num_best_mappings, read := read, reference := reference,
    best_mapping_indices := best_mapping_indices }

/-- `Chromap::GenerateBestMappingsForSingleEndRead`: the buffers after the
call. `draw` gives the values drawn from the local generator (seed 11). -/
def GenerateBestMappingsForSingleEndRead (p : SelectorParams) (draw : Nat → Nat)
    (min_num_errors num_best_mappings num_second_best_mappings : Int) (read : ReadRecord)
    (reference : Reference) (positive_mappings negative_mappings : List (Int × Nat))
    (mappings_on_diff_ref_seqs : Nat → List SingleEndMapping) : Nat → List SingleEndMapping :=
  let mapq := mapqSingleEnd num_best_mappings num_second_best_mappings
  let best_mapping_indices :=
    sampleBestMappingIndices p.max_num_best_mappings num_best_mappings draw
  let st := ProcessBestMappingsForSingleEndRead
    (singleArgs p Direction.kPositive read reference mapq best_mapping_indices min_num_errors
      num_best_mappings)
    positive_mappings
    { best_mapping_index := 0, num_best_mappings_reported := 0,
      mappings_on_diff_ref_seqs := mappings_on_diff_ref_seqs }
  if st.num_best_mappings_reported ≠ min num_best_mappings p.max_num_best_mappings then
    (ProcessBestMappingsForSingleEndRead
      (singleArgs p Direction.kNegative read reference mapq best_mapping_indices min_num_errors
        num_best_mappings)
      negative_mappings st).mappings_on_diff_ref_seqs
  else st.mappings_on_diff_ref_seqs

/-- The buffers after the records `recs`, each paired with the reference id of
its buffer, are appended in order. -/
def appendRecords {α : Type} (buffers : Nat → List α) (recs : List (Nat × α)) : Nat → List α :=
  fun rid => buffers rid ++ (recs.filter fun r => decide (r.1 = rid)).map Prod.snd

/-- The error sum of the pair `e = (i1, i2)` of alignments, as the loops read
it. -/
def pairSumErrors (mappings1 mappings2 : List (Int × Nat)) (e : Nat × Nat) : Int :=
  (mappings1.getD e.1 (0, 0)).1 + (mappings2.getD e.2 (0, 0)).1

/-- The selection that both emission loops perform, on a list of items of which
those with `best` count: the item is taken when the running index
`best_mapping_index` equals `best_mapping_indices[num_best_mappings_reported]`,
and the loop stops once `cap` items are taken. The result is the two counters
and the items taken. -/
def selectLoop {α : Type} (best : α → Bool) (best_mapping_indices : List Int) (cap : Int) :
    List α → Int → Int → List α → Int × Int × List α
  | [], b, r, taken => (b, r, taken)
  | x :: rest, b, r, taken =>
      if best x then
        if b = best_mapping_indices.getD r.toNat 0 then
          if r + 1 = cap then (b, r + 1, taken ++ [x])
          else selectLoop best best_mapping_indices cap rest (b + 1) (r + 1) (taken ++ [x])
        else selectLoop best best_mapping_indices cap rest (b + 1) r taken
      else selectLoop best best_mapping_indices cap rest b r taken

/-- The counter invariant of the enumeration of pairs: every error sum seen so
far (those of `others`, from an earlier call, and those of the pairs stored in
`best_mappings`) is at least `min_sum_errors`, and `num_best_mappings` counts
the sums equal to it. -/
def BestCount (others : List Int) (mappings1 mappings2 : List (Int × Nat)) (o : PairOut) :
    Prop :=
  (∀ s, s ∈ others → o.min_sum_errors ≤ s) ∧
  (∀ e, e ∈ o.best_mappings → o.min_sum_errors ≤ pairSumErrors mappings1 mappings2 e) ∧
  o.num_best_mappings =
    ((others.filter fun s => decide (s = o.min_sum_errors)).length : Int) +
      ((o.best_mappings.filter fun e =>
        decide (pairSumErrors mappings1 mappings2 e = o.min_sum_errors)).length : Int)

/-- The invariant of the reservoir loop before iteration `i`: the vector keeps
its length and holds distinct values of `[0, i)`. -/
def ReservoirInv (max_num_best_mappings : Int) (i : Nat) (best_mapping_indices : List Int) :
    Prop :=
  best_mapping_indices.length = max_num_best_mappings.toNat ∧ best_mapping_indices.Nodup ∧
    ∀ x, x ∈ best_mapping_indices → 0 ≤ x ∧ x < (i : Int)

/-- Parameters of a run with `max_num_best_mappings_ = 10` and
`drop_repetitive_reads_ = 500`. -/
def capParams : SelectorParams :=
  { c2u := fun x => x % 5, error_threshold := 3, max_insert_size := 400,
    min_read_length := 30, max_num_best_mappings := 10, drop_repetitive_reads := 500,
    barcode_key := 0 }

/-- A read of 50 bases `A`, with its reverse complement. -/
def capRead : ReadRecord :=
  { sequence := List.replicate 50 0, negative_sequence := List.replicate 50 3, length := 50,
    id := 0 }

/-- A reference of one sequence of 2000 bases `A`. -/
def capReference : Reference := fun rid => if rid = 0 then List.replicate 2000 0 else []

/-- Twenty alignments without error on reference 0, at the end positions
`1000, 1010, ..., 1190`. -/
def capMappings : List (Int × Nat) := (List.range 20).map fun i => (0, 1000 + 10 * i)

/-- The parameters `capParams` with `drop_repetitive_reads_ = 5`. -/
def dropParams : SelectorParams := { capParams with drop_repetitive_reads := 5 }

/-- A reference of one sequence of 20 bases, `TTACGGTACTTCAGTTTTTT`. -/
def upstreamReference : Reference :=
  fun rid =>
    if rid = 0 then [3, 3, 0, 1, 2, 2, 3, 0, 1, 3, 3, 1, 0, 2, 3, 3, 3, 3, 3, 3] else []

/-- Mate 1, `CAG`, equal to `upstreamReference` at `[11, 14)`. -/
def upstreamRead1 : ReadRecord :=
  { sequence := [1, 0, 2], negative_sequence := [1, 3, 2], length := 3, id := 0 }

/-- Mate 2, `GTACCGT`, whose reverse complement `ACGGTAC` is
`upstreamReference` at `[2, 9)`. -/
def upstreamRead2 : ReadRecord :=
  { sequence := [2, 3, 0, 1, 1, 2, 3], negative_sequence := [0, 1, 2, 2, 3, 0, 1],
    length := 7, id := 0 }

/-! ## Removal of PCR duplicates (chromap.cc 850-880)

The record type, its `operator==` and `operator<` are declared outside
`chromap.cc`; the functions below take the record type `α`, `eq` for
`operator==` and `sort` for `std::sort` with `operator<` as parameters. -/

/-- The members `mappings_on_diff_ref_seqs_` and
`deduped_mappings_on_diff_ref_seqs_`. -/
structure DedupeState (α : Type) where
  mappings_on_diff_ref_seqs : Nat → List α
  deduped_mappings_on_diff_ref_seqs : Nat → List α

/-- The first loop of `RemovePCRDuplicate`, which sorts the vector of every
reference; `k` counts the remaining iterations, `ri` is the loop variable. -/
def sortLoop {α : Type} (sort : List α → List α) :
    Nat → Nat → (Nat → List α) → (Nat → List α)
  | 0, _, mappings => mappings
  | k + 1, ri, mappings =>
      sortLoop sort k (ri + 1) (Function.update mappings ri (sort (mappings ri)))

/-- The inner loop of the second pass: `last` is the record `*last_it`, the
result is the list of the records appended. -/
def dedupeLoop {α : Type} (eq : α → α → Bool) : α → List α → List α
  | _, [] => []
  | last, it :: rest =>
      if !(eq it last) then it :: dedupeLoop eq it rest
      else dedupeLoop eq last rest

/-- The second loop of `RemovePCRDuplicate` over the references. -/
def dedupeReferenceLoop {α : Type} (eq : α → α → Bool) :
    Nat → Nat → DedupeState α → DedupeState α
  | 0, _, st => st
  | k + 1, ri, st =>
      dedupeReferenceLoop eq k (ri + 1)
        (match st.mappings_on_diff_ref_seqs ri with
          | [] => st
          | front :: rest =>
              { mappings_on_diff_ref_seqs := Function.update st.mappings_on_diff_ref_seqs ri [],
                deduped_mappings_on_diff_ref_seqs :=
                  Function.update st.deduped_mappings_on_diff_ref_seqs ri
                    (st.deduped_mappings_on_diff_ref_seqs ri ++
                      front :: dedupeLoop eq front rest) })

/-- `Chromap::RemovePCRDuplicate`. -/
def RemovePCRDuplicate {α : Type} (eq : α → α → Bool) (sort : List α → List α)
    (num_reference_sequences : Nat) (st : DedupeState α) : DedupeState α :=
  dedupeReferenceLoop eq num_reference_sequences 0
    { st with mappings_on_diff_ref_seqs :=
        sortLoop sort num_reference_sequences 0 st.mappings_on_diff_ref_seqs }

/-- What the second pass appends for a sorted vector: its front and the records
that the inner loop keeps. -/
def dedupeVector {α : Type} (eq : α → α → Bool) : List α → List α
  | [] => []
  | front :: rest => front :: dedupeLoop eq front rest

/-- The classes of `eq` are contiguous in `s`: a record between two equal
records is equal to them. -/
def Contiguous {α : Type} (eq : α → α → Bool) (s : List α) : Prop :=
  ∀ a b c, List.Sublist [a, b, c] s → eq c a = true → eq b a = true

/-- Modelled from the spec: the sort key of the duplicate filter,
`(fragment_start << 24) | (fragment_length << 8) | mapq`. -/
def dedupeKey (m : PairedEndMapping) : Nat :=
  (m.fragment_start_position <<< 24) ||| (m.fragment_length <<< 8) ||| m.mapq

/-- Modelled from the spec: `operator<` of a paired record, the order of the
sort keys. -/
def recordLt (a b : PairedEndMapping) : Bool := decide (dedupeKey a < dedupeKey b)

/-- Modelled from the spec: `operator==` of a paired record with barcode,
equality of all fields. -/
def recordEq (a b : PairedEndMapping) : Bool := decide (a = b)

/-- Modelled from the spec: a sort by `operator<`, here by insertion. -/
def recordSort (l : List PairedEndMapping) : List PairedEndMapping :=
  l.insertionSort fun a b => dedupeKey a ≤ dedupeKey b

/-- Three identical records of one fragment and a record of another fragment,
on reference 0. -/
def duplicatedMappings : Nat → List PairedEndMapping :=
  fun ri =>
    if ri = 0 then
      [{ read_id := 1, barcode := 0, fragment_start_position := 300, fragment_length := 50,
         mapq := 60, positive_alignment_length := 41, negative_alignment_length := 20 },
       { read_id := 2, barcode := 0, fragment_start_position := 10, fragment_length := 50,
         mapq := 60, positive_alignment_length := 41, negative_alignment_length := 20 },
       { read_id := 1, barcode := 0, fragment_start_position := 300, fragment_length := 50,
         mapq := 60, positive_alignment_length := 41, negative_alignment_length := 20 },
       { read_id := 1, barcode := 0, fragment_start_position := 300, fragment_length := 50,
         mapq := 60, positive_alignment_length := 41, negative_alignment_length := 20 }]
    else []

/-- Three identical paired records on reference 0. -/
def tripleMappings : Nat → List PairedEndMapping :=
  fun ri => if ri = 0 then List.replicate 3 strandRecord else []

/-! ## Allocation of multi-mappings (chromap.cc 883-956)

The interval tree `IITree` and `std::discrete_distribution` are declared
outside `chromap.cc`. A tree is represented by the list of the intervals added
to it; `overlap tree st en` stands for the number of entries that
`tree.overlap(st, en, overlaps)` leaves in `overlaps`, and `sample c weights`
for the value of `distribution(generator)` in the call number `c` on the
generator, for a distribution built from `weights`. -/

instance : Inhabited PairedEndMapping :=
  ⟨{ read_id := 0, barcode := 0, fragment_start_position := 0, fragment_length := 0, mapq := 0,
     positive_alignment_length := 0, negative_alignment_length := 0 }⟩

/-- An entry `(read_id, reference id, index in the vector)` of
`multi_mapping_indices`. -/
abbrev MultiIndex := Nat × Nat × Nat

/-- The vector `multi_mapping_indices` and the intervals added to
`unique_mapping_trees`. -/
structure CollectState where
  multi_mapping_indices : List MultiIndex
  unique_mapping_trees : Nat → List (Nat × Nat)

/-- The inner loop of the first pass over the records of reference `ri`; `mi`
is the loop variable. -/
def collectVectorLoop (ri : Nat) : List PairedEndMapping → Nat → CollectState → CollectState
  | [], _, st => st
  | mapping :: rest, mi, st =>
      if mapping.mapq < 30 then
        collectVectorLoop ri rest (mi + 1)
          { multi_mapping_indices := st.multi_mapping_indices ++ [(mapping.read_id, ri, mi)],
            unique_mapping_trees := st.unique_mapping_trees }
      else
        let interval : Nat × Nat :=
          (mapping.fragment_start_position,
            (mapping.fragment_start_position + mapping.fragment_length) % U32)
        collectVectorLoop ri rest (mi + 1)
          { multi_mapping_indices := st.multi_mapping_indices,
            unique_mapping_trees :=
              Function.update st.unique_mapping_trees ri (st.unique_mapping_trees ri ++ [interval]) }

/-- The outer loop of the first pass; `k` counts the remaining references. -/
def collectReferenceLoop (mappings : Nat → List PairedEndMapping) :
    Nat → Nat → CollectState → CollectState
  | 0, _, st => st
  | k + 1, ri, st =>
      collectReferenceLoop mappings k (ri + 1) (collectVectorLoop ri (mappings ri) 0 st)

/-- The order `operator<=` of `std::tuple<uint32_t, uint32_t, uint32_t>`. -/
def tupleLe (a b : MultiIndex) : Prop :=
  a.1 < b.1 ∨ (a.1 = b.1 ∧ (a.2.1 < b.2.1 ∨ (a.2.1 = b.2.1 ∧ a.2.2 ≤ b.2.2)))

instance : DecidableRel tupleLe := fun a b => by
  unfold tupleLe
  exact inferInstance

/-- The locals of the allocation loop, the allocated vectors and, as a trace
that the source does not keep, the list `allocations` of the pairs of
`previous_read_id` and the entry chosen for it. -/
structure AllocState where
  weights : List Nat
  sum_weight : Nat
  previous_read_id : Nat
  start_mapping_index : Nat
  allocated_multi_mappings_on_diff_ref_seqs : Nat → List PairedEndMapping
  num_allocated_multi_mappings : Nat
  allocations : List (Nat × MultiIndex)

/-- The local `uint32_t num_overlaps` for the entry `t`: the number of intervals
of the tree of its reference that overlap
`[start - 100 or 0, start + length + 100)`, `overlaps.size()` stored in 32
bits. -/
def numOverlaps (overlap : List (Nat × Nat) → Nat → Nat → Nat)
    (unique_mapping_trees : Nat → List (Nat × Nat)) (mappings : Nat → List PairedEndMapping)
    (t : MultiIndex) : Nat :=
  let current_multi_mapping := (mappings t.2.1).getD t.2.2 default
  let interval_start :=
    if current_multi_mapping.fragment_start_position > 100 then
      current_multi_mapping.fragment_start_position - 100
    else 0
  overlap (unique_mapping_trees t.2.1) interval_start
    ((current_multi_mapping.fragment_start_position + current_multi_mapping.fragment_length +
      100) % U32) % U32

/-- One iteration of the allocation loop, for the entry at index `mi`. The
`uint32_t sum_weight` wraps modulo `2^32` in `sum_weight += num_overlaps`, so
it can be zero although a weight of the run is not. -/
def allocStep (overlap : List (Nat × Nat) → Nat → Nat → Nat) (sample : Nat → List Nat → Nat)
    (unique_mapping_trees : Nat → List (Nat × Nat)) (mappings : Nat → List PairedEndMapping)
    (multi_mapping_indices : List MultiIndex) (mi : Nat) (st : AllocState) : AllocState :=
  let t := multi_mapping_indices.getD mi (0, 0, 0)
  let num_overlaps := numOverlaps overlap unique_mapping_trees mappings t
  if t.1 = st.previous_read_id then
    { st with weights := st.weights ++ [num_overlaps],
              sum_weight := (st.sum_weight + num_overlaps) % U32 }
  else
    let weights := if st.sum_weight = 0 then st.weights.map fun _ => 1 else st.weights
    let randomly_assigned_mapping_index := sample st.num_allocated_multi_mappings weights
    let a := multi_mapping_indices.getD
      (st.start_mapping_index + randomly_assigned_mapping_index) (0, 0, 0)
    { weights := [num_overlaps], sum_weight := num_overlaps, previous_read_id := t.1,
      start_mapping_index := mi,
      allocated_multi_mappings_on_diff_ref_seqs := fun r =>
        if r = a.2.1 then
          st.allocated_multi_mappings_on_diff_ref_seqs r ++ [(mappings a.2.1).getD a.2.2 default]
        else st.allocated_multi_mappings_on_diff_ref_seqs r,
      num_allocated_multi_mappings := st.num_allocated_multi_mappings + 1,
      allocations := st.allocations ++ [(st.previous_read_id, a)] }

/-- The allocation loop; `k` counts the remaining iterations, `mi` is the loop
variable. -/
def allocLoop (overlap : List (Nat × Nat) → Nat → Nat → Nat) (sample : Nat → List Nat → Nat)
    (unique_mapping_trees : Nat → List (Nat × Nat)) (mappings : Nat → List PairedEndMapping)
    (multi_mapping_indices : List MultiIndex) : Nat → Nat → AllocState → AllocState
  | 0, _, st => st
  | k + 1, mi, st =>
      allocLoop overlap sample unique_mapping_trees mappings multi_mapping_indices k (mi + 1)
        (allocStep overlap sample unique_mapping_trees mappings multi_mapping_indices mi st)

/-- The sorted vector `multi_mapping_indices` before the fake entry is added. -/
def sortedMultiIndices (num_reference_sequences : Nat) (mappings : Nat → List PairedEndMapping) :
    List MultiIndex :=
  (collectReferenceLoop mappings num_reference_sequences 0
    { multi_mapping_indices := [], unique_mapping_trees := fun _ => [] }
    ).multi_mapping_indices.insertionSort tupleLe

/-- The trees after the first pass. -/
def uniqueMappingTrees (num_reference_sequences : Nat) (mappings : Nat → List PairedEndMapping) :
    Nat → List (Nat × Nat) :=
  (collectReferenceLoop mappings num_reference_sequences 0
    { multi_mapping_indices := [], unique_mapping_trees := fun _ => [] }).unique_mapping_trees

/-- `Chromap::AllocateMultiMappings` on the container `mappings` that
`remove_pcr_duplicates_` selects: the state after the allocation loop. The fake
entry carries the read id `UINT32_MAX`. -/
def AllocateMultiMappings (overlap : List (Nat × Nat) → Nat → Nat → Nat)
    (sample : Nat → List Nat → Nat) (num_reference_sequences : Nat)
    (mappings : Nat → List PairedEndMapping) : AllocState :=
  let sorted := sortedMultiIndices num_reference_sequences mappings
  let previous_read_id := (sorted.getD 0 (0, 0, 0)).1
  let back := sorted.getLastD (0, 0, 0)
  let multi_mapping_indices := sorted ++ [(4294967295, back.2.1, back.2.2)]
  allocLoop overlap sample (uniqueMappingTrees num_reference_sequences mappings) mappings
    multi_mapping_indices multi_mapping_indices.length 0
    { weights := [], sum_weight := 0, previous_read_id := previous_read_id,
      start_mapping_index := 0, allocated_multi_mappings_on_diff_ref_seqs := fun _ => [],
      num_allocated_multi_mappings := 0, allocations := [] }

/-- Modelled from the spec: the overlap count of the interval tree, the number
of stored intervals `[s, e)` that meet the query interval `[st, en)`. -/
def overlapCount (tree : List (Nat × Nat)) (st en : Nat) : Nat :=
  (tree.filter fun i => decide (i.1 < en) && decide (st < i.2)).length

/-- A draw that satisfies the contract of `std::discrete_distribution`: the
first index of positive weight. -/
def sampleFirstPositive (_ : Nat) (weights : List Nat) : Nat :=
  weights.findIdx fun w => decide (0 < w)

/-- Three uniquely mapped fragments near position 1000 of reference 0 and the
two loci of the multi-mapped read 7: locus B at 5000 and locus A at 1030. -/
def allocationMappings : Nat → List PairedEndMapping :=
  fun ri =>
    if ri = 0 then
      [{ read_id := 1, barcode := 0, fragment_start_position := 1000, fragment_length := 50,
         mapq := 60, positive_alignment_length := 41, negative_alignment_length := 20 },
       { read_id := 2, barcode := 0, fragment_start_position := 1010, fragment_length := 50,
         mapq := 60, positive_alignment_length := 41, negative_alignment_length := 20 },
       { read_id := 3, barcode := 0, fragment_start_position := 1020, fragment_length := 50,
         mapq := 30, positive_alignment_length := 41, negative_alignment_length := 20 },
       { read_id := 7, barcode := 0, fragment_start_position := 5000, fragment_length := 50,
         mapq := 5, positive_alignment_length := 41, negative_alignment_length := 20 },
       { read_id := 7, barcode := 0, fragment_start_position := 1030, fragment_length := 50,
         mapq := 5, positive_alignment_length := 41, negative_alignment_length := 20 }]
    else []

/-- One record of MAPQ 5 with the read id `read_id` on reference 0. -/
def loneMultiMapping (read_id : Nat) : Nat → List PairedEndMapping :=
  fun ri =>
    if ri = 0 then
      [{ read_id := read_id, barcode := 0, fragment_start_position := 1030,
         fragment_length := 50, mapq := 5, positive_alignment_length := 41,
         negative_alignment_length := 20 }]
    else []

/-- The entries that the first pass appends for the records `l` of reference
`ri`, the first of which has index `mi`. -/
def multiOfVector (ri : Nat) (l : List PairedEndMapping) (mi : Nat) : List MultiIndex :=
  ((l.enumFrom mi).filter fun p => decide (p.2.mapq < 30)).map fun p => (p.2.read_id, ri, p.1)

/-- The intervals that the first pass adds to the tree for the records `l`:
those of the records with MAPQ at least 30. -/
def intervalsOfVector (l : List PairedEndMapping) : List (Nat × Nat) :=
  (l.filter fun m => decide (30 ≤ m.mapq)).map fun m =>
    (m.fragment_start_position, (m.fragment_start_position + m.fragment_length) % U32)

/-- What holds of an allocation `e = (read id, chosen entry)`: the entry is one
of the collected entries, it carries that read id, and its weight `w` is
positive unless the weights of all entries of the read are zero. -/
def AllocationOk (w : MultiIndex → Nat) (S : List MultiIndex) (e : Nat × MultiIndex) : Prop :=
  e.2 ∈ S ∧ e.2.1 = e.1 ∧ (0 < w e.2 ∨ ∀ t, t ∈ S → t.1 = e.1 → w t = 0)

/-- The invariant of the allocation loop before the iteration `mi` over the
sorted entries `S` followed by the fake entry `fake`: the entries from
`start_mapping_index` on form the current run of `previous_read_id`, `weights`
holds their weights and `sum_weight` their sum modulo `2^32`, earlier entries
have smaller read ids, and, when the weights of the entries of each read sum
to less than `2^32`, every allocation made so far is as `AllocationOk` says. -/
structure AllocInv (w : MultiIndex → Nat) (mappings : Nat → List PairedEndMapping)
    (S : List MultiIndex) (fake : MultiIndex) (mi : Nat) (st : AllocState) : Prop where
  start_le : st.start_mapping_index ≤ mi
  fresh : mi = 0 → st.previous_read_id = (S.getD 0 (0, 0, 0)).1
  nonempty : 0 < mi → st.start_mapping_index < mi
  weights_length : st.weights.length = mi - st.start_mapping_index
  weights_get : ∀ j, j < mi - st.start_mapping_index →
    st.weights.getD j 0 = w ((S ++ [fake]).getD (st.start_mapping_index + j) (0, 0, 0))
  sum : st.sum_weight = st.weights.sum % U32
  run : ∀ j, st.start_mapping_index ≤ j → j < mi →
    ((S ++ [fake]).getD j (0, 0, 0)).1 = st.previous_read_id
  left : mi ≤ S.length → ∀ j, j < st.start_mapping_index →
    (S.getD j (0, 0, 0)).1 < st.previous_read_id
  valid : (∀ t, t ∈ S → ((S.filter fun u => decide (u.1 = t.1)).map w).sum < U32) →
    ∀ e, e ∈ st.allocations → AllocationOk w S e
  out : st.allocated_multi_mappings_on_diff_ref_seqs =
    appendRecords (fun _ => [])
      (st.allocations.map fun e => (e.2.2.1, (mappings e.2.2.1).getD e.2.2.2 default))

/-! ## Packed reference id and position -/

/-- Modelled from the spec: the packed 64-bit value `(r << 32) | p` of a
reference id and a position, as the index hands it to `chromap.cc`. -/
def packedValue (r p : Nat) : Nat := ((r <<< 32) ||| p) % U64

/-- The accessor `uint32_t rid = value >> 32` of `VerifyCandidatesOnOneDirection`
and of the two emission loops. -/
def packedReferenceId (value : Nat) : Nat := (value >>> 32) % U32

/-- The accessor `uint32_t position = value`, the truncation to 32 bits. -/
def packedPosition (value : Nat) : Nat := value % U32

/-- The invariant that ties `best_mappings` to the enumerated pairs: no
enumerated pair has an error sum below `min_sum_errors`, the stored pairs are a
subsequence of the enumerated ones, the stored pairs with the sum
`min_sum_errors` are exactly the enumerated pairs with that sum, and
`num_best_mappings` is their number. -/
def BestList (mappings1 mappings2 : List (Int × Nat)) (o : PairOut) : Prop :=
  (∀ e, e ∈ o.enumerated → o.min_sum_errors ≤ pairSumErrors mappings1 mappings2 e) ∧
  o.best_mappings.Sublist o.enumerated ∧
  (o.best_mappings.filter fun e =>
      decide (pairSumErrors mappings1 mappings2 e = o.min_sum_errors)) =
    (o.enumerated.filter fun e =>
      decide (pairSumErrors mappings1 mappings2 e = o.min_sum_errors)) ∧
  o.num_best_mappings =
    ((o.enumerated.filter fun e =>
      decide (pairSumErrors mappings1 mappings2 e = o.min_sum_errors)).length : Int)

/-- Two alignments of mate 2 in the window of the one alignment of mate 1: the
first pair has the error sum 2, the second the sum 1. -/
def staleMappings2 : List (Int × Nat) := [(1, 1010), (0, 1020)]

/-- Parameters of a run with `error_threshold_ = 1`, `max_insert_size_ = 20`,
`min_read_length_ = 2` and `max_num_best_mappings_ = 1`. -/
def tieParams : SelectorParams :=
  { c2u := fun x => x % 5, error_threshold := 1, max_insert_size := 20, min_read_length := 2,
    max_num_best_mappings := 1, drop_repetitive_reads := 10, barcode_key := 0 }

/-- A read of four bases, `ACGT`, which is its own reverse complement. -/
def tieRead : ReadRecord :=
  { sequence := [0, 1, 2, 3], negative_sequence := [0, 1, 2, 3], length := 4, id := 0 }

/-- A reference of one sequence of 40 bases, ten times `ACGT`. -/
def tieReference : Reference :=
  fun rid => if rid = 0 then (List.replicate 10 [0, 1, 2, 3]).flatten else []

/-- The start position on the reference of the read that a candidate stands
for, as an integer: the low 32 bits of the candidate on the positive strand,
and that value minus `read_length - 1` on the negative strand. -/
def candidateStart (candidate_direction : Direction) (read_length candidate : Nat) : Int :=
  match candidate_direction with
  | Direction.kPositive => ((candidate % U32 : Nat) : Int)
  | Direction.kNegative => ((candidate % U32 : Nat) : Int) - read_length + 1

/-- The verification window `[start - E, start + read_length + E)` of a
candidate escapes its reference sequence, in the three cases that
`VerifyCandidatesOnOneDirection` tests. -/
def windowEscapes (E : Nat) (reference : Reference) (candidate_direction : Direction)
    (read_length candidate : Nat) : Prop :=
  candidateStart candidate_direction read_length candidate < (E : Int) ∨
    candidateStart candidate_direction read_length candidate ≥
      ((reference ((candidate / U32) % U32)).length : Int) ∨
    candidateStart candidate_direction read_length candidate + read_length + E ≥
      ((reference ((candidate / U32) % U32)).length : Int)

instance (E : Nat) (reference : Reference) (d : Direction) (read_length candidate : Nat) :
    Decidable (windowEscapes E reference d read_length candidate) := by
  unfold windowEscapes
  exact inferInstance

/-! ## One read through the single-end pipeline (chromap.cc 695-707) -/

/-- The body of the read loop of `MapSingleEndReads` from the candidate lists
on: the mapping vectors are cleared, `VerifyCandidates` runs when there is a
candidate, and `GenerateBestMappingsForSingleEndRead` when it left an
alignment. The result is the per-reference buffers. -/
def mapSingleEndRead (p : SelectorParams) (draw : Nat → Nat) (reference : Reference)
    (read : ReadRecord) (positive_candidates negative_candidates : List Nat)
    (mappings_on_diff_ref_seqs : Nat → List SingleEndMapping) : Nat → List SingleEndMapping :=
  if positive_candidates.length + negative_candidates.length > 0 then
    let v := VerifyCandidates p.c2u p.error_threshold read reference positive_candidates
      negative_candidates [] []
    if v.positive_mappings.length + v.negative_mappings.length > 0 then
      GenerateBestMappingsForSingleEndRead p draw v.min_num_errors v.num_best_mappings
        v.num_second_best_mappings read reference v.positive_mappings v.negative_mappings
        mappings_on_diff_ref_seqs
    else mappings_on_diff_ref_seqs
  else mappings_on_diff_ref_seqs

/-- Parameters of the scenarios with `error_threshold_ = 2`. -/
def scenarioParams : SelectorParams :=
  { c2u := fun x => x % 5, error_threshold := 2, max_insert_size := 400, min_read_length := 10,
    max_num_best_mappings := 10, drop_repetitive_reads := 500000, barcode_key := 0 }

/-- The reference `AAAAACCCCCGGGGGTTTTTAAAAACCCCC` (codes 0..3 for A, C, G, T). -/
def scenarioReference : Reference :=
  fun rid =>
    if rid = 0 then
      [0, 0, 0, 0, 0, 1, 1, 1, 1, 1, 2, 2, 2, 2, 2, 3, 3, 3, 3, 3, 0, 0, 0, 0, 0, 1, 1, 1, 1, 1]
    else []

/-- The read `CCCCCGGGGGTTTTT` with its reverse complement `AAAAACCCCCGGGGG`. -/
def scenarioReadExact : ReadRecord :=
  { sequence := [1, 1, 1, 1, 1, 2, 2, 2, 2, 2, 3, 3, 3, 3, 3],
    negative_sequence := [0, 0, 0, 0, 0, 1, 1, 1, 1, 1, 2, 2, 2, 2, 2], length := 15, id := 0 }

/-- The read `CCCCGGGGGTTTTTT` with its reverse complement `AAAAAACCCCCGGGG`. -/
def scenarioReadShifted : ReadRecord :=
  { sequence := [1, 1, 1, 1, 2, 2, 2, 2, 2, 3, 3, 3, 3, 3, 3],
    negative_sequence := [0, 0, 0, 0, 0, 0, 1, 1, 1, 1, 1, 2, 2, 2, 2], length := 15, id := 0 }

/-! ## One read pair through the paired-end pipeline (chromap.cc 287-306) -/

/-- The body of the pair loop of `MapPairedEndReads` from the reduced candidate
lists on: the mapping vectors are cleared, `VerifyCandidates` runs on each
mate, and when both left an alignment the two vectors of best pairs are
cleared and `GenerateBestMappingsForPairedEndRead` runs. The result is the
per-reference buffers. -/
def mapPairedEndRead (p : SelectorParams) (draw : Nat → Nat) (reference : Reference)
    (read1 read2 : ReadRecord)
    (positive_candidates1 negative_candidates1 positive_candidates2 negative_candidates2 :
      List Nat)
    (mappings_on_diff_ref_seqs : Nat → List PairedEndMapping) : Nat → List PairedEndMapping :=
  let v1 := VerifyCandidates p.c2u p.error_threshold read1 reference positive_candidates1
    negative_candidates1 [] []
  let v2 := VerifyCandidates p.c2u p.error_threshold read2 reference positive_candidates2
    negative_candidates2 [] []
  if v1.positive_mappings.length + v1.negative_mappings.length > 0 ∧
      v2.positive_mappings.length + v2.negative_mappings.length > 0 then
    (GenerateBestMappingsForPairedEndRead p draw read1 read2 reference v1.positive_mappings
      v1.negative_mappings v2.positive_mappings v2.negative_mappings [] []
      mappings_on_diff_ref_seqs).mappings_on_diff_ref_seqs
  else mappings_on_diff_ref_seqs

/-- The reverse complement of a sequence of base codes 0..3. -/
def reverseComplement (l : List Nat) : List Nat := (l.map fun x => 3 - x).reverse

/-- A reference of one sequence of 210 bases without long repeats. -/
def fragmentReference : Reference :=
  fun rid => if rid = 0 then (List.range 210).map fun i => (i * i / 7 + i / 3 + i) % 4 else []

/-- Mate 1: the 20 bases of `fragmentReference` at `[10, 30)`. -/
def fragmentRead1 : ReadRecord :=
  { sequence := ((fragmentReference 0).drop 10).take 20,
    negative_sequence := reverseComplement (((fragmentReference 0).drop 10).take 20),
    length := 20, id := 0 }

/-- Mate 2: the reverse complement of the 20 bases of `fragmentReference` at
`[180, 200)`. -/
def fragmentRead2 : ReadRecord :=
  { sequence := reverseComplement (((fragmentReference 0).drop 180).take 20),
    negative_sequence := ((fragmentReference 0).drop 180).take 20, length := 20, id := 0 }

/-! ## Adapter trimming (chromap.cc 14-61)

Reads are lists of bytes here; a byte past the end of a list reads as 0, the
terminator of the string. `TrimSequenceAt` is declared outside `chromap.cc`:
the functions below return the arguments of its two calls. -/

/-- `std::string::find(s, pos, count)`: the first position `k ≥ pos` at which
the `count` bytes `needle` occur in `hay`, or `none` for `npos`. -/
def stringFind (hay needle : List Nat) (pos : Nat) : Option Nat :=
  ((List.range (hay.length + 1 - needle.length)).filter fun k =>
    decide (pos ≤ k) && decide ((hay.drop k).take needle.length = needle)).head?

/-- The `int seed_start_position` that receives the result of `find`: `npos`
becomes `-1`. -/
def seedStartPosition (negative_read2 read1 : List Nat) (si seed_length pos : Nat) : Int :=
  match stringFind negative_read2
      ((List.range seed_length).map fun j => read1.getD (si * seed_length + j) 0) pos with
  | some k => (k : Int)
  | none => -1

/-- The first comparison loop of the `while` body, over the bases before the
seed; `k` counts the remaining iterations, `i` is the loop variable. The result
is `num_errors` and `can_merge`. -/
def trimPrefixLoop (read1 negative_read2 : List Nat) (seed_start_position : Int)
    (si seed_length : Nat) : Nat → Nat → Nat → Nat × Bool
  | 0, _, num_errors => (num_errors, true)
  | k + 1, i, num_errors =>
      let num_errors :=
        if negative_read2.getD (seed_start_position - si * seed_length + i).toNat 0 ≠
            read1.getD i 0 then num_errors + 1
        else num_errors
      if num_errors > 1 then (num_errors, false)
      else trimPrefixLoop read1 negative_read2 seed_start_position si seed_length k (i + 1)
        num_errors

/-- The second comparison loop, over the bases after the seed, with its test
`i + seed_start_position < read2_length` in 32-bit arithmetic. -/
def trimSuffixLoop (read1 negative_read2 : List Nat) (read2_length : Nat)
    (seed_start_position : Int) (si seed_length : Nat) : Nat → Nat → Nat → Bool → Nat × Bool
  | 0, _, num_errors, can_merge => (num_errors, can_merge)
  | k + 1, i, num_errors, can_merge =>
      if ((i : Int) + seed_start_position) % (U32 : Int) < (read2_length : Int) then
        let num_errors :=
          if negative_read2.getD (seed_start_position + i).toNat 0 ≠
              read1.getD (si * seed_length + i) 0 then num_errors + 1
          else num_errors
        if num_errors > 1 then (num_errors, false)
        else trimSuffixLoop read1 negative_read2 read2_length seed_start_position si
          seed_length k (i + 1) num_errors can_merge
      else (num_errors, can_merge)

/-- The `while` loop over the occurrences of the seed number `si`; `k` bounds
the number of iterations. The first test compares the 32-bit value of
`seed_start_position` with the 64-bit `npos`. -/
def trimWhile (min_overlap_length : Nat) (read1 negative_read2 : List Nat) (read2_length : Nat)
    (si seed_length : Nat) : Nat → Int → Option (Nat × Nat)
  | 0, _ => none
  | k + 1, seed_start_position =>
      if (seed_start_position % (U32 : Int)).toNat ≠ U64 - 1 ∧
          ((read2_length : Int) - seed_start_position + seed_length * si) % (U32 : Int) ≥
            (min_overlap_length : Int) ∧
          seed_start_position ≥ (si : Int) * seed_length then
        let r1 := trimPrefixLoop read1 negative_read2 seed_start_position si seed_length
          (seed_length * si) 0 0
        let r2 := trimSuffixLoop read1 negative_read2 read2_length seed_start_position si
          seed_length read2_length seed_length r1.1 r1.2
        if r2.2 then
          let overlap_length :=
            (((read2_length : Int) - seed_start_position + si * seed_length) %
              (U32 : Int)).toNat
          some (overlap_length, overlap_length)
        else
          trimWhile min_overlap_length read1 negative_read2 read2_length si seed_length k
            (seedStartPosition negative_read2 read1 si seed_length
              (seed_start_position + 1).toNat)
      else none

/-- One iteration of the `for` loop over `si`. -/
def trimSeed (min_read_length : Nat) (read1 negative_read2 : List Nat) (read2_length : Nat)
    (si : Nat) : Option (Nat × Nat) :=
  let seed_length := min_read_length / 2
  trimWhile min_read_length read1 negative_read2 read2_length si seed_length
    (negative_read2.length + 1) (seedStartPosition negative_read2 read1 si seed_length 0)

/-- `Chromap::TrimAdapterForPairedEndRead`: the lengths passed to
`read_batch1->TrimSequenceAt` and to `read_batch2->TrimSequenceAt`, or `none`
when neither call is made. -/
def TrimAdapterForPairedEndRead (min_read_length : Nat) (read1 negative_read2 : List Nat)
    (read2_length : Nat) : Option (Nat × Nat) :=
  match trimSeed min_read_length read1 negative_read2 read2_length 0 with
  | some lengths => some lengths
  | none => trimSeed min_read_length read1 negative_read2 read2_length 1

/-- The number of positions `t` of `[lo, hi)` at which `read1[t]` differs from
`negative_read2[base + t]`. -/
def mismatchCount (read1 negative_read2 : List Nat) (base lo hi : Nat) : Nat :=
  ((List.range' lo (hi - lo)).filter fun t =>
    decide (negative_read2.getD (base + t) 0 ≠ read1.getD t 0)).length

/-- The value of `seed_start_position` is `-1` or a position at which the seed
number `si` of `read1` occurs in `negative_read2`. -/
def SeedOccurrence (read1 negative_read2 : List Nat) (si seed_length : Nat)
    (seed_start_position : Int) : Prop :=
  seed_start_position = -1 ∨
    ∃ k : Nat, seed_start_position = (k : Int) ∧ k + seed_length ≤ negative_read2.length ∧
      ∀ j, j < seed_length →
        negative_read2.getD (k + j) 0 = read1.getD (si * seed_length + j) 0

/-- The check on a seed number `s`, a seed position `seed_start` and an overlap
length `o`: the seed number `s` of `read1` occurs at `seed_start` in
`negative_read2`, `o = read2_length - seed_start + s * L` with
`L = min_read_length / 2`, `o ≥ min_read_length`, and the first `o` bases of
`read1` differ from the last `o` bases of `negative_read2` in at most one
position. -/
def OverlapCheck (min_read_length : Nat) (read1 negative_read2 : List Nat)
    (read2_length s seed_start o : Nat) : Prop :=
  s ≤ 1 ∧ s * (min_read_length / 2) ≤ seed_start ∧
    seed_start + min_read_length / 2 ≤ read2_length ∧
    (∀ j, j < min_read_length / 2 →
      negative_read2.getD (seed_start + j) 0 =
        read1.getD (s * (min_read_length / 2) + j) 0) ∧
    o + seed_start = read2_length + s * (min_read_length / 2) ∧ min_read_length ≤ o ∧
    mismatchCount read1 negative_read2 (read2_length - o) 0 o ≤ 1

/-- A pair whose fragment is shorter than the reads: six bases of insert and
two bases of adapter on either mate. -/
def adapterRead1 : List Nat := [10, 11, 12, 13, 11, 12, 13, 13]

/-- The reverse complement of the second mate of the pair of `adapterRead1`. -/
def adapterNegativeRead2 : List Nat := [12, 12, 10, 11, 12, 13, 11, 12]

/-! ## The radix-sort key (chromap.h 39) -/

/-- The macro `SortMappingWithoutBarcode(m)`,
`(((m.fragment_start_position << 16) | m.fragment_length) << 8) | m.mapq`, on a
record whose `fragment_start_position` is a `uint32_t`, `fragment_length` a
`uint16_t` and `mapq` a `uint8_t`: both shifts act on an `unsigned int` of 32
bits. -/
def SortMappingWithoutBarcode (m : SingleEndMapping) : Nat :=
  ((((m.fragment_start_position <<< 16) % U32 ||| m.fragment_length) <<< 8) % U32) ||| m.mapq

/-- The lexicographic order on `(fragment_start_position, fragment_length,
mapq)` that the key is meant to realise. -/
def startLengthMapqLt (a b : SingleEndMapping) : Prop :=
  a.fragment_start_position < b.fragment_start_position ∨
    (a.fragment_start_position = b.fragment_start_position ∧
      (a.fragment_length < b.fragment_length ∨
        (a.fragment_length = b.fragment_length ∧ a.mapq < b.mapq)))

instance (a b : SingleEndMapping) : Decidable (startLengthMapqLt a b) := by
  unfold startLengthMapqLt
  exact inferInstance

/-- A record that starts at position 256. -/
def recordAt256 : SingleEndMapping :=
  { read_id := 0, fragment_start_position := 256, fragment_length := 50, mapq := 60 }

/-- A record that starts at position 1. -/
def recordAt1 : SingleEndMapping :=
  { read_id := 1, fragment_start_position := 1, fragment_length := 50, mapq := 60 }

/-! ## Mates of unequal length -/

/-- A first mate of six bases, `ACGTAC` in ASCII. -/
def shortRead1 : List Nat := [65, 67, 71, 84, 65, 67]

/-- The reverse complement of a second mate of seven bases, `ACGTACG`. -/
def longNegativeRead2 : List Nat := [65, 67, 71, 84, 65, 67, 71]

/-! ## Verification windows at the ends of a reference -/

/-- The `uint32_t verification_window_start_position` of
`ProcessBestMappingsForSingleEndRead` (chromap.cc 763). -/
def singleWindowStart (E read_length position : Nat) : Nat :=
  (((position : Int) + 1 - read_length - E) % (U32 : Int)).toNat

/-- A reference of one sequence of 12 bases, `ACGTCGATGCAA`. -/
def leftEdgeReference : Reference :=
  fun rid => if rid = 0 then [0, 1, 2, 3, 1, 2, 0, 3, 2, 1, 0, 0] else []

/-- The read `ACTT`, the first four bases of `leftEdgeReference` with one
substitution. -/
def leftEdgeRead : ReadRecord :=
  { sequence := [0, 1, 3, 3], negative_sequence := [0, 0, 2, 3], length := 4, id := 0 }

/-- A reference of one sequence of 20 bases. -/
def rightEdgeReference : Reference :=
  fun rid =>
    if rid = 0 then [0, 1, 2, 3, 0, 1, 2, 3, 0, 1, 3, 2, 1, 0, 2, 3, 1, 2, 0, 3] else []

/-- The bases 13 to 18 of `rightEdgeReference` with one substitution. -/
def rightEdgeRead : ReadRecord :=
  { sequence := [0, 2, 0, 1, 2, 0], negative_sequence := [3, 1, 2, 3, 1, 3], length := 6,
    id := 0 }

/-- The seed number `si` of `read1` occurs at position `k` of
`negative_read2`. -/
def SeedAt (read1 negative_read2 : List Nat) (si seed_length k : Nat) : Prop :=
  k + seed_length ≤ negative_read2.length ∧
    ∀ j, j < seed_length → negative_read2.getD (k + j) 0 = read1.getD (si * seed_length + j) 0

instance (min_read_length : Nat) (read1 negative_read2 : List Nat)
    (read2_length s seed_start o : Nat) :
    Decidable (OverlapCheck min_read_length read1 negative_read2 read2_length s seed_start o) := by
  unfold OverlapCheck
  exact inferInstance

/-- A first mate `TCGTAACC`: the insert `ACGTAA` read with an error in its first
base, then two bases of adapter. -/
def missedRead1 : List Nat := [84, 67, 71, 84, 65, 65, 67, 67]

/-- The reverse complement `GTACGTAA` of the second mate: two bases of adapter
that happen to equal the second seed `GT` of `missedRead1`, then the insert. -/
def missedNegativeRead2 : List Nat := [71, 84, 65, 67, 71, 84, 65, 65]

instance (read1 negative_read2 : List Nat) (si seed_length k : Nat) :
    Decidable (SeedAt read1 negative_read2 si seed_length k) := by
  unfold SeedAt
  exact inferInstance

/-! ## The subscripts of `best_mapping_indices` in the emission loops

The functions below list, in order, the values of `*num_best_mappings_reported`
at which an emission loop evaluates
`best_mapping_indices[*num_best_mappings_reported]`: a trace that the source
does not keep. They follow the control flow of the loops on the two counters
`*best_mapping_index` and `*num_best_mappings_reported`. -/

/-- The subscripts read by the loop of
`ProcessBestMappingsForPairedEndReadOnOneDirection` over the remaining entries
of `best_mappings`, from the counters `b` and `r`. -/
def processReads (a : ProcessArgs) : List (Nat × Nat) → Int → Int → List Int
  | [], _, _ => []
  | (i1, i2) :: rest, b, r =>
      let current_sum_errors := (a.mappings1.getD i1 (0, 0)).1 + (a.mappings2.getD i2 (0, 0)).1
      if current_sum_errors = a.min_sum_errors then
        r :: (if b = a.best_mapping_indices.getD r.toNat 0 then
          if r + 1 = min a.max_num_best_mappings a.num_best_mappings then []
          else processReads a rest (b + 1) (r + 1)
        else processReads a rest (b + 1) r)
      else processReads a rest b r

/-- The subscripts read by the loop of `ProcessBestMappingsForSingleEndRead`. -/
def singleReads (a : SingleArgs) : List (Int × Nat) → Int → Int → List Int
  | [], _, _ => []
  | m :: rest, b, r =>
      if m.1 = a.min_num_errors then
        r :: (if b = a.best_mapping_indices.getD r.toNat 0 then
          if r + 1 = min a.max_num_best_mappings a.num_best_mappings then []
          else singleReads a rest (b + 1) (r + 1)
        else singleReads a rest (b + 1) r)
      else singleReads a rest b r

/-- The subscripts read by the selection of `selectLoop`. -/
def selectReads {α : Type} (best : α → Bool) (best_mapping_indices : List Int) (cap : Int) :
    List α → Int → Int → List Int
  | [], _, _ => []
  | x :: rest, b, r =>
      if best x then
        r :: (if b = best_mapping_indices.getD r.toNat 0 then
          if r + 1 = cap then []
          else selectReads best best_mapping_indices cap rest (b + 1) (r + 1)
        else selectReads best best_mapping_indices cap rest (b + 1) r)
      else selectReads best best_mapping_indices cap rest b r

/-- The subscripts read during `GenerateBestMappingsForPairedEndRead`: those of
the call for the F1R2 arm, then, if that call did not report
`min(max_num_best_mappings_, num_best_mappings)` pairs, those of the call for
the F2R1 arm, which continues from the counters the first call left. -/
def pairedEndReads (p : SelectorParams) (draw : Nat → Nat)
    (read1 read2 : ReadRecord) (reference : Reference)
    (positive_mappings1 negative_mappings1 positive_mappings2 negative_mappings2 :
      List (Int × Nat))
    (F1R2_best_mappings F2R1_best_mappings : List (Nat × Nat))
    (mappings_on_diff_ref_seqs : Nat → List PairedEndMapping) : List Int :=
  let f := generateF1R2 p read1 read2 positive_mappings1 negative_mappings2 F1R2_best_mappings
  let r := generateF2R1 p read1 read2 negative_mappings1 positive_mappings2
    F2R1_best_mappings f
  let mapq := mapqPairedEnd r.num_best_mappings r.num_second_best_mappings
  if r.num_best_mappings ≤ p.drop_repetitive_reads then
    let best_mapping_indices :=
      sampleBestMappingIndices p.max_num_best_mappings r.num_best_mappings draw
    let a1 := pairedArgs p Direction.kPositive read1 read2 reference positive_mappings1
      negative_mappings2 mapq best_mapping_indices r.min_sum_errors r.num_best_mappings
    let st := ProcessBestMappingsForPairedEndReadOnOneDirection a1 f.best_mappings
      { best_mapping_index := 0, num_best_mappings_reported := 0,
        mappings_on_diff_ref_seqs := mappings_on_diff_ref_seqs }
    processReads a1 f.best_mappings 0 0 ++
      (if st.num_best_mappings_reported ≠ min p.max_num_best_mappings r.num_best_mappings then
        processReads
          (pairedArgs p Direction.kNegative read1 read2 reference negative_mappings1
            positive_mappings2 mapq best_mapping_indices r.min_sum_errors r.num_best_mappings)
          r.best_mappings st.best_mapping_index st.num_best_mappings_reported
      else [])
  else []

/-- The subscripts read during `GenerateBestMappingsForSingleEndRead`: those of
the call for the positive strand, then, if needed, those of the call for the
negative strand. -/
def singleEndReads (p : SelectorParams) (draw : Nat → Nat)
    (min_num_errors num_best_mappings num_second_best_mappings : Int) (read : ReadRecord)
    (reference : Reference) (positive_mappings negative_mappings : List (Int × Nat))
    (mappings_on_diff_ref_seqs : Nat → List SingleEndMapping) : List Int :=
  let mapq := mapqSingleEnd num_best_mappings num_second_best_mappings
  let best_mapping_indices :=
    sampleBestMappingIndices p.max_num_best_mappings num_best_mappings draw
  let a1 := singleArgs p Direction.kPositive read reference mapq best_mapping_indices
    min_num_errors num_best_mappings
  let st := ProcessBestMappingsForSingleEndRead a1 positive_mappings
    { best_mapping_index := 0, num_best_mappings_reported := 0,
      mappings_on_diff_ref_seqs := mappings_on_diff_ref_seqs }
  singleReads a1 positive_mappings 0 0 ++
    (if st.num_best_mappings_reported ≠ min num_best_mappings p.max_num_best_mappings then
      singleReads
        (singleArgs p Direction.kNegative read reference mapq best_mapping_indices
          min_num_errors num_best_mappings)
        negative_mappings st.best_mapping_index st.num_best_mappings_reported
    else [])

/-! ## The assertions and the subscripts of `AllocateMultiMappings` -/

/-- `Chromap::AllocateMultiMappings` with its assertions
`multi_mapping_indices.size() > 0` and `multi_mapping_indices.size() !=
UINT32_MAX` (chromap.cc 913 and 917): `none` when one of them fails. -/
def AllocateMultiMappingsAsserted (overlap : List (Nat × Nat) → Nat → Nat → Nat)
    (sample : Nat → List Nat → Nat) (num_reference_sequences : Nat)
    (mappings : Nat → List PairedEndMapping) : Option AllocState :=
  if (sortedMultiIndices num_reference_sequences mappings).length > 0 then
    if (sortedMultiIndices num_reference_sequences mappings).length ≠ 4294967295 then
      some (AllocateMultiMappings overlap sample num_reference_sequences mappings)
    else none
  else none

/-- The subscripts `start_mapping_index + randomly_assigned_mapping_index` with
which the allocation loop reads `multi_mapping_indices` (chromap.cc 943), each
with the `start_mapping_index` before it and the loop variable `mi` after it: a
trace that the source does not keep. -/
def allocSubscripts (overlap : List (Nat × Nat) → Nat → Nat → Nat)
    (sample : Nat → List Nat → Nat) (unique_mapping_trees : Nat → List (Nat × Nat))
    (mappings : Nat → List PairedEndMapping) (multi_mapping_indices : List MultiIndex) :
    Nat → Nat → AllocState → List (Nat × Nat × Nat)
  | 0, _, _ => []
  | k + 1, mi, st =>
      (if (multi_mapping_indices.getD mi (0, 0, 0)).1 = st.previous_read_id then []
       else
        let weights := if st.sum_weight = 0 then st.weights.map fun _ => 1 else st.weights
        [(st.start_mapping_index,
          st.start_mapping_index + sample st.num_allocated_multi_mappings weights, mi)]) ++
      allocSubscripts overlap sample unique_mapping_trees mappings multi_mapping_indices k
        (mi + 1)
        (allocStep overlap sample unique_mapping_trees mappings multi_mapping_indices mi st)

/-- The subscripts of one run of `AllocateMultiMappings`, from the state in
which its allocation loop starts. -/
def allocationSubscripts (overlap : List (Nat × Nat) → Nat → Nat → Nat)
    (sample : Nat → List Nat → Nat) (num_reference_sequences : Nat)
    (mappings : Nat → List PairedEndMapping) : List (Nat × Nat × Nat) :=
  let sorted := sortedMultiIndices num_reference_sequences mappings
  let previous_read_id := (sorted.getD 0 (0, 0, 0)).1
  let back := sorted.getLastD (0, 0, 0)
  let multi_mapping_indices := sorted ++ [(4294967295, back.2.1, back.2.2)]
  allocSubscripts overlap sample (uniqueMappingTrees num_reference_sequences mappings) mappings
    multi_mapping_indices multi_mapping_indices.length 0
    { weights := [], sum_weight := 0, previous_read_id := previous_read_id,
      start_mapping_index := 0, allocated_multi_mappings_on_diff_ref_seqs := fun _ => [],
      num_allocated_multi_mappings := 0, allocations := [] }

/-- Two records of MAPQ 60 and 30 on reference 0. -/
def uniqueMappingsOnly : Nat → List PairedEndMapping :=
  fun ri =>
    if ri = 0 then
      [{ read_id := 1, barcode := 0, fragment_start_position := 1000, fragment_length := 50,
         mapq := 60, positive_alignment_length := 41, negative_alignment_length := 20 },
       { read_id := 2, barcode := 0, fragment_start_position := 1010, fragment_length := 50,
         mapq := 30, positive_alignment_length := 41, negative_alignment_length := 20 }]
    else []

/-! # Theorems -/

/-! ## Bit-level facts about one column step -/

/-- The bit `(x >> i) & 1` read by the final scan. -/
theorem shiftRight_and_one (x i : Nat) : (x >>> i) &&& 1 = (x.testBit i).toNat := by
  have h1 : (1 : Nat) = 2 ^ 1 - 1 := by norm_num
  rw [h1, Nat.and_pow_two_sub_one_eq_mod, Nat.shiftRight_eq_div_pow]
  simp [Nat.testBit, Nat.shiftRight_eq_div_pow, Nat.one_and_eq_mod_two]
  rcases Nat.mod_two_eq_zero_or_one (x / 2 ^ i) with h | h <;> simp [h]

theorem testBit_not32 (x k : Nat) :
    (not32 x).testBit k = (x.testBit k ^^ decide (k < 32)) := by
  have h : (4294967295 : Nat) = 2 ^ 32 - 1 := by norm_num
  rw [not32, h, Nat.testBit_xor, Nat.testBit_two_pow_sub_one]

/-- Bit `k` of a 32-bit sum is the exclusive or of the operand bits and the
carry into position `k`. -/
theorem testBit_add_mod (a b k : Nat) (hk : k < 32) :
    ((a + b) % U32).testBit k =
      (a.testBit k ^^ (b.testBit k ^^
        BitVec.carry k (BitVec.ofNat 32 a) (BitVec.ofNat 32 b) false)) := by
  have h := BitVec.getLsbD_add (w := 32) hk (BitVec.ofNat 32 a) (BitVec.ofNat 32 b)
  have e : (BitVec.ofNat 32 a + BitVec.ofNat 32 b) = BitVec.ofNat 32 (a + b) := by
    simp [BitVec.ofNat_add]
  rw [e] at h
  simp only [BitVec.getLsbD_ofNat, hk, decide_True, Bool.true_and] at h
  have e2 : U32 = 2 ^ 32 := by norm_num [U32]
  rw [e2, Nat.testBit_mod_two_pow]
  simpa [hk] using h

theorem d0_testBit (VP X k : Nat) (hk : k < 32) :
    (d0Of VP X).testBit k = (X.testBit k || carryOf VP X k) := by
  unfold d0Of carryOf
  rw [Nat.testBit_lor, Nat.testBit_xor, testBit_add_mod _ _ _ hk, Nat.testBit_land]
  cases VP.testBit k <;> cases X.testBit k <;>
    cases BitVec.carry k (BitVec.ofNat 32 VP) (BitVec.ofNat 32 (X &&& VP)) false <;> rfl

theorem carryOf_succ (VP X k : Nat) (hk : k < 32) :
    carryOf VP X (k + 1) = (VP.testBit k && (X.testBit k || carryOf VP X k)) := by
  unfold carryOf
  rw [BitVec.carry_succ]
  simp only [BitVec.getLsbD_ofNat, hk, decide_True, Bool.true_and, Nat.testBit_land]
  cases VP.testBit k <;> cases X.testBit k <;>
    cases BitVec.carry k (BitVec.ofNat 32 VP) (BitVec.ofNat 32 (X &&& VP)) false <;> rfl

/-- The lowest bit of `D0` is the lowest bit of `X`. -/
theorem d0_zero (VP X : Nat) : (d0Of VP X).testBit 0 = X.testBit 0 := by
  rw [d0_testBit _ _ _ (by norm_num)]
  simp [carryOf, BitVec.carry_zero]

/-- The carry chain of `D0`, one bit at a time: a diagonal zero is produced by
a match or a negative vertical delta at the same row, or is handed down from
the row above through a positive vertical delta. -/
theorem d0_succ (VP X k : Nat) (hk : k + 1 < 32) :
    (d0Of VP X).testBit (k + 1) =
      (X.testBit (k + 1) || (VP.testBit k && (d0Of VP X).testBit k)) := by
  rw [d0_testBit _ _ _ hk, d0_testBit _ _ _ (by omega : k < 32), carryOf_succ _ _ _ (by omega)]

theorem columnStep_VN (E pb tb : Nat) (s : BandState) :
    (columnStep E pb tb s).VN = vnNext s.VP s.VN (d0Of s.VP (xOf E pb tb s)) := rfl

theorem columnStep_VP (E pb tb : Nat) (s : BandState) :
    (columnStep E pb tb s).VP = vpNext s.VP s.VN (d0Of s.VP (xOf E pb tb s)) := rfl

theorem columnStep_Peq (E pb tb : Nat) (s : BandState) :
    (columnStep E pb tb s).Peq = peqOr s.Peq pb ((1 <<< (2 * E)) % U32) := rfl

theorem columnStep_num (E pb tb : Nat) (s : BandState) :
    (columnStep E pb tb s).num_errors_at_band_start_position =
      s.num_errors_at_band_start_position + 1 - bitI (d0Of s.VP (xOf E pb tb s)) 0 := by
  show s.num_errors_at_band_start_position + ((1 - (d0Of s.VP (xOf E pb tb s) &&& 1) : Nat) : Int)
      = _
  have h := shiftRight_and_one (d0Of s.VP (xOf E pb tb s)) 0
  rw [Nat.shiftRight_zero] at h
  rw [h, bitI]
  cases (d0Of s.VP (xOf E pb tb s)).testBit 0 <;> simp

theorem vnNext_testBit (VP VN D0 k : Nat) :
    (vnNext VP VN D0).testBit k =
      (D0.testBit (k + 1) &&
        (VN.testBit k || ((VP.testBit k || D0.testBit k) ^^ decide (k < 32)))) := by
  unfold vnNext
  rw [Nat.testBit_land, Nat.testBit_shiftRight, Nat.testBit_lor, testBit_not32,
    Nat.testBit_lor, Nat.add_comm]

theorem vpNext_testBit (VP VN D0 k : Nat) :
    (vpNext VP VN D0).testBit k =
      ((VP.testBit k && D0.testBit k) ||
        ((D0.testBit (k + 1) ||
          (VN.testBit k || ((VP.testBit k || D0.testBit k) ^^ decide (k < 32))))
            ^^ decide (k < 32))) := by
  unfold vpNext
  rw [Nat.testBit_lor, Nat.testBit_land, testBit_not32, Nat.testBit_lor,
    Nat.testBit_shiftRight, Nat.testBit_lor, testBit_not32, Nat.testBit_lor, Nat.add_comm]

/-- The vertical deltas never carry `+1` and `-1` in the same row. -/
theorem next_exclusive (VP VN D0 k : Nat) (hk : k < 32)
    (h : ¬ (VP.testBit k = true ∧ VN.testBit k = true)) :
    ¬ ((vpNext VP VN D0).testBit k = true ∧ (vnNext VP VN D0).testBit k = true) := by
  rw [vpNext_testBit, vnNext_testBit]
  have hd : decide (k < 32) = true := by simpa using hk
  rw [hd]
  revert h
  cases VP.testBit k <;> cases VN.testBit k <;> cases D0.testBit k <;>
    cases D0.testBit (k + 1) <;> simp

/-- The vertical delta of row `k` changes by the difference of the diagonal
bits of rows `k` and `k + 1`. -/
theorem next_delta (VP VN D0 k : Nat) (hk : k < 32)
    (h1 : ¬ (VP.testBit k = true ∧ VN.testBit k = true))
    (h2 : VN.testBit k = true → D0.testBit k = true)
    (h3 : VP.testBit k = true → D0.testBit k = true → D0.testBit (k + 1) = true) :
    bitI (vpNext VP VN D0) k - bitI (vnNext VP VN D0) k =
      bitI VP k - bitI VN k + bitI D0 k - bitI D0 (k + 1) := by
  unfold bitI
  rw [vpNext_testBit, vnNext_testBit]
  have hd : decide (k < 32) = true := by simpa using hk
  rw [hd]
  revert h1 h2 h3
  cases VP.testBit k <;> cases VN.testBit k <;> cases D0.testBit k <;>
    cases D0.testBit (k + 1) <;> simp

theorem testBit_mod_U32 (x k : Nat) :
    (x % U32).testBit k = (decide (k < 32) && x.testBit k) := by
  have e2 : U32 = 2 ^ 32 := by norm_num [U32]
  rw [e2, Nat.testBit_mod_two_pow]

theorem d0_hi (VP X k : Nat) (hk : 32 ≤ k) (hvp : VP.testBit k = false)
    (hx : X.testBit k = false) : (d0Of VP X).testBit k = false := by
  unfold d0Of
  rw [Nat.testBit_lor, Nat.testBit_xor, testBit_mod_U32, hvp, hx]
  have : decide (k < 32) = false := by simpa using hk
  simp [this]

theorem d0_of_x (VP X k : Nat) (h : X.testBit k = true) : (d0Of VP X).testBit k = true := by
  unfold d0Of
  rw [Nat.testBit_lor, h, Bool.or_true]

theorem peqOr_testBit (Peq : PeqTable) (base mask a k : Nat) :
    (peqOr Peq base mask a).testBit k =
      ((Peq a).testBit k || (decide (a = base) && mask.testBit k)) := by
  unfold peqOr
  by_cases h : a = base
  · simp [h, Nat.testBit_lor]
  · simp [h]

theorem peqOr_hi (Peq : PeqTable) (base m a k : Nat) (hk : 32 ≤ k)
    (h : (Peq a).testBit k = false) : (peqOr Peq base (m % U32) a).testBit k = false := by
  rw [peqOr_testBit, h, testBit_mod_U32]
  have : decide (k < 32) = false := by simpa using hk
  simp [this]

theorem peqShift_hi (Peq : PeqTable) (a k : Nat) (hk : 32 ≤ k)
    (h : ∀ k, 32 ≤ k → (Peq a).testBit k = false) : (peqShift Peq a).testBit k = false := by
  unfold peqShift
  by_cases ha : a < 5
  · simp only [ha, if_true, Nat.testBit_shiftRight]
    exact h _ (by omega)
  · simp only [ha, if_false]
    exact h _ hk

theorem peqInit_hi (c2u : Nat → Nat) (pattern : List Nat) (n i : Nat) (Peq : PeqTable)
    (h : ∀ a k, 32 ≤ k → (Peq a).testBit k = false) :
    ∀ a k, 32 ≤ k → (peqInit c2u pattern n i Peq a).testBit k = false := by
  induction n generalizing i Peq with
  | zero => exact h
  | succ n ih =>
      intro a k hk
      exact ih (i + 1) _ (fun a k hk => peqOr_hi _ _ _ _ _ hk (h a k hk)) a k hk

theorem xOf_hi (E pb tb : Nat) (s : BandState) (h : BandInv s) (k : Nat) (hk : 32 ≤ k) :
    (xOf E pb tb s).testBit k = false := by
  unfold xOf
  rw [Nat.testBit_lor, peqOr_hi _ _ _ _ _ hk (h.peq_hi _ _ hk), h.vn_hi k (by omega)]
  rfl

theorem xOf_of_vn (E pb tb : Nat) (s : BandState) (k : Nat) (h : s.VN.testBit k = true) :
    (xOf E pb tb s).testBit k = true := by
  unfold xOf
  rw [Nat.testBit_lor, h, Bool.or_true]

/-- Telescoping: after a column, the count at band offset `j` has grown by
one minus the diagonal bit of row `j`. -/
theorem step_bandVal (E pb tb : Nat) (s : BandState)
    (hexcl : ∀ k, k < 32 → ¬ (s.VP.testBit k = true ∧ s.VN.testBit k = true))
    (j : Nat) (hj : j ≤ 31) :
    bandVal (columnStep E pb tb s).VP (columnStep E pb tb s).VN
        (columnStep E pb tb s).num_errors_at_band_start_position j =
      bandVal s.VP s.VN s.num_errors_at_band_start_position j + 1 -
        bitI (d0Of s.VP (xOf E pb tb s)) j := by
  induction j with
  | zero => simp only [bandVal, columnStep_num]
  | succ j ih =>
      have ih := ih (by omega)
      simp only [bandVal] at ih ⊢
      rw [ih, columnStep_VP, columnStep_VN]
      have hd := next_delta s.VP s.VN (d0Of s.VP (xOf E pb tb s)) j (by omega)
        (hexcl j (by omega))
        (fun h => d0_of_x _ _ _ (xOf_of_vn E pb tb s j h))
        (fun h1 h2 => by rw [d0_succ _ _ _ (by omega), h1, h2]; simp)
      linarith

theorem bitI_le_one (x k : Nat) : bitI x k ≤ 1 := by
  unfold bitI; cases x.testBit k <;> simp

theorem bitI_nonneg (x k : Nat) : 0 ≤ bitI x k := by
  unfold bitI; cases x.testBit k <;> simp

theorem columnStep_inv (E pb tb : Nat) (s : BandState) (h : BandInv s) :
    BandInv { columnStep E pb tb s with Peq := peqShift (columnStep E pb tb s).Peq } := by
  have hd0 : ∀ k, 32 ≤ k → (d0Of s.VP (xOf E pb tb s)).testBit k = false :=
    fun k hk => d0_hi _ _ _ hk (h.vp_hi k hk) (xOf_hi E pb tb s h k hk)
  refine ⟨?_, ?_, ?_, ?_, ?_⟩
  · intro k hk
    show ¬ ((columnStep E pb tb s).VP.testBit k = true ∧ (columnStep E pb tb s).VN.testBit k = true)
    rw [columnStep_VP, columnStep_VN]
    exact next_exclusive _ _ _ _ hk (h.excl k hk)
  · intro k hk
    show (columnStep E pb tb s).VP.testBit k = false
    rw [columnStep_VP, vpNext_testBit, h.vp_hi k hk, h.vn_hi k (by omega), hd0 k hk,
      hd0 (k + 1) (by omega)]
    have : decide (k < 32) = false := by simpa using hk
    simp [this]
  · intro k hk
    show (columnStep E pb tb s).VN.testBit k = false
    rw [columnStep_VN, vnNext_testBit, hd0 (k + 1) (by omega)]
    rfl
  · intro a k hk
    show (peqShift (columnStep E pb tb s).Peq a).testBit k = false
    rw [columnStep_Peq]
    exact peqShift_hi _ _ _ hk (fun k hk => peqOr_hi _ _ _ _ _ hk (h.peq_hi a k hk))
  · intro j hj
    show 0 ≤ bandVal (columnStep E pb tb s).VP (columnStep E pb tb s).VN
      (columnStep E pb tb s).num_errors_at_band_start_position j
    rw [step_bandVal E pb tb s h.excl j hj]
    have := h.nonneg j hj
    have := bitI_le_one (d0Of s.VP (xOf E pb tb s)) j
    linarith

theorem initBand_inv (c2u : Nat → Nat) (E : Nat) (pattern : List Nat) :
    BandInv (initBand c2u E pattern) := by
  refine ⟨?_, ?_, ?_, ?_, ?_⟩
  · intro k _; simp [initBand]
  · intro k _; simp [initBand]
  · intro k _; simp [initBand]
  · intro a k hk
    exact peqInit_hi c2u pattern _ _ _ (fun _ _ _ => by simp) a k hk
  · intro j _
    have : ∀ j, bandVal 0 0 0 j = 0 := by
      intro j
      induction j with
      | zero => rfl
      | succ j ih => simp [bandVal, ih, bitI]
    show 0 ≤ bandVal 0 0 0 j
    rw [this]

theorem alignLoop_inv (c2u : Nat → Nat) (E : Nat) (pattern text : List Nat)
    (k i : Nat) (s s1 : BandState) (h : BandInv s)
    (hr : alignLoop c2u E pattern text k i s = some s1) : BandInv s1 := by
  induction k generalizing i s with
  | zero =>
      simp only [alignLoop, Option.some.injEq] at hr
      exact hr ▸ h
  | succ k ih =>
      simp only [alignLoop] at hr
      split at hr
      · exact absurd hr (by simp)
      · exact ih _ _ (columnStep_inv E _ _ s h) hr

/-- The running count of the final scan after `i` rows is `bandVal i`; the
scan returns the least of the counts it sees and a row where it occurs. -/
theorem endScan_spec (VP VN : Nat) (num : Int) (bsp : Int) (k i : Nat) (t : ScanState)
    (ht : t.num_errors_at_band_start_position = bandVal VP VN num i) :
    (endScan VP VN bsp k i t).min_num_errors ≤ t.min_num_errors ∧
    (∀ j, i < j → j ≤ i + k → (endScan VP VN bsp k i t).min_num_errors ≤ bandVal VP VN num j) ∧
    (((endScan VP VN bsp k i t).min_num_errors = t.min_num_errors ∧
        (endScan VP VN bsp k i t).mapping_end_position = t.mapping_end_position) ∨
      ∃ j, i < j ∧ j ≤ i + k ∧ (endScan VP VN bsp k i t).min_num_errors = bandVal VP VN num j ∧
        (endScan VP VN bsp k i t).mapping_end_position = bsp + j) := by
  induction k generalizing i t with
  | zero =>
      refine ⟨le_refl _, ?_, Or.inl ⟨rfl, rfl⟩⟩
      intro j h1 h2; omega
  | succ k ih =>
      have hn : t.num_errors_at_band_start_position + (((VP >>> i) &&& 1 : Nat) : Int)
          - (((VN >>> i) &&& 1 : Nat) : Int) = bandVal VP VN num (i + 1) := by
        rw [shiftRight_and_one, shiftRight_and_one, ht]; rfl
      simp only [endScan]
      rw [hn]
      split
      · rename_i hlt
        obtain ⟨a, b, c⟩ := ih (i + 1)
          { num_errors_at_band_start_position := bandVal VP VN num (i + 1),
            min_num_errors := bandVal VP VN num (i + 1),
            mapping_end_position := bsp + 1 + i } rfl
        simp only at a b c
        refine ⟨by linarith, ?_, ?_⟩
        · intro j h1 h2
          by_cases hj : j = i + 1
          · subst hj; exact a
          · exact b j (by omega) (by omega)
        · right
          rcases c with ⟨c1, c2⟩ | ⟨j, j1, j2, j3, j4⟩
          · exact ⟨i + 1, by omega, by omega, c1, by rw [c2]; push_cast; ring⟩
          · exact ⟨j, by omega, by omega, j3, j4⟩
      · rename_i hlt
        obtain ⟨a, b, c⟩ := ih (i + 1)
          { t with num_errors_at_band_start_position := bandVal VP VN num (i + 1) } rfl
        simp only at a b c
        refine ⟨a, ?_, ?_⟩
        · intro j h1 h2
          by_cases hj : j = i + 1
          · subst hj; linarith
          · exact b j (by omega) (by omega)
        · rcases c with c | ⟨j, j1, j2, j3, j4⟩
          · exact Or.inl c
          · exact Or.inr ⟨j, by omega, by omega, j3, j4⟩

theorem bandVal_hi (s : BandState) (h : BandInv s) (j : Nat) (hj : 31 ≤ j) :
    0 ≤ bandVal s.VP s.VN s.num_errors_at_band_start_position j := by
  induction j with
  | zero => omega
  | succ j ih =>
      by_cases h31 : j + 1 = 31
      · exact h.nonneg _ (by omega)
      · have := ih (by omega)
        simp only [bandVal]
        have h1 : bitI s.VN j = 0 := by
          unfold bitI; rw [h.vn_hi j (by omega)]; rfl
        have := bitI_nonneg s.VP j
        linarith

theorem bandVal_nonneg (s : BandState) (h : BandInv s) (j : Nat) :
    0 ≤ bandVal s.VP s.VN s.num_errors_at_band_start_position j := by
  by_cases hj : j ≤ 31
  · exact h.nonneg j hj
  · exact bandVal_hi s h j (by omega)

/-- The aligner never returns a negative error count. -/
theorem BandedAlignPatternToText_nonneg (c2u : Nat → Nat) (E : Nat)
    (pattern text : List Nat) (read_length : Nat) :
    0 ≤ (BandedAlignPatternToText c2u E pattern text read_length).num_errors := by
  unfold BandedAlignPatternToText
  split
  · show (0 : Int) ≤ (E : Int) + 1
    omega
  · rename_i s hs
    have hinv := alignLoop_inv c2u E pattern text _ _ _ s (initBand_inv c2u E pattern) hs
    obtain ⟨_, _, c⟩ := endScan_spec s.VP s.VN s.num_errors_at_band_start_position
      ((read_length : Int) - 1) (2 * E) 0
      { num_errors_at_band_start_position := s.num_errors_at_band_start_position,
        min_num_errors := s.num_errors_at_band_start_position,
        mapping_end_position := (read_length : Int) - 1 } rfl
    simp only at c ⊢
    rcases c with ⟨c1, _⟩ | ⟨j, _, _, j3, _⟩
    · rw [c1]; exact bandVal_nonneg s hinv 0
    · rw [j3]; exact bandVal_nonneg s hinv j

/-! ## Mapping quality -/

/-- C1: the paired-end and the single-end selector assign MAPQ by the same
function of (best, second): 60 if best = 1 and second = 0, 30 if best = 1 and
second ≠ 0, 5 if best ≠ 1 and best < 5, 0 otherwise; the value is always one of
0, 5, 30, 60. -/
theorem mapq_table (best second : Int) :
    mapqPairedEnd best second = mapqSingleEnd best second ∧
    mapqPairedEnd best second =
      (if best = 1 ∧ second = 0 then 60
       else if best = 1 ∧ second ≠ 0 then 30
       else if best ≠ 1 ∧ best < 5 then 5
       else 0) ∧
    (mapqPairedEnd best second = 0 ∨ mapqPairedEnd best second = 5 ∨
      mapqPairedEnd best second = 30 ∨ mapqPairedEnd best second = 60) := by
  refine ⟨rfl, ?_, ?_⟩
  · unfold mapqPairedEnd
    by_cases h1 : best = 1 <;> by_cases h2 : second = 0 <;> by_cases h3 : best < 5 <;>
      simp [h1, h2, h3]
  · unfold mapqPairedEnd
    by_cases h1 : best = 1 <;> by_cases h2 : second = 0 <;> by_cases h3 : best < 5 <;>
      simp [h1, h2, h3]

/-! ## The contents of `Peq` -/

theorem testBit_one_shiftLeft_mod (i k : Nat) (hi : i < 32) :
    ((1 <<< i) % U32).testBit k = decide (k = i) := by
  rw [testBit_mod_U32, Nat.one_shiftLeft, Nat.testBit_two_pow]
  by_cases h : k = i
  · subst h; simp [hi]
  · have h2 : ¬ i = k := fun e => h e.symm
    simp [h, h2]

theorem peqOr_bit_bool (k i : Nat) (a b : Nat) (old : Bool) (j : Nat) (hj : j = i + 1)
    (hold : old = (decide (k < i) && decide (b = a)) ∨ (k = i ∧ old = false)) :
    (old || (decide (a = b) && decide (k = i))) = (decide (k < j) && decide (b = a)) := by
  subst hj
  by_cases hk : k = i
  · subst hk
    have hold2 : old = false := by
      rcases hold with h | h
      · simpa using h
      · exact h.2
    by_cases ha : a = b
    · subst ha; simp [hold2]
    · have ha2 : ¬ b = a := fun e => ha e.symm
      simp [ha, ha2, hold2]
  · rcases hold with h | h
    · subst h
      by_cases hlt : k < i
      · have : k < i + 1 := by omega
        simp [hk, hlt, this]
      · have : ¬ k < i + 1 := by omega
        simp [hk, hlt, this]
    · exact absurd h.1 hk

theorem peqInit_spec (c2u : Nat → Nat) (pattern : List Nat) (n i : Nat) (Peq : PeqTable)
    (hni : i + n ≤ 32)
    (h : ∀ a k, (Peq a).testBit k = (decide (k < i) && decide (c2u (pattern.getD k 0) = a))) :
    ∀ a k, (peqInit c2u pattern n i Peq a).testBit k =
      (decide (k < i + n) && decide (c2u (pattern.getD k 0) = a)) := by
  induction n generalizing i Peq with
  | zero => exact h
  | succ n ih =>
      intro a k
      have := ih (i + 1) (peqOr Peq (c2u (pattern.getD i 0)) ((1 <<< i) % U32)) (by omega)
        (by
          intro a k
          rw [peqOr_testBit, h, testBit_one_shiftLeft_mod _ _ (by omega)]
          by_cases hk : k = i
          · subst hk
            exact peqOr_bit_bool k k a _ _ (k + 1) rfl (Or.inl rfl)
          · have hh := peqOr_bit_bool k i a (c2u (pattern.getD k 0))
              (decide (k < i) && decide (c2u (pattern.getD k 0) = a)) (i + 1) rfl (Or.inl rfl)
            have e : (decide (a = c2u (pattern.getD i 0)) && decide (k = i)) =
                (decide (a = c2u (pattern.getD k 0)) && decide (k = i)) := by
              simp [hk]
            rw [e]
            exact hh) a k
      simp only [peqInit]
      rw [this]
      have e : i + 1 + n = i + (n + 1) := by omega
      rw [e]

theorem initBand_peq (c2u : Nat → Nat) (E : Nat) (hE : E ≤ 15) (pattern : List Nat) :
    PeqAt c2u E pattern 0 (initBand c2u E pattern).Peq := by
  intro a k _
  have := peqInit_spec c2u pattern (2 * E) 0 (fun _ => 0) (by omega) (by simp) a k
  simp only [initBand]
  rw [this]
  simp

/-- After the highest band bit is set, bit `k ≤ 2E` of `Peq[a]` says that
`pattern[i + k]` has code `a`. -/
theorem peqOr_spec (c2u : Nat → Nat) (E : Nat) (hE : E ≤ 15) (pattern : List Nat) (i : Nat)
    (Peq : PeqTable) (h : PeqAt c2u E pattern i Peq) (a k : Nat) (ha : a < 5) :
    (peqOr Peq (c2u (pattern.getD (i + 2 * E) 0)) ((1 <<< (2 * E)) % U32) a).testBit k =
      (decide (k ≤ 2 * E) && decide (c2u (pattern.getD (i + k) 0) = a)) := by
  rw [peqOr_testBit, h a k ha, testBit_one_shiftLeft_mod _ _ (by omega)]
  have e1 : decide (k ≤ 2 * E) = decide (k < 2 * E + 1) := by
    by_cases hk : k ≤ 2 * E
    · have : k < 2 * E + 1 := by omega
      simp [hk, this]
    · have : ¬ k < 2 * E + 1 := by omega
      simp [hk, this]
  rw [e1]
  by_cases hk : k = 2 * E
  · subst hk
    exact peqOr_bit_bool _ _ a _ _ _ rfl (Or.inl rfl)
  · have e : (decide (a = c2u (pattern.getD (i + 2 * E) 0)) && decide (k = 2 * E)) =
        (decide (a = c2u (pattern.getD (i + k) 0)) && decide (k = 2 * E)) := by
      simp [hk]
    rw [e]
    exact peqOr_bit_bool k (2 * E) a _ _ _ rfl (Or.inl rfl)

theorem peqShift_spec (c2u : Nat → Nat) (E : Nat) (hE : E ≤ 15) (pattern : List Nat) (i : Nat)
    (Peq : PeqTable) (h : PeqAt c2u E pattern i Peq) :
    PeqAt c2u E pattern (i + 1)
      (peqShift (peqOr Peq (c2u (pattern.getD (i + 2 * E) 0)) ((1 <<< (2 * E)) % U32))) := by
  intro a k ha
  unfold peqShift
  simp only [ha, if_true, Nat.testBit_shiftRight]
  rw [peqOr_spec c2u E hE pattern i Peq h a (1 + k) ha]
  have e : i + (1 + k) = i + 1 + k := by omega
  rw [e]
  by_cases hk : k < 2 * E
  · have : 1 + k ≤ 2 * E := by omega
    simp [hk, this]
  · have : ¬ 1 + k ≤ 2 * E := by omega
    simp [hk, this]

/-! ## The column loop computes the banded programme -/

theorem cell_bool (m vp vn d vp1 vn1 : Bool) (o : Int)
    (h : ¬ (vp = true ∧ vn = true)) (h1 : ¬ (vp1 = true ∧ vn1 = true)) :
    o + 1 - ((m || vn1 || (vp && d)).toNat : Int) =
      min (min (o + (1 - (m.toNat : Int))) (o + (vp1.toNat : Int) - (vn1.toNat : Int) + 1))
        (o - (vp.toNat : Int) + (vn.toNat : Int) + 1 - (d.toNat : Int) + 1) := by
  revert h h1
  cases m <;> cases vp <;> cases vn <;> cases d <;> cases vp1 <;> cases vn1 <;>
    simp <;> omega

theorem cell_bool_edge (m vp vn d : Bool) (o : Int)
    (h : ¬ (vp = true ∧ vn = true)) :
    o + 1 - ((m || (vp && d)).toNat : Int) =
      min (o + (1 - (m.toNat : Int)))
        (o - (vp.toNat : Int) + (vn.toNat : Int) + 1 - (d.toNat : Int) + 1) := by
  revert h
  cases m <;> cases vp <;> cases vn <;> cases d <;> simp <;> omega

theorem cell_bool_top (m vp1 vn1 : Bool) (o : Int)
    (h1 : ¬ (vp1 = true ∧ vn1 = true)) :
    o + 1 - ((m || vn1).toNat : Int) =
      min (o + (1 - (m.toNat : Int))) (o + (vp1.toNat : Int) - (vn1.toNat : Int) + 1) := by
  revert h1
  cases m <;> cases vp1 <;> cases vn1 <;> simp
  omega

theorem bandCost_cast (c2u : Nat → Nat) (pattern text : List Nat) (c k : Nat) :
    (bandCost c2u pattern text c k : Int) =
      1 - ((decide (c2u (pattern.getD (c + k) 0) = c2u (text.getD c 0))).toNat : Int) := by
  unfold bandCost
  by_cases h : c2u (pattern.getD (c + k) 0) = c2u (text.getD c 0)
  · rw [if_pos h, decide_eq_true h]; rfl
  · rw [if_neg h, decide_eq_false h]; rfl

theorem xOf_band (c2u : Nat → Nat) (hc : ∀ x, c2u x < 5) (E : Nat) (hE : E ≤ 15)
    (pattern text : List Nat) (i : Nat) (s : BandState)
    (h : PeqAt c2u E pattern i s.Peq) (k : Nat) :
    (xOf E (c2u (pattern.getD (i + 2 * E) 0)) (c2u (text.getD i 0)) s).testBit k =
      ((decide (k ≤ 2 * E) &&
          decide (c2u (pattern.getD (i + k) 0) = c2u (text.getD i 0))) ||
        s.VN.testBit k) := by
  unfold xOf
  rw [Nat.testBit_lor, peqOr_spec c2u E hE pattern i s.Peq h _ k (hc _)]

theorem bandVal_succ (VP VN : Nat) (num : Int) (j : Nat) :
    bandVal VP VN num (j + 1) = bandVal VP VN num j + bitI VP j - bitI VN j := rfl

/-- The diagonal bits of one column are exactly the diagonal zeros of the
banded programme: the new column of the programme is the old count plus one
minus the diagonal bit. -/
theorem next_cells (c2u : Nat → Nat) (hc : ∀ x, c2u x < 5) (E : Nat) (hE : E ≤ 15)
    (pattern text : List Nat) (i : Nat) (s : BandState)
    (h : ExactInv c2u E pattern text i s) (j : Nat) (hj : j ≤ 2 * E) :
    (nextColumn E (bandCost c2u pattern text i) (bandColumn c2u E pattern text i) j : Int) =
      bandVal s.VP s.VN s.num_errors_at_band_start_position j + 1 -
        bitI (d0Of s.VP (xOf E (c2u (pattern.getD (i + 2 * E) 0)) (c2u (text.getD i 0)) s)) j := by
  induction j with
  | zero =>
      unfold bitI
      rw [d0_zero, xOf_band c2u hc E hE pattern text i s h.peq 0]
      have hle : decide (0 ≤ 2 * E) = true := by simp
      rw [hle, Bool.true_and]
      simp only [nextColumn]
      by_cases h0 : 0 < 2 * E
      · rw [if_pos h0]
        push_cast
        rw [← h.cells 0 (by omega), ← h.cells 1 (by omega), bandVal_succ, bandCost_cast]
        have := cell_bool_top (decide (c2u (pattern.getD (i + 0) 0) = c2u (text.getD i 0)))
          (s.VP.testBit 0) (s.VN.testBit 0)
          (bandVal s.VP s.VN s.num_errors_at_band_start_position 0) (h.base.excl 0 (by omega))
        unfold bitI
        rw [this]
      · rw [if_neg h0, h.vn_band 0 (by omega), Bool.or_false]
        push_cast
        rw [← h.cells 0 (by omega), bandCost_cast]
        ring
  | succ j ih =>
      have ih := ih (by omega)
      unfold bitI at ih ⊢
      rw [d0_succ _ _ _ (by omega), xOf_band c2u hc E hE pattern text i s h.peq (j + 1)]
      have hle : decide (j + 1 ≤ 2 * E) = true := by simpa using hj
      rw [hle, Bool.true_and]
      simp only [nextColumn]
      by_cases h0 : j + 1 < 2 * E
      · rw [if_pos h0]
        push_cast
        rw [ih, ← h.cells (j + 1) (by omega), ← h.cells (j + 2) (by omega), bandCost_cast,
          bandVal_succ _ _ _ (j + 1)]
        have := cell_bool (decide (c2u (pattern.getD (i + (j + 1)) 0) = c2u (text.getD i 0)))
          (s.VP.testBit j) (s.VN.testBit j)
          ((d0Of s.VP (xOf E (c2u (pattern.getD (i + 2 * E) 0)) (c2u (text.getD i 0)) s)).testBit j)
          (s.VP.testBit (j + 1)) (s.VN.testBit (j + 1))
          (bandVal s.VP s.VN s.num_errors_at_band_start_position (j + 1))
          (h.base.excl j (by omega)) (h.base.excl (j + 1) (by omega))
        unfold bitI
        rw [this, bandVal_succ]
        unfold bitI
        congr 1
        ring
      · rw [if_neg h0, h.vn_band (j + 1) (by omega), Bool.or_false]
        push_cast
        rw [ih, ← h.cells (j + 1) (by omega), bandCost_cast]
        have := cell_bool_edge (decide (c2u (pattern.getD (i + (j + 1)) 0) = c2u (text.getD i 0)))
          (s.VP.testBit j) (s.VN.testBit j)
          ((d0Of s.VP (xOf E (c2u (pattern.getD (i + 2 * E) 0)) (c2u (text.getD i 0)) s)).testBit j)
          (bandVal s.VP s.VN s.num_errors_at_band_start_position (j + 1))
          (h.base.excl j (by omega))
        rw [this, bandVal_succ]
        unfold bitI
        congr 1
        ring

theorem columnStep_exact (c2u : Nat → Nat) (hc : ∀ x, c2u x < 5) (E : Nat) (hE : E ≤ 15)
    (pattern text : List Nat) (i : Nat) (s : BandState)
    (h : ExactInv c2u E pattern text i s) :
    ExactInv c2u E pattern text (i + 1)
      { columnStep E (c2u (pattern.getD (i + 2 * E) 0)) (c2u (text.getD i 0)) s with
        Peq := peqShift
          (columnStep E (c2u (pattern.getD (i + 2 * E) 0)) (c2u (text.getD i 0)) s).Peq } := by
  have hb := columnStep_inv E (c2u (pattern.getD (i + 2 * E) 0)) (c2u (text.getD i 0)) s h.base
  refine ⟨hb, ?_, ?_, ?_⟩
  · show PeqAt c2u E pattern (i + 1) (peqShift (columnStep E _ _ s).Peq)
    rw [columnStep_Peq]
    exact peqShift_spec c2u E hE pattern i s.Peq h.peq
  · intro k hk
    by_cases h31 : 31 ≤ k
    · exact hb.vn_hi k h31
    · show (columnStep E _ _ s).VN.testBit k = false
      rw [columnStep_VN, vnNext_testBit, d0_succ _ _ _ (by omega),
        xOf_band c2u hc E hE pattern text i s h.peq (k + 1), h.vn_band (k + 1) (by omega),
        h.vn_band k hk]
      have : decide (k + 1 ≤ 2 * E) = false := by
        have : ¬ k + 1 ≤ 2 * E := by omega
        simpa using this
      rw [this]
      have hd : decide (k < 32) = true := by
        have : k < 32 := by omega
        simpa using this
      rw [hd]
      cases s.VP.testBit k <;>
        cases (d0Of s.VP (xOf E (c2u (pattern.getD (i + 2 * E) 0))
          (c2u (text.getD i 0)) s)).testBit k <;> rfl
  · intro j hj
    show bandVal (columnStep E _ _ s).VP (columnStep E _ _ s).VN
      (columnStep E _ _ s).num_errors_at_band_start_position j = _
    rw [step_bandVal E _ _ s h.base.excl j (by omega)]
    exact (next_cells c2u hc E hE pattern text i s h j hj).symm

theorem bandVal_zero_regs (j : Nat) : bandVal 0 0 0 j = 0 := by
  induction j with
  | zero => rfl
  | succ j ih => simp [bandVal, ih, bitI]

theorem initBand_exact (c2u : Nat → Nat) (E : Nat) (hE : E ≤ 15) (pattern text : List Nat) :
    ExactInv c2u E pattern text 0 (initBand c2u E pattern) := by
  refine ⟨initBand_inv c2u E pattern, initBand_peq c2u E hE pattern, ?_, ?_⟩
  · intro k _; simp [initBand]
  · intro j _
    show bandVal 0 0 0 j = ((0 : Nat) : Int)
    rw [bandVal_zero_regs]; rfl

theorem alignLoop_exact (c2u : Nat → Nat) (hc : ∀ x, c2u x < 5) (E : Nat) (hE : E ≤ 15)
    (pattern text : List Nat) (k i : Nat) (s s1 : BandState)
    (h : ExactInv c2u E pattern text i s)
    (hr : alignLoop c2u E pattern text k i s = some s1) :
    ExactInv c2u E pattern text (i + k) s1 := by
  induction k generalizing i s with
  | zero =>
      simp only [alignLoop, Option.some.injEq] at hr
      exact hr ▸ h
  | succ k ih =>
      simp only [alignLoop] at hr
      split at hr
      · exact absurd hr (by simp)
      · have := ih (i + 1) _ (columnStep_exact c2u hc E hE pattern text i s h) hr
        have e : i + (k + 1) = i + 1 + k := by omega
        rw [e]; exact this

theorem colMin_le (col : Nat → Nat) (K k : Nat) (hk : k ≤ K) : colMin col K ≤ col k := by
  induction K with
  | zero =>
      have : k = 0 := by omega
      subst this; exact le_refl _
  | succ K ih =>
      simp only [colMin]
      by_cases h : k = K + 1
      · subst h; exact min_le_right _ _
      · exact le_trans (min_le_left _ _) (ih (by omega))

theorem colMin_attained (col : Nat → Nat) (K : Nat) : ∃ k, k ≤ K ∧ colMin col K = col k := by
  induction K with
  | zero => exact ⟨0, le_refl _, rfl⟩
  | succ K ih =>
      obtain ⟨k, hk, e⟩ := ih
      simp only [colMin]
      rcases le_total (colMin col K) (col (K + 1)) with h | h
      · exact ⟨k, by omega, by rw [min_eq_left h, e]⟩
      · exact ⟨K + 1, le_refl _, by rw [min_eq_right h]⟩

/-- What the final scan returns once the column loop has run to its end. -/
theorem BandedAlignPatternToText_of_loop (c2u : Nat → Nat) (E : Nat)
    (pattern text : List Nat) (n : Nat) (s : BandState)
    (hs : alignLoop c2u E pattern text n 0 (initBand c2u E pattern) = some s) :
    (∀ j, j ≤ 2 * E → (BandedAlignPatternToText c2u E pattern text n).num_errors ≤
        bandVal s.VP s.VN s.num_errors_at_band_start_position j) ∧
    ∃ j, j ≤ 2 * E ∧
      (BandedAlignPatternToText c2u E pattern text n).num_errors =
        bandVal s.VP s.VN s.num_errors_at_band_start_position j ∧
      (BandedAlignPatternToText c2u E pattern text n).mapping_end_position =
        some ((n : Int) - 1 + j) := by
  unfold BandedAlignPatternToText
  rw [hs]
  obtain ⟨a, b, c⟩ := endScan_spec s.VP s.VN s.num_errors_at_band_start_position
    ((n : Int) - 1) (2 * E) 0
    { num_errors_at_band_start_position := s.num_errors_at_band_start_position,
      min_num_errors := s.num_errors_at_band_start_position,
      mapping_end_position := (n : Int) - 1 } rfl
  simp only at a b c ⊢
  refine ⟨?_, ?_⟩
  · intro j hj
    by_cases h0 : j = 0
    · subst h0; exact a
    · exact b j (by omega) (by omega)
  · rcases c with ⟨c1, c2⟩ | ⟨j, _, j2, j3, j4⟩
    · exact ⟨0, by omega, c1, by rw [c2]; simp⟩
    · exact ⟨j, by omega, j3, by rw [j4]⟩

/-- C2: for `E ≤ 15`, a text of `n ≥ 1` bases and a pattern of `n + 2E` bases,
whenever the early return is not taken, `BandedAlignPatternToText` returns the
banded edit distance (the least cell of the last column of the banded
programme over the end offsets `n-1 .. n-1+2E`), and the stored
`mapping_end_position` is an end offset whose cell attains that minimum. -/
theorem BandedAlignPatternToText_banded (c2u : Nat → Nat) (hc : ∀ x, c2u x < 5)
    (E : Nat) (hE : E ≤ 15) (n : Nat) (hn : 1 ≤ n) (pattern text : List Nat)
    (ht : text.length = n) (hp : pattern.length = n + 2 * E) (p : Int)
    (hres : (BandedAlignPatternToText c2u E pattern text n).mapping_end_position = some p) :
    (BandedAlignPatternToText c2u E pattern text n).num_errors =
        (bandedDistance c2u E pattern text n : Int) ∧
      ∃ k : Nat, k ≤ 2 * E ∧ p = (n : Int) - 1 + (k : Int) ∧
        bandColumn c2u E pattern text n k = bandedDistance c2u E pattern text n := by
  have _ := hn
  have _ := ht
  have _ := hp
  cases hs : alignLoop c2u E pattern text n 0 (initBand c2u E pattern) with
  | none =>
      unfold BandedAlignPatternToText at hres
      rw [hs] at hres
      exact absurd hres (by simp)
  | some s =>
      have hex := alignLoop_exact c2u hc E hE pattern text n 0 _ s
        (initBand_exact c2u E hE pattern text) hs
      rw [Nat.zero_add] at hex
      obtain ⟨hle, j, hj, hj1, hj2⟩ := BandedAlignPatternToText_of_loop c2u E pattern text n s hs
      rw [hres] at hj2
      have hp2 : p = (n : Int) - 1 + j := by simpa using hj2
      obtain ⟨k, hk, hk1⟩ := colMin_attained (bandColumn c2u E pattern text n) (2 * E)
      have h1 := hle k hk
      rw [hex.cells k hk] at h1
      have h2 := colMin_le (bandColumn c2u E pattern text n) (2 * E) j hj
      rw [hex.cells j hj] at hj1
      have h3 : ((colMin (bandColumn c2u E pattern text n) (2 * E) : Nat) : Int) ≤
          (bandColumn c2u E pattern text n j : Int) := by exact_mod_cast h2
      have h4 : (bandColumn c2u E pattern text n j : Int) =
          (colMin (bandColumn c2u E pattern text n) (2 * E) : Int) := by
        rw [hk1] at h3 ⊢
        rw [hj1] at h1
        omega
      refine ⟨by rw [hj1, h4]; rfl, j, hj, hp2, ?_⟩
      unfold bandedDistance
      exact_mod_cast h4

/-- The aligner at work on a pattern that holds the text at offset 1. -/
theorem BandedAlignPatternToText_banded_witness :
    (BandedAlignPatternToText (fun x => x % 5) 1 [0, 1, 2, 3] [1, 2] 2).num_errors =
        (bandedDistance (fun x => x % 5) 1 [0, 1, 2, 3] [1, 2] 2 : Int) ∧
      ∃ k : Nat, k ≤ 2 * 1 ∧ (2 : Int) = ((2 : Nat) : Int) - 1 + (k : Int) ∧
        bandColumn (fun x => x % 5) 1 [0, 1, 2, 3] [1, 2] 2 k =
          bandedDistance (fun x => x % 5) 1 [0, 1, 2, 3] [1, 2] 2 :=
  BandedAlignPatternToText_banded (fun x => x % 5) (fun x => Nat.mod_lt x (by decide))
    1 (by decide) 2 (by decide) [0, 1, 2, 3] [1, 2] rfl rfl 2 (by decide)

theorem nextColumn_le_diag (E : Nat) (cost old : Nat → Nat) (k : Nat) :
    nextColumn E cost old k ≤ old k + cost k := by
  cases k with
  | zero =>
      simp only [nextColumn]
      split
      · exact min_le_left _ _
      · exact le_refl _
  | succ k =>
      simp only [nextColumn]
      refine le_trans (min_le_left _ _) ?_
      split
      · exact min_le_left _ _
      · exact le_refl _

theorem bandColumn_match (c2u : Nat → Nat) (E : Nat) (pattern text : List Nat) (n : Nat)
    (hm : ∀ i, i < n → pattern.getD (E + i) 0 = text.getD i 0) (c : Nat) (hcn : c ≤ n) :
    bandColumn c2u E pattern text c E = 0 := by
  induction c with
  | zero => rfl
  | succ c ih =>
      have h1 := nextColumn_le_diag E (bandCost c2u pattern text c)
        (bandColumn c2u E pattern text c) E
      have h2 : bandCost c2u pattern text c E = 0 := by
        unfold bandCost
        rw [Nat.add_comm c E, hm c (by omega)]
        simp
      rw [ih (by omega), h2] at h1
      show nextColumn E _ _ E = 0
      omega

theorem bandVal_lower (VP VN : Nat) (num : Int) (j : Nat) :
    bandVal VP VN num 0 ≤ bandVal VP VN num j + j := by
  induction j with
  | zero => simp
  | succ j ih =>
      rw [bandVal_succ]
      have := bitI_nonneg VP j
      have := bitI_le_one VN j
      push_cast
      linarith

theorem alignLoop_match (c2u : Nat → Nat) (hc : ∀ x, c2u x < 5) (E : Nat) (hE : E ≤ 15)
    (pattern text : List Nat) (n : Nat)
    (hm : ∀ i, i < n → pattern.getD (E + i) 0 = text.getD i 0)
    (k i : Nat) (hik : i + k ≤ n) (s : BandState) (h : ExactInv c2u E pattern text i s) :
    ∃ s1, alignLoop c2u E pattern text k i s = some s1 := by
  induction k generalizing i s with
  | zero => exact ⟨s, rfl⟩
  | succ k ih =>
      have hex := columnStep_exact c2u hc E hE pattern text i s h
      simp only [alignLoop]
      have hcell := hex.cells E (by omega)
      rw [bandColumn_match c2u E pattern text n hm (i + 1) (by omega)] at hcell
      have hlow := bandVal_lower
        (columnStep E (c2u (pattern.getD (i + 2 * E) 0)) (c2u (text.getD i 0)) s).VP
        (columnStep E (c2u (pattern.getD (i + 2 * E) 0)) (c2u (text.getD i 0)) s).VN
        (columnStep E (c2u (pattern.getD (i + 2 * E) 0))
          (c2u (text.getD i 0)) s).num_errors_at_band_start_position E
      simp only at hcell
      rw [hcell] at hlow
      simp only [bandVal] at hlow
      have hnot : ¬ (columnStep E (c2u (pattern.getD (i + 2 * E) 0))
          (c2u (text.getD i 0)) s).num_errors_at_band_start_position > 3 * (E : Int) := by
        push_cast at hlow
        omega
      rw [if_neg hnot]
      exact ih (i + 1) (by omega) _ hex

/-- C3: round trip on an exact match. For `E ≤ 15`, a text of `n ≥ 1` bases and
a pattern of `n + 2E` bases whose bases at offsets `[E, E+n)` equal the text,
`BandedAlignPatternToText` returns 0 errors and `BandedTraceback`, called with
`min_num_errors = 0`, stores `E` as the start position. -/
theorem exact_match_round_trip (c2u : Nat → Nat) (hc : ∀ x, c2u x < 5)
    (E : Nat) (hE : E ≤ 15) (n : Nat) (hn : 1 ≤ n) (pattern text : List Nat)
    (ht : text.length = n) (hp : pattern.length = n + 2 * E)
    (hm : ∀ i, i < n → pattern.getD (E + i) 0 = text.getD i 0) :
    (BandedAlignPatternToText c2u E pattern text n).num_errors = 0 ∧
      BandedTraceback c2u E 0 pattern text n = (E : Int) := by
  have _ := hn
  have _ := ht
  have _ := hp
  refine ⟨?_, by simp [BandedTraceback]⟩
  obtain ⟨s, hs⟩ := alignLoop_match c2u hc E hE pattern text n hm n 0 (by omega) _
    (initBand_exact c2u E hE pattern text)
  have hex := alignLoop_exact c2u hc E hE pattern text n 0 _ s
    (initBand_exact c2u E hE pattern text) hs
  rw [Nat.zero_add] at hex
  obtain ⟨hle, _⟩ := BandedAlignPatternToText_of_loop c2u E pattern text n s hs
  have h1 := hle E (by omega)
  rw [hex.cells E (by omega), bandColumn_match c2u E pattern text n hm n (le_refl _)] at h1
  have h2 := BandedAlignPatternToText_nonneg c2u E pattern text n
  push_cast at h1
  omega

/-- The round trip on the text `[1, 2]` held at offset 1 of `[0, 1, 2, 3]`. -/
theorem exact_match_round_trip_witness :
    (BandedAlignPatternToText (fun x => x % 5) 1 [0, 1, 2, 3] [1, 2] 2).num_errors = 0 ∧
      BandedTraceback (fun x => x % 5) 1 0 [0, 1, 2, 3] [1, 2] 2 = ((1 : Nat) : Int) :=
  exact_match_round_trip (fun x => x % 5) (fun x => Nat.mod_lt x (by decide))
    1 (by decide) 2 (by decide) [0, 1, 2, 3] [1, 2] rfl rfl
    (by intro i hi; interval_cases i <;> rfl)

/-! ## Candidate verification -/

theorem updateCounters_mappings (e : Int) (st : VerifyState) :
    (updateCounters e st).mappings = st.mappings := by
  unfold updateCounters
  split
  · rfl
  · split
    · rfl
    · split <;> rfl

theorem updateCounters_with (e : Int) (st : VerifyState) (ms : List (Int × Nat)) :
    updateCounters e { st with mappings := ms } =
      { updateCounters e st with mappings := ms } := by
  unfold updateCounters
  simp only
  split
  · rfl
  · split
    · rfl
    · split <;> rfl

theorem foldCounters_with (errs : List Int) (st : VerifyState) (ms : List (Int × Nat)) :
    foldCounters errs { st with mappings := ms } =
      { foldCounters errs st with mappings := ms } := by
  induction errs generalizing st with
  | nil => rfl
  | cons e errs ih =>
      simp only [foldCounters, List.foldl_cons] at ih ⊢
      rw [updateCounters_with, ih]

theorem foldCounters_mappings (errs : List Int) (st : VerifyState) :
    (foldCounters errs st).mappings = st.mappings := by
  induction errs generalizing st with
  | nil => rfl
  | cons e errs ih =>
      simp only [foldCounters, List.foldl_cons] at ih ⊢
      rw [ih, updateCounters_mappings]

theorem foldCounters_append (a b : List Int) (st : VerifyState) :
    foldCounters (a ++ b) st = foldCounters b (foldCounters a st) := by
  simp [foldCounters, List.foldl_append]

theorem verifyOne_eq (c2u : Nat → Nat) (E : Nat) (d : Direction) (read : ReadRecord)
    (reference : Reference) (st : VerifyState) (c : Nat) :
    verifyOne c2u E d read reference st c =
      match acceptedAlignment c2u E d read reference c with
      | none => st
      | some a => { updateCounters a.1 st with mappings := st.mappings ++ [a] } := by
  unfold verifyOne acceptedAlignment
  simp only
  split
  · rfl
  · split
    · simp only [updateCounters_mappings]
    · rfl

/-- The loop of `VerifyCandidatesOnOneDirection` appends the accepted
alignments in candidate order and feeds their error counts to the counters. -/
theorem VerifyCandidatesOnOneDirection_eq (c2u : Nat → Nat) (E : Nat) (d : Direction)
    (read : ReadRecord) (reference : Reference) (candidates : List Nat) (st : VerifyState) :
    VerifyCandidatesOnOneDirection c2u E d read reference candidates st =
      { foldCounters ((candidates.filterMap (acceptedAlignment c2u E d read reference)).map
          Prod.fst) st with
        mappings := st.mappings ++
          candidates.filterMap (acceptedAlignment c2u E d read reference) } := by
  unfold VerifyCandidatesOnOneDirection
  induction candidates generalizing st with
  | nil =>
      simp [foldCounters]
  | cons c cs ih =>
      rw [List.foldl_cons, ih, verifyOne_eq]
      cases h : acceptedAlignment c2u E d read reference c with
      | none => simp [List.filterMap_cons, h]
      | some a =>
          simp only [List.filterMap_cons, h, List.map_cons, List.append_assoc,
            List.singleton_append]
          rw [foldCounters_with]
          simp [foldCounters]

theorem acceptedAlignment_range (c2u : Nat → Nat) (E : Nat) (d : Direction)
    (read : ReadRecord) (reference : Reference) (c : Nat) (a : Int × Nat)
    (h : acceptedAlignment c2u E d read reference c = some a) :
    0 ≤ a.1 ∧ a.1 ≤ (E : Int) := by
  unfold acceptedAlignment at h
  simp only at h
  split at h
  · exact absurd h (by simp)
  · split at h
    · rename_i hle
      simp only [Option.some.injEq] at h
      subst h
      exact ⟨BandedAlignPatternToText_nonneg _ _ _ _ _, hle⟩
    · exact absurd h (by simp)

/-- C4: every alignment that `VerifyCandidatesOnOneDirection` appends to the
mappings list has `0 ≤ num_errors ≤ E`; the appended alignments are those of
the candidates that pass the bounds test and whose aligner result is at most
`E`, so no candidate whose aligner result exceeds `E` is appended. -/
theorem VerifyCandidatesOnOneDirection_range (c2u : Nat → Nat) (E : Nat) (d : Direction)
    (read : ReadRecord) (reference : Reference) (candidates : List Nat) (st : VerifyState) :
    (VerifyCandidatesOnOneDirection c2u E d read reference candidates st).mappings =
        st.mappings ++ candidates.filterMap (acceptedAlignment c2u E d read reference) ∧
      ∀ a, a ∈ candidates.filterMap (acceptedAlignment c2u E d read reference) →
        0 ≤ a.1 ∧ a.1 ≤ (E : Int) := by
  refine ⟨by rw [VerifyCandidatesOnOneDirection_eq], ?_⟩
  intro a ha
  rw [List.mem_filterMap] at ha
  obtain ⟨c, _, hc⟩ := ha
  exact acceptedAlignment_range c2u E d read reference c a hc

theorem updateCounters_best (E : Nat) (seen : List Int) (st : VerifyState) (e : Int)
    (he : e ≤ (E : Int)) (h : BestInv E seen st) :
    BestInv E (seen ++ [e]) (updateCounters e st) := by
  obtain ⟨h1, h2, h3, h4⟩ := h
  have hmin : seen = [] ∨ st.min_num_errors ∈ seen := by
    by_cases hs : seen = []
    · exact Or.inl hs
    · exact Or.inr (h3 hs)
  unfold updateCounters
  by_cases c1 : e < st.min_num_errors
  · rw [if_pos c1]
    refine ⟨by simp, ?_, fun _ => by simp, ?_⟩
    · intro x hx
      rw [List.mem_append, List.mem_singleton] at hx
      rcases hx with hx | hx
      · exact le_of_lt (lt_of_lt_of_le c1 (h2 x hx))
      · exact le_of_eq hx.symm
    · have hnot : e ∉ seen := fun hm => absurd (h2 e hm) (not_le.mpr c1)
      show (1 : Int) = ((seen ++ [e]).count e : Int)
      rw [List.count_append, List.count_eq_zero_of_not_mem hnot]
      simp
  · rw [if_neg c1]
    have hne : seen ≠ [] := by
      intro hs
      have := h1 hs
      omega
    by_cases c2 : e = st.min_num_errors
    · rw [if_pos c2]
      refine ⟨by simp, ?_, fun _ => ?_, ?_⟩
      · intro x hx
        rw [List.mem_append, List.mem_singleton] at hx
        rcases hx with hx | hx
        · exact h2 x hx
        · show st.min_num_errors ≤ x
          omega
      · exact List.mem_append_left _ (h3 hne)
      · show st.num_best_mappings + 1 = ((seen ++ [e]).count st.min_num_errors : Int)
        rw [List.count_append, h4, c2]
        simp
    · rw [if_neg c2]
      have hcount : ((seen ++ [e]).count st.min_num_errors : Int) =
          (seen.count st.min_num_errors : Int) := by
        rw [List.count_append]
        have : [e].count st.min_num_errors = 0 := by
          rw [List.count_eq_zero]
          intro hm
          rw [List.mem_singleton] at hm
          exact c2 hm.symm
        rw [this]; simp
      have hall : ∀ x, x ∈ seen ++ [e] → st.min_num_errors ≤ x := by
        intro x hx
        rw [List.mem_append, List.mem_singleton] at hx
        rcases hx with hx | hx
        · exact h2 x hx
        · omega
      split
      · exact ⟨by simp, hall, fun _ => List.mem_append_left _ (h3 hne), by rw [hcount]; exact h4⟩
      · exact ⟨by simp, hall, fun _ => List.mem_append_left _ (h3 hne), by rw [hcount]; exact h4⟩

theorem foldCounters_best (E : Nat) (errs seen : List Int) (st : VerifyState)
    (he : ∀ e, e ∈ errs → e ≤ (E : Int)) (h : BestInv E seen st) :
    BestInv E (seen ++ errs) (foldCounters errs st) := by
  induction errs generalizing seen st with
  | nil => simpa [foldCounters] using h
  | cons e errs ih =>
      have := ih (seen ++ [e]) (updateCounters e st)
        (fun x hx => he x (List.mem_cons_of_mem _ hx))
        (updateCounters_best E seen st e (he e (List.mem_cons_self _ _)) h)
      simpa [foldCounters] using this

theorem initCounters_best (E : Nat) (ms : List (Int × Nat)) :
    BestInv E [] (initCounters E ms) :=
  ⟨fun _ => rfl, fun _ h => absurd h (List.not_mem_nil _), fun h => absurd rfl h, rfl⟩

/-- The outcome of `VerifyCandidates` in terms of the accepted alignments of
the two candidate lists. -/
theorem VerifyCandidates_eq (c2u : Nat → Nat) (E : Nat) (read : ReadRecord)
    (reference : Reference) (pc nc : List Nat) (pm nm : List (Int × Nat)) :
    (VerifyCandidates c2u E read reference pc nc pm nm).positive_mappings =
        pm ++ pc.filterMap (acceptedAlignment c2u E Direction.kPositive read reference) ∧
      (VerifyCandidates c2u E read reference pc nc pm nm).negative_mappings =
        nm ++ nc.filterMap (acceptedAlignment c2u E Direction.kNegative read reference) ∧
      ∃ st, st = foldCounters (appendedErrors c2u E read reference pc nc) (initCounters E pm) ∧
        (VerifyCandidates c2u E read reference pc nc pm nm).min_num_errors =
          st.min_num_errors ∧
        (VerifyCandidates c2u E read reference pc nc pm nm).num_best_mappings =
          st.num_best_mappings ∧
        (VerifyCandidates c2u E read reference pc nc pm nm).second_min_num_errors =
          st.second_min_num_errors ∧
        (VerifyCandidates c2u E read reference pc nc pm nm).num_second_best_mappings =
          st.num_second_best_mappings := by
  unfold VerifyCandidates appendedErrors
  simp only [VerifyCandidatesOnOneDirection_eq]
  refine ⟨trivial, trivial, _, rfl, ?_⟩
  rw [List.map_append, foldCounters_append]
  simp only [foldCounters_with]
  exact ⟨rfl, rfl, rfl, rfl⟩

theorem appendedErrors_le (c2u : Nat → Nat) (E : Nat) (read : ReadRecord)
    (reference : Reference) (pc nc : List Nat) (e : Int)
    (he : e ∈ appendedErrors c2u E read reference pc nc) : e ≤ (E : Int) := by
  unfold appendedErrors at he
  rw [List.mem_map] at he
  obtain ⟨x, hx, rfl⟩ := he
  rw [List.mem_append] at hx
  rcases hx with hx | hx
  · rw [List.mem_filterMap] at hx
    obtain ⟨c, _, hc⟩ := hx
    exact (acceptedAlignment_range _ _ _ _ _ c x hc).2
  · rw [List.mem_filterMap] at hx
    obtain ⟨c, _, hc⟩ := hx
    exact (acceptedAlignment_range _ _ _ _ _ c x hc).2

/-- C5: after `VerifyCandidates`, `min_num_errors` is the smallest error count
among the alignments appended to the positive and negative mappings lists
(`E + 1` when none was appended), and `num_best_mappings` is the number of
appended alignments with that error count. -/
theorem VerifyCandidates_best (c2u : Nat → Nat) (E : Nat) (read : ReadRecord)
    (reference : Reference) (pc nc : List Nat) (pm nm : List (Int × Nat)) :
    (VerifyCandidates c2u E read reference pc nc pm nm).positive_mappings =
        pm ++ pc.filterMap (acceptedAlignment c2u E Direction.kPositive read reference) ∧
      (VerifyCandidates c2u E read reference pc nc pm nm).negative_mappings =
        nm ++ nc.filterMap (acceptedAlignment c2u E Direction.kNegative read reference) ∧
      (appendedErrors c2u E read reference pc nc = [] →
        (VerifyCandidates c2u E read reference pc nc pm nm).min_num_errors = (E : Int) + 1) ∧
      (appendedErrors c2u E read reference pc nc ≠ [] →
        (VerifyCandidates c2u E read reference pc nc pm nm).min_num_errors ∈
          appendedErrors c2u E read reference pc nc) ∧
      (∀ e, e ∈ appendedErrors c2u E read reference pc nc →
        (VerifyCandidates c2u E read reference pc nc pm nm).min_num_errors ≤ e) ∧
      (VerifyCandidates c2u E read reference pc nc pm nm).num_best_mappings =
        ((appendedErrors c2u E read reference pc nc).count
          (VerifyCandidates c2u E read reference pc nc pm nm).min_num_errors : Int) := by
  obtain ⟨h1, h2, st, hst, a, b, _, _⟩ := VerifyCandidates_eq c2u E read reference pc nc pm nm
  have hb := foldCounters_best E (appendedErrors c2u E read reference pc nc) []
    (initCounters E pm) (appendedErrors_le c2u E read reference pc nc) (initCounters_best E pm)
  rw [List.nil_append, ← hst] at hb
  obtain ⟨b1, b2, b3, b4⟩ := hb
  rw [a, b]
  exact ⟨h1, h2, b1, b3, b2, b4⟩

/-! ## Candidate reduction -/

theorem mem_indexRange (lo hi j : Nat) : j ∈ indexRange lo hi ↔ lo ≤ j ∧ j < hi := by
  unfold indexRange
  rw [List.mem_range'_1]
  omega

theorem indexRange_empty (lo hi : Nat) (h : hi ≤ lo) : indexRange lo hi = [] := by
  unfold indexRange
  have : hi - lo = 0 := by omega
  rw [this]; rfl

theorem indexRange_cons (lo hi : Nat) (h : lo < hi) :
    indexRange lo hi = lo :: indexRange (lo + 1) hi := by
  unfold indexRange
  have : hi - lo = (hi - (lo + 1)) + 1 := by omega
  rw [this, List.range'_succ]

theorem indexRange_split (lo mid hi : Nat) (h1 : lo ≤ mid) (h2 : mid ≤ hi) :
    indexRange lo hi = indexRange lo mid ++ indexRange mid hi := by
  unfold indexRange
  have e : hi - lo = (hi - mid) + (mid - lo) := by omega
  rw [e, ← List.range'_append_1]
  have : lo + (mid - lo) = mid := by omega
  rw [this]

theorem range_eq_indexRange (n : Nat) : List.range n = indexRange 0 n := by
  unfold indexRange
  rw [List.range_eq_range']
  rfl

/-- What the inner loop of the reduction does: it stops at the first index
`e ≥ current_i2` whose candidate exceeds the bound and appends the candidates
with indices between `max current_i2 previous_end_i2` and `e`. -/
theorem reduceScan_spec (bound : Nat) (B : List Nat) (pe : Nat) (k cur : Nat) (f2 : List Nat)
    (hk : B.length - cur ≤ k) (hcur : cur ≤ B.length) :
    ∃ e, reduceScan bound B pe k cur f2 =
        (e, f2 ++ (indexRange (max cur pe) e).map (fun j => B.getD j 0)) ∧
      cur ≤ e ∧ e ≤ B.length ∧ (∀ j, cur ≤ j → j < e → B.getD j 0 ≤ bound) ∧
      (e < B.length → bound < B.getD e 0) := by
  induction k generalizing cur f2 with
  | zero =>
      refine ⟨cur, ?_, le_refl _, hcur, fun j h1 h2 => by omega, fun h => by omega⟩
      rw [indexRange_empty _ _ (le_max_left _ _)]
      simp [reduceScan]
  | succ k ih =>
      simp only [reduceScan]
      by_cases hc : cur < B.length ∧ B.getD cur 0 ≤ bound
      · rw [if_pos hc]
        obtain ⟨e, he, h1, h2, h3, h4⟩ := ih (cur + 1)
          (if cur ≥ pe then f2 ++ [B.getD cur 0] else f2) (by omega) (by omega)
        refine ⟨e, ?_, by omega, h2, ?_, h4⟩
        · rw [he]
          congr 1
          by_cases hp : cur ≥ pe
          · rw [if_pos hp, max_eq_left hp, max_eq_left (by omega : pe ≤ cur + 1),
              indexRange_cons cur e (by omega)]
            simp
          · rw [if_neg hp, max_eq_right (by omega : cur ≤ pe),
              max_eq_right (by omega : cur + 1 ≤ pe)]
        · intro j hj1 hj2
          by_cases hj : j = cur
          · subst hj; exact hc.2
          · exact h3 j (by omega) hj2
      · rw [if_neg hc]
        refine ⟨cur, ?_, le_refl _, hcur, fun j h1 h2 => by omega, ?_⟩
        · rw [indexRange_empty _ _ (le_max_left _ _)]
          simp
        · intro h
          by_contra hb
          exact hc ⟨h, by omega⟩

theorem filter_range_extend (q : Nat → Bool) (m n : Nat) (h : m ≤ n)
    (hq : ∀ i, m ≤ i → i < n → q i = false) :
    (List.range n).filter q = (List.range m).filter q := by
  rw [range_eq_indexRange n, range_eq_indexRange m, indexRange_split 0 m n (by omega) h,
    List.filter_append]
  have : (indexRange m n).filter q = [] := by
    rw [List.filter_eq_nil_iff]
    intro a ha
    rw [mem_indexRange] at ha
    rw [hq a ha.1 ha.2]
    simp
  rw [this, List.append_nil]

theorem filter_range_segment (q : Nat → Bool) (pe m e : Nat) (h1 : pe ≤ m) (h2 : pe ≤ e)
    (hf : ∀ j, pe ≤ j → j < m → j < e → q j = false)
    (ht : ∀ j, m ≤ j → j < e → q j = true) :
    (List.range e).filter q = (List.range pe).filter q ++ indexRange m e := by
  rw [range_eq_indexRange e, range_eq_indexRange pe, indexRange_split 0 pe e (by omega) h2,
    List.filter_append]
  congr 1
  by_cases hme : m ≤ e
  · rw [indexRange_split pe m e h1 hme, List.filter_append]
    have a : (indexRange pe m).filter q = [] := by
      rw [List.filter_eq_nil_iff]
      intro x hx
      rw [mem_indexRange] at hx
      rw [hf x hx.1 hx.2 (by omega)]
      simp
    have b : (indexRange m e).filter q = indexRange m e := by
      rw [List.filter_eq_self]
      intro x hx
      rw [mem_indexRange] at hx
      exact ht x hx.1 hx.2
    rw [a, b, List.nil_append]
  · rw [indexRange_empty m e (by omega), List.filter_eq_nil_iff]
    intro x hx
    rw [mem_indexRange] at hx
    rw [hf x hx.1 (by omega) hx.2]
    simp

theorem filter_range_succ_true (q : Nat → Bool) (n : Nat) (h : q n = true) :
    (List.range (n + 1)).filter q = (List.range n).filter q ++ [n] := by
  rw [List.range_succ, List.filter_append]
  simp [h]

/-- A list filter written over the indices of the list. -/
theorem filter_eq_range (l : List Nat) (p : Nat → Bool) :
    l.filter p =
      ((List.range l.length).filter (fun i => p (l.getD i 0))).map (fun i => l.getD i 0) := by
  induction l using List.reverseRecOn with
  | nil => rfl
  | append_singleton l a ih =>
      rw [List.filter_append, List.length_append, List.length_singleton, List.range_succ,
        List.filter_append, List.map_append, ih]
      have e1 : ∀ i, i ∈ List.range l.length → (l ++ [a]).getD i 0 = l.getD i 0 := by
        intro i hi
        rw [List.mem_range] at hi
        simp [List.getD_eq_getElem?_getD, List.getElem?_append_left hi]
      have e2 : (l ++ [a]).getD l.length 0 = a := by
        simp [List.getD_eq_getElem?_getD]
      congr 1
      · have f1 : (List.range l.length).filter (fun i => p ((l ++ [a]).getD i 0)) =
            (List.range l.length).filter (fun i => p (l.getD i 0)) := by
          apply List.filter_congr
          intro i hi
          rw [e1 i hi]
        rw [f1]
        apply List.map_congr_left
        intro i hi
        rw [List.mem_filter] at hi
        exact (e1 i hi.1).symm
      · by_cases hp : p a
        · simp [hp, e2]
        · simp [hp, e2]

theorem mate1Kept_iff (W : Nat) (B : List Nat) (c1 : Nat) :
    mate1Kept W B c1 = true ↔ ∃ j, j < B.length ∧ withinDistance W c1 (B.getD j 0) = true := by
  unfold mate1Kept
  rw [List.any_eq_true]
  constructor
  · rintro ⟨x, hx, h⟩
    obtain ⟨j, hj, rfl⟩ := List.mem_iff_getElem.mp hx
    exact ⟨j, hj, by simpa [List.getD_eq_getElem?_getD, hj] using h⟩
  · rintro ⟨j, hj, h⟩
    refine ⟨B[j], List.getElem_mem _, ?_⟩
    simpa [List.getD_eq_getElem?_getD, hj] using h

theorem mate2Kept_iff (W : Nat) (A : List Nat) (c2 : Nat) :
    mate2Kept W A c2 = true ↔ ∃ i, i < A.length ∧ withinDistance W (A.getD i 0) c2 = true := by
  unfold mate2Kept
  rw [List.any_eq_true]
  constructor
  · rintro ⟨x, hx, h⟩
    obtain ⟨j, hj, rfl⟩ := List.mem_iff_getElem.mp hx
    exact ⟨j, hj, by simpa [List.getD_eq_getElem?_getD, hj] using h⟩
  · rintro ⟨j, hj, h⟩
    refine ⟨A[j], List.getElem_mem _, ?_⟩
    simpa [List.getD_eq_getElem?_getD, hj] using h

theorem withinDistance_iff (W c1 c2 : Nat) :
    withinDistance W c1 c2 = true ↔ c1 ≤ c2 + W ∧ c2 ≤ c1 + W := by
  simp [withinDistance]

theorem withinDistance_false_iff (W c1 c2 : Nat) :
    withinDistance W c1 c2 = false ↔ c2 + W < c1 ∨ c1 + W < c2 := by
  rw [← Bool.not_eq_true, withinDistance_iff]
  omega

theorem mate1Kept_false_of (W : Nat) (A B : List Nat) (hB : Ascending B) (i1 i2 : Nat)
    (hsmall : ∀ j, j < i2 → B.getD j 0 + W < A.getD i1 0)
    (hbig : A.getD i1 0 + W < B.getD i2 0) (j : Nat) (hj : j < B.length) :
    withinDistance W (A.getD i1 0) (B.getD j 0) = false := by
  rw [withinDistance_false_iff]
  by_cases hji : j < i2
  · exact Or.inl (hsmall j hji)
  · have := hB i2 j (by omega) hj
    exact Or.inr (by omega)

theorem reduceLoop_inv (W : Nat) (A B f10 f20 : List Nat) (hA : Ascending A)
    (hB : Ascending B) (wA : NoWrap W A) (wB : NoWrap W B) (k : Nat) (st : ReduceState)
    (h : ReduceInv W A B f10 f20 st)
    (hk : (A.length - st.i1) + (B.length - st.i2) ≤ k) :
    ReduceInv W A B f10 f20 (reduceLoop W A B k st) ∧
      ¬ ((reduceLoop W A B k st).i1 < A.length ∧ (reduceLoop W A B k st).i2 < B.length) := by
  induction k generalizing st with
  | zero =>
      simp only [reduceLoop]
      exact ⟨h, fun hc => by omega⟩
  | succ k ih =>
      simp only [reduceLoop]
      by_cases hc : st.i1 < A.length ∧ st.i2 < B.length
      · rw [if_pos hc]
        obtain ⟨c1, c2⟩ := hc
        rw [Nat.mod_eq_of_lt (wB st.i2 c2), Nat.mod_eq_of_lt (wA st.i1 c1)]
        by_cases b1 : A.getD st.i1 0 > B.getD st.i2 0 + W
        · rw [if_pos b1]
          apply ih
          · refine ⟨h.i1_le, c2, h.pe_le, h.out1, h.out2, ?_, h.big, h.notbig⟩
            intro j i hj hi hin
            by_cases hj2 : j < st.i2
            · exact h.small j i hj2 hi hin
            · have e : j = st.i2 := by
                have : j < st.i2 + 1 := hj
                omega
              subst e
              have := hA st.i1 i hi hin
              omega
          · show (A.length - st.i1) + (B.length - (st.i2 + 1)) ≤ k
            omega
        · rw [if_neg b1]
          by_cases b2 : B.getD st.i2 0 > A.getD st.i1 0 + W
          · rw [if_pos b2]
            have hnone : ∀ j, j < B.length →
                withinDistance W (A.getD st.i1 0) (B.getD j 0) = false :=
              mate1Kept_false_of W A B hB st.i1 st.i2
                (fun j hj => h.small j st.i1 hj (le_refl _) c1) b2
            apply ih
            · refine ⟨c1, h.i2_le, h.pe_le, ?_, h.out2, ?_, ?_, ?_⟩
              · show st.filtered_candidates1 = f10 ++
                  ((List.range (st.i1 + 1)).filter
                    (fun i => mate1Kept W B (A.getD i 0))).map (fun i => A.getD i 0)
                rw [filter_range_extend _ st.i1 (st.i1 + 1) (by omega)]
                · exact h.out1
                · intro i hi1 hi2
                  have e : i = st.i1 := by omega
                  subst e
                  rw [← Bool.not_eq_true, mate1Kept_iff]
                  rintro ⟨j, hj, hw⟩
                  rw [hnone j hj] at hw
                  exact absurd hw (by simp)
              · intro j i hj hi hin
                exact h.small j i hj (by have : st.i1 + 1 ≤ i := hi; omega) hin
              · intro j i hj hjn hi
                by_cases hi2 : i < st.i1
                · exact h.big j i hj hjn hi2
                · have e : i = st.i1 := by
                    have : i < st.i1 + 1 := hi
                    omega
                  subst e
                  exact hnone j hjn
              · intro j i hj hi hin
                exact h.notbig j i hj (by have : st.i1 + 1 ≤ i := hi; omega) hin
            · show (A.length - (st.i1 + 1)) + (B.length - st.i2) ≤ k
              omega
          · rw [if_neg b2]
            obtain ⟨e, he, e1, e2, e3, e4⟩ := reduceScan_spec (A.getD st.i1 0 + W) B
              st.previous_end_i2 (B.length - st.i2) st.i2 st.filtered_candidates2
              (le_refl _) h.i2_le
            have hpe : st.previous_end_i2 ≤ e := by
              by_contra hlt
              have h1 := e4 (by have := h.pe_le; omega)
              have h2 := h.notbig e st.i1 (by omega) (le_refl _) c1
              omega
            simp only [he]
            apply ih
            · refine ⟨c1, h.i2_le, e2, ?_, ?_, ?_, ?_, ?_⟩
              · show st.filtered_candidates1 ++ [A.getD st.i1 0] = f10 ++
                  ((List.range (st.i1 + 1)).filter
                    (fun i => mate1Kept W B (A.getD i 0))).map (fun i => A.getD i 0)
                rw [filter_range_succ_true _ st.i1, List.map_append, ← List.append_assoc,
                  ← h.out1]
                · rfl
                · rw [mate1Kept_iff]
                  exact ⟨st.i2, c2, by rw [withinDistance_iff]; omega⟩
              · show st.filtered_candidates2 ++
                    (indexRange (max st.i2 st.previous_end_i2) e).map (fun j => B.getD j 0) =
                  f20 ++ ((List.range e).filter
                    (fun j => mate2Kept W A (B.getD j 0))).map (fun j => B.getD j 0)
                rw [filter_range_segment _ st.previous_end_i2 (max st.i2 st.previous_end_i2) e
                  (le_max_right _ _) hpe, List.map_append, ← List.append_assoc, ← h.out2]
                · intro j hj1 hj2 hj3
                  have hji : j < st.i2 := by
                    rcases Nat.lt_or_ge j st.i2 with x | x
                    · exact x
                    · have := max_le x hj1
                      omega
                  rw [← Bool.not_eq_true, mate2Kept_iff]
                  rintro ⟨i, hi, hw⟩
                  by_cases hi1 : i < st.i1
                  · rw [h.big j i hj1 (by omega) hi1] at hw
                    exact absurd hw (by simp)
                  · have := h.small j i hji (by omega) hi
                    rw [withinDistance_iff] at hw
                    omega
                · intro j hj1 hj2
                  have hji : st.i2 ≤ j := le_trans (le_max_left _ _) hj1
                  rw [mate2Kept_iff]
                  refine ⟨st.i1, c1, ?_⟩
                  rw [withinDistance_iff]
                  have := hB st.i2 j hji (by omega)
                  have := e3 j hji hj2
                  omega
              · intro j i hj hi hin
                exact h.small j i hj (by have : st.i1 + 1 ≤ i := hi; omega) hin
              · intro j i hj hjn hi
                have hj' : e ≤ j := hj
                have h1 := e4 (by omega)
                have h2 := hB e j hj' hjn
                have h3 := hA i st.i1 (by have : i < st.i1 + 1 := hi; omega) c1
                rw [withinDistance_false_iff]
                exact Or.inr (by omega)
              · intro j i hj hi hin
                have hj' : j < e := hj
                have hi' : st.i1 + 1 ≤ i := hi
                by_cases hji : j < st.i2
                · have := h.small j i hji (by omega) hin
                  omega
                · have h1 := e3 j (by omega) hj'
                  have h2 := hA st.i1 i (by omega) hin
                  omega
            · show (A.length - (st.i1 + 1)) + (B.length - st.i2) ≤ k
              omega
      · rw [if_neg hc]
        exact ⟨h, hc⟩

theorem ascending_of_sorted (l : List Nat) (h : List.Sorted (· ≤ ·) l) : Ascending l := by
  intro i j hij hj
  have hi : i < l.length := by omega
  have := h.rel_get_of_le (a := ⟨i, hi⟩) (b := ⟨j, hj⟩) hij
  simpa [List.getD_eq_getElem?_getD, hi, hj] using this

theorem noWrap_of_forall (W : Nat) (l : List Nat) (h : ∀ c, c ∈ l → c + W < U64) :
    NoWrap W l := by
  intro i hi
  have := h l[i] (List.getElem_mem _)
  simpa [List.getD_eq_getElem?_getD, hi] using this

/-- The two output vectors of the reduction on ascending lists without
wrap-around. -/
theorem ReduceCandidates_eq (W : Nat) (A B f1 f2 : List Nat)
    (hA : List.Sorted (· ≤ ·) A) (hB : List.Sorted (· ≤ ·) B)
    (wA : ∀ c, c ∈ A → c + W < U64) (wB : ∀ c, c ∈ B → c + W < U64) :
    ReduceCandidatesForPairedEndReadOnOneDirection W A B f1 f2 =
      (f1 ++ A.filter (mate1Kept W B), f2 ++ B.filter (mate2Kept W A)) := by
  have hA' := ascending_of_sorted A hA
  have hB' := ascending_of_sorted B hB
  have h0 : ReduceInv W A B f1 f2
      { i1 := 0, i2 := 0, previous_end_i2 := 0, filtered_candidates1 := f1,
        filtered_candidates2 := f2 } :=
    ⟨Nat.zero_le _, Nat.zero_le _, Nat.zero_le _, by simp, by simp,
      fun j i hj => absurd hj (Nat.not_lt_zero _),
      fun j i _ _ hi => absurd hi (Nat.not_lt_zero _),
      fun j i hj => absurd hj (Nat.not_lt_zero _)⟩
  obtain ⟨hinv, hexit⟩ := reduceLoop_inv W A B f1 f2 hA' hB' (noWrap_of_forall W A wA)
    (noWrap_of_forall W B wB) (A.length + B.length) _ h0 (by simp)
  unfold ReduceCandidatesForPairedEndReadOnOneDirection
  simp only
  rw [hinv.out1, hinv.out2, filter_eq_range A, filter_eq_range B]
  congr 3
  · refine (filter_range_extend _ _ _ hinv.i1_le ?_).symm
    intro i hi1 hi2
    rw [← Bool.not_eq_true, mate1Kept_iff]
    rintro ⟨j, hj, hw⟩
    have hi2' : ¬ (reduceLoop W A B (A.length + B.length)
        { i1 := 0, i2 := 0, previous_end_i2 := 0, filtered_candidates1 := f1,
          filtered_candidates2 := f2 }).i2 < B.length := fun x => hexit ⟨by omega, x⟩
    have := hinv.small j i (by omega) hi1 hi2
    rw [withinDistance_iff] at hw
    omega
  · refine (filter_range_extend _ _ _ hinv.pe_le ?_).symm
    intro j hj1 hj2
    rw [← Bool.not_eq_true, mate2Kept_iff]
    rintro ⟨i, hi, hw⟩
    by_cases hi1 : i < (reduceLoop W A B (A.length + B.length)
        { i1 := 0, i2 := 0, previous_end_i2 := 0, filtered_candidates1 := f1,
          filtered_candidates2 := f2 }).i1
    · rw [hinv.big j i hj1 hj2 hi1] at hw
      exact absurd hw (by simp)
    · have hi2' : ¬ (reduceLoop W A B (A.length + B.length)
          { i1 := 0, i2 := 0, previous_end_i2 := 0, filtered_candidates1 := f1,
            filtered_candidates2 := f2 }).i2 < B.length := fun x => hexit ⟨by omega, x⟩
      have := hinv.small j i (by omega) (by omega) hi
      rw [withinDistance_iff] at hw
      omega

/-- C7: for ascending candidate lists and no 64-bit wrap-around when `W` is
added, the reduction appends to `filtered_candidates1` exactly the elements
`c1` of `candidates1` for which some `c2` of `candidates2` has
`c1 - W ≤ c2 ≤ c1 + W` (written `c1 ≤ c2 + W` and `c2 ≤ c1 + W`), each once and
in their original order. -/
theorem ReduceCandidates_filtered1 (W : Nat) (candidates1 candidates2 f1 f2 : List Nat)
    (h1 : List.Sorted (· ≤ ·) candidates1) (h2 : List.Sorted (· ≤ ·) candidates2)
    (w1 : ∀ c, c ∈ candidates1 → c + W < U64) (w2 : ∀ c, c ∈ candidates2 → c + W < U64) :
    (ReduceCandidatesForPairedEndReadOnOneDirection W candidates1 candidates2 f1 f2).1 =
      f1 ++ candidates1.filter (fun c1 =>
        candidates2.any (fun c2 => decide (c1 ≤ c2 + W) && decide (c2 ≤ c1 + W))) := by
  rw [ReduceCandidates_eq W candidates1 candidates2 f1 f2 h1 h2 w1 w2]
  rfl

/-- The reduction of mate-1 candidates `[1, 10, 20]` against mate-2
candidates `[3, 30]` at distance 2 keeps `1` only. -/
theorem ReduceCandidates_filtered1_witness :
    (ReduceCandidatesForPairedEndReadOnOneDirection 2 [1, 10, 20] [3, 30] [] []).1 =
      [] ++ [1, 10, 20].filter (fun c1 =>
        [3, 30].any (fun c2 => decide (c1 ≤ c2 + 2) && decide (c2 ≤ c1 + 2))) :=
  ReduceCandidates_filtered1 2 [1, 10, 20] [3, 30] [] [] (by decide) (by decide)
    (by decide) (by decide)

/-- C8 as amended: for ascending candidate lists and no 64-bit wrap-around when
`W` is added, the reduction appends to `filtered_candidates2` exactly the
elements of `candidates2` within `W` of at least one element of `candidates1`,
each once and in their original order, and the appended runs of both output
vectors are ascending. -/
theorem ReduceCandidates_filtered2 (W : Nat) (candidates1 candidates2 f1 f2 : List Nat)
    (h1 : List.Sorted (· ≤ ·) candidates1) (h2 : List.Sorted (· ≤ ·) candidates2)
    (w1 : ∀ c, c ∈ candidates1 → c + W < U64) (w2 : ∀ c, c ∈ candidates2 → c + W < U64) :
    (ReduceCandidatesForPairedEndReadOnOneDirection W candidates1 candidates2 f1 f2).2 =
        f2 ++ candidates2.filter (fun c2 =>
          candidates1.any (fun c1 => decide (c1 ≤ c2 + W) && decide (c2 ≤ c1 + W))) ∧
      List.Sorted (· ≤ ·)
        (ReduceCandidatesForPairedEndReadOnOneDirection W candidates1 candidates2 [] []).2 ∧
      List.Sorted (· ≤ ·)
        (ReduceCandidatesForPairedEndReadOnOneDirection W candidates1 candidates2 [] []).1 := by
  rw [ReduceCandidates_eq W candidates1 candidates2 f1 f2 h1 h2 w1 w2,
    ReduceCandidates_eq W candidates1 candidates2 [] [] h1 h2 w1 w2]
  refine ⟨rfl, ?_, ?_⟩
  · simpa using h2.filter _
  · simpa using h1.filter _

/-- The reduction of mate-1 candidates `[1, 2, 20]` against mate-2 candidates
`[3, 30]` at distance 2 keeps the mate-2 candidate `3` once. -/
theorem ReduceCandidates_filtered2_witness :
    (ReduceCandidatesForPairedEndReadOnOneDirection 2 [1, 2, 20] [3, 30] [] []).2 =
        [] ++ [3, 30].filter (fun c2 =>
          [1, 2, 20].any (fun c1 => decide (c1 ≤ c2 + 2) && decide (c2 ≤ c1 + 2))) ∧
      List.Sorted (· ≤ ·)
        (ReduceCandidatesForPairedEndReadOnOneDirection 2 [1, 2, 20] [3, 30] [] []).2 ∧
      List.Sorted (· ≤ ·)
        (ReduceCandidatesForPairedEndReadOnOneDirection 2 [1, 2, 20] [3, 30] [] []).1 :=
  ReduceCandidates_filtered2 2 [1, 2, 20] [3, 30] [] [] (by decide) (by decide)
    (by decide) (by decide)

/-- C8 as stated fails when the addition of `W` wraps around `2^64`: the single
mate-2 candidate `2^64 - 1` is at distance 0 of the single mate-1 candidate
`2^64 - 1`, yet with `W = 1` the test `candidates1[i1] > candidates2[i2] + W`
compares against 0, skips it, and nothing is appended. -/
theorem ReduceCandidates_filtered2_wraps :
    (ReduceCandidatesForPairedEndReadOnOneDirection 1 [18446744073709551615]
        [18446744073709551615] [] []).2 = [] ∧
      [18446744073709551615].filter (fun c2 =>
        [18446744073709551615].any
          (fun c1 => decide (c1 ≤ c2 + 1) && decide (c2 ≤ c1 + 1))) =
        [18446744073709551615] := by
  decide

/-! ## Enumeration of paired alignments -/

theorem pairBody_enumerated (s : Int) (i1 cur : Nat) (o : PairOut) :
    (pairBody s i1 cur o).enumerated = o.enumerated ++ [(i1, cur)] := by
  unfold pairBody
  simp only
  split
  · rfl
  · split
    · rfl
    · split <;> rfl

theorem pairScan_enumerated (w : PairWindow) (m1 m2 : List (Int × Nat)) (i1 : Nat)
    (k cur : Nat) (o : PairOut) (hk : m2.length - cur ≤ k) (hcur : cur ≤ m2.length) :
    ∃ e, (pairScan w m1 m2 i1 k cur o).enumerated =
        o.enumerated ++ (indexRange cur e).map (fun j => (i1, j)) ∧
      cur ≤ e ∧ e ≤ m2.length ∧
      (∀ j, cur ≤ j → j < e →
        pairInReach w (m1.getD i1 (0, 0)).2 (m2.getD j (0, 0)).2 = true) ∧
      (e < m2.length → pairInReach w (m1.getD i1 (0, 0)).2 (m2.getD e (0, 0)).2 = false) := by
  induction k generalizing cur o with
  | zero =>
      refine ⟨cur, ?_, le_refl _, hcur, fun j h1 h2 => by omega, fun h => by omega⟩
      rw [indexRange_empty _ _ (le_refl _)]
      simp [pairScan]
  | succ k ih =>
      simp only [pairScan]
      by_cases hc : cur < m2.length ∧
          pairInReach w (m1.getD i1 (0, 0)).2 (m2.getD cur (0, 0)).2 = true
      · rw [if_pos hc]
        obtain ⟨e, he, h1, h2, h3, h4⟩ := ih (cur + 1)
          (pairBody ((m1.getD i1 (0, 0)).1 + (m2.getD cur (0, 0)).1) i1 cur o)
          (by omega) (by omega)
        refine ⟨e, ?_, by omega, h2, ?_, h4⟩
        · rw [he, pairBody_enumerated, indexRange_cons cur e (by omega)]
          simp
        · intro j hj1 hj2
          by_cases hj : j = cur
          · subst hj; exact hc.2
          · exact h3 j (by omega) hj2
      · rw [if_neg hc]
        refine ⟨cur, ?_, le_refl _, hcur, fun j h1 h2 => by omega, ?_⟩
        · rw [indexRange_empty _ _ (le_refl _)]
          simp
        · intro h
          by_contra hb
          exact hc ⟨h, by simpa using hb⟩

/-- The pairs that the outer loop enumerates from `(i1, i2)` on: those of the
rows `i1` and beyond that are neither too low nor too high. -/
theorem pairLoop_enumerated (w : PairWindow) (m1 m2 : List (Int × Nat))
    (H : WindowMonotone w m1 m2) (k i1 i2 : Nat) (o : PairOut)
    (hk : (m1.length - i1) + (m2.length - i2) ≤ k) (hi2 : i2 ≤ m2.length)
    (hsmall : ∀ j i, j < i2 → i1 ≤ i → i < m1.length →
      pairTooLow w (m1.getD i (0, 0)).2 (m2.getD j (0, 0)).2 = true)
    (x : Nat × Nat) :
    x ∈ (pairLoop w m1 m2 k i1 i2 o).enumerated ↔
      x ∈ o.enumerated ∨
        (i1 ≤ x.1 ∧ x.1 < m1.length ∧ x.2 < m2.length ∧
          pairTooLow w (m1.getD x.1 (0, 0)).2 (m2.getD x.2 (0, 0)).2 = false ∧
          pairTooHigh w (m1.getD x.1 (0, 0)).2 (m2.getD x.2 (0, 0)).2 = false) := by
  induction k generalizing i1 i2 o with
  | zero =>
      simp only [pairLoop]
      constructor
      · exact fun h => Or.inl h
      · rintro (h | ⟨h1, h2, _⟩)
        · exact h
        · omega
  | succ k ih =>
      simp only [pairLoop]
      by_cases hc : i1 < m1.length ∧ i2 < m2.length
      · rw [if_pos hc]
        obtain ⟨c1, c2⟩ := hc
        by_cases b1 : pairTooLow w (m1.getD i1 (0, 0)).2 (m2.getD i2 (0, 0)).2 = true
        · rw [if_pos b1]
          refine ih i1 (i2 + 1) o (by omega) (by omega) ?_
          intro j i hj hi hin
          by_cases hj2 : j < i2
          · exact hsmall j i hj2 hi hin
          · have e : j = i2 := by omega
            subst e
            exact H.low i1 i j j hi hin (le_refl _) c2 b1
        · rw [if_neg b1]
          have hrow : ∀ j, j < i2 →
              pairTooLow w (m1.getD i1 (0, 0)).2 (m2.getD j (0, 0)).2 = true :=
            fun j hj => hsmall j i1 hj (le_refl _) c1
          by_cases b2 : pairTooHigh w (m1.getD i1 (0, 0)).2 (m2.getD i2 (0, 0)).2 = true
          · rw [if_pos b2]
            rw [ih (i1 + 1) i2 o (by omega) hi2
              (fun j i hj hi hin => hsmall j i hj (by omega) hin)]
            constructor
            · rintro (h | ⟨h1, h2⟩)
              · exact Or.inl h
              · exact Or.inr ⟨by omega, h2⟩
            · rintro (h | ⟨h1, h2, h3, h4, h5⟩)
              · exact Or.inl h
              · by_cases hx : x.1 = i1
                · exfalso
                  rw [hx] at h4 h5
                  by_cases hj : x.2 < i2
                  · rw [hrow x.2 hj] at h4
                    exact absurd h4 (by simp)
                  · rw [H.high i1 i1 i2 x.2 (le_refl _) c1 (by omega) h3 b2] at h5
                    exact absurd h5 (by simp)
                · exact Or.inr ⟨by omega, h2, h3, h4, h5⟩
          · rw [if_neg b2]
            obtain ⟨e, he, e1, e2, e3, e4⟩ := pairScan_enumerated w m1 m2 i1
              (m2.length - i2) i2 o (le_refl _) hi2
            rw [ih (i1 + 1) i2 _ (by omega) hi2
              (fun j i hj hi hin => hsmall j i hj (by omega) hin), he, List.mem_append,
              List.mem_map]
            have b1' : pairTooLow w (m1.getD i1 (0, 0)).2 (m2.getD i2 (0, 0)).2 = false := by
              simpa using b1
            constructor
            · rintro ((h | ⟨j, hj, rfl⟩) | ⟨h1, h2⟩)
              · exact Or.inl h
              · rw [mem_indexRange] at hj
                refine Or.inr ⟨le_refl _, c1, by omega, ?_, ?_⟩
                · rw [← Bool.not_eq_true]
                  intro hl
                  have := H.low i1 i1 j i2 (le_refl _) c1 hj.1 (by omega) hl
                  exact b1 this
                · have := e3 j hj.1 hj.2
                  rw [H.reach i1 j c1 (by omega)] at this
                  simpa using this
              · exact Or.inr ⟨by omega, h2⟩
            · rintro (h | ⟨h1, h2, h3, h4, h5⟩)
              · exact Or.inl (Or.inl h)
              · by_cases hx : x.1 = i1
                · refine Or.inl (Or.inr ⟨x.2, ?_, ?_⟩)
                  · rw [hx] at h4 h5
                    rw [mem_indexRange]
                    constructor
                    · by_contra hlt
                      rw [hrow x.2 (by omega)] at h4
                      exact absurd h4 (by simp)
                    · by_contra hge
                      have hen : e < m2.length := by omega
                      have h6 := e4 hen
                      rw [H.reach i1 e c1 hen] at h6
                      have h7 : pairTooHigh w (m1.getD i1 (0, 0)).2 (m2.getD e (0, 0)).2 =
                          true := by simpa using h6
                      rw [H.high i1 i1 e x.2 (le_refl _) c1 (by omega) h3 h7] at h5
                      exact absurd h5 (by simp)
                  · rw [← hx]
                · exact Or.inr ⟨by omega, h2, h3, h4, h5⟩
      · rw [if_neg hc]
        constructor
        · exact fun h => Or.inl h
        · rintro (h | ⟨h1, h2, h3, h4, _⟩)
          · exact h
          · have : i2 = m2.length := by omega
            rw [hsmall x.2 x.1 (by omega) h1 h2] at h4
            exact absurd h4 (by simp)

theorem ascending_snd_of_sorted (l : List (Int × Nat))
    (h : List.Sorted (fun a b => a.2 ≤ b.2) l) (i j : Nat) (hij : i ≤ j) (hj : j < l.length) :
    (l.getD i (0, 0)).2 ≤ (l.getD j (0, 0)).2 := by
  have hi : i < l.length := by omega
  rcases Nat.lt_or_ge i j with hlt | hge
  · have := h.rel_get_of_lt (a := ⟨i, hi⟩) (b := ⟨j, hj⟩) hlt
    simpa [List.getD_eq_getElem?_getD, hi, hj] using this
  · have e : i = j := by omega
    subst e
    exact le_refl _

theorem getD_mem_pairs (l : List (Int × Nat)) (i : Nat) (hi : i < l.length) :
    l.getD i (0, 0) ∈ l := by
  have : l.getD i (0, 0) = l[i] := by simp [List.getD_eq_getElem?_getD, hi]
  rw [this]
  exact List.getElem_mem _

/-- In the FR arm without wrap-around the three tests of the loop are the
plain integer comparisons and are consistent with the order of the lists. -/
theorem windowMonotone_FR (w : PairWindow) (m1 m2 : List (Int × Nat))
    (hd : w.first_read_direction = Direction.kPositive)
    (s1 : List.Sorted (fun a b => a.2 ≤ b.2) m1) (s2 : List.Sorted (fun a b => a.2 ≤ b.2) m2)
    (w1 : ∀ m, m ∈ m1 → 0 ≤ (m.2 : Int) + w.max_insert_size - w.read2_length ∧
      (m.2 : Int) + w.max_insert_size - w.read2_length < (U64 : Int))
    (w2 : ∀ m, m ∈ m2 → 0 ≤ (m.2 : Int) + w.read2_length - w.min_overlap_length ∧
      (m.2 : Int) + w.read2_length - w.min_overlap_length < (U64 : Int)) :
    WindowMonotone w m1 m2 ∧
      (∀ i j, i < m1.length → j < m2.length →
        (pairTooLow w (m1.getD i (0, 0)).2 (m2.getD j (0, 0)).2 = false ↔
          ((m1.getD i (0, 0)).2 : Int) - ((w.read2_length : Int) - w.min_overlap_length) ≤
            ((m2.getD j (0, 0)).2 : Int))) ∧
      (∀ i j, i < m1.length → j < m2.length →
        (pairTooHigh w (m1.getD i (0, 0)).2 (m2.getD j (0, 0)).2 = false ↔
          ((m2.getD j (0, 0)).2 : Int) ≤
            ((m1.getD i (0, 0)).2 : Int) + ((w.max_insert_size : Int) - w.read2_length))) := by
  have hlow : ∀ i j, i < m1.length → j < m2.length →
      (pairTooLow w (m1.getD i (0, 0)).2 (m2.getD j (0, 0)).2 = true ↔
        ((m1.getD i (0, 0)).2 : Int) >
          ((m2.getD j (0, 0)).2 : Int) + w.read2_length - w.min_overlap_length) := by
    intro i j _ hj
    obtain ⟨a, b⟩ := w2 _ (getD_mem_pairs m2 j hj)
    unfold pairTooLow
    rw [hd, Int.emod_eq_of_lt a b]
    simp
  have hhigh : ∀ i j, i < m1.length → j < m2.length →
      (pairTooHigh w (m1.getD i (0, 0)).2 (m2.getD j (0, 0)).2 = true ↔
        ((m2.getD j (0, 0)).2 : Int) >
          ((m1.getD i (0, 0)).2 : Int) + w.max_insert_size - w.read2_length) := by
    intro i j hi _
    obtain ⟨a, b⟩ := w1 _ (getD_mem_pairs m1 i hi)
    unfold pairTooHigh
    rw [hd, Int.emod_eq_of_lt a b]
    simp
  have hreach : ∀ i j, i < m1.length → j < m2.length →
      (pairInReach w (m1.getD i (0, 0)).2 (m2.getD j (0, 0)).2 = true ↔
        ((m2.getD j (0, 0)).2 : Int) ≤
          ((m1.getD i (0, 0)).2 : Int) + w.max_insert_size - w.read2_length) := by
    intro i j hi _
    obtain ⟨a, b⟩ := w1 _ (getD_mem_pairs m1 i hi)
    unfold pairInReach
    rw [hd, Int.emod_eq_of_lt a b]
    simp
  refine ⟨⟨?_, ?_, ?_⟩, ?_, ?_⟩
  · intro i i' j j' hii hi' hjj hj h
    have hi : i < m1.length := by omega
    have hj' : j' < m2.length := by omega
    rw [hlow i j hi hj] at h
    rw [hlow i' j' hi' hj']
    have a1 := ascending_snd_of_sorted m1 s1 i i' hii hi'
    have a2 := ascending_snd_of_sorted m2 s2 j' j hjj hj
    omega
  · intro i i' j j' hii hi hjj hj' h
    have hi' : i' < m1.length := by omega
    have hj : j < m2.length := by omega
    rw [hhigh i j hi hj] at h
    rw [hhigh i' j' hi' hj']
    have a1 := ascending_snd_of_sorted m1 s1 i' i hii hi
    have a2 := ascending_snd_of_sorted m2 s2 j j' hjj hj'
    omega
  · intro i j hi hj
    have h1 := hreach i j hi hj
    have h2 := hhigh i j hi hj
    cases hr : pairInReach w (m1.getD i (0, 0)).2 (m2.getD j (0, 0)).2 <;>
      cases hh : pairTooHigh w (m1.getD i (0, 0)).2 (m2.getD j (0, 0)).2
    · rw [hr] at h1; rw [hh] at h2
      simp only [Bool.false_eq_true, false_iff] at h1 h2
      omega
    · rfl
    · rfl
    · rw [hr] at h1; rw [hh] at h2
      simp only [true_iff] at h1 h2
      omega
  · intro i j hi hj
    rw [← Bool.not_eq_true, hlow i j hi hj]
    omega
  · intro i j hi hj
    rw [← Bool.not_eq_true, hhigh i j hi hj]
    omega

/-- C9 as amended: in the FR arm (`first_read_direction = kPositive`), for two
mates of the same length, alignment lists sorted by end position and window
bounds that do not wrap around `2^64`, a pair of alignments with end positions
`p1` (mate 1) and `p2` (mate 2) is enumerated exactly when
`p1 - (read2_len - min_overlap) ≤ p2 ≤ p1 + (W - read1_len)`. -/
theorem GenerateBestMappings_FR_window (w : PairWindow) (mappings1 mappings2 : List (Int × Nat))
    (o : PairOut) (ho : o.enumerated = [])
    (hd : w.first_read_direction = Direction.kPositive)
    (hlen : w.read1_length = w.read2_length)
    (s1 : List.Sorted (fun a b => a.2 ≤ b.2) mappings1)
    (s2 : List.Sorted (fun a b => a.2 ≤ b.2) mappings2)
    (w1 : ∀ m, m ∈ mappings1 → 0 ≤ (m.2 : Int) + w.max_insert_size - w.read2_length ∧
      (m.2 : Int) + w.max_insert_size - w.read2_length < (U64 : Int))
    (w2 : ∀ m, m ∈ mappings2 → 0 ≤ (m.2 : Int) + w.read2_length - w.min_overlap_length ∧
      (m.2 : Int) + w.read2_length - w.min_overlap_length < (U64 : Int))
    (i1 i2 : Nat) :
    (i1, i2) ∈ (GenerateBestMappingsForPairedEndReadOnOneDirection w mappings1 mappings2
        o).enumerated ↔
      i1 < mappings1.length ∧ i2 < mappings2.length ∧
        ((mappings1.getD i1 (0, 0)).2 : Int) -
            ((w.read2_length : Int) - w.min_overlap_length) ≤
          ((mappings2.getD i2 (0, 0)).2 : Int) ∧
        ((mappings2.getD i2 (0, 0)).2 : Int) ≤
          ((mappings1.getD i1 (0, 0)).2 : Int) + ((w.max_insert_size : Int) - w.read1_length) := by
  obtain ⟨H, hl, hh⟩ := windowMonotone_FR w mappings1 mappings2 hd s1 s2 w1 w2
  unfold GenerateBestMappingsForPairedEndReadOnOneDirection
  rw [pairLoop_enumerated w mappings1 mappings2 H _ 0 0 o (by simp) (Nat.zero_le _)
    (fun j i hj => absurd hj (Nat.not_lt_zero _)) (i1, i2), ho, hlen]
  constructor
  · rintro (h | ⟨_, h2, h3, h4, h5⟩)
    · exact absurd h (List.not_mem_nil _)
    · exact ⟨h2, h3, (hl i1 i2 h2 h3).mp h4, (hh i1 i2 h2 h3).mp h5⟩
  · rintro ⟨h2, h3, h4, h5⟩
    exact Or.inr ⟨Nat.zero_le _, h2, h3, (hl i1 i2 h2 h3).mpr h4, (hh i1 i2 h2 h3).mpr h5⟩

/-- At `W = 400`, mates of 50 bases and `min_overlap = 30`, of the eight pairs
of the alignments of mate 1 ending at 1000 and 2000 and of mate 2 ending at
900, 1300, 2350 and 2351 the FR arm enumerates two: 1000 with 1300
(`980 ≤ 1300 ≤ 1350`) and 2000 with 2350 (`1980 ≤ 2350 ≤ 2350`); 2351 lies one
past the window of 2000 and is not enumerated. -/
theorem GenerateBestMappings_FR_window_witness :
    (GenerateBestMappingsForPairedEndReadOnOneDirection windowFR400 windowMappings1
        windowMappings2 pairOutInit).enumerated = [(0, 1), (1, 2)] ∧
      ((1, 2) ∈ (GenerateBestMappingsForPairedEndReadOnOneDirection windowFR400 windowMappings1
          windowMappings2 pairOutInit).enumerated ↔
        1 < windowMappings1.length ∧ 2 < windowMappings2.length ∧
          ((windowMappings1.getD 1 (0, 0)).2 : Int) -
              ((windowFR400.read2_length : Int) - windowFR400.min_overlap_length) ≤
            ((windowMappings2.getD 2 (0, 0)).2 : Int) ∧
          ((windowMappings2.getD 2 (0, 0)).2 : Int) ≤
            ((windowMappings1.getD 1 (0, 0)).2 : Int) +
              ((windowFR400.max_insert_size : Int) - windowFR400.read1_length)) ∧
      ((1, 3) ∈ (GenerateBestMappingsForPairedEndReadOnOneDirection windowFR400 windowMappings1
          windowMappings2 pairOutInit).enumerated ↔
        1 < windowMappings1.length ∧ 3 < windowMappings2.length ∧
          ((windowMappings1.getD 1 (0, 0)).2 : Int) -
              ((windowFR400.read2_length : Int) - windowFR400.min_overlap_length) ≤
            ((windowMappings2.getD 3 (0, 0)).2 : Int) ∧
          ((windowMappings2.getD 3 (0, 0)).2 : Int) ≤
            ((windowMappings1.getD 1 (0, 0)).2 : Int) +
              ((windowFR400.max_insert_size : Int) - windowFR400.read1_length)) :=
  ⟨by decide,
    GenerateBestMappings_FR_window windowFR400 windowMappings1 windowMappings2 pairOutInit rfl
      rfl rfl (by decide) (by decide) (by decide) (by decide) 1 2,
    GenerateBestMappings_FR_window windowFR400 windowMappings1 windowMappings2 pairOutInit rfl
      rfl rfl (by decide) (by decide) (by decide) (by decide) 1 3⟩

/-- C9 as stated fails: at `W = 400`, reads of 50 bases and `min_overlap = 30`,
the FR arm enumerates the pair with `p1 = 1000` and `p2 = 1300`, although
`p2 ≤ p1 + (read2_len - min_overlap) = 1020` does not hold; the stated window
is the mirror image of the one tested. For mates of different lengths (30 and
50 bases) the mirrored window is not the tested one either: the pair with
`p1 = 1000` and `p2 = 1360` lies in it (`980 ≤ 1360 ≤ 1000 + (400 - 30)`) and is
not enumerated, the upper test being `p2 ≤ p1 + W - read2_length`. -/
theorem GenerateBestMappings_FR_window_stated_fails :
    (0, 0) ∈ (GenerateBestMappingsForPairedEndReadOnOneDirection windowFR400 [(0, 1000)]
        [(0, 1300)] pairOutInit).enumerated ∧
      ¬ ((1000 : Int) - (400 - 50) ≤ 1300 ∧ (1300 : Int) ≤ 1000 + (50 - 30)) ∧
      (GenerateBestMappingsForPairedEndReadOnOneDirection windowFR400Short [(0, 1000)]
        [(0, 1360)] pairOutInit).enumerated = [] ∧
      ((1000 : Int) - (50 - 30) ≤ 1360 ∧ (1360 : Int) ≤ 1000 + (400 - 30)) := by
  decide

/-- C6, the code at a failing input: with `E = 1` the read `ACGT` is verified
at the positive candidates 1 (an exact match) and 7 (one mismatch). Both
alignments are appended, with 0 and 1 errors, yet `second_min_num_errors`
stays at `E + 1 = 2` and `num_second_best_mappings` at 0: the count 1, which
lies strictly between the minimum and the stored second minimum, updates
nothing. -/
theorem VerifyCandidates_second_best_missed :
    appendedErrors (fun x => x % 5) 1 readACGT referenceTwoHits [1, 7] [] = [0, 1] ∧
      (VerifyCandidates (fun x => x % 5) 1 readACGT referenceTwoHits [1, 7] [] [] []) =
        { positive_mappings := [(0, 4), (1, 9)], negative_mappings := [],
          min_num_errors := 0, num_best_mappings := 1,
          second_min_num_errors := 2, num_second_best_mappings := 0 } := by
  decide

/-! ## Emission of the best pairs -/

/-- C10, the code at a failing input: `max_insert_size_ = 10`, two mates of
six bases each. Mate 1 aligns to `[2, 9)` with one deleted base (1 error, end
position 8), mate 2 to `[7, 13)` without error (end position 12). The pair
passes the FR window (`12 ≤ 8 + 10 - 6`), the traceback puts the start of
mate 1 at 2, and the appended record has `fragment_length = 12 - 2 + 1 = 11`,
above `max_insert_size_`. A second pair with mates of six and four bases and
no error at all is emitted with `fragment_length = 12`. -/
theorem fragment_exceeds_insert_size :
    pairedEndRunFR indelReference indelRead1 indelRead2 [2] [12] =
        [{ read_id := 0, barcode := 0, fragment_start_position := 2, fragment_length := 11,
           mapq := 60, positive_alignment_length := 15, negative_alignment_length := 6 }] ∧
      pairedEndRunFR pairReference pairRead1 pairRead2 [2] [13] =
        [{ read_id := 0, barcode := 0, fragment_start_position := 2, fragment_length := 12,
           mapq := 60, positive_alignment_length := 13, negative_alignment_length := 4 }] ∧
      ¬ (∀ r, r ∈ pairedEndRunFR indelReference indelRead1 indelRead2 [2] [12] →
          r.fragment_length ≤ 10) := by
  decide

/-! ## Mapping quality and multi-mapped reads -/

/-- C19: for every `num_best_mappings ≥ 1` and every
`num_second_best_mappings`, the MAPQ that either selector assigns is below 30
exactly when `num_best_mappings > 1` and at least 30 exactly when
`num_best_mappings = 1`; so the test `mapq < 30` of `AllocateMultiMappings`
holds exactly for the reads with several best alignments. -/
theorem mapq_multi_iff (num_best_mappings num_second_best_mappings : Int)
    (h : 1 ≤ num_best_mappings) :
    (mapqPairedEnd num_best_mappings num_second_best_mappings < 30 ↔ 1 < num_best_mappings) ∧
      (30 ≤ mapqPairedEnd num_best_mappings num_second_best_mappings ↔
        num_best_mappings = 1) ∧
      (mapqSingleEnd num_best_mappings num_second_best_mappings < 30 ↔
        1 < num_best_mappings) ∧
      (30 ≤ mapqSingleEnd num_best_mappings num_second_best_mappings ↔
        num_best_mappings = 1) := by
  unfold mapqPairedEnd mapqSingleEnd
  by_cases h1 : num_best_mappings = 1
  · by_cases h2 : num_second_best_mappings = 0 <;> simp [h1, h2]
  · have h3 : 1 < num_best_mappings := by omega
    by_cases h4 : num_best_mappings < 5 <;> simp [h1, h3, h4]

theorem mapq_multi_iff_witness :
    (mapqPairedEnd 3 2 < 30 ↔ (1 : Int) < 3) ∧ (30 ≤ mapqPairedEnd 3 2 ↔ (3 : Int) = 1) ∧
      (mapqSingleEnd 3 2 < 30 ↔ (1 : Int) < 3) ∧ (30 ≤ mapqSingleEnd 3 2 ↔ (3 : Int) = 1) :=
  mapq_multi_iff 3 2 (by decide)

/-! ## The final output pass -/

theorem outputVectorLoop_eq (thr ri : Nat) (l : List PairedEndMapping) (out : List TagAlignLine) :
    outputVectorLoop thr ri l out =
      out ++ (l.filter fun it => decide (thr ≤ it.mapq)).map (tagAlignLine ri) := by
  induction l generalizing out with
  | nil => simp [outputVectorLoop]
  | cons it rest ih =>
      by_cases h : thr ≤ it.mapq
      · simp [outputVectorLoop, h, ih]
      · simp [outputVectorLoop, h, ih]

theorem outputReferenceLoop_eq (thr : Nat) (mappings : Nat → List PairedEndMapping)
    (k ri : Nat) (out : List TagAlignLine) :
    outputReferenceLoop thr mappings k ri out =
      out ++ (List.range' ri k).flatMap fun r =>
        ((mappings r).filter fun it => decide (thr ≤ it.mapq)).map (tagAlignLine r) := by
  induction k generalizing ri out with
  | zero => simp [outputReferenceLoop]
  | succ k ih =>
      simp [outputReferenceLoop, ih, outputVectorLoop_eq, List.range'_succ]

theorem OutputPairedEndMappingsInVector_eq (thr n : Nat)
    (mappings : Nat → List PairedEndMapping) (out : List TagAlignLine) :
    OutputPairedEndMappingsInVector thr n mappings out = out ++ emittedLines thr n mappings := by
  simp [OutputPairedEndMappingsInVector, outputReferenceLoop_eq, emittedLines,
    List.range_eq_range']

/-- C18, amended: `OutputPairedEndMappings` emits, reference by reference, the
lines of exactly the records of the mapping vectors whose MAPQ is at least the
threshold, where the threshold is 30 when `only_output_unique_mappings_` or
`allocate_multi_mappings_` is set and 0 otherwise; when
`allocate_multi_mappings_` is set and `only_output_unique_mappings_` is not,
the lines of all records of the allocated vectors follow; and when both flags
are set the output is the unique-only output, without any allocated record. -/
theorem OutputPairedEndMappings_threshold (allocate_multi_mappings
    only_output_unique_mappings : Bool) (n : Nat)
    (mappings allocated : Nat → List PairedEndMapping) :
    OutputPairedEndMappings allocate_multi_mappings only_output_unique_mappings n mappings
        allocated =
      emittedLines (if allocate_multi_mappings || only_output_unique_mappings then 30 else 0)
          n mappings ++
        (if allocate_multi_mappings && !only_output_unique_mappings then
          emittedLines 0 n allocated else []) ∧
      OutputPairedEndMappings true true n mappings allocated = emittedLines 30 n mappings ∧
      OutputPairedEndMappings true true n mappings allocated =
        OutputPairedEndMappings false true n mappings (fun _ => []) := by
  cases allocate_multi_mappings <;> cases only_output_unique_mappings <;>
    simp [OutputPairedEndMappings, OutputPairedEndMappingsInVector_eq]

/-- C18 as stated fails: with `allocate_multi_mappings_` set and
`only_output_unique_mappings_` not set, the threshold applied to the mapping
vectors is 30, not 0. The two records of `multiMappedPair` have MAPQ 5; the
pass emits none of them from the mapping vector and only the line of the
allocated record, while the threshold 0 would emit both. -/
theorem OutputPairedEndMappings_allocate_threshold :
    OutputPairedEndMappings true false 1 multiMappedPair multiMappedAllocated =
        [{ strand := 1, reference_id := 0, positive_read_start := 10, positive_read_end := 30,
           negative_read_start := 40, negative_read_end := 60 }] ∧
      emittedLines 0 1 multiMappedPair =
        [{ strand := 1, reference_id := 0, positive_read_start := 10, positive_read_end := 30,
           negative_read_start := 40, negative_read_end := 60 },
         { strand := 1, reference_id := 0, positive_read_start := 300,
           positive_read_end := 320, negative_read_start := 330, negative_read_end := 350 }] ∧
      OutputPairedEndMappings true false 1 multiMappedPair multiMappedAllocated ≠
        emittedLines 0 1 multiMappedPair ++ emittedLines 0 1 multiMappedAllocated := by
  decide

/-! ## The strand bit of `positive_alignment_length` -/

theorem packed_field (L b : Nat) (hL : L < 2 ^ 15) (hb : b ≤ 1) :
    (L * 2) % U16 ||| b = 2 * L + b := by
  have h1 : (L * 2) % U16 = 2 ^ 1 * L := by
    rw [U16]
    omega
  rw [h1, ← Nat.mul_add_lt_is_or (by omega : b < 2 ^ 1)]

theorem lor_one_and_one (x : Nat) : (x ||| 1) &&& 1 = 1 := by
  rw [Nat.and_one_is_mod, Nat.or_mod_two_eq_one]
  exact Or.inr rfl

theorem double_and_one (x : Nat) : ((x * 2) % U16) &&& 1 = 0 := by
  rw [Nat.and_one_is_mod, U16]
  omega

/-- C20: the strand bit round-trips. For every alignment length `L < 2^15` and
every bit `b`, a record whose 16-bit field `positive_alignment_length` is
`(L << 1) | b` is read back by `OutputPairedEndMappingsInVector` with
`strand = b` and with `positive_read_end = fragment_start_position + L`, that
is `f & 1 = b` and `f >> 1 = L`; and the record written by
`ProcessBestMappingsForPairedEndReadOnOneDirection` is read back with strand 1
in the `kPositive` arm and strand 0 in the `kNegative` arm. -/
theorem strand_bit_round_trip (L b : Nat) (hL : L < 2 ^ 15) (hb : b ≤ 1) (ri : Nat)
    (it : PairedEndMapping) (a : ProcessArgs) (i1 i2 : Nat) :
    ((L * 2) % U16 ||| b) &&& 1 = b ∧ ((L * 2) % U16 ||| b) >>> 1 = L ∧
      (tagAlignLine ri { it with positive_alignment_length := (L * 2) % U16 ||| b }).strand
        = b ∧
      (tagAlignLine ri
          { it with positive_alignment_length := (L * 2) % U16 ||| b }).positive_read_end
        = (it.fragment_start_position + L) % U32 ∧
      (tagAlignLine ri (pairedRecord a i1 i2).2).strand =
        (match a.first_read_direction with
          | Direction.kPositive => 1
          | Direction.kNegative => 0) := by
  have hf := packed_field L b hL hb
  have e1 : (2 * L + b) &&& 1 = b := by rw [Nat.and_one_is_mod]; omega
  have e2 : (2 * L + b) >>> 1 = L := by rw [Nat.shiftRight_eq_div_pow]; omega
  refine ⟨by rw [hf, e1], by rw [hf, e2], ?_, ?_, ?_⟩
  · simp only [tagAlignLine, hf, e1]
    omega
  · simp only [tagAlignLine, hf, e2]
    have : L % U16 = L := Nat.mod_eq_of_lt (by rw [U16]; omega)
    rw [this]
  · cases hd : a.first_read_direction
    · simp only [tagAlignLine, pairedRecord, hd, lor_one_and_one]
    · simp only [tagAlignLine, pairedRecord, hd, double_and_one]

theorem strand_bit_round_trip_witness :
    ((1000 * 2) % U16 ||| 1) &&& 1 = 1 ∧ ((1000 * 2) % U16 ||| 1) >>> 1 = 1000 ∧
      (tagAlignLine 0
          { strandRecord with positive_alignment_length := (1000 * 2) % U16 ||| 1 }).strand
        = 1 ∧
      (tagAlignLine 0
          { strandRecord with
            positive_alignment_length := (1000 * 2) % U16 ||| 1 }).positive_read_end
        = (strandRecord.fragment_start_position + 1000) % U32 ∧
      (tagAlignLine 0 (pairedRecord strandArgs 0 0).2).strand = 1 :=
  strand_bit_round_trip 1000 1 (by decide) (by decide) 0 strandRecord strandArgs 0 0

/-! ## Selection of the best mappings -/

theorem appendRecords_nil {α : Type} (buffers : Nat → List α) :
    appendRecords buffers [] = buffers := by
  funext rid
  simp [appendRecords]

theorem appendRecords_append {α : Type} (buffers : Nat → List α) (r1 r2 : List (Nat × α)) :
    appendRecords (appendRecords buffers r1) r2 = appendRecords buffers (r1 ++ r2) := by
  funext rid
  simp [appendRecords]

theorem appendRecords_single {α : Type} (buffers : Nat → List α) (r : Nat × α) :
    (fun rid => if rid = r.1 then buffers rid ++ [r.2] else buffers rid) =
      appendRecords buffers [r] := by
  funext rid
  by_cases h : rid = r.1
  · simp [appendRecords, h]
  · have h' : ¬ r.1 = rid := fun e => h e.symm
    simp [appendRecords, h, h']

theorem selectLoop_spec {α : Type} (best : α → Bool) (s : List Int) (T : Int)
    (hs : ∀ i j : Nat, i < j → (j : Int) < T → s.getD i 0 < s.getD j 0)
    (l : List α) (b r : Int) (taken : List α) (hr0 : 0 ≤ r) (hrT : r < T)
    (hb : b ≤ s.getD r.toNat 0) :
    ∃ picked : List α,
      (selectLoop best s T l b r taken).2.2 = taken ++ picked ∧
      picked.Sublist (l.filter best) ∧
      (selectLoop best s T l b r taken).2.1 = r + picked.length ∧
      ((selectLoop best s T l b r taken).2.1 = T ∨
        ((selectLoop best s T l b r taken).2.1 < T ∧
          (selectLoop best s T l b r taken).1 = b + (l.filter best).length ∧
          (selectLoop best s T l b r taken).1 ≤
            s.getD (selectLoop best s T l b r taken).2.1.toNat 0)) := by
  induction l generalizing b r taken with
  | nil =>
      refine ⟨[], ?_, List.Sublist.refl _, ?_, Or.inr ⟨?_, ?_, ?_⟩⟩
      · simp [selectLoop]
      · simp [selectLoop]
      · simpa [selectLoop] using hrT
      · simp [selectLoop]
      · simpa [selectLoop] using hb
  | cons x rest ih =>
      by_cases hx : best x = true
      · by_cases hbs : b = s.getD r.toNat 0
        · by_cases hT : r + 1 = T
          · refine ⟨[x], ?_, ?_, ?_, Or.inl ?_⟩
            · simp [selectLoop, hx, hbs, hT]
            · simp [hx]
            · simp [selectLoop, hx, hbs, hT]
            · simp [selectLoop, hx, hbs, hT]
          · have hlt : r + 1 < T := by omega
            have hnat : (r + 1).toNat = r.toNat + 1 := by omega
            have hstep : b + 1 ≤ s.getD (r + 1).toNat 0 := by
              have := hs r.toNat (r.toNat + 1) (by omega) (by omega)
              rw [hnat]
              omega
            obtain ⟨picked, h1, h2, h3, h4⟩ :=
              ih (b + 1) (r + 1) (taken ++ [x]) (by omega) hlt hstep
            have e : selectLoop best s T (x :: rest) b r taken =
                selectLoop best s T rest (b + 1) (r + 1) (taken ++ [x]) := by
              simp only [selectLoop, hx, if_true]
              rw [if_pos hbs, if_neg hT]
            rw [e]
            refine ⟨x :: picked, ?_, ?_, ?_, ?_⟩
            · rw [h1]
              simp
            · simp only [List.filter_cons, hx, if_true]
              exact List.Sublist.cons₂ x h2
            · rw [h3]
              simp only [List.length_cons]
              push_cast
              omega
            · rcases h4 with h4 | ⟨h4, h5, h6⟩
              · exact Or.inl h4
              · refine Or.inr ⟨h4, ?_, h6⟩
                rw [h5]
                simp only [List.filter_cons, hx, if_true, List.length_cons]
                push_cast
                omega
        · have hstep : b + 1 ≤ s.getD r.toNat 0 := by omega
          obtain ⟨picked, h1, h2, h3, h4⟩ := ih (b + 1) r taken hr0 hrT hstep
          have e : selectLoop best s T (x :: rest) b r taken =
              selectLoop best s T rest (b + 1) r taken := by
            simp only [selectLoop, hx, if_true]
            rw [if_neg hbs]
          rw [e]
          refine ⟨picked, h1, ?_, h3, ?_⟩
          · simp only [List.filter_cons, hx, if_true]
            exact List.Sublist.cons x h2
          · rcases h4 with h4 | ⟨h4, h5, h6⟩
            · exact Or.inl h4
            · refine Or.inr ⟨h4, ?_, h6⟩
              rw [h5]
              simp only [List.filter_cons, hx, if_true, List.length_cons]
              push_cast
              omega
      · have hx' : best x = false := by simpa using hx
        obtain ⟨picked, h1, h2, h3, h4⟩ := ih b r taken hr0 hrT hb
        have e : selectLoop best s T (x :: rest) b r taken =
            selectLoop best s T rest b r taken := by
          simp [selectLoop, hx']
        rw [e]
        refine ⟨picked, h1, ?_, h3, ?_⟩
        · simpa [List.filter_cons, hx'] using h2
        · simpa [List.filter_cons, hx'] using h4

theorem processLoop_select (a : ProcessArgs) (buffers : Nat → List PairedEndMapping)
    (l : List (Nat × Nat)) (b r : Int) (taken : List (Nat × Nat)) :
    processLoop a l
        { best_mapping_index := b, num_best_mappings_reported := r,
          mappings_on_diff_ref_seqs :=
            appendRecords buffers (taken.map fun e => pairedRecord a e.1 e.2) } =
      { best_mapping_index :=
          (selectLoop (fun e => decide (pairSumErrors a.mappings1 a.mappings2 e =
            a.min_sum_errors)) a.best_mapping_indices
            (min a.max_num_best_mappings a.num_best_mappings) l b r taken).1,
        num_best_mappings_reported :=
          (selectLoop (fun e => decide (pairSumErrors a.mappings1 a.mappings2 e =
            a.min_sum_errors)) a.best_mapping_indices
            (min a.max_num_best_mappings a.num_best_mappings) l b r taken).2.1,
        mappings_on_diff_ref_seqs :=
          appendRecords buffers
            ((selectLoop (fun e => decide (pairSumErrors a.mappings1 a.mappings2 e =
              a.min_sum_errors)) a.best_mapping_indices
              (min a.max_num_best_mappings a.num_best_mappings) l b r taken).2.2.map
              fun e => pairedRecord a e.1 e.2) } := by
  induction l generalizing b r taken with
  | nil => simp [processLoop, selectLoop]
  | cons x rest ih =>
      obtain ⟨i1, i2⟩ := x
      by_cases hx : pairSumErrors a.mappings1 a.mappings2 (i1, i2) = a.min_sum_errors
      · have hx' : (a.mappings1.getD i1 (0, 0)).1 + (a.mappings2.getD i2 (0, 0)).1 =
            a.min_sum_errors := hx
        by_cases hbs : b = a.best_mapping_indices.getD r.toNat 0
        · by_cases hT : r + 1 = min a.max_num_best_mappings a.num_best_mappings
          · simp only [processLoop, selectLoop, hx, hx', hT, if_true, decide_True]
            rw [if_pos hbs, if_pos hbs]
            simp only [appendRecords_single, appendRecords_append, List.map_append,
              List.map_cons, List.map_nil]
          · simp only [processLoop, selectLoop, hx, hx', if_true, decide_True]
            rw [if_pos hbs, if_pos hbs, if_neg hT, if_neg hT]
            simp only [appendRecords_single, appendRecords_append]
            have := ih (b + 1) (r + 1) (taken ++ [(i1, i2)])
            simp only [List.map_append, List.map_cons, List.map_nil] at this
            exact this
        · simp only [processLoop, selectLoop, hx, hx', if_true, decide_True]
          rw [if_neg hbs, if_neg hbs]
          exact ih (b + 1) r taken
      · have hx' : ¬ (a.mappings1.getD i1 (0, 0)).1 + (a.mappings2.getD i2 (0, 0)).1 =
            a.min_sum_errors := hx
        simp only [processLoop, selectLoop, hx, hx', if_false, decide_False]
        exact ih b r taken

theorem singleLoop_select (a : SingleArgs) (buffers : Nat → List SingleEndMapping)
    (l : List (Int × Nat)) (b r : Int) (taken : List (Int × Nat)) :
    singleLoop a l
        { best_mapping_index := b, num_best_mappings_reported := r,
          mappings_on_diff_ref_seqs := appendRecords buffers (taken.map (singleRecord a)) } =
      { best_mapping_index :=
          (selectLoop (fun m => decide (m.1 = a.min_num_errors)) a.best_mapping_indices
            (min a.max_num_best_mappings a.num_best_mappings) l b r taken).1,
        num_best_mappings_reported :=
          (selectLoop (fun m => decide (m.1 = a.min_num_errors)) a.best_mapping_indices
            (min a.max_num_best_mappings a.num_best_mappings) l b r taken).2.1,
        mappings_on_diff_ref_seqs :=
          appendRecords buffers
            ((selectLoop (fun m => decide (m.1 = a.min_num_errors)) a.best_mapping_indices
              (min a.max_num_best_mappings a.num_best_mappings) l b r taken).2.2.map
              (singleRecord a)) } := by
  induction l generalizing b r taken with
  | nil => simp [singleLoop, selectLoop]
  | cons x rest ih =>
      by_cases hx : x.1 = a.min_num_errors
      · by_cases hbs : b = a.best_mapping_indices.getD r.toNat 0
        · by_cases hT : r + 1 = min a.max_num_best_mappings a.num_best_mappings
          · simp only [singleLoop, selectLoop, hx, hT, if_true, decide_True]
            rw [if_pos hbs, if_pos hbs]
            simp only [appendRecords_single, appendRecords_append, List.map_append,
              List.map_cons, List.map_nil]
          · simp only [singleLoop, selectLoop, hx, if_true, decide_True]
            rw [if_pos hbs, if_pos hbs, if_neg hT, if_neg hT]
            simp only [appendRecords_single, appendRecords_append]
            have := ih (b + 1) (r + 1) (taken ++ [x])
            simp only [List.map_append, List.map_cons, List.map_nil] at this
            exact this
        · simp only [singleLoop, selectLoop, hx, if_true, decide_True]
          rw [if_neg hbs, if_neg hbs]
          exact ih (b + 1) r taken
      · simp only [singleLoop, selectLoop, hx, if_false, decide_False]
        exact ih b r taken

theorem pairBody_bestCount (others : List Int) (m1 m2 : List (Int × Nat)) (i1 i2 : Nat)
    (o : PairOut) (h : BestCount others m1 m2 o) :
    BestCount others m1 m2 (pairBody (pairSumErrors m1 m2 (i1, i2)) i1 i2 o) := by
  obtain ⟨h1, h2, h3⟩ := h
  unfold pairBody
  simp only []
  by_cases c1 : pairSumErrors m1 m2 (i1, i2) < o.min_sum_errors
  · rw [if_pos c1]
    refine ⟨fun s hs => ?_, fun e he => ?_, ?_⟩
    · have := h1 s hs
      simp only []
      omega
    · simp only [List.mem_append, List.mem_singleton] at he
      rcases he with he | he
      · have := h2 e he
        simp only []
        omega
      · rw [he]
    · have e1 : (others.filter fun s => decide (s = pairSumErrors m1 m2 (i1, i2))) = [] := by
        rw [List.filter_eq_nil_iff]
        intro s hs
        have := h1 s hs
        simp only [decide_eq_true_eq]
        omega
      have e2 : (o.best_mappings.filter fun e =>
          decide (pairSumErrors m1 m2 e = pairSumErrors m1 m2 (i1, i2))) = [] := by
        rw [List.filter_eq_nil_iff]
        intro e he
        have := h2 e he
        simp only [decide_eq_true_eq]
        omega
      simp only [List.filter_append, e1, e2]
      simp
  · rw [if_neg c1]
    by_cases c2 : pairSumErrors m1 m2 (i1, i2) = o.min_sum_errors
    · rw [if_pos c2]
      refine ⟨h1, fun e he => ?_, ?_⟩
      · simp only [List.mem_append, List.mem_singleton] at he
        rcases he with he | he
        · exact h2 e he
        · rw [he]
          simp only []
          omega
      · simp only [List.filter_append, h3]
        simp [c2]
        omega
    · rw [if_neg c2]
      by_cases c3 : pairSumErrors m1 m2 (i1, i2) = o.second_min_sum_errors
      · rw [if_pos c3]
        exact ⟨h1, h2, h3⟩
      · rw [if_neg c3]
        exact ⟨h1, h2, h3⟩

theorem pairScan_bestCount (others : List Int) (w : PairWindow) (m1 m2 : List (Int × Nat))
    (i1 k cur : Nat) (o : PairOut) (h : BestCount others m1 m2 o) :
    BestCount others m1 m2 (pairScan w m1 m2 i1 k cur o) := by
  induction k generalizing cur o with
  | zero => exact h
  | succ k ih =>
      unfold pairScan
      split
      · exact ih _ _ (pairBody_bestCount others m1 m2 i1 cur o h)
      · exact h

theorem pairLoop_bestCount (others : List Int) (w : PairWindow) (m1 m2 : List (Int × Nat))
    (k i1 i2 : Nat) (o : PairOut) (h : BestCount others m1 m2 o) :
    BestCount others m1 m2 (pairLoop w m1 m2 k i1 i2 o) := by
  induction k generalizing i1 i2 o with
  | zero => exact h
  | succ k ih =>
      unfold pairLoop
      split
      · split
        · exact ih _ _ _ h
        · split
          · exact ih _ _ _ h
          · exact ih _ _ _ (pairScan_bestCount others w m1 m2 i1 _ i2 o h)
      · exact h

theorem iotaIndices_getD (N : Int) (i : Nat) (h : i < N.toNat) :
    (iotaIndices N).getD i 0 = (i : Int) := by
  unfold iotaIndices
  rw [List.getD_eq_getElem _ _ (by simpa using h)]
  simp

theorem iotaIndices_inv (N : Int) : ReservoirInv N N.toNat (iotaIndices N) := by
  refine ⟨by simp [iotaIndices], ?_, ?_⟩
  · unfold iotaIndices
    exact List.Nodup.map (fun a b h => by simpa using h) (List.nodup_range _)
  · intro x hx
    unfold iotaIndices at hx
    simp only [List.mem_map, List.mem_range] at hx
    obtain ⟨a, ha, rfl⟩ := hx
    constructor
    · exact Int.ofNat_nonneg a
    · exact Int.ofNat_lt.mpr ha

theorem reservoirLoop_inv (N : Int) (draw : Nat → Nat) (k i : Nat) (idx : List Int)
    (h : ReservoirInv N i idx) : ReservoirInv N (i + k) (reservoirLoop N draw k i idx) := by
  induction k generalizing i idx with
  | zero => simpa [reservoirLoop] using h
  | succ k ih =>
      unfold reservoirLoop
      simp only []
      have hstep : ReservoirInv N (i + 1)
          (if (draw i : Int) < N then idx.set (draw i) (i : Int) else idx) := by
        obtain ⟨h1, h2, h3⟩ := h
        split
        · refine ⟨by simpa using h1, ?_, ?_⟩
          · apply List.Nodup.set h2
            intro hmem
            have := (h3 _ hmem).2
            omega
          · intro x hx
            rcases List.mem_or_eq_of_mem_set hx with hx | hx
            · have := h3 x hx
              constructor
              · exact this.1
              · push_cast
                omega
            · subst hx
              constructor
              · exact Int.ofNat_nonneg i
              · push_cast
                omega
        · refine ⟨h1, h2, fun x hx => ?_⟩
          have := h3 x hx
          constructor
          · exact this.1
          · push_cast
            omega
      have := ih (i + 1) _ hstep
      rw [show i + (k + 1) = i + 1 + k by omega]
      exact this

theorem sample_spec (N k : Int) (draw : Nat → Nat) (hN : 1 ≤ N) :
    (∀ i j : Nat, i < j → (j : Int) < min N k →
      (sampleBestMappingIndices N k draw).getD i 0 <
        (sampleBestMappingIndices N k draw).getD j 0) ∧
    (∀ i : Nat, (i : Int) < min N k →
      0 ≤ (sampleBestMappingIndices N k draw).getD i 0 ∧
        (sampleBestMappingIndices N k draw).getD i 0 < k) := by
  unfold sampleBestMappingIndices
  simp only []
  by_cases hk : k > N
  · rw [if_pos hk]
    have hinv := reservoirLoop_inv N draw (k - N).toNat N.toNat (iotaIndices N)
      (iotaIndices_inv N)
    have hsum : ((N.toNat + (k - N).toNat : Nat) : Int) = k := by omega
    obtain ⟨h1, h2, h3⟩ := hinv
    generalize reservoirLoop N draw (k - N).toNat N.toNat (iotaIndices N) = res at h1 h2 h3
    have hperm := List.perm_insertionSort (· ≤ ·) res
    have hsorted : List.Sorted (· < ·) (res.insertionSort (· ≤ ·)) :=
      (List.sorted_insertionSort (· ≤ ·) res).lt_of_le (hperm.nodup_iff.mpr h2)
    have hlen : (res.insertionSort (· ≤ ·)).length = N.toNat := by
      rw [hperm.length_eq, h1]
    have hmin : min N k = N := by omega
    rw [hmin]
    constructor
    · intro i j hij hj
      have hj' : j < (res.insertionSort (· ≤ ·)).length := by omega
      have hi' : i < (res.insertionSort (· ≤ ·)).length := by omega
      rw [List.getD_eq_getElem _ _ hi', List.getD_eq_getElem _ _ hj']
      exact List.Sorted.rel_get_of_lt hsorted (show (⟨i, hi'⟩ : Fin _) < ⟨j, hj'⟩ from hij)
    · intro i hi
      have hi' : i < (res.insertionSort (· ≤ ·)).length := by omega
      rw [List.getD_eq_getElem _ _ hi']
      have hmem : (res.insertionSort (· ≤ ·))[i] ∈ res :=
        hperm.mem_iff.mp (List.getElem_mem _)
      have := h3 _ hmem
      omega
  · rw [if_neg hk]
    have hmin : min N k = k := by omega
    rw [hmin]
    constructor
    · intro i j hij hj
      rw [iotaIndices_getD N i (by omega), iotaIndices_getD N j (by omega)]
      omega
    · intro i hi
      rw [iotaIndices_getD N i (by omega)]
      omega

theorem selectLoop_two {α : Type} (best1 best2 : α → Bool) (s : List Int) (T k : Int)
    (hT : 1 ≤ T)
    (hs : ∀ i j : Nat, i < j → (j : Int) < T → s.getD i 0 < s.getD j 0)
    (hv : ∀ i : Nat, (i : Int) < T → 0 ≤ s.getD i 0 ∧ s.getD i 0 < k)
    (l1 l2 : List α)
    (hk : k = ((l1.filter best1).length : Int) + ((l2.filter best2).length : Int)) :
    ∃ sel1 sel2 : List α,
      sel1.Sublist (l1.filter best1) ∧ sel2.Sublist (l2.filter best2) ∧
      ((sel1.length + sel2.length : Nat) : Int) = T ∧
      (selectLoop best1 s T l1 0 0 []).2.2 = sel1 ∧
      (if (selectLoop best1 s T l1 0 0 []).2.1 ≠ T then
        (selectLoop best2 s T l2 (selectLoop best1 s T l1 0 0 []).1
          (selectLoop best1 s T l1 0 0 []).2.1 []).2.2 = sel2
       else sel2 = []) := by
  obtain ⟨p1, a1, a2, a3, a4⟩ :=
    selectLoop_spec best1 s T hs l1 0 0 [] (le_refl 0) (by omega) (hv 0 (by omega)).1
  rcases a4 with a4 | ⟨a4, a5, a6⟩
  · refine ⟨p1, [], a2, List.nil_sublist _, ?_, by simpa using a1, ?_⟩
    · rw [a3] at a4
      simpa using a4
    · rw [if_neg (by simpa using a4)]
  · have hr0 : 0 ≤ (selectLoop best1 s T l1 0 0 []).2.1 := by
      rw [a3]
      omega
    obtain ⟨p2, b1, b2, b3, b4⟩ :=
      selectLoop_spec best2 s T hs l2 _ _ [] hr0 a4 a6
    refine ⟨p1, p2, a2, b2, ?_, by simpa using a1, ?_⟩
    · rcases b4 with b4 | ⟨b4, b5, b6⟩
      · rw [b3, a3] at b4
        push_cast
        omega
      · exfalso
        generalize selectLoop best2 s T l2 (selectLoop best1 s T l1 0 0 []).1
          (selectLoop best1 s T l1 0 0 []).2.1 [] = t2 at b3 b4 b5 b6
        have hr2 : 0 ≤ t2.2.1 := by
          rw [b3]
          omega
        have := (hv t2.2.1.toNat (by omega)).2
        omega
    · rw [if_pos (by omega)]
      simpa using b1

theorem generate_bestCount (p : SelectorParams) (read1 read2 : ReadRecord)
    (pos1 neg1 pos2 neg2 : List (Int × Nat)) :
    (generateF2R1 p read1 read2 neg1 pos2 [] (generateF1R2 p read1 read2 pos1 neg2 [])
        ).num_best_mappings =
      (((generateF1R2 p read1 read2 pos1 neg2 []).best_mappings.filter fun e =>
          decide (pairSumErrors pos1 neg2 e =
            (generateF2R1 p read1 read2 neg1 pos2 []
              (generateF1R2 p read1 read2 pos1 neg2 [])).min_sum_errors)).length : Int) +
        (((generateF2R1 p read1 read2 neg1 pos2 []
            (generateF1R2 p read1 read2 pos1 neg2 [])).best_mappings.filter fun e =>
          decide (pairSumErrors neg1 pos2 e =
            (generateF2R1 p read1 read2 neg1 pos2 []
              (generateF1R2 p read1 read2 pos1 neg2 [])).min_sum_errors)).length : Int) := by
  have hf : BestCount [] pos1 neg2 (generateF1R2 p read1 read2 pos1 neg2 []) := by
    unfold generateF1R2 GenerateBestMappingsForPairedEndReadOnOneDirection
    apply pairLoop_bestCount
    refine ⟨fun s hs => ?_, fun e he => ?_, ?_⟩
    · simp at hs
    · simp at he
    · simp
  have hr : BestCount ((generateF1R2 p read1 read2 pos1 neg2 []).best_mappings.map
      (pairSumErrors pos1 neg2)) neg1 pos2
      (generateF2R1 p read1 read2 neg1 pos2 [] (generateF1R2 p read1 read2 pos1 neg2 [])) := by
    unfold generateF2R1 GenerateBestMappingsForPairedEndReadOnOneDirection
    apply pairLoop_bestCount
    obtain ⟨_, h2, h3⟩ := hf
    refine ⟨fun s hs => ?_, fun e he => ?_, ?_⟩
    · simp only [List.mem_map] at hs
      obtain ⟨e, he, rfl⟩ := hs
      exact h2 e he
    · simp at he
    · simp only [List.filter_map, List.length_map, List.filter_nil, List.length_nil]
      rw [h3]
      simp only [List.filter_nil, List.length_nil, Nat.cast_zero, zero_add, add_zero]
      rfl
  obtain ⟨_, _, h3⟩ := hr
  rw [h3]
  simp only [List.filter_map, List.length_map]
  rfl

theorem paired_selection (p : SelectorParams) (draw : Nat → Nat) (read1 read2 : ReadRecord)
    (reference : Reference) (pos1 neg1 pos2 neg2 : List (Int × Nat))
    (buffers : Nat → List PairedEndMapping) (f r : PairOut)
    (hf : f = generateF1R2 p read1 read2 pos1 neg2 [])
    (hr : r = generateF2R1 p read1 read2 neg1 pos2 [] f)
    (hN : 1 ≤ p.max_num_best_mappings) (hk : 1 ≤ r.num_best_mappings)
    (hd : r.num_best_mappings ≤ p.drop_repetitive_reads) :
    ∃ sel1 sel2 : List (Nat × Nat),
      sel1.Sublist (f.best_mappings.filter fun e =>
        decide (pairSumErrors pos1 neg2 e = r.min_sum_errors)) ∧
      sel2.Sublist (r.best_mappings.filter fun e =>
        decide (pairSumErrors neg1 pos2 e = r.min_sum_errors)) ∧
      ((sel1.length + sel2.length : Nat) : Int) =
        min p.max_num_best_mappings r.num_best_mappings ∧
      (GenerateBestMappingsForPairedEndRead p draw read1 read2 reference pos1 neg1 pos2 neg2
          [] [] buffers).mappings_on_diff_ref_seqs =
        appendRecords buffers
          ((sel1.map fun e => pairedRecord
              (pairedArgs p Direction.kPositive read1 read2 reference pos1 neg2
                (mapqPairedEnd r.num_best_mappings r.num_second_best_mappings)
                (sampleBestMappingIndices p.max_num_best_mappings r.num_best_mappings draw)
                r.min_sum_errors r.num_best_mappings) e.1 e.2) ++
            (sel2.map fun e => pairedRecord
              (pairedArgs p Direction.kNegative read1 read2 reference neg1 pos2
                (mapqPairedEnd r.num_best_mappings r.num_second_best_mappings)
                (sampleBestMappingIndices p.max_num_best_mappings r.num_best_mappings draw)
                r.min_sum_errors r.num_best_mappings) e.1 e.2)) := by
  have hcount := generate_bestCount p read1 read2 pos1 neg1 pos2 neg2
  rw [← hf, ← hr] at hcount
  obtain ⟨hs, hv⟩ := sample_spec p.max_num_best_mappings r.num_best_mappings draw hN
  obtain ⟨sel1, sel2, s1, s2, s3, s4, s5⟩ :=
    selectLoop_two (fun e => decide (pairSumErrors pos1 neg2 e = r.min_sum_errors))
      (fun e => decide (pairSumErrors neg1 pos2 e = r.min_sum_errors))
      (sampleBestMappingIndices p.max_num_best_mappings r.num_best_mappings draw)
      (min p.max_num_best_mappings r.num_best_mappings) r.num_best_mappings (by omega)
      hs hv f.best_mappings r.best_mappings hcount
  refine ⟨sel1, sel2, s1, s2, s3, ?_⟩
  have e1 := processLoop_select
    (pairedArgs p Direction.kPositive read1 read2 reference pos1 neg2
      (mapqPairedEnd r.num_best_mappings r.num_second_best_mappings)
      (sampleBestMappingIndices p.max_num_best_mappings r.num_best_mappings draw)
      r.min_sum_errors r.num_best_mappings) buffers f.best_mappings 0 0 []
  simp only [List.map_nil, appendRecords_nil] at e1
  unfold GenerateBestMappingsForPairedEndRead
  simp only [ProcessBestMappingsForPairedEndReadOnOneDirection]
  rw [← hf, ← hr, if_pos hd, e1]
  simp only [pairedArgs] at s4 s5 ⊢
  by_cases hstop : (selectLoop (fun e => decide (pairSumErrors pos1 neg2 e = r.min_sum_errors))
      (sampleBestMappingIndices p.max_num_best_mappings r.num_best_mappings draw)
      (min p.max_num_best_mappings r.num_best_mappings) f.best_mappings 0 0 []).2.1 =
      min p.max_num_best_mappings r.num_best_mappings
  · rw [if_neg (by simpa using hstop)]
    rw [if_neg (by simpa using hstop)] at s5
    rw [s4, s5]
    simp
  · rw [if_pos hstop]
    rw [if_pos hstop] at s5
    have e2 := processLoop_select
      (pairedArgs p Direction.kNegative read1 read2 reference neg1 pos2
        (mapqPairedEnd r.num_best_mappings r.num_second_best_mappings)
        (sampleBestMappingIndices p.max_num_best_mappings r.num_best_mappings draw)
        r.min_sum_errors r.num_best_mappings)
      (appendRecords buffers (sel1.map fun e => pairedRecord
        (pairedArgs p Direction.kPositive read1 read2 reference pos1 neg2
          (mapqPairedEnd r.num_best_mappings r.num_second_best_mappings)
          (sampleBestMappingIndices p.max_num_best_mappings r.num_best_mappings draw)
          r.min_sum_errors r.num_best_mappings) e.1 e.2))
      r.best_mappings
      (selectLoop (fun e => decide (pairSumErrors pos1 neg2 e = r.min_sum_errors))
        (sampleBestMappingIndices p.max_num_best_mappings r.num_best_mappings draw)
        (min p.max_num_best_mappings r.num_best_mappings) f.best_mappings 0 0 []).1
      (selectLoop (fun e => decide (pairSumErrors pos1 neg2 e = r.min_sum_errors))
        (sampleBestMappingIndices p.max_num_best_mappings r.num_best_mappings draw)
        (min p.max_num_best_mappings r.num_best_mappings) f.best_mappings 0 0 []).2.1 []
    simp only [List.map_nil, appendRecords_nil, pairedArgs] at e2
    rw [s4, e2, s5, appendRecords_append]

theorem single_selection (p : SelectorParams) (draw : Nat → Nat)
    (min_num_errors num_best_mappings num_second_best_mappings : Int) (read : ReadRecord)
    (reference : Reference) (positive_mappings negative_mappings : List (Int × Nat))
    (buffers : Nat → List SingleEndMapping)
    (hN : 1 ≤ p.max_num_best_mappings) (hk : 1 ≤ num_best_mappings)
    (hcount : num_best_mappings =
      ((positive_mappings.filter fun m => decide (m.1 = min_num_errors)).length : Int) +
        ((negative_mappings.filter fun m => decide (m.1 = min_num_errors)).length : Int)) :
    ∃ sel1 sel2 : List (Int × Nat),
      sel1.Sublist (positive_mappings.filter fun m => decide (m.1 = min_num_errors)) ∧
      sel2.Sublist (negative_mappings.filter fun m => decide (m.1 = min_num_errors)) ∧
      ((sel1.length + sel2.length : Nat) : Int) =
        min p.max_num_best_mappings num_best_mappings ∧
      GenerateBestMappingsForSingleEndRead p draw min_num_errors num_best_mappings
          num_second_best_mappings read reference positive_mappings negative_mappings buffers =
        appendRecords buffers
          (sel1.map (singleRecord
              (singleArgs p Direction.kPositive read reference
                (mapqSingleEnd num_best_mappings num_second_best_mappings)
                (sampleBestMappingIndices p.max_num_best_mappings num_best_mappings draw)
                min_num_errors num_best_mappings)) ++
            sel2.map (singleRecord
              (singleArgs p Direction.kNegative read reference
                (mapqSingleEnd num_best_mappings num_second_best_mappings)
                (sampleBestMappingIndices p.max_num_best_mappings num_best_mappings draw)
                min_num_errors num_best_mappings))) := by
  obtain ⟨hs, hv⟩ := sample_spec p.max_num_best_mappings num_best_mappings draw hN
  obtain ⟨sel1, sel2, s1, s2, s3, s4, s5⟩ :=
    selectLoop_two (fun m : Int × Nat => decide (m.1 = min_num_errors))
      (fun m : Int × Nat => decide (m.1 = min_num_errors))
      (sampleBestMappingIndices p.max_num_best_mappings num_best_mappings draw)
      (min p.max_num_best_mappings num_best_mappings) num_best_mappings (by omega)
      hs hv positive_mappings negative_mappings hcount
  refine ⟨sel1, sel2, s1, s2, s3, ?_⟩
  have e1 := singleLoop_select
    (singleArgs p Direction.kPositive read reference
      (mapqSingleEnd num_best_mappings num_second_best_mappings)
      (sampleBestMappingIndices p.max_num_best_mappings num_best_mappings draw)
      min_num_errors num_best_mappings) buffers positive_mappings 0 0 []
  simp only [List.map_nil, appendRecords_nil] at e1
  unfold GenerateBestMappingsForSingleEndRead
  simp only [ProcessBestMappingsForSingleEndRead]
  rw [e1, min_comm num_best_mappings p.max_num_best_mappings]
  simp only [singleArgs] at s4 s5 ⊢
  by_cases hstop : (selectLoop (fun m : Int × Nat => decide (m.1 = min_num_errors))
      (sampleBestMappingIndices p.max_num_best_mappings num_best_mappings draw)
      (min p.max_num_best_mappings num_best_mappings) positive_mappings 0 0 []).2.1 =
      min p.max_num_best_mappings num_best_mappings
  · rw [if_neg (by simpa using hstop)]
    rw [if_neg (by simpa using hstop)] at s5
    rw [s4, s5]
    simp
  · rw [if_pos hstop]
    rw [if_pos hstop] at s5
    have e2 := singleLoop_select
      (singleArgs p Direction.kNegative read reference
        (mapqSingleEnd num_best_mappings num_second_best_mappings)
        (sampleBestMappingIndices p.max_num_best_mappings num_best_mappings draw)
        min_num_errors num_best_mappings)
      (appendRecords buffers (sel1.map (singleRecord
        (singleArgs p Direction.kPositive read reference
          (mapqSingleEnd num_best_mappings num_second_best_mappings)
          (sampleBestMappingIndices p.max_num_best_mappings num_best_mappings draw)
          min_num_errors num_best_mappings))))
      negative_mappings
      (selectLoop (fun m : Int × Nat => decide (m.1 = min_num_errors))
        (sampleBestMappingIndices p.max_num_best_mappings num_best_mappings draw)
        (min p.max_num_best_mappings num_best_mappings) positive_mappings 0 0 []).1
      (selectLoop (fun m : Int × Nat => decide (m.1 = min_num_errors))
        (sampleBestMappingIndices p.max_num_best_mappings num_best_mappings draw)
        (min p.max_num_best_mappings num_best_mappings) positive_mappings 0 0 []).2.1 []
    simp only [List.map_nil, appendRecords_nil, singleArgs] at e2
    rw [s4, e2, s5, appendRecords_append]

/-- C12: for every read pair with `k = num_best_mappings ≥ 1` best pairs, cap
`N = max_num_best_mappings_ ≥ 1` and `k ≤ drop_repetitive_reads_`, and for every
sequence of draws, `GenerateBestMappingsForPairedEndRead` (called with the two
vectors of best pairs cleared) appends exactly `min(N, k)` records to the
buffers: the records of a subsequence of the best F1R2 pairs followed by those
of a subsequence of the best F2R1 pairs, so each record belongs to a distinct
best pair, and `k` is the number of best pairs. For every single-end read whose
`k ≥ 1` is the number of alignments with `min_num_errors` errors,
`GenerateBestMappingsForSingleEndRead` likewise appends exactly `min(N, k)`
records, those of distinct best alignments, positive ones first. -/
theorem selectors_append_min (p : SelectorParams) (draw : Nat → Nat)
    (read1 read2 : ReadRecord) (reference : Reference)
    (positive_mappings1 negative_mappings1 positive_mappings2 negative_mappings2 :
      List (Int × Nat))
    (buffers : Nat → List PairedEndMapping)
    (min_num_errors num_best_mappings num_second_best_mappings : Int) (read : ReadRecord)
    (positive_mappings negative_mappings : List (Int × Nat))
    (single_buffers : Nat → List SingleEndMapping)
    (hN : 1 ≤ p.max_num_best_mappings)
    (hk : 1 ≤ (GenerateBestMappingsForPairedEndRead p draw read1 read2 reference
      positive_mappings1 negative_mappings1 positive_mappings2 negative_mappings2 [] []
      buffers).num_best_mappings)
    (hd : (GenerateBestMappingsForPairedEndRead p draw read1 read2 reference
      positive_mappings1 negative_mappings1 positive_mappings2 negative_mappings2 [] []
      buffers).num_best_mappings ≤ p.drop_repetitive_reads)
    (hk1 : 1 ≤ num_best_mappings)
    (hcount : num_best_mappings =
      (((positive_mappings ++ negative_mappings).filter fun m =>
        decide (m.1 = min_num_errors)).length : Int)) :
    (∃ sel1 sel2 : List (Nat × Nat),
      sel1.Sublist ((GenerateBestMappingsForPairedEndRead p draw read1 read2 reference
        positive_mappings1 negative_mappings1 positive_mappings2 negative_mappings2 [] []
        buffers).F1R2_best_mappings.filter fun e =>
          decide (pairSumErrors positive_mappings1 negative_mappings2 e =
            (GenerateBestMappingsForPairedEndRead p draw read1 read2 reference
              positive_mappings1 negative_mappings1 positive_mappings2 negative_mappings2 [] []
              buffers).min_sum_errors)) ∧
      sel2.Sublist ((GenerateBestMappingsForPairedEndRead p draw read1 read2 reference
        positive_mappings1 negative_mappings1 positive_mappings2 negative_mappings2 [] []
        buffers).F2R1_best_mappings.filter fun e =>
          decide (pairSumErrors negative_mappings1 positive_mappings2 e =
            (GenerateBestMappingsForPairedEndRead p draw read1 read2 reference
              positive_mappings1 negative_mappings1 positive_mappings2 negative_mappings2 [] []
              buffers).min_sum_errors)) ∧
      (GenerateBestMappingsForPairedEndRead p draw read1 read2 reference
          positive_mappings1 negative_mappings1 positive_mappings2 negative_mappings2 [] []
          buffers).num_best_mappings =
        (((GenerateBestMappingsForPairedEndRead p draw read1 read2 reference
          positive_mappings1 negative_mappings1 positive_mappings2 negative_mappings2 [] []
          buffers).F1R2_best_mappings.filter fun e =>
            decide (pairSumErrors positive_mappings1 negative_mappings2 e =
              (GenerateBestMappingsForPairedEndRead p draw read1 read2 reference
                positive_mappings1 negative_mappings1 positive_mappings2 negative_mappings2
                [] [] buffers).min_sum_errors)).length : Int) +
          (((GenerateBestMappingsForPairedEndRead p draw read1 read2 reference
            positive_mappings1 negative_mappings1 positive_mappings2 negative_mappings2 [] []
            buffers).F2R1_best_mappings.filter fun e =>
              decide (pairSumErrors negative_mappings1 positive_mappings2 e =
                (GenerateBestMappingsForPairedEndRead p draw read1 read2 reference
                  positive_mappings1 negative_mappings1 positive_mappings2
                  negative_mappings2 [] [] buffers).min_sum_errors)).length : Int) ∧
      ((sel1.length + sel2.length : Nat) : Int) =
        min p.max_num_best_mappings
          (GenerateBestMappingsForPairedEndRead p draw read1 read2 reference
            positive_mappings1 negative_mappings1 positive_mappings2 negative_mappings2 [] []
            buffers).num_best_mappings ∧
      (GenerateBestMappingsForPairedEndRead p draw read1 read2 reference
          positive_mappings1 negative_mappings1 positive_mappings2 negative_mappings2 [] []
          buffers).mappings_on_diff_ref_seqs =
        appendRecords buffers
          ((sel1.map fun e => pairedRecord
              (pairedArgs p Direction.kPositive read1 read2 reference positive_mappings1
                negative_mappings2
                (mapqPairedEnd
                  (GenerateBestMappingsForPairedEndRead p draw read1 read2 reference
                    positive_mappings1 negative_mappings1 positive_mappings2
                    negative_mappings2 [] [] buffers).num_best_mappings
                  (GenerateBestMappingsForPairedEndRead p draw read1 read2 reference
                    positive_mappings1 negative_mappings1 positive_mappings2
                    negative_mappings2 [] [] buffers).num_second_best_mappings)
                (sampleBestMappingIndices p.max_num_best_mappings
                  (GenerateBestMappingsForPairedEndRead p draw read1 read2 reference
                    positive_mappings1 negative_mappings1 positive_mappings2
                    negative_mappings2 [] [] buffers).num_best_mappings draw)
                (GenerateBestMappingsForPairedEndRead p draw read1 read2 reference
                  positive_mappings1 negative_mappings1 positive_mappings2
                  negative_mappings2 [] [] buffers).min_sum_errors
                (GenerateBestMappingsForPairedEndRead p draw read1 read2 reference
                  positive_mappings1 negative_mappings1 positive_mappings2
                  negative_mappings2 [] [] buffers).num_best_mappings) e.1 e.2) ++
            (sel2.map fun e => pairedRecord
              (pairedArgs p Direction.kNegative read1 read2 reference negative_mappings1
                positive_mappings2
                (mapqPairedEnd
                  (GenerateBestMappingsForPairedEndRead p draw read1 read2 reference
                    positive_mappings1 negative_mappings1 positive_mappings2
                    negative_mappings2 [] [] buffers).num_best_mappings
                  (GenerateBestMappingsForPairedEndRead p draw read1 read2 reference
                    positive_mappings1 negative_mappings1 positive_mappings2
                    negative_mappings2 [] [] buffers).num_second_best_mappings)
                (sampleBestMappingIndices p.max_num_best_mappings
                  (GenerateBestMappingsForPairedEndRead p draw read1 read2 reference
                    positive_mappings1 negative_mappings1 positive_mappings2
                    negative_mappings2 [] [] buffers).num_best_mappings draw)
                (GenerateBestMappingsForPairedEndRead p draw read1 read2 reference
                  positive_mappings1 negative_mappings1 positive_mappings2
                  negative_mappings2 [] [] buffers).min_sum_errors
                (GenerateBestMappingsForPairedEndRead p draw read1 read2 reference
                  positive_mappings1 negative_mappings1 positive_mappings2
                  negative_mappings2 [] [] buffers).num_best_mappings) e.1 e.2))) ∧
    (∃ sel1 sel2 : List (Int × Nat),
      sel1.Sublist (positive_mappings.filter fun m => decide (m.1 = min_num_errors)) ∧
      sel2.Sublist (negative_mappings.filter fun m => decide (m.1 = min_num_errors)) ∧
      ((sel1.length + sel2.length : Nat) : Int) =
        min p.max_num_best_mappings num_best_mappings ∧
      GenerateBestMappingsForSingleEndRead p draw min_num_errors num_best_mappings
          num_second_best_mappings read reference positive_mappings negative_mappings
          single_buffers =
        appendRecords single_buffers
          (sel1.map (singleRecord
              (singleArgs p Direction.kPositive read reference
                (mapqSingleEnd num_best_mappings num_second_best_mappings)
                (sampleBestMappingIndices p.max_num_best_mappings num_best_mappings draw)
                min_num_errors num_best_mappings)) ++
            sel2.map (singleRecord
              (singleArgs p Direction.kNegative read reference
                (mapqSingleEnd num_best_mappings num_second_best_mappings)
                (sampleBestMappingIndices p.max_num_best_mappings num_best_mappings draw)
                min_num_errors num_best_mappings)))) := by
  refine ⟨?_, ?_⟩
  · obtain ⟨sel1, sel2, h1, h2, h3, h4⟩ :=
      paired_selection p draw read1 read2 reference positive_mappings1 negative_mappings1
        positive_mappings2 negative_mappings2 buffers _ _ rfl rfl hN hk hd
    exact ⟨sel1, sel2, h1, h2,
      generate_bestCount p read1 read2 positive_mappings1 negative_mappings1
        positive_mappings2 negative_mappings2, h3, h4⟩
  · apply single_selection p draw min_num_errors num_best_mappings num_second_best_mappings
      read reference positive_mappings negative_mappings single_buffers hN hk1
    rw [hcount, List.filter_append, List.length_append]
    push_cast
    rfl

theorem selectors_append_min_witness :
    (GenerateBestMappingsForPairedEndRead capParams (fun i => i % 13) capRead capRead
        capReference [(0, 1000)] [] [] capMappings [] [] (fun _ => [])).num_best_mappings
        = 20 ∧
      (∃ recs : List (Nat × PairedEndMapping), recs.length = 10 ∧
        (GenerateBestMappingsForPairedEndRead capParams (fun i => i % 13) capRead capRead
          capReference [(0, 1000)] [] [] capMappings [] []
          (fun _ => [])).mappings_on_diff_ref_seqs = appendRecords (fun _ => []) recs) ∧
      (∃ recs : List (Nat × SingleEndMapping), recs.length = 10 ∧
        GenerateBestMappingsForSingleEndRead capParams (fun i => i % 13) 0 20 0 capRead
          capReference capMappings [] (fun _ => []) = appendRecords (fun _ => []) recs) := by
  have h20 : (GenerateBestMappingsForPairedEndRead capParams (fun i => i % 13) capRead capRead
      capReference [(0, 1000)] [] [] capMappings [] [] (fun _ => [])).num_best_mappings
      = 20 := by decide
  obtain ⟨⟨s1, s2, _, _, _, hlen, hbuf⟩, ⟨t1, t2, _, _, hlen2, hbuf2⟩⟩ :=
    selectors_append_min capParams (fun i => i % 13) capRead capRead capReference
      [(0, 1000)] [] [] capMappings (fun _ => []) 0 20 0 capRead capMappings []
      (fun _ => []) (by decide) (by decide) (by decide) (by decide) (by decide)
  refine ⟨h20, ⟨_, ?_, hbuf⟩, ⟨_, ?_, hbuf2⟩⟩
  · rw [h20] at hlen
    simp only [List.length_append, List.length_map]
    have : min capParams.max_num_best_mappings 20 = 10 := by decide
    omega
  · simp only [List.length_append, List.length_map]
    have : min capParams.max_num_best_mappings 20 = 10 := by decide
    omega

/-- C13: for every read pair whose `num_best_mappings` exceeds
`drop_repetitive_reads_`, `GenerateBestMappingsForPairedEndRead` leaves the
per-reference mapping buffers exactly as they were. -/
theorem repetitive_pair_dropped (p : SelectorParams) (draw : Nat → Nat)
    (read1 read2 : ReadRecord) (reference : Reference)
    (positive_mappings1 negative_mappings1 positive_mappings2 negative_mappings2 :
      List (Int × Nat))
    (F1R2_best_mappings F2R1_best_mappings : List (Nat × Nat))
    (buffers : Nat → List PairedEndMapping)
    (h : p.drop_repetitive_reads <
      (GenerateBestMappingsForPairedEndRead p draw read1 read2 reference positive_mappings1
        negative_mappings1 positive_mappings2 negative_mappings2 F1R2_best_mappings
        F2R1_best_mappings buffers).num_best_mappings) :
    (GenerateBestMappingsForPairedEndRead p draw read1 read2 reference positive_mappings1
      negative_mappings1 positive_mappings2 negative_mappings2 F1R2_best_mappings
      F2R1_best_mappings buffers).mappings_on_diff_ref_seqs = buffers := by
  unfold GenerateBestMappingsForPairedEndRead at h ⊢
  simp only [] at h ⊢
  rw [if_neg (by omega)]

theorem repetitive_pair_dropped_witness :
    dropParams.drop_repetitive_reads <
        (GenerateBestMappingsForPairedEndRead dropParams (fun i => i % 13) capRead capRead
          capReference [(0, 1000)] [] [] capMappings [] []
          (fun _ => [])).num_best_mappings ∧
      (GenerateBestMappingsForPairedEndRead dropParams (fun i => i % 13) capRead capRead
        capReference [(0, 1000)] [] [] capMappings [] []
        (fun _ => [])).mappings_on_diff_ref_seqs = fun _ => [] :=
  ⟨by decide,
    repetitive_pair_dropped dropParams (fun i => i % 13) capRead capRead capReference
      [(0, 1000)] [] [] capMappings [] [] (fun _ => []) (by decide)⟩

/-! ## Extent of the emitted records -/

/-- C11, the code at a failing input: `error_threshold_ = 1`,
`max_insert_size_ = 10`, `min_read_length_ = 2`, a reference of 20 bases, mate 1
of three bases and mate 2 of seven. `VerifyCandidates` aligns mate 1 without
error at `[11, 14)` (end position 13) and the reverse complement of mate 2 at
`[2, 9)` (end position 8), upstream of mate 1. The FR arm accepts the pair
(`13 ≤ 8 + 7 - 2` and `8 ≤ 13 + 10 - 7`), and the record is emitted with
`fragment_start_position = 11` and the 16-bit
`fragment_length = 8 - 11 + 1 mod 2^16 = 65534`: start plus length is 65545,
beyond the reference length 20. -/
theorem fragment_past_reference_end :
    (VerifyCandidates (fun x => x % 5) 1 upstreamRead1 upstreamReference [11] [] [] []
        ).positive_mappings = [(0, 13)] ∧
      (VerifyCandidates (fun x => x % 5) 1 upstreamRead2 upstreamReference [] [8] [] []
        ).negative_mappings = [(0, 8)] ∧
      pairedEndRunFR upstreamReference upstreamRead1 upstreamRead2 [11] [8] =
        [{ read_id := 0, barcode := 0, fragment_start_position := 11,
           fragment_length := 65534, mapq := 60, positive_alignment_length := 7,
           negative_alignment_length := 7 }] ∧
      (upstreamReference 0).length = 20 ∧
      ¬ (∀ r, r ∈ pairedEndRunFR upstreamReference upstreamRead1 upstreamRead2 [11] [8] →
          r.fragment_start_position + r.fragment_length ≤ (upstreamReference 0).length) := by
  decide

/-! ## Removal of PCR duplicates -/

theorem sortLoop_apply {α : Type} (sort : List α → List α) (k lo : Nat)
    (mappings : Nat → List α) (ri : Nat) :
    sortLoop sort k lo mappings ri =
      if lo ≤ ri ∧ ri < lo + k then sort (mappings ri) else mappings ri := by
  induction k generalizing lo mappings with
  | zero =>
      rw [if_neg (by omega)]
      rfl
  | succ k ih =>
      unfold sortLoop
      rw [ih]
      by_cases h : ri = lo
      · subst h
        rw [if_neg (by omega), if_pos (by omega), Function.update_same]
      · rw [Function.update_noteq h]
        by_cases h2 : lo + 1 ≤ ri ∧ ri < lo + 1 + k
        · rw [if_pos h2, if_pos (by omega)]
        · rw [if_neg h2, if_neg (by omega)]

theorem dedupeReferenceLoop_apply {α : Type} (eq : α → α → Bool) (k lo : Nat)
    (st : DedupeState α) (ri : Nat) :
    (dedupeReferenceLoop eq k lo st).deduped_mappings_on_diff_ref_seqs ri =
      if lo ≤ ri ∧ ri < lo + k then
        st.deduped_mappings_on_diff_ref_seqs ri ++ dedupeVector eq (st.mappings_on_diff_ref_seqs ri)
      else st.deduped_mappings_on_diff_ref_seqs ri := by
  induction k generalizing lo st with
  | zero =>
      rw [if_neg (by omega)]
      rfl
  | succ k ih =>
      unfold dedupeReferenceLoop
      rw [ih]
      by_cases h : ri = lo
      · subst h
        rw [if_neg (by omega), if_pos (by omega)]
        cases hm : st.mappings_on_diff_ref_seqs ri with
        | nil => simp [dedupeVector]
        | cons front rest => simp [dedupeVector]
      · have hu : ∀ (f : Nat → List α) (v : List α), Function.update f lo v ri = f ri :=
          fun f v => Function.update_noteq h v f
        by_cases h2 : lo + 1 ≤ ri ∧ ri < lo + 1 + k
        · rw [if_pos h2, if_pos (by omega)]
          cases hm : st.mappings_on_diff_ref_seqs lo with
          | nil => rfl
          | cons front rest => simp only [hu]
        · rw [if_neg h2, if_neg (by omega)]
          cases hm : st.mappings_on_diff_ref_seqs lo with
          | nil => rfl
          | cons front rest => simp only [hu]

theorem RemovePCRDuplicate_deduped {α : Type} (eq : α → α → Bool) (sort : List α → List α)
    (n : Nat) (mappings : Nat → List α) (ri : Nat) :
    (RemovePCRDuplicate eq sort n
        { mappings_on_diff_ref_seqs := mappings,
          deduped_mappings_on_diff_ref_seqs := fun _ => [] }).deduped_mappings_on_diff_ref_seqs
        ri =
      if ri < n then dedupeVector eq (sort (mappings ri)) else [] := by
  unfold RemovePCRDuplicate
  rw [dedupeReferenceLoop_apply]
  simp only [sortLoop_apply, Nat.zero_le, true_and, Nat.zero_add, List.nil_append]
  by_cases h : ri < n
  · rw [if_pos h, if_pos h, if_pos h]
  · rw [if_neg h, if_neg h]

theorem dedupeLoop_sublist {α : Type} (eq : α → α → Bool) (last : α) (rest : List α) :
    (dedupeLoop eq last rest).Sublist rest := by
  induction rest generalizing last with
  | nil => exact List.Sublist.refl _
  | cons it rest ih =>
      unfold dedupeLoop
      split
      · exact List.Sublist.cons₂ it (ih it)
      · exact List.Sublist.cons it (ih last)

theorem dedupeVector_sublist {α : Type} (eq : α → α → Bool) (s : List α) :
    (dedupeVector eq s).Sublist s := by
  cases s with
  | nil => exact List.Sublist.refl _
  | cons front rest => exact List.Sublist.cons₂ front (dedupeLoop_sublist eq front rest)

theorem dedupeLoop_chain {α : Type} (eq : α → α → Bool) (last : α) (rest : List α) :
    List.Chain (fun a b => eq b a = false) last (dedupeLoop eq last rest) := by
  induction rest generalizing last with
  | nil => exact List.Chain.nil
  | cons it rest ih =>
      unfold dedupeLoop
      split
      · rename_i h
        exact List.Chain.cons (by simpa using h) (ih it)
      · exact ih last

theorem dedupeVector_chain {α : Type} (eq : α → α → Bool) (s : List α) :
    List.Chain' (fun a b => eq b a = false) (dedupeVector eq s) := by
  cases s with
  | nil => exact List.chain'_nil
  | cons front rest => exact dedupeLoop_chain eq front rest

/-- C14: after `RemovePCRDuplicate` (run on empty deduped vectors), for every
reference sequence no two adjacent records of the deduped vector are equal
under `operator==`: a record never compares equal to its predecessor. The
deduped vector is a subsequence of the sorted vector, and so it is in the
ascending order that `std::sort` established: no record is less than an
earlier one. -/
theorem RemovePCRDuplicate_adjacent {α : Type} (eq lt : α → α → Bool)
    (sort : List α → List α) (n : Nat) (mappings : Nat → List α) (ri : Nat)
    (hsorted : (sort (mappings ri)).Pairwise fun a b => lt b a = false) :
    List.Chain' (fun a b => eq b a = false)
        ((RemovePCRDuplicate eq sort n
          { mappings_on_diff_ref_seqs := mappings,
            deduped_mappings_on_diff_ref_seqs := fun _ => [] }
          ).deduped_mappings_on_diff_ref_seqs ri) ∧
      ((RemovePCRDuplicate eq sort n
          { mappings_on_diff_ref_seqs := mappings,
            deduped_mappings_on_diff_ref_seqs := fun _ => [] }
          ).deduped_mappings_on_diff_ref_seqs ri).Sublist (sort (mappings ri)) ∧
      ((RemovePCRDuplicate eq sort n
          { mappings_on_diff_ref_seqs := mappings,
            deduped_mappings_on_diff_ref_seqs := fun _ => [] }
          ).deduped_mappings_on_diff_ref_seqs ri).Pairwise fun a b => lt b a = false := by
  rw [RemovePCRDuplicate_deduped]
  by_cases h : ri < n
  · rw [if_pos h]
    exact ⟨dedupeVector_chain eq _, dedupeVector_sublist eq _,
      hsorted.sublist (dedupeVector_sublist eq _)⟩
  · rw [if_neg h]
    exact ⟨List.chain'_nil, List.nil_sublist _, List.Pairwise.nil⟩

theorem RemovePCRDuplicate_adjacent_witness :
    ((recordSort (duplicatedMappings 0)).Pairwise fun a b => recordLt b a = false) ∧
      List.Chain' (fun a b => recordEq b a = false)
        ((RemovePCRDuplicate recordEq recordSort 1
          { mappings_on_diff_ref_seqs := duplicatedMappings,
            deduped_mappings_on_diff_ref_seqs := fun _ => [] }
          ).deduped_mappings_on_diff_ref_seqs 0) ∧
      ((RemovePCRDuplicate recordEq recordSort 1
          { mappings_on_diff_ref_seqs := duplicatedMappings,
            deduped_mappings_on_diff_ref_seqs := fun _ => [] }
          ).deduped_mappings_on_diff_ref_seqs 0).Sublist (recordSort (duplicatedMappings 0)) ∧
      ((RemovePCRDuplicate recordEq recordSort 1
          { mappings_on_diff_ref_seqs := duplicatedMappings,
            deduped_mappings_on_diff_ref_seqs := fun _ => [] }
          ).deduped_mappings_on_diff_ref_seqs 0).Pairwise fun a b => recordLt b a = false :=
  ⟨by decide,
    RemovePCRDuplicate_adjacent recordEq recordLt recordSort 1 duplicatedMappings 0
      (by decide)⟩

theorem contiguous_sublist {α : Type} (eq : α → α → Bool) (s t : List α)
    (h : Contiguous eq s) (hts : t.Sublist s) : Contiguous eq t :=
  fun a b c habc hca => h a b c (habc.trans hts) hca

theorem dedupeLoop_cover {α : Type} (eq : α → α → Bool) (hrefl : ∀ a, eq a a = true)
    (last : α) (rest : List α) (x : α) (hx : x ∈ rest) :
    ∃ y, y ∈ last :: dedupeLoop eq last rest ∧ eq x y = true := by
  induction rest generalizing last with
  | nil => simp at hx
  | cons it rest ih =>
      unfold dedupeLoop
      by_cases hk : eq it last = true
      · simp only [hk, Bool.not_true, Bool.false_eq_true, if_false]
        rcases List.mem_cons.mp hx with hx | hx
        · subst hx
          exact ⟨last, List.mem_cons_self _ _, hk⟩
        · exact ih last hx
      · have hk' : eq it last = false := by simpa using hk
        simp only [hk', Bool.not_false, if_true]
        rcases List.mem_cons.mp hx with hx | hx
        · subst hx
          exact ⟨x, by simp, hrefl x⟩
        · obtain ⟨y, hy, hxy⟩ := ih it hx
          exact ⟨y, List.mem_cons_of_mem _ hy, hxy⟩

theorem dedupeVector_cover {α : Type} (eq : α → α → Bool) (hrefl : ∀ a, eq a a = true)
    (s : List α) (x : α) (hx : x ∈ s) : ∃ y, y ∈ dedupeVector eq s ∧ eq x y = true := by
  cases s with
  | nil => simp at hx
  | cons front rest =>
      rcases List.mem_cons.mp hx with hx | hx
      · subst hx
        exact ⟨x, by simp [dedupeVector], hrefl x⟩
      · exact dedupeLoop_cover eq hrefl front rest x hx

theorem dedupeLoop_fresh {α : Type} (eq : α → α → Bool) (last : α) (rest : List α)
    (hc : Contiguous eq (last :: rest)) (y : α) (hy : y ∈ dedupeLoop eq last rest) :
    eq y last = false := by
  induction rest generalizing last with
  | nil => simp [dedupeLoop] at hy
  | cons it rest ih =>
      unfold dedupeLoop at hy
      by_cases hk : eq it last = true
      · simp only [hk, Bool.not_true, Bool.false_eq_true, if_false] at hy
        exact ih last (contiguous_sublist eq _ _ hc
          (List.Sublist.cons₂ last (List.Sublist.cons it (List.Sublist.refl rest)))) hy
      · have hk' : eq it last = false := by simpa using hk
        simp only [hk', Bool.not_false, if_true] at hy
        rcases List.mem_cons.mp hy with hy | hy
        · rw [hy]
          exact hk'
        · have hyr : y ∈ rest := (dedupeLoop_sublist eq it rest).subset hy
          by_contra hne
          have hyl : eq y last = true := by simpa using hne
          have hsub : List.Sublist [last, it, y] (last :: it :: rest) :=
            List.Sublist.cons₂ last (List.Sublist.cons₂ it (List.singleton_sublist.mpr hyr))
          exact hk (hc last it y hsub hyl)

theorem dedupeLoop_pairwise {α : Type} (eq : α → α → Bool) (last : α) (rest : List α)
    (hc : Contiguous eq (last :: rest)) :
    (last :: dedupeLoop eq last rest).Pairwise fun a b => eq b a = false := by
  induction rest generalizing last with
  | nil => simp [dedupeLoop]
  | cons it rest ih =>
      rw [List.pairwise_cons]
      refine ⟨fun y hy => dedupeLoop_fresh eq last (it :: rest) hc y hy, ?_⟩
      unfold dedupeLoop
      by_cases hk : eq it last = true
      · simp only [hk, Bool.not_true, Bool.false_eq_true, if_false]
        exact (List.pairwise_cons.mp (ih last (contiguous_sublist eq _ _ hc
          (List.Sublist.cons₂ last (List.Sublist.cons it (List.Sublist.refl rest)))))).2
      · have hk' : eq it last = false := by simpa using hk
        simp only [hk', Bool.not_false, if_true]
        exact ih it (contiguous_sublist eq _ _ hc
          (List.Sublist.cons last (List.Sublist.refl (it :: rest))))

theorem dedupeVector_pairwise {α : Type} (eq : α → α → Bool) (s : List α)
    (hc : Contiguous eq s) : (dedupeVector eq s).Pairwise fun a b => eq b a = false := by
  cases s with
  | nil => exact List.Pairwise.nil
  | cons front rest => exact dedupeLoop_pairwise eq front rest hc

theorem filter_length_one {α : Type} (eq : α → α → Bool)
    (hsymm : ∀ a b, eq a b = true → eq b a = true)
    (htrans : ∀ a b c, eq a b = true → eq b c = true → eq a c = true)
    (out : List α) (hp : out.Pairwise fun a b => eq b a = false) (x : α)
    (hx : ∃ y, y ∈ out ∧ eq x y = true) : (out.filter fun y => eq x y).length = 1 := by
  induction out with
  | nil =>
      obtain ⟨y, hy, _⟩ := hx
      simp at hy
  | cons h t ih =>
      obtain ⟨hh, ht⟩ := List.pairwise_cons.mp hp
      by_cases hxh : eq x h = true
      · have hnil : (t.filter fun y => eq x y) = [] := by
          rw [List.filter_eq_nil_iff]
          intro b hb hxb
          have := hh b hb
          rw [htrans b x h (hsymm x b hxb) hxh] at this
          exact Bool.noConfusion this
        simp [List.filter_cons, hxh, hnil]
      · obtain ⟨y, hy, hxy⟩ := hx
        rcases List.mem_cons.mp hy with hy | hy
        · subst hy
          exact absurd hxy hxh
        · have := ih ht ⟨y, hy, hxy⟩
          simpa [List.filter_cons, hxh] using this

theorem dedupeLoop_replicate {α : Type} (eq : α → α → Bool) (x : α) (hx : eq x x = true)
    (k : Nat) : dedupeLoop eq x (List.replicate k x) = [] := by
  induction k with
  | zero => rfl
  | succ k ih => simp [List.replicate_succ, dedupeLoop, hx, ih]

/-- C15: `RemovePCRDuplicate` (run on empty deduped vectors) keeps exactly one
record per class of equal records. For every reference `ri` below
`num_reference_sequences`, when `std::sort` permutes the vector, `operator==`
is an equivalence and its classes are contiguous in the sorted vector: every
record of the deduped vector is a record of the input vector, every record of
the input vector is equal to exactly one record of the deduped vector, and an
input vector of `k ≥ 1` identical records leaves exactly one. -/
theorem RemovePCRDuplicate_one_per_class {α : Type} (eq : α → α → Bool)
    (sort : List α → List α) (n : Nat) (mappings : Nat → List α) (ri : Nat) (hri : ri < n)
    (hperm : (sort (mappings ri)).Perm (mappings ri))
    (hrefl : ∀ a, eq a a = true) (hsymm : ∀ a b, eq a b = true → eq b a = true)
    (htrans : ∀ a b c, eq a b = true → eq b c = true → eq a c = true)
    (hc : Contiguous eq (sort (mappings ri))) :
    (∀ y, y ∈ (RemovePCRDuplicate eq sort n
        { mappings_on_diff_ref_seqs := mappings,
          deduped_mappings_on_diff_ref_seqs := fun _ => [] }
        ).deduped_mappings_on_diff_ref_seqs ri → y ∈ mappings ri) ∧
      (∀ x, x ∈ mappings ri →
        (((RemovePCRDuplicate eq sort n
          { mappings_on_diff_ref_seqs := mappings,
            deduped_mappings_on_diff_ref_seqs := fun _ => [] }
          ).deduped_mappings_on_diff_ref_seqs ri).filter fun y => eq x y).length = 1) ∧
      (∀ k x, 1 ≤ k → mappings ri = List.replicate k x →
        (RemovePCRDuplicate eq sort n
          { mappings_on_diff_ref_seqs := mappings,
            deduped_mappings_on_diff_ref_seqs := fun _ => [] }
          ).deduped_mappings_on_diff_ref_seqs ri = [x]) := by
  rw [RemovePCRDuplicate_deduped, if_pos hri]
  refine ⟨fun y hy => ?_, fun x hx => ?_, fun k x hk hrep => ?_⟩
  · exact hperm.subset ((dedupeVector_sublist eq _).subset hy)
  · exact filter_length_one eq hsymm htrans _ (dedupeVector_pairwise eq _ hc) x
      (dedupeVector_cover eq hrefl _ x (hperm.symm.subset hx))
  · have hs : sort (mappings ri) = List.replicate k x :=
      List.perm_replicate.mp (hperm.trans (List.Perm.of_eq hrep))
    rw [hs]
    obtain ⟨j, rfl⟩ : ∃ j, k = j + 1 := ⟨k - 1, by omega⟩
    simp [List.replicate_succ, dedupeVector, dedupeLoop_replicate eq x (hrefl x)]

theorem RemovePCRDuplicate_one_per_class_witness :
    0 < 1 ∧ tripleMappings 0 = List.replicate 3 strandRecord ∧
      (RemovePCRDuplicate recordEq recordSort 1
        { mappings_on_diff_ref_seqs := tripleMappings,
          deduped_mappings_on_diff_ref_seqs := fun _ => [] }
        ).deduped_mappings_on_diff_ref_seqs 0 = [strandRecord] :=
  ⟨by decide, rfl,
    (RemovePCRDuplicate_one_per_class recordEq recordSort 1 tripleMappings 0 (by decide)
      (List.perm_insertionSort _ _)
      (fun a => by simp [recordEq])
      (fun a b h => by
        simp only [recordEq, decide_eq_true_eq] at h ⊢
        exact h.symm)
      (fun a b c h1 h2 => by
        simp only [recordEq, decide_eq_true_eq] at h1 h2 ⊢
        exact h1.trans h2)
      (fun a b c hsub _ => by
        have hs : recordSort (tripleMappings 0) = List.replicate 3 strandRecord := by decide
        rw [hs] at hsub
        have ha : a ∈ List.replicate 3 strandRecord := hsub.subset (by simp)
        have hb : b ∈ List.replicate 3 strandRecord := hsub.subset (by simp)
        simp only [recordEq, decide_eq_true_eq]
        rw [(List.mem_replicate.mp ha).2, (List.mem_replicate.mp hb).2])).2.2
      3 strandRecord (by decide) rfl⟩

/-! ## Allocation of multi-mappings -/

/-- C16, the code at a failing input: a container whose only record has MAPQ 5
and the read id `UINT32_MAX = 4294967295`. The fake entry that
`AllocateMultiMappings` appends carries the same read id, so the run of that
read is never closed: the loop ends with both entries in `weights`, no record
in the allocated vectors and no allocation made. The same record with read id
7 is allocated once. -/
theorem sentinel_read_id_not_allocated :
    sortedMultiIndices 1 (loneMultiMapping 4294967295) = [(4294967295, 0, 0)] ∧
      (AllocateMultiMappings overlapCount sampleFirstPositive 1
        (loneMultiMapping 4294967295)).allocated_multi_mappings_on_diff_ref_seqs 0 = [] ∧
      (AllocateMultiMappings overlapCount sampleFirstPositive 1
        (loneMultiMapping 4294967295)).num_allocated_multi_mappings = 0 ∧
      (AllocateMultiMappings overlapCount sampleFirstPositive 1
        (loneMultiMapping 4294967295)).weights = [0, 0] ∧
      (AllocateMultiMappings overlapCount sampleFirstPositive 1
        (loneMultiMapping 7)).allocated_multi_mappings_on_diff_ref_seqs 0 =
        loneMultiMapping 7 0 := by
  decide

theorem collectVectorLoop_eq (ri : Nat) (l : List PairedEndMapping) (mi : Nat)
    (st : CollectState) :
    collectVectorLoop ri l mi st =
      { multi_mapping_indices := st.multi_mapping_indices ++ multiOfVector ri l mi,
        unique_mapping_trees :=
          Function.update st.unique_mapping_trees ri
            (st.unique_mapping_trees ri ++ intervalsOfVector l) } := by
  induction l generalizing mi st with
  | nil =>
      simp [collectVectorLoop, multiOfVector, intervalsOfVector]
  | cons m rest ih =>
      unfold collectVectorLoop
      by_cases h : m.mapq < 30
      · have h' : ¬ 30 ≤ m.mapq := by omega
        rw [if_pos h, ih]
        simp [multiOfVector, intervalsOfVector, h, h']
      · have h' : 30 ≤ m.mapq := by omega
        rw [if_neg h]
        simp only []
        rw [ih]
        simp [multiOfVector, intervalsOfVector, h, h']

theorem collectReferenceLoop_eq (mappings : Nat → List PairedEndMapping) (k lo : Nat)
    (st : CollectState) :
    (collectReferenceLoop mappings k lo st).multi_mapping_indices =
        st.multi_mapping_indices ++
          (List.range' lo k).flatMap (fun ri => multiOfVector ri (mappings ri) 0) ∧
      ∀ ri, (collectReferenceLoop mappings k lo st).unique_mapping_trees ri =
        if lo ≤ ri ∧ ri < lo + k then
          st.unique_mapping_trees ri ++ intervalsOfVector (mappings ri)
        else st.unique_mapping_trees ri := by
  induction k generalizing lo st with
  | zero =>
      refine ⟨by simp [collectReferenceLoop], fun ri => ?_⟩
      rw [if_neg (by omega)]
      rfl
  | succ k ih =>
      unfold collectReferenceLoop
      obtain ⟨h1, h2⟩ := ih (lo + 1) (collectVectorLoop lo (mappings lo) 0 st)
      refine ⟨?_, fun ri => ?_⟩
      · rw [h1, collectVectorLoop_eq]
        simp [List.range'_succ]
      · rw [h2, collectVectorLoop_eq]
        simp only []
        by_cases h : ri = lo
        · subst h
          rw [if_neg (by omega), if_pos (by omega), Function.update_same]
        · rw [Function.update_noteq h]
          by_cases h3 : lo + 1 ≤ ri ∧ ri < lo + 1 + k
          · rw [if_pos h3, if_pos (by omega)]
          · rw [if_neg h3, if_neg (by omega)]

theorem mem_multiOfVector (ri : Nat) (l : List PairedEndMapping) (t : MultiIndex) :
    t ∈ multiOfVector ri l 0 ↔
      t.2.1 = ri ∧ t.2.2 < l.length ∧ (l.getD t.2.2 default).mapq < 30 ∧
        (l.getD t.2.2 default).read_id = t.1 := by
  unfold multiOfVector
  simp only [List.mem_map, List.mem_filter, decide_eq_true_eq]
  constructor
  · rintro ⟨⟨i, m⟩, ⟨hmem, hq⟩, rfl⟩
    have hget := List.mk_mem_enumFrom_iff_le_and_getElem?_sub.mp hmem
    have hi : l[i]? = some m := by simpa using hget.2
    obtain ⟨hlt, hm⟩ := List.getElem?_eq_some.mp hi
    have hd : l.getD i default = m := by
      rw [List.getD_eq_getElem _ _ hlt, hm]
    exact ⟨rfl, hlt, by rw [hd]; exact hq, by rw [hd]⟩
  · rintro ⟨h1, h2, h3, h4⟩
    refine ⟨(t.2.2, l.getD t.2.2 default), ⟨?_, h3⟩, ?_⟩
    · apply List.mk_mem_enumFrom_iff_le_and_getElem?_sub.mpr
      refine ⟨Nat.zero_le _, ?_⟩
      rw [List.getD_eq_getElem _ _ h2]
      simp [List.getElem?_eq_getElem h2]
    · rw [h4, ← h1]

theorem mem_sortedMultiIndices (n : Nat) (mappings : Nat → List PairedEndMapping)
    (t : MultiIndex) :
    t ∈ sortedMultiIndices n mappings ↔
      t.2.1 < n ∧ t.2.2 < (mappings t.2.1).length ∧
        ((mappings t.2.1).getD t.2.2 default).mapq < 30 ∧
        ((mappings t.2.1).getD t.2.2 default).read_id = t.1 := by
  unfold sortedMultiIndices
  rw [(List.perm_insertionSort tupleLe _).mem_iff, (collectReferenceLoop_eq mappings n 0 _).1]
  simp only [List.nil_append, List.mem_flatMap, List.mem_range'_1, Nat.zero_le, true_and,
    Nat.zero_add, mem_multiOfVector]
  constructor
  · rintro ⟨ri, hri, h1, h2, h3, h4⟩
    subst h1
    exact ⟨hri, h2, h3, h4⟩
  · rintro ⟨h1, h2, h3, h4⟩
    exact ⟨t.2.1, h1, rfl, h2, h3, h4⟩

theorem uniqueMappingTrees_eq (n : Nat) (mappings : Nat → List PairedEndMapping) (ri : Nat) :
    uniqueMappingTrees n mappings ri =
      if ri < n then intervalsOfVector (mappings ri) else [] := by
  unfold uniqueMappingTrees
  rw [(collectReferenceLoop_eq mappings n 0 _).2 ri]
  simp

theorem tupleLe_fst (a b : MultiIndex) (h : tupleLe a b) : a.1 ≤ b.1 := by
  unfold tupleLe at h
  omega

theorem sortedMultiIndices_ids (n : Nat) (mappings : Nat → List PairedEndMapping) (i j : Nat)
    (hij : i ≤ j) (hj : j < (sortedMultiIndices n mappings).length) :
    ((sortedMultiIndices n mappings).getD i (0, 0, 0)).1 ≤
      ((sortedMultiIndices n mappings).getD j (0, 0, 0)).1 := by
  rcases Nat.eq_or_lt_of_le hij with h | h
  · subst h
    exact le_refl _
  · haveI : IsTotal MultiIndex tupleLe := ⟨fun a b => by unfold tupleLe; omega⟩
    haveI : IsTrans MultiIndex tupleLe := ⟨fun a b c => by unfold tupleLe; omega⟩
    have hsorted : List.Sorted tupleLe (sortedMultiIndices n mappings) :=
      List.sorted_insertionSort tupleLe _
    rw [List.getD_eq_getElem _ _ (by omega : i < _), List.getD_eq_getElem _ _ hj]
    exact tupleLe_fst _ _
      (List.Sorted.rel_get_of_lt hsorted (show (⟨i, by omega⟩ : Fin _) < ⟨j, hj⟩ from h))

theorem sum_zero_mem (l : List Nat) (h : l.sum = 0) (x : Nat) (hx : x ∈ l) : x = 0 := by
  induction l with
  | nil => simp at hx
  | cons a t ih =>
      simp only [List.sum_cons] at h
      rcases List.mem_cons.mp hx with hx | hx
      · omega
      · exact ih (by omega) hx

theorem getD_mem_of_lt {α : Type} (l : List α) (d : α) (i : Nat) (h : i < l.length) :
    l.getD i d ∈ l := by
  rw [List.getD_eq_getElem _ _ h]
  exact List.getElem_mem _

theorem numOverlaps_lt (overlap : List (Nat × Nat) → Nat → Nat → Nat)
    (trees : Nat → List (Nat × Nat)) (mappings : Nat → List PairedEndMapping)
    (t : MultiIndex) : numOverlaps overlap trees mappings t < U32 :=
  Nat.mod_lt _ (by decide)

theorem run_weights_sum_le (w : MultiIndex → Nat) (S : List MultiIndex) (a b id : Nat)
    (weights : List Nat) (hb : b ≤ S.length) (hlen : weights.length = b - a)
    (hget : ∀ j, j < b - a → weights.getD j 0 = w (S.getD (a + j) (0, 0, 0)))
    (hrun : ∀ j, a ≤ j → j < b → (S.getD j (0, 0, 0)).1 = id) :
    weights.sum ≤ ((S.filter fun u => decide (u.1 = id)).map w).sum := by
  have hw : weights = ((S.drop a).take (b - a)).map w := by
    apply List.ext_getElem
    · simp only [List.length_map, List.length_take, List.length_drop, hlen]
      omega
    · intro j h1 h2
      have := hget j (by omega)
      rw [List.getD_eq_getElem _ _ h1, List.getD_eq_getElem _ _ (by omega)] at this
      simp [this]
  have hsub : List.Sublist ((S.drop a).take (b - a))
      (S.filter fun u => decide (u.1 = id)) := by
    have h1 : List.Sublist ((S.drop a).take (b - a)) S :=
      (List.take_sublist _ _).trans (List.drop_sublist _ _)
    have h2 := h1.filter (fun u => decide (u.1 = id))
    have h3 : List.filter (fun u => decide (u.1 = id)) ((S.drop a).take (b - a)) =
        (S.drop a).take (b - a) := by
      apply List.filter_eq_self.mpr
      intro u hu
      obtain ⟨j, hj, hju⟩ := List.getElem_of_mem hu
      simp only [List.length_take, List.length_drop] at hj
      rw [List.getElem_take, List.getElem_drop] at hju
      have := hrun (a + j) (by omega) (by omega)
      rw [List.getD_eq_getElem _ _ (by omega), hju] at this
      simpa using this
    rwa [h3] at h2
  rw [hw]
  exact (hsub.map w).sum_le_sum (fun _ _ => Nat.zero_le _)

theorem allocStep_push (overlap : List (Nat × Nat) → Nat → Nat → Nat)
    (sample : Nat → List Nat → Nat) (trees : Nat → List (Nat × Nat))
    (mappings : Nat → List PairedEndMapping) (S : List MultiIndex) (fake : MultiIndex)
    (mi : Nat) (st : AllocState)
    (h : AllocInv (numOverlaps overlap trees mappings) mappings S fake mi st)
    (hid : ((S ++ [fake]).getD mi (0, 0, 0)).1 = st.previous_read_id) :
    AllocInv (numOverlaps overlap trees mappings) mappings S fake (mi + 1)
      (allocStep overlap sample trees mappings (S ++ [fake]) mi st) := by
  unfold allocStep
  simp only []
  rw [if_pos hid]
  have hs := h.start_le
  refine { start_le := ?_, fresh := ?_, nonempty := ?_, weights_length := ?_,
           weights_get := ?_, sum := ?_, run := ?_, left := ?_, valid := h.valid,
           out := h.out }
  · show st.start_mapping_index ≤ mi + 1
    omega
  · intro h0
    omega
  · intro _
    show st.start_mapping_index < mi + 1
    omega
  · show (st.weights ++ _).length = mi + 1 - st.start_mapping_index
    rw [List.length_append, h.weights_length]
    simp only [List.length_singleton]
    omega
  · intro j hj
    show (st.weights ++ _).getD j 0 = _
    by_cases hjl : j < mi - st.start_mapping_index
    · rw [List.getD_append _ _ _ _ (by rw [h.weights_length]; exact hjl)]
      exact h.weights_get j hjl
    · have hje : j = mi - st.start_mapping_index := by
        change j < mi + 1 - st.start_mapping_index at hj
        omega
      have hidx : st.start_mapping_index + j = mi := by omega
      rw [hidx, List.getD_eq_getElem?_getD, List.getElem?_append_right
        (by rw [h.weights_length]; omega), h.weights_length, hje]
      simp
  · show (st.sum_weight + _) % U32 = (st.weights ++ _).sum % U32
    rw [List.sum_append, h.sum, Nat.mod_add_mod]
    simp
  · intro j hj1 hj2
    change j < mi + 1 at hj2
    by_cases hjm : j = mi
    · rw [hjm]
      exact hid
    · exact h.run j hj1 (by omega)
  · intro hle j hj
    exact h.left (by omega) j hj

theorem allocStep_flush (overlap : List (Nat × Nat) → Nat → Nat → Nat)
    (sample : Nat → List Nat → Nat) (trees : Nat → List (Nat × Nat))
    (mappings : Nat → List PairedEndMapping) (S : List MultiIndex) (fake : MultiIndex)
    (hS : S ≠ [])
    (hsorted : ∀ i j, i ≤ j → j < S.length → (S.getD i (0, 0, 0)).1 ≤ (S.getD j (0, 0, 0)).1)
    (hsample : ∀ (c : Nat) (weights : List Nat), (∃ x, x ∈ weights ∧ 0 < x) →
      sample c weights < weights.length ∧ 0 < weights.getD (sample c weights) 0)
    (mi : Nat) (st : AllocState) (hmi : mi ≤ S.length)
    (h : AllocInv (numOverlaps overlap trees mappings) mappings S fake mi st)
    (hid : ¬ ((S ++ [fake]).getD mi (0, 0, 0)).1 = st.previous_read_id) :
    AllocInv (numOverlaps overlap trees mappings) mappings S fake (mi + 1)
      (allocStep overlap sample trees mappings (S ++ [fake]) mi st) := by
  have hSlen : 0 < S.length := List.length_pos.mpr hS
  have hT : ∀ j, j < S.length → (S ++ [fake]).getD j (0, 0, 0) = S.getD j (0, 0, 0) :=
    fun j hj => List.getD_append _ _ _ _ hj
  have hpos : 0 < mi := by
    by_contra h0
    have h0' : mi = 0 := by omega
    apply hid
    rw [h0', hT 0 hSlen]
    exact (h.fresh h0').symm
  have hlt := h.nonempty hpos
  have hlen := h.weights_length
  have hWlen : (if st.sum_weight = 0 then st.weights.map fun _ => 1 else st.weights).length =
      mi - st.start_mapping_index := by
    split
    · rw [List.length_map, hlen]
    · exact hlen
  have hex : ∃ x, x ∈ (if st.sum_weight = 0 then st.weights.map fun _ => 1 else st.weights) ∧
      0 < x := by
    split
    · obtain ⟨y, hy⟩ := List.exists_mem_of_length_pos (l := st.weights) (by omega)
      exact ⟨1, List.mem_map.mpr ⟨y, hy, rfl⟩, by omega⟩
    · rename_i hne
      by_contra hno
      apply hne
      have hz : st.weights.sum = 0 := by
        apply List.sum_eq_zero
        intro x hx
        by_contra hx0
        exact hno ⟨x, hx, by omega⟩
      rw [h.sum, hz]
      rfl
  obtain ⟨hidx, hwpos⟩ := hsample st.num_allocated_multi_mappings _ hex
  rw [hWlen] at hidx
  have hin : st.start_mapping_index +
      sample st.num_allocated_multi_mappings
        (if st.sum_weight = 0 then st.weights.map fun _ => 1 else st.weights) < S.length := by
    omega
  have hprev : (S.getD (mi - 1) (0, 0, 0)).1 = st.previous_read_id := by
    rw [← hT (mi - 1) (by omega)]
    exact h.run (mi - 1) (by omega) (by omega)
  have hok : (∀ t, t ∈ S → ((S.filter fun u => decide (u.1 = t.1)).map
        (numOverlaps overlap trees mappings)).sum < U32) →
      AllocationOk (numOverlaps overlap trees mappings) S
      (st.previous_read_id, (S ++ [fake]).getD (st.start_mapping_index +
        sample st.num_allocated_multi_mappings
          (if st.sum_weight = 0 then st.weights.map fun _ => 1 else st.weights)) (0, 0, 0)) := by
    intro hfit
    have hfits : st.weights.sum < U32 := by
      have hle := run_weights_sum_le (numOverlaps overlap trees mappings) S
        st.start_mapping_index mi st.previous_read_id st.weights hmi hlen
        (fun j hj => by rw [h.weights_get j hj, hT _ (by omega)])
        (fun j hj1 hj2 => by rw [← hT j (by omega)]; exact h.run j hj1 hj2)
      have hmem := getD_mem_of_lt S (0, 0, 0) (mi - 1) (by omega)
      have := hfit _ hmem
      rw [hprev] at this
      omega
    refine ⟨?_, ?_, ?_⟩
    · show (S ++ [fake]).getD _ (0, 0, 0) ∈ S
      rw [hT _ hin]
      exact getD_mem_of_lt S _ _ hin
    · exact h.run _ (by omega) (by omega)
    · show 0 < numOverlaps overlap trees mappings ((S ++ [fake]).getD _ (0, 0, 0)) ∨ _
      by_cases hsum : st.sum_weight = 0
      · right
        intro t ht hte
        change t.1 = st.previous_read_id at hte
        obtain ⟨j, hj, hjt⟩ := List.getElem_of_mem ht
        have hjd : S.getD j (0, 0, 0) = t := by
          rw [List.getD_eq_getElem _ _ hj, hjt]
        have h1 : st.start_mapping_index ≤ j := by
          by_contra hc
          have := h.left hmi j (by omega)
          rw [hjd, hte] at this
          omega
        have h2 : j < mi := by
          by_contra hc
          have hmiS : mi < S.length := by omega
          have ha := hsorted (mi - 1) mi (by omega) hmiS
          have hb := hsorted mi j (by omega) hj
          rw [hprev] at ha
          rw [hjd, hte] at hb
          apply hid
          rw [hT mi hmiS]
          omega
        have hw := h.weights_get (j - st.start_mapping_index) (by omega)
        rw [show st.start_mapping_index + (j - st.start_mapping_index) = j by omega, hT j hj,
          hjd] at hw
        rw [← hw]
        apply sum_zero_mem st.weights
          (by rw [h.sum, Nat.mod_eq_of_lt hfits] at hsum; exact hsum)
        exact getD_mem_of_lt _ _ _ (by rw [hlen]; omega)
      · left
        rw [if_neg hsum] at hwpos hidx ⊢
        rw [← h.weights_get _ hidx]
        exact hwpos
  unfold allocStep
  simp only []
  rw [if_neg hid]
  refine { start_le := ?_, fresh := ?_, nonempty := ?_, weights_length := ?_,
           weights_get := ?_, sum := ?_, run := ?_, left := ?_, valid := ?_, out := ?_ }
  · show mi ≤ mi + 1
    omega
  · intro h0
    omega
  · intro _
    show mi < mi + 1
    omega
  · show [numOverlaps overlap trees mappings ((S ++ [fake]).getD mi (0, 0, 0))].length =
      mi + 1 - mi
    simp
  · intro j hj
    change j < mi + 1 - mi at hj
    have hj0 : j = 0 := by omega
    subst hj0
    simp
  · show numOverlaps overlap trees mappings ((S ++ [fake]).getD mi (0, 0, 0)) =
      [numOverlaps overlap trees mappings ((S ++ [fake]).getD mi (0, 0, 0))].sum % U32
    rw [List.sum_singleton, Nat.mod_eq_of_lt (numOverlaps_lt overlap trees mappings _)]
  · intro j hj1 hj2
    change mi ≤ j at hj1
    change j < mi + 1 at hj2
    have : j = mi := by omega
    rw [this]
  · intro hle j hj
    change j < mi at hj
    show (S.getD j (0, 0, 0)).1 < ((S ++ [fake]).getD mi (0, 0, 0)).1
    have hmiS : mi < S.length := by omega
    have ha := hsorted j (mi - 1) (by omega) (by omega)
    have hb := hsorted (mi - 1) mi (by omega) hmiS
    rw [hprev] at ha hb
    rw [hT mi hmiS] at hid ⊢
    omega
  · intro hfit e he
    change e ∈ st.allocations ++ [_] at he
    rcases List.mem_append.mp he with he | he
    · exact h.valid hfit e he
    · rw [List.mem_singleton.mp he]
      exact hok hfit
  · show (fun r => if r = _ then _ else _) = appendRecords (fun _ => []) (List.map _ (_ ++ [_]))
    rw [List.map_append, ← appendRecords_append, ← h.out]
    exact appendRecords_single st.allocated_multi_mappings_on_diff_ref_seqs
      (((S ++ [fake]).getD (st.start_mapping_index +
        sample st.num_allocated_multi_mappings
          (if st.sum_weight = 0 then st.weights.map fun _ => 1 else st.weights)) (0, 0, 0)).2.1,
        (mappings ((S ++ [fake]).getD (st.start_mapping_index +
          sample st.num_allocated_multi_mappings
            (if st.sum_weight = 0 then st.weights.map fun _ => 1 else st.weights))
              (0, 0, 0)).2.1).getD
          ((S ++ [fake]).getD (st.start_mapping_index +
            sample st.num_allocated_multi_mappings
              (if st.sum_weight = 0 then st.weights.map fun _ => 1 else st.weights))
                (0, 0, 0)).2.2 default)

theorem allocLoop_inv (overlap : List (Nat × Nat) → Nat → Nat → Nat)
    (sample : Nat → List Nat → Nat) (trees : Nat → List (Nat × Nat))
    (mappings : Nat → List PairedEndMapping) (S : List MultiIndex) (fake : MultiIndex)
    (hS : S ≠ [])
    (hsorted : ∀ i j, i ≤ j → j < S.length → (S.getD i (0, 0, 0)).1 ≤ (S.getD j (0, 0, 0)).1)
    (hsample : ∀ (c : Nat) (weights : List Nat), (∃ x, x ∈ weights ∧ 0 < x) →
      sample c weights < weights.length ∧ 0 < weights.getD (sample c weights) 0)
    (k mi : Nat) (st : AllocState) (hk : mi + k ≤ S.length + 1)
    (h : AllocInv (numOverlaps overlap trees mappings) mappings S fake mi st) :
    AllocInv (numOverlaps overlap trees mappings) mappings S fake (mi + k)
      (allocLoop overlap sample trees mappings (S ++ [fake]) k mi st) := by
  induction k generalizing mi st with
  | zero => exact h
  | succ k ih =>
      unfold allocLoop
      rw [show mi + (k + 1) = mi + 1 + k by omega]
      apply ih (mi + 1) _ (by omega)
      by_cases hid : ((S ++ [fake]).getD mi (0, 0, 0)).1 = st.previous_read_id
      · exact allocStep_push overlap sample trees mappings S fake mi st h hid
      · exact allocStep_flush overlap sample trees mappings S fake hS hsorted hsample mi st
          (by omega) h hid

theorem AllocateMultiMappings_inv (overlap : List (Nat × Nat) → Nat → Nat → Nat)
    (sample : Nat → List Nat → Nat) (n : Nat) (mappings : Nat → List PairedEndMapping)
    (hsample : ∀ (c : Nat) (weights : List Nat), (∃ x, x ∈ weights ∧ 0 < x) →
      sample c weights < weights.length ∧ 0 < weights.getD (sample c weights) 0)
    (hmulti : sortedMultiIndices n mappings ≠ []) :
    ((∀ t, t ∈ sortedMultiIndices n mappings →
        (((sortedMultiIndices n mappings).filter fun u => decide (u.1 = t.1)).map
          (numOverlaps overlap (uniqueMappingTrees n mappings) mappings)).sum < U32) →
      ∀ e, e ∈ (AllocateMultiMappings overlap sample n mappings).allocations →
        AllocationOk (numOverlaps overlap (uniqueMappingTrees n mappings) mappings)
          (sortedMultiIndices n mappings) e) ∧
      (AllocateMultiMappings overlap sample n mappings).allocated_multi_mappings_on_diff_ref_seqs =
        appendRecords (fun _ => [])
          ((AllocateMultiMappings overlap sample n mappings).allocations.map fun e =>
            (e.2.2.1, (mappings e.2.2.1).getD e.2.2.2 default)) := by
  have hinv := allocLoop_inv overlap sample (uniqueMappingTrees n mappings) mappings
    (sortedMultiIndices n mappings)
    (4294967295, ((sortedMultiIndices n mappings).getLastD (0, 0, 0)).2.1,
      ((sortedMultiIndices n mappings).getLastD (0, 0, 0)).2.2)
    hmulti (sortedMultiIndices_ids n mappings) hsample
    ((sortedMultiIndices n mappings).length + 1) 0
    { weights := [], sum_weight := 0,
      previous_read_id := ((sortedMultiIndices n mappings).getD 0 (0, 0, 0)).1,
      start_mapping_index := 0, allocated_multi_mappings_on_diff_ref_seqs := fun _ => [],
      num_allocated_multi_mappings := 0, allocations := [] }
    (by omega)
    { start_le := Nat.le_refl 0
      fresh := fun _ => rfl
      nonempty := fun h => absurd h (Nat.lt_irrefl 0)
      weights_length := rfl
      weights_get := fun j hj => absurd hj (Nat.not_lt_zero j)
      sum := rfl
      run := fun j _ hj => absurd hj (Nat.not_lt_zero j)
      left := fun _ j hj => absurd hj (Nat.not_lt_zero j)
      valid := fun _ e he => by simp at he
      out := (appendRecords_nil _).symm }
  have hlen : ((sortedMultiIndices n mappings) ++
      [(4294967295, ((sortedMultiIndices n mappings).getLastD (0, 0, 0)).2.1,
        ((sortedMultiIndices n mappings).getLastD (0, 0, 0)).2.2)]).length =
      (sortedMultiIndices n mappings).length + 1 := by simp
  unfold AllocateMultiMappings
  simp only []
  rw [hlen]
  exact ⟨hinv.valid, hinv.out⟩

theorem sampleFirstPositive_contract (c : Nat) (weights : List Nat)
    (h : ∃ x, x ∈ weights ∧ 0 < x) :
    sampleFirstPositive c weights < weights.length ∧
      0 < weights.getD (sampleFirstPositive c weights) 0 := by
  obtain ⟨x, hx, hpos⟩ := h
  have hlt : weights.findIdx (fun w => decide (0 < w)) < weights.length :=
    List.findIdx_lt_length_of_exists ⟨x, hx, by simpa using hpos⟩
  refine ⟨hlt, ?_⟩
  unfold sampleFirstPositive
  rw [List.getD_eq_getElem _ _ hlt]
  have := List.findIdx_getElem (w := hlt)
  simpa using this

/-- C17: for every function `sample` that draws as `std::discrete_distribution`
does (it returns an index of positive weight) and every container in which
`multi_mapping_indices` is not empty and the weights of the entries of each
read sum to less than `2^32` (the `uint32_t sum_weight` does not wrap), every
allocation that
`AllocateMultiMappings` makes for a read id `e.1` takes a record of that read
with MAPQ below 30 (the entry `e.2` of reference `e.2.2.1` and index
`e.2.2.2`), and the weight of that record, the number of overlaps of
`[start - 100 or 0, start + length + 100)` with the tree of its reference, is
positive unless the weights of all records of that read with MAPQ below 30 are
zero (then all effective weights are 1). The allocated vectors hold exactly
the records so chosen, and the tree of a reference holds the intervals of its
records with MAPQ at least 30. -/
theorem allocated_is_weighted_candidate (overlap : List (Nat × Nat) → Nat → Nat → Nat)
    (sample : Nat → List Nat → Nat) (n : Nat) (mappings : Nat → List PairedEndMapping)
    (hsample : ∀ (c : Nat) (weights : List Nat), (∃ x, x ∈ weights ∧ 0 < x) →
      sample c weights < weights.length ∧ 0 < weights.getD (sample c weights) 0)
    (hmulti : sortedMultiIndices n mappings ≠ [])
    (hfit : ∀ t, t ∈ sortedMultiIndices n mappings →
      (((sortedMultiIndices n mappings).filter fun u => decide (u.1 = t.1)).map
        (numOverlaps overlap (uniqueMappingTrees n mappings) mappings)).sum < U32) :
    (∀ e, e ∈ (AllocateMultiMappings overlap sample n mappings).allocations →
      e.2.1 = e.1 ∧ e.2.2.1 < n ∧ e.2.2.2 < (mappings e.2.2.1).length ∧
      ((mappings e.2.2.1).getD e.2.2.2 default).mapq < 30 ∧
      ((mappings e.2.2.1).getD e.2.2.2 default).read_id = e.1 ∧
      (0 < numOverlaps overlap (uniqueMappingTrees n mappings) mappings e.2 ∨
        ∀ ri mi, ri < n → mi < (mappings ri).length →
          ((mappings ri).getD mi default).mapq < 30 →
          ((mappings ri).getD mi default).read_id = e.1 →
          numOverlaps overlap (uniqueMappingTrees n mappings) mappings (e.1, ri, mi) = 0)) ∧
      (AllocateMultiMappings overlap sample n mappings).allocated_multi_mappings_on_diff_ref_seqs =
        appendRecords (fun _ => [])
          ((AllocateMultiMappings overlap sample n mappings).allocations.map fun e =>
            (e.2.2.1, (mappings e.2.2.1).getD e.2.2.2 default)) ∧
      (∀ ri, ri < n → uniqueMappingTrees n mappings ri = intervalsOfVector (mappings ri)) := by
  obtain ⟨hvalid, hout⟩ := AllocateMultiMappings_inv overlap sample n mappings hsample hmulti
  refine ⟨fun e he => ?_, hout, fun ri hri => ?_⟩
  · obtain ⟨h1, h2, h3⟩ := hvalid hfit e he
    obtain ⟨m1, m2, m3, m4⟩ := (mem_sortedMultiIndices n mappings e.2).mp h1
    refine ⟨h2, m1, m2, m3, by rw [m4, h2], ?_⟩
    rcases h3 with h3 | h3
    · exact Or.inl h3
    · right
      intro ri mi hri hmi hq hid
      exact h3 (e.1, ri, mi)
        ((mem_sortedMultiIndices n mappings (e.1, ri, mi)).mpr ⟨hri, hmi, hq, hid⟩) rfl
  · rw [uniqueMappingTrees_eq, if_pos hri]

theorem allocated_is_weighted_candidate_witness :
    sortedMultiIndices 1 allocationMappings ≠ [] ∧
      (∀ t, t ∈ sortedMultiIndices 1 allocationMappings →
        (((sortedMultiIndices 1 allocationMappings).filter fun u => decide (u.1 = t.1)).map
          (numOverlaps overlapCount (uniqueMappingTrees 1 allocationMappings)
            allocationMappings)).sum < U32) ∧
      (AllocateMultiMappings overlapCount sampleFirstPositive 1 allocationMappings).allocations =
        [(7, 7, 0, 4)] ∧
      numOverlaps overlapCount (uniqueMappingTrees 1 allocationMappings) allocationMappings
        (7, 0, 4) = 3 ∧
      numOverlaps overlapCount (uniqueMappingTrees 1 allocationMappings) allocationMappings
        (7, 0, 3) = 0 ∧
      (AllocateMultiMappings overlapCount sampleFirstPositive 1
        allocationMappings).allocated_multi_mappings_on_diff_ref_seqs =
        appendRecords (fun _ => [])
          ((AllocateMultiMappings overlapCount sampleFirstPositive 1
            allocationMappings).allocations.map fun e =>
              (e.2.2.1, (allocationMappings e.2.2.1).getD e.2.2.2 default)) :=
  ⟨by decide, by decide, by decide, by decide, by decide,
    (allocated_is_weighted_candidate overlapCount sampleFirstPositive 1 allocationMappings
      sampleFirstPositive_contract (by decide) (by decide)).2.1⟩

/-! ## The sampled indices -/

/-- C30: for every cap `N = max_num_best_mappings_ ≥ 1`, every
`k = num_best_mappings > N` and every sequence of draws, the vector
`best_mapping_indices` after the reservoir loop and the sort of the selectors
holds `N` pairwise distinct indices in strictly ascending order, each in
`[0, k)`. -/
theorem sampled_indices_ascending (N k : Int) (draw : Nat → Nat) (hN : 1 ≤ N) (hk : N < k) :
    ((sampleBestMappingIndices N k draw).length : Int) = N ∧
      (sampleBestMappingIndices N k draw).Nodup ∧
      List.Sorted (· < ·) (sampleBestMappingIndices N k draw) ∧
      ∀ x, x ∈ sampleBestMappingIndices N k draw → 0 ≤ x ∧ x < k := by
  unfold sampleBestMappingIndices
  simp only []
  rw [if_pos hk]
  have hinv := reservoirLoop_inv N draw (k - N).toNat N.toNat (iotaIndices N)
    (iotaIndices_inv N)
  obtain ⟨h1, h2, h3⟩ := hinv
  generalize reservoirLoop N draw (k - N).toNat N.toNat (iotaIndices N) = res at h1 h2 h3
  have hperm := List.perm_insertionSort (· ≤ ·) res
  have hnodup : (res.insertionSort (· ≤ ·)).Nodup := hperm.nodup_iff.mpr h2
  refine ⟨?_, hnodup, (List.sorted_insertionSort (· ≤ ·) res).lt_of_le hnodup, ?_⟩
  · rw [hperm.length_eq, h1]
    omega
  · intro x hx
    have := h3 x (hperm.mem_iff.mp hx)
    omega

theorem sampled_indices_ascending_witness :
    (1 : Int) ≤ 3 ∧ (3 : Int) < 8 ∧
      ((sampleBestMappingIndices 3 8 (fun i => i % 4)).length : Int) = 3 ∧
      (sampleBestMappingIndices 3 8 (fun i => i % 4)).Nodup ∧
      List.Sorted (· < ·) (sampleBestMappingIndices 3 8 (fun i => i % 4)) ∧
      ∀ x, x ∈ sampleBestMappingIndices 3 8 (fun i => i % 4) → 0 ≤ x ∧ x < 8 :=
  ⟨by decide, by decide, sampled_indices_ascending 3 8 (fun i => i % 4) (by decide) (by decide)⟩

/-! ## Packed reference id and position -/

theorem packedValue_eq (r p : Nat) (hr : r < U32) (hp : p < U32) :
    packedValue r p = U32 * r + p := by
  unfold packedValue
  have h1 : r <<< 32 = 2 ^ 32 * r := by
    rw [Nat.shiftLeft_eq, Nat.mul_comm]
  rw [h1, ← Nat.mul_add_lt_is_or (by rw [U32] at hp; exact hp)]
  unfold U32 U64 at *
  omega

/-- C28: for all reference ids and positions below `2^32`, the packed values
`(r1 << 32) | p1` and `(r2 << 32) | p2` compare as the pairs `(r1, p1)` and
`(r2, p2)` compare lexicographically, and the accessors `value >> 32` and the
truncation to 32 bits recover `r` and `p`; they agree with the reference id
and the position that `VerifyCandidatesOnOneDirection` reads. -/
theorem packed_order_lexicographic (r1 p1 r2 p2 : Nat) (hr1 : r1 < U32) (hp1 : p1 < U32)
    (hr2 : r2 < U32) (hp2 : p2 < U32) :
    (packedValue r1 p1 < packedValue r2 p2 ↔ r1 < r2 ∨ (r1 = r2 ∧ p1 < p2)) ∧
      (packedValue r1 p1 = packedValue r2 p2 ↔ r1 = r2 ∧ p1 = p2) ∧
      packedReferenceId (packedValue r1 p1) = r1 ∧ packedPosition (packedValue r1 p1) = p1 ∧
      (packedValue r1 p1 / U32) % U32 = r1 ∧
      candidatePosition Direction.kPositive 0 (packedValue r1 p1) = p1 := by
  rw [packedValue_eq r1 p1 hr1 hp1, packedValue_eq r2 p2 hr2 hp2]
  unfold packedReferenceId packedPosition candidatePosition
  simp only [Nat.shiftRight_eq_div_pow]
  unfold U32 at *
  refine ⟨by omega, by omega, by omega, by omega, by omega, by omega⟩

theorem packed_order_lexicographic_witness :
    (packedValue 2 7 < packedValue 3 1 ↔ 2 < 3 ∨ (2 = 3 ∧ 7 < 1)) ∧
      (packedValue 2 7 = packedValue 3 1 ↔ 2 = 3 ∧ 7 = 1) ∧
      packedReferenceId (packedValue 2 7) = 2 ∧ packedPosition (packedValue 2 7) = 7 ∧
      (packedValue 2 7 / U32) % U32 = 2 ∧
      candidatePosition Direction.kPositive 0 (packedValue 2 7) = 7 :=
  packed_order_lexicographic 2 7 3 1 (by decide) (by decide) (by decide) (by decide)

/-! ## The list of best pairs -/

theorem pairBody_bestList (m1 m2 : List (Int × Nat)) (i1 i2 : Nat) (o : PairOut)
    (h : BestList m1 m2 o) :
    BestList m1 m2 (pairBody (pairSumErrors m1 m2 (i1, i2)) i1 i2 o) := by
  obtain ⟨h1, h2, h3, h4⟩ := h
  unfold pairBody
  simp only []
  by_cases c1 : pairSumErrors m1 m2 (i1, i2) < o.min_sum_errors
  · rw [if_pos c1]
    have e1 : (o.enumerated.filter fun e =>
        decide (pairSumErrors m1 m2 e = pairSumErrors m1 m2 (i1, i2))) = [] := by
      rw [List.filter_eq_nil_iff]
      intro e he
      have := h1 e he
      simp only [decide_eq_true_eq]
      omega
    have e2 : (o.best_mappings.filter fun e =>
        decide (pairSumErrors m1 m2 e = pairSumErrors m1 m2 (i1, i2))) = [] := by
      rw [List.filter_eq_nil_iff]
      intro e he
      have := h1 e (h2.subset he)
      simp only [decide_eq_true_eq]
      omega
    refine ⟨fun e he => ?_, ?_, ?_, ?_⟩
    · simp only [List.mem_append, List.mem_singleton] at he
      rcases he with he | he
      · have := h1 e he
        simp only []
        omega
      · rw [he]
    · exact List.Sublist.append h2 (List.Sublist.refl _)
    · simp only [List.filter_append, e1, e2]
    · simp only [List.filter_append, e1]
      simp
  · rw [if_neg c1]
    by_cases c2 : pairSumErrors m1 m2 (i1, i2) = o.min_sum_errors
    · rw [if_pos c2]
      refine ⟨fun e he => ?_, ?_, ?_, ?_⟩
      · simp only [List.mem_append, List.mem_singleton] at he
        rcases he with he | he
        · exact h1 e he
        · rw [he]
          simp only []
          omega
      · exact List.Sublist.append h2 (List.Sublist.refl _)
      · simp only [List.filter_append, h3]
      · simp only [List.filter_append, h4]
        simp [c2]
    · rw [if_neg c2]
      have hstep : BestList m1 m2
          { o with enumerated := o.enumerated ++ [(i1, i2)] } := by
        refine ⟨fun e he => ?_, ?_, ?_, ?_⟩
        · simp only [List.mem_append, List.mem_singleton] at he
          rcases he with he | he
          · exact h1 e he
          · rw [he]
            simp only []
            omega
        · exact h2.trans (List.sublist_append_left _ _)
        · simp only [List.filter_append, h3]
          simp [c2]
        · simp only [List.filter_append, h4]
          simp [c2]
      by_cases c3 : pairSumErrors m1 m2 (i1, i2) = o.second_min_sum_errors
      · rw [if_pos c3]
        exact hstep
      · rw [if_neg c3]
        exact hstep

theorem pairScan_bestList (w : PairWindow) (m1 m2 : List (Int × Nat))
    (i1 k cur : Nat) (o : PairOut) (h : BestList m1 m2 o) :
    BestList m1 m2 (pairScan w m1 m2 i1 k cur o) := by
  induction k generalizing cur o with
  | zero => exact h
  | succ k ih =>
      unfold pairScan
      split
      · exact ih _ _ (pairBody_bestList m1 m2 i1 cur o h)
      · exact h

theorem pairLoop_bestList (w : PairWindow) (m1 m2 : List (Int × Nat))
    (k i1 i2 : Nat) (o : PairOut) (h : BestList m1 m2 o) :
    BestList m1 m2 (pairLoop w m1 m2 k i1 i2 o) := by
  induction k generalizing i1 i2 o with
  | zero => exact h
  | succ k ih =>
      unfold pairLoop
      split
      · split
        · exact ih _ _ _ h
        · split
          · exact ih _ _ _ h
          · exact ih _ _ _ (pairScan_bestList w m1 m2 i1 _ i2 o h)
      · exact h

/-- C29, amended: after `GenerateBestMappingsForPairedEndReadOnOneDirection`,
started from the initial state (`min_sum_errors = 2E + 1`, counts 0, empty
list) on any alignment lists, the entries of `best_mappings` whose summed error
count equals the final `min_sum_errors` are exactly the index pairs of the
enumerated pairs with that sum, in the order of enumeration, and
`num_best_mappings` is their number; `best_mappings` is a subsequence of the
enumerated pairs and may also hold earlier pairs with a larger sum. -/
theorem best_mappings_filtered (w : PairWindow) (mappings1 mappings2 : List (Int × Nat))
    (E : Nat) :
    ((GenerateBestMappingsForPairedEndReadOnOneDirection w mappings1 mappings2
        { best_mappings := [], min_sum_errors := 2 * (E : Int) + 1, num_best_mappings := 0,
          second_min_sum_errors := 2 * (E : Int) + 1, num_second_best_mappings := 0,
          enumerated := [] }).best_mappings.filter fun e =>
        decide (pairSumErrors mappings1 mappings2 e =
          (GenerateBestMappingsForPairedEndReadOnOneDirection w mappings1 mappings2
            { best_mappings := [], min_sum_errors := 2 * (E : Int) + 1,
              num_best_mappings := 0, second_min_sum_errors := 2 * (E : Int) + 1,
              num_second_best_mappings := 0, enumerated := [] }).min_sum_errors)) =
      ((GenerateBestMappingsForPairedEndReadOnOneDirection w mappings1 mappings2
        { best_mappings := [], min_sum_errors := 2 * (E : Int) + 1, num_best_mappings := 0,
          second_min_sum_errors := 2 * (E : Int) + 1, num_second_best_mappings := 0,
          enumerated := [] }).enumerated.filter fun e =>
        decide (pairSumErrors mappings1 mappings2 e =
          (GenerateBestMappingsForPairedEndReadOnOneDirection w mappings1 mappings2
            { best_mappings := [], min_sum_errors := 2 * (E : Int) + 1,
              num_best_mappings := 0, second_min_sum_errors := 2 * (E : Int) + 1,
              num_second_best_mappings := 0, enumerated := [] }).min_sum_errors)) ∧
      (GenerateBestMappingsForPairedEndReadOnOneDirection w mappings1 mappings2
        { best_mappings := [], min_sum_errors := 2 * (E : Int) + 1, num_best_mappings := 0,
          second_min_sum_errors := 2 * (E : Int) + 1, num_second_best_mappings := 0,
          enumerated := [] }).num_best_mappings =
        (((GenerateBestMappingsForPairedEndReadOnOneDirection w mappings1 mappings2
          { best_mappings := [], min_sum_errors := 2 * (E : Int) + 1, num_best_mappings := 0,
            second_min_sum_errors := 2 * (E : Int) + 1, num_second_best_mappings := 0,
            enumerated := [] }).enumerated.filter fun e =>
          decide (pairSumErrors mappings1 mappings2 e =
            (GenerateBestMappingsForPairedEndReadOnOneDirection w mappings1 mappings2
              { best_mappings := [], min_sum_errors := 2 * (E : Int) + 1,
                num_best_mappings := 0, second_min_sum_errors := 2 * (E : Int) + 1,
                num_second_best_mappings := 0, enumerated := [] }).min_sum_errors)).length :
          Int) ∧
      (GenerateBestMappingsForPairedEndReadOnOneDirection w mappings1 mappings2
        { best_mappings := [], min_sum_errors := 2 * (E : Int) + 1, num_best_mappings := 0,
          second_min_sum_errors := 2 * (E : Int) + 1, num_second_best_mappings := 0,
          enumerated := [] }).best_mappings.Sublist
        (GenerateBestMappingsForPairedEndReadOnOneDirection w mappings1 mappings2
          { best_mappings := [], min_sum_errors := 2 * (E : Int) + 1, num_best_mappings := 0,
            second_min_sum_errors := 2 * (E : Int) + 1, num_second_best_mappings := 0,
            enumerated := [] }).enumerated := by
  have h := pairLoop_bestList w mappings1 mappings2 (mappings1.length + mappings2.length) 0 0
    { best_mappings := [], min_sum_errors := 2 * (E : Int) + 1, num_best_mappings := 0,
      second_min_sum_errors := 2 * (E : Int) + 1, num_second_best_mappings := 0,
      enumerated := [] }
    ⟨fun e he => by simp at he, List.Sublist.refl _, rfl, rfl⟩
  exact ⟨h.2.2.1, h.2.2.2, h.2.1⟩

/-- C29 as stated fails: with `E = 3`, one alignment of mate 1 with 1 error and
two alignments of mate 2 in its window with 1 and 0 errors, the first pair
(sum 2) is stored as a new minimum and stays in `best_mappings` when the second
pair (sum 1) lowers the minimum. The list then holds two pairs although only
one has the final minimal sum, and `num_best_mappings = 1` is not its
length. -/
theorem best_mappings_keeps_stale_pair :
    (GenerateBestMappingsForPairedEndReadOnOneDirection windowFR400 [(1, 1000)]
        staleMappings2 pairOutInit).best_mappings = [(0, 0), (0, 1)] ∧
      (GenerateBestMappingsForPairedEndReadOnOneDirection windowFR400 [(1, 1000)]
        staleMappings2 pairOutInit).min_sum_errors = 1 ∧
      (GenerateBestMappingsForPairedEndReadOnOneDirection windowFR400 [(1, 1000)]
        staleMappings2 pairOutInit).num_best_mappings = 1 ∧
      (GenerateBestMappingsForPairedEndReadOnOneDirection windowFR400 [(1, 1000)]
        staleMappings2 pairOutInit).enumerated = [(0, 0), (0, 1)] ∧
      pairSumErrors [(1, 1000)] staleMappings2 (0, 0) = 2 := by
  decide

/-! ## Dependence on the generator -/

/-- C27, amended: for every read pair whose `num_best_mappings` is at most
`max_num_best_mappings_`, the per-reference buffers after
`GenerateBestMappingsForPairedEndRead` are the same for every two sequences of
draws of the generator, so the records appended for the pair do not depend on
the reads processed before. -/
theorem records_independent_of_generator (p : SelectorParams) (draw1 draw2 : Nat → Nat)
    (read1 read2 : ReadRecord) (reference : Reference)
    (positive_mappings1 negative_mappings1 positive_mappings2 negative_mappings2 :
      List (Int × Nat))
    (F1R2_best_mappings F2R1_best_mappings : List (Nat × Nat))
    (buffers : Nat → List PairedEndMapping)
    (h : (GenerateBestMappingsForPairedEndRead p draw1 read1 read2 reference
      positive_mappings1 negative_mappings1 positive_mappings2 negative_mappings2
      F1R2_best_mappings F2R1_best_mappings buffers).num_best_mappings ≤
        p.max_num_best_mappings) :
    GenerateBestMappingsForPairedEndRead p draw1 read1 read2 reference positive_mappings1
        negative_mappings1 positive_mappings2 negative_mappings2 F1R2_best_mappings
        F2R1_best_mappings buffers =
      GenerateBestMappingsForPairedEndRead p draw2 read1 read2 reference positive_mappings1
        negative_mappings1 positive_mappings2 negative_mappings2 F1R2_best_mappings
        F2R1_best_mappings buffers := by
  unfold GenerateBestMappingsForPairedEndRead at h ⊢
  simp only [] at h
  simp only [sampleBestMappingIndices, if_neg (not_lt.mpr h)]

theorem records_independent_of_generator_witness :
    (GenerateBestMappingsForPairedEndRead capParams (fun _ => 0) capRead capRead capReference
        [(0, 1000)] [] [] staleMappings2 [] [] (fun _ => [])).num_best_mappings ≤
        capParams.max_num_best_mappings ∧
      GenerateBestMappingsForPairedEndRead capParams (fun _ => 0) capRead capRead capReference
          [(0, 1000)] [] [] staleMappings2 [] [] (fun _ => []) =
        GenerateBestMappingsForPairedEndRead capParams (fun _ => 1) capRead capRead
          capReference [(0, 1000)] [] [] staleMappings2 [] [] (fun _ => []) :=
  ⟨by decide,
    records_independent_of_generator capParams (fun _ => 0) (fun _ => 1) capRead capRead
      capReference [(0, 1000)] [] [] staleMappings2 [] [] (fun _ => []) (by decide)⟩

/-- C27 as stated fails: with `max_num_best_mappings_ = 1` and a pair that has
two best mappings (mate 1 ending at 10, mate 2 ending at 15 or at 20, no
errors), the draw of the reservoir step decides which of the two is kept. When
the generator yields 0 the second pair replaces the first and the record has
`fragment_length = 14`; when it yields 1 the first pair stays and the record
has `fragment_length = 9`. -/
theorem records_depend_on_generator :
    (GenerateBestMappingsForPairedEndRead tieParams (fun _ => 0) tieRead tieRead tieReference
        [(0, 10)] [] [] [(0, 15), (0, 20)] [] [] (fun _ => [])).num_best_mappings = 2 ∧
      (GenerateBestMappingsForPairedEndRead tieParams (fun _ => 0) tieRead tieRead
        tieReference [(0, 10)] [] [] [(0, 15), (0, 20)] [] []
        (fun _ => [])).mappings_on_diff_ref_seqs 0 =
        [{ read_id := 0, barcode := 0, fragment_start_position := 7, fragment_length := 14,
           mapq := 5, positive_alignment_length := 9, negative_alignment_length := 4 }] ∧
      (GenerateBestMappingsForPairedEndRead tieParams (fun _ => 1) tieRead tieRead
        tieReference [(0, 10)] [] [] [(0, 15), (0, 20)] [] []
        (fun _ => [])).mappings_on_diff_ref_seqs 0 =
        [{ read_id := 0, barcode := 0, fragment_start_position := 7, fragment_length := 9,
           mapq := 5, positive_alignment_length := 9, negative_alignment_length := 4 }] := by
  decide

/-! ## Range of the returned error count -/

theorem alignLoop_bound (c2u : Nat → Nat) (E : Nat) (pattern text : List Nat) (k i : Nat)
    (s s1 : BandState) (h0 : s.num_errors_at_band_start_position ≤ 3 * (E : Int))
    (h : alignLoop c2u E pattern text k i s = some s1) :
    s1.num_errors_at_band_start_position ≤ 3 * (E : Int) := by
  induction k generalizing i s with
  | zero =>
      simp only [alignLoop, Option.some.injEq] at h
      rw [← h]
      exact h0
  | succ k ih =>
      unfold alignLoop at h
      simp only [] at h
      split at h
      · exact absurd h (by simp)
      · rename_i hle
        exact ih (i + 1) _ (by simpa using hle) h

/-- C25, amended: for every pattern, text and read length, the error count
returned by `BandedAlignPatternToText` is at most `3E` when the column loop
runs to its end, and it is `E + 1`, with no end position written, when the
loop returns early. -/
theorem BandedAlignPatternToText_bound (c2u : Nat → Nat) (E : Nat) (pattern text : List Nat)
    (read_length : Nat) :
    (BandedAlignPatternToText c2u E pattern text read_length).num_errors ≤ 3 * (E : Int) ∨
      ((BandedAlignPatternToText c2u E pattern text read_length).num_errors = (E : Int) + 1 ∧
        (BandedAlignPatternToText c2u E pattern text read_length).mapping_end_position =
          none) := by
  cases hs : alignLoop c2u E pattern text read_length 0 (initBand c2u E pattern) with
  | none =>
      right
      simp [BandedAlignPatternToText, hs]
  | some s =>
      left
      have hb := alignLoop_bound c2u E pattern text read_length 0 _ s
        (by simp [initBand]) hs
      have h := (BandedAlignPatternToText_of_loop c2u E pattern text read_length s hs).1 0
        (Nat.zero_le _)
      simp only [bandVal] at h
      omega

/-- C25 as stated fails: with `E = 1` the read `CCC` against the window
`AAAAA` completes the column loop with three errors at the band start, no cell
of the last column is lower, and the function returns 3, above `E`. A read of
five bases `C` against seven bases `A` leaves through the early return with
`E + 1 = 2`. -/
theorem BandedAlignPatternToText_exceeds_threshold :
    BandedAlignPatternToText (fun x => x % 5) 1 [0, 0, 0, 0, 0] [1, 1, 1] 3 =
        { num_errors := 3, mapping_end_position := some 2 } ∧
      BandedAlignPatternToText (fun x => x % 5) 1 [0, 0, 0, 0, 0, 0, 0] [1, 1, 1, 1, 1] 5 =
        { num_errors := 2, mapping_end_position := none } := by
  decide

/-! ## Candidates whose window leaves the reference -/

theorem candidateSkipped_iff (E : Nat) (reference : Reference) (d : Direction)
    (read_length candidate : Nat) (hn : 1 ≤ read_length)
    (hfit : (reference ((candidate / U32) % U32)).length + read_length + E ≤ U32) :
    (candidateSkipped E reference read_length ((candidate / U32) % U32)
        (candidatePosition d read_length candidate) = true ↔
      windowEscapes E reference d read_length candidate) ∧
    (¬ windowEscapes E reference d read_length candidate →
      ((candidatePosition d read_length candidate : Nat) : Int) =
        candidateStart d read_length candidate) := by
  have hU : U32 = 4294967296 := rfl
  unfold candidateSkipped windowEscapes candidateStart candidatePosition
  generalize (reference ((candidate / U32) % U32)).length = len at hfit
  rw [hU] at *
  cases d with
  | kPositive =>
      simp only [Bool.or_eq_true, decide_eq_true_eq]
      constructor
      · omega
      · intro _
        trivial
  | kNegative =>
      simp only [Bool.or_eq_true, decide_eq_true_eq]
      constructor
      · omega
      · intro h
        omega

/-- C24: for every candidate whose verification window escapes the reference
(start below `E`, start at or beyond the reference length, or
`start + read_length + E` at or beyond it), `VerifyCandidatesOnOneDirection`
appends no alignment and leaves the four counters unchanged: the loop body
returns the state it was given, and so does the whole loop on a list of such
candidates. A candidate that does not escape passes the bounds test, and the
position at which `BandedAlignPatternToText` is invoked is the start, with
`E ≤ start` and `start + read_length + E` below the reference length, so the
window `[start - E, start + read_length + E)` lies inside the reference. The
sizes are taken to fit 32 bits: reference length plus read length plus `E` is
at most `2^32`, and the read is not empty. -/
theorem escaping_candidates_skipped (c2u : Nat → Nat) (E : Nat) (d : Direction)
    (read : ReadRecord) (reference : Reference) (st : VerifyState) (candidate : Nat)
    (candidates : List Nat) (hn : 1 ≤ read.length)
    (hfit : (reference ((candidate / U32) % U32)).length + read.length + E ≤ U32)
    (hall : ∀ c, c ∈ candidates →
      (reference ((c / U32) % U32)).length + read.length + E ≤ U32 ∧
        windowEscapes E reference d read.length c) :
    (windowEscapes E reference d read.length candidate →
      verifyOne c2u E d read reference st candidate = st ∧
        acceptedAlignment c2u E d read reference candidate = none) ∧
    (¬ windowEscapes E reference d read.length candidate →
      candidateSkipped E reference read.length ((candidate / U32) % U32)
          (candidatePosition d read.length candidate) = false ∧
        ((candidatePosition d read.length candidate : Nat) : Int) =
          candidateStart d read.length candidate ∧
        E ≤ candidatePosition d read.length candidate ∧
        candidatePosition d read.length candidate + read.length + E <
          (reference ((candidate / U32) % U32)).length) ∧
    VerifyCandidatesOnOneDirection c2u E d read reference candidates st = st := by
  obtain ⟨hiff, hpos⟩ := candidateSkipped_iff E reference d read.length candidate hn hfit
  refine ⟨fun hesc => ?_, fun hin => ?_, ?_⟩
  · have hskip := hiff.mpr hesc
    constructor
    · simp [verifyOne, hskip]
    · simp [acceptedAlignment, hskip]
  · have hskip : candidateSkipped E reference read.length ((candidate / U32) % U32)
        (candidatePosition d read.length candidate) = false := by
      cases h : candidateSkipped E reference read.length ((candidate / U32) % U32)
        (candidatePosition d read.length candidate) with
      | false => rfl
      | true => exact absurd (hiff.mp h) hin
    have hp := hpos hin
    refine ⟨hskip, hp, ?_, ?_⟩
    · unfold windowEscapes at hin
      rw [← hp] at hin
      omega
    · unfold windowEscapes at hin
      rw [← hp] at hin
      omega
  · unfold VerifyCandidatesOnOneDirection
    induction candidates generalizing st with
    | nil => rfl
    | cons c rest ih =>
        have hc := hall c (List.mem_cons_self _ _)
        have hskip := (candidateSkipped_iff E reference d read.length c hn hc.1).1.mpr hc.2
        rw [List.foldl_cons]
        have : verifyOne c2u E d read reference st c = st := by simp [verifyOne, hskip]
        rw [this]
        exact ih st (fun c' hc' => hall c' (List.mem_cons_of_mem _ hc'))

theorem escaping_candidates_skipped_witness :
    1 ≤ readACGT.length ∧
      (referenceTwoHits ((0 / U32) % U32)).length + readACGT.length + 1 ≤ U32 ∧
      (∀ c, c ∈ [0, 13, 10] →
        (referenceTwoHits ((c / U32) % U32)).length + readACGT.length + 1 ≤ U32 ∧
          windowEscapes 1 referenceTwoHits Direction.kPositive readACGT.length c) ∧
      windowEscapes 1 referenceTwoHits Direction.kPositive readACGT.length 0 ∧
      verifyOne (fun x => x % 5) 1 Direction.kPositive readACGT referenceTwoHits
        (initCounters 1 []) 0 = initCounters 1 [] ∧
      VerifyCandidatesOnOneDirection (fun x => x % 5) 1 Direction.kPositive readACGT
        referenceTwoHits [0, 13, 10] (initCounters 1 []) = initCounters 1 [] :=
  ⟨by decide, by decide, by decide, by decide,
    ((escaping_candidates_skipped (fun x => x % 5) 1 Direction.kPositive readACGT
      referenceTwoHits (initCounters 1 []) 0 [0, 13, 10] (by decide) (by decide)
      (by decide)).1 (by decide)).1,
    (escaping_candidates_skipped (fun x => x % 5) 1 Direction.kPositive readACGT
      referenceTwoHits (initCounters 1 []) 0 [0, 13, 10] (by decide) (by decide)
      (by decide)).2.2⟩

/-! ## The single-end scenarios -/

/-- C21, the code at a failing input, the scenario S1 itself: reference
`AAAAACCCCCGGGGGTTTTTAAAAACCCCC`, read `CCCCCGGGGGTTTTT` (the reference at
`[5, 20)`), `E = 2`, the positive candidate 5 alone. `VerifyCandidates` records
the alignment with 0 errors and the end position 19 (one best, no second
best), and `GenerateBestMappingsForSingleEndRead` emits one record with start
5 and MAPQ 60, but with the length `19 - 5 = 14`: the single-end record takes
`position - start_position`, one less than the 15 bases covered. -/
theorem single_end_exact_match_length :
    VerifyCandidates (fun x => x % 5) 2 scenarioReadExact scenarioReference [5] [] [] [] =
        { positive_mappings := [(0, 19)], negative_mappings := [], min_num_errors := 0,
          num_best_mappings := 1, second_min_num_errors := 3,
          num_second_best_mappings := 0 } ∧
      mapSingleEndRead scenarioParams (fun _ => 0) scenarioReference scenarioReadExact [5] []
          (fun _ => []) 0 =
        [{ read_id := 0, fragment_start_position := 5, fragment_length := 14, mapq := 60 }] ∧
      ((scenarioReference 0).drop 5).take 15 = scenarioReadExact.sequence := by
  decide

/-- C22, amended: with reference `AAAAACCCCCGGGGGTTTTTAAAAACCCCC`, read
`CCCCGGGGGTTTTTT`, `E = 2` and the single positive candidate 5,
`VerifyCandidates` records one alignment with `num_errors = 1` (end position
19, one best, no second best), and the single-end selector emits exactly one
record, with start 6 and MAPQ 60. The read is the reference at `[6, 20)`
followed by one more `T`. -/
theorem single_end_shifted_read :
    VerifyCandidates (fun x => x % 5) 2 scenarioReadShifted scenarioReference [5] [] [] [] =
        { positive_mappings := [(1, 19)], negative_mappings := [], min_num_errors := 1,
          num_best_mappings := 1, second_min_num_errors := 3,
          num_second_best_mappings := 0 } ∧
      (mapSingleEndRead scenarioParams (fun _ => 0) scenarioReference scenarioReadShifted [5] []
          (fun _ => []) 0).map (fun r => (r.read_id, r.fragment_start_position, r.mapq)) =
        [(0, 6, 60)] ∧
      ((scenarioReference 0).drop 6).take 14 ++ [3] = scenarioReadShifted.sequence := by
  decide

/-- C22 as stated fails: the read `CCCCGGGGGTTTTTT` differs from the reference
at `[5, 20)` in two positions and is the reference at `[6, 20)` followed by one
more `T`, so the alignment with one error that the traceback finds starts at 6;
no emitted record has start 5 or length 15. -/
theorem single_end_shifted_read_not_at_five :
    hammingCount 2 ((scenarioReference 0).drop 3) scenarioReadShifted.sequence 15 = 2 ∧
      ((scenarioReference 0).drop 6).take 14 ++ [3] = scenarioReadShifted.sequence ∧
      BandedTraceback (fun x => x % 5) 2 1 ((scenarioReference 0).drop 3)
        scenarioReadShifted.sequence 15 = 3 ∧
      ¬ (∃ r, r ∈ mapSingleEndRead scenarioParams (fun _ => 0) scenarioReference
          scenarioReadShifted [5] [] (fun _ => []) 0 ∧
        (r.fragment_start_position = 5 ∨ r.fragment_length = 15)) := by
  decide

/-! ## The paired-end scenario -/

theorem window_accepts_FR (w : PairWindow) (rid e1 e2 : Nat)
    (hd : w.first_read_direction = Direction.kPositive) (he1 : 1 ≤ e1) (he2 : 1 ≤ e2)
    (hm : w.min_overlap_length ≤ w.read2_length)
    (hw1 : e1 ≤ e2 + (w.read2_length - w.min_overlap_length))
    (hw2 : e2 + w.read2_length ≤ e1 + w.max_insert_size)
    (hrid : rid < U32) (hfit : e1 + w.max_insert_size ≤ U32)
    (hfit2 : e2 + w.read2_length ≤ U32) :
    pairTooLow w (U32 * rid + (e1 - 1)) (U32 * rid + (e2 - 1)) = false ∧
      pairTooHigh w (U32 * rid + (e1 - 1)) (U32 * rid + (e2 - 1)) = false ∧
      pairInReach w (U32 * rid + (e1 - 1)) (U32 * rid + (e2 - 1)) = true := by
  unfold pairTooLow pairTooHigh pairInReach
  simp only [U32, U64, hd] at *
  refine ⟨?_, ?_, ?_⟩
  · simp
    omega
  · simp
    omega
  · simp
    omega
theorem BandedTraceback_zero (c2u : Nat → Nat) (E : Nat) (pattern text : List Nat) (n : Nat) :
    BandedTraceback c2u E 0 pattern text n = (E : Int) := by
  simp [BandedTraceback]

theorem verificationWindowStart_inside (E n len position : Nat) (h1 : n + E ≤ position + 1)
    (h2 : position + E < len) (h3 : len < U32) :
    verificationWindowStart E n len position = position + 1 - n - E := by
  unfold verificationWindowStart
  simp only [U32] at *
  have e1 : (position + 1) % 4294967296 = position + 1 := Nat.mod_eq_of_lt (by omega)
  have e2 : (n + E) % 4294967296 = n + E := Nat.mod_eq_of_lt (by omega)
  have e3 : (position + E) % 4294967296 = position + E := Nat.mod_eq_of_lt (by omega)
  rw [e1, e2, e3, if_neg (by omega)]
  split <;> omega

theorem pairedRecord_exact (a : ProcessArgs) (rid s1 e1 s2 e2 : Nat)
    (hd : a.first_read_direction = Direction.kPositive)
    (ha1 : a.mappings1 = [(0, U32 * rid + (e1 - 1))])
    (ha2 : a.mappings2 = [(0, U32 * rid + (e2 - 1))])
    (hrid : rid < U32) (hlen : (a.reference rid).length < U32)
    (hn1 : e1 = s1 + a.read1.length) (hn2 : e2 = s2 + a.read2.length)
    (hr1 : 1 ≤ a.read1.length) (hr2 : 1 ≤ a.read2.length)
    (hs1 : a.error_threshold ≤ s1) (hs2 : a.error_threshold ≤ s2)
    (hb1 : e1 + a.error_threshold ≤ (a.reference rid).length)
    (hb2 : e2 + a.error_threshold ≤ (a.reference rid).length)
    (hfr : s1 ≤ e2) (h16 : e2 < s1 + U16) :
    (pairedRecord a 0 0).1 = rid ∧
      (pairedRecord a 0 0).2.read_id = a.read1.id ∧
      (pairedRecord a 0 0).2.barcode = a.barcode_key ∧
      (pairedRecord a 0 0).2.fragment_start_position = s1 ∧
      (pairedRecord a 0 0).2.fragment_length = e2 - s1 ∧
      (pairedRecord a 0 0).2.mapq = a.mapq ∧
      (pairedRecord a 0 0).2.positive_alignment_length &&& 1 = 1 ∧
      (pairedRecord a 0 0).2.negative_alignment_length = a.read2.length % U16 := by
  have hp1 : (U32 * rid + (e1 - 1)) % U32 = e1 - 1 := by
    simp only [U32] at *
    omega
  have hp2 : (U32 * rid + (e2 - 1)) % U32 = e2 - 1 := by
    simp only [U32] at *
    omega
  have hq1 : ((U32 * rid + (e1 - 1)) / U32) % U32 = rid := by
    simp only [U32] at *
    omega
  have hq2 : ((U32 * rid + (e2 - 1)) / U32) % U32 = rid := by
    simp only [U32] at *
    omega
  have hv1 := verificationWindowStart_inside a.error_threshold a.read1.length
    (a.reference rid).length (e1 - 1) (by omega) (by omega) hlen
  have hv2 := verificationWindowStart_inside a.error_threshold a.read2.length
    (a.reference rid).length (e2 - 1) (by omega) (by omega) hlen
  unfold pairedRecord
  simp only [ha1, ha2, hd, List.getD_cons_zero, hp1, hp2, hq1, hq2, hv1, hv2,
    BandedTraceback_zero, lor_one_and_one]
  simp only [U32, U16] at *
  refine ⟨trivial, trivial, trivial, ?_, ?_, trivial, trivial, ?_⟩
  · omega
  · omega
  · omega
theorem generate_single_pair (p : SelectorParams) (draw : Nat → Nat) (read1 read2 : ReadRecord)
    (reference : Reference) (P1 P2 : Nat) (buffers : Nat → List PairedEndMapping)
    (hlow : pairTooLow
      { first_read_direction := Direction.kPositive, max_insert_size := p.max_insert_size,
                               min_overlap_length := p.min_read_length,
                               read1_length := read1.length, read2_length := read2.length }
      P1 P2 = false)
    (hhigh : pairTooHigh
      { first_read_direction := Direction.kPositive, max_insert_size := p.max_insert_size,
                               min_overlap_length := p.min_read_length,
                               read1_length := read1.length, read2_length := read2.length }
      P1 P2 = false)
    (hreach : pairInReach
      { first_read_direction := Direction.kPositive, max_insert_size := p.max_insert_size,
                               min_overlap_length := p.min_read_length,
                               read1_length := read1.length, read2_length := read2.length }
      P1 P2 = true)
    (hN : 1 ≤ p.max_num_best_mappings) (hdrop : 1 ≤ p.drop_repetitive_reads) :
    (GenerateBestMappingsForPairedEndRead p draw read1 read2 reference [(0, P1)] [] []
        [(0, P2)] [] [] buffers).mappings_on_diff_ref_seqs =
      appendRecords buffers
        [pairedRecord (pairedArgs p Direction.kPositive read1 read2 reference [(0, P1)]
          [(0, P2)] 60 (iotaIndices p.max_num_best_mappings) 0 1) 0 0] := by
  have hf : generateF1R2 p read1 read2 [(0, P1)] [(0, P2)] [] =
      { best_mappings := [(0, 0)], min_sum_errors := 0, num_best_mappings := 1,
        second_min_sum_errors := 2 * (p.error_threshold : Int) + 1,
        num_second_best_mappings := 0, enumerated := [(0, 0)] } := by
    unfold generateF1R2 GenerateBestMappingsForPairedEndReadOnOneDirection
    have hE : (0 : Int) < 2 * (p.error_threshold : Int) + 1 := by omega
    simp [pairLoop, pairScan, pairBody, hlow, hhigh, hreach, hE]
  have hi : (iotaIndices p.max_num_best_mappings).getD 0 0 = 0 := by
    rw [iotaIndices_getD _ 0 (by omega)]
    rfl
  have hmin : min p.max_num_best_mappings 1 = 1 := by omega
  unfold GenerateBestMappingsForPairedEndRead
  simp only [hf]
  have hr : generateF2R1 p read1 read2 [] [] []
      { best_mappings := [(0, 0)], min_sum_errors := 0, num_best_mappings := 1,
        second_min_sum_errors := 2 * (p.error_threshold : Int) + 1,
        num_second_best_mappings := 0, enumerated := [(0, 0)] } =
      { best_mappings := [], min_sum_errors := 0, num_best_mappings := 1,
        second_min_sum_errors := 2 * (p.error_threshold : Int) + 1,
        num_second_best_mappings := 0, enumerated := [(0, 0)] } := rfl
  simp only [hr]
  have hs : sampleBestMappingIndices p.max_num_best_mappings 1 draw =
      iotaIndices p.max_num_best_mappings := by
    unfold sampleBestMappingIndices
    simp only []
    rw [if_neg (by omega)]
  have hq : mapqPairedEnd 1 0 = 60 := by decide
  rw [if_pos hdrop, hs, hq]
  simp only [ProcessBestMappingsForPairedEndReadOnOneDirection, processLoop, pairedArgs,
    List.getD_cons_zero, Int.toNat_zero, hi, hmin]
  simp [appendRecords_single]
/-- C23: scenario S3 generalised. When `VerifyCandidates` leaves for mate 1 the
single positive alignment without error that ends the exact match `[s1, e1)`
on reference `rid`, and for mate 2 the single negative alignment without error
that ends the exact match `[s2, e2)` of its reverse complement, both windows
inside the reference, mate 1 starting no later than mate 2, and the end
positions inside the window that the FR arm tests (`e1 ≤ e2 + (read2_length -
min_read_length)` and `e2 + read2_length ≤ e1 + max_insert_size`), the
paired-end pipeline appends exactly one record, to the buffer of `rid`, with
`fragment_start_position = s1`, `fragment_length = e2 - s1`, MAPQ 60 and the
low bit of `positive_alignment_length` set. -/
theorem paired_exact_match_record (p : SelectorParams) (draw : Nat → Nat)
    (reference : Reference) (read1 read2 : ReadRecord)
    (positive_candidates1 negative_candidates1 positive_candidates2 negative_candidates2 :
      List Nat)
    (buffers : Nat → List PairedEndMapping) (rid s1 e1 s2 e2 : Nat)
    (hv1p : (VerifyCandidates p.c2u p.error_threshold read1 reference positive_candidates1
      negative_candidates1 [] []).positive_mappings = [(0, U32 * rid + (e1 - 1))])
    (hv1n : (VerifyCandidates p.c2u p.error_threshold read1 reference positive_candidates1
      negative_candidates1 [] []).negative_mappings = [])
    (hv2p : (VerifyCandidates p.c2u p.error_threshold read2 reference positive_candidates2
      negative_candidates2 [] []).positive_mappings = [])
    (hv2n : (VerifyCandidates p.c2u p.error_threshold read2 reference positive_candidates2
      negative_candidates2 [] []).negative_mappings = [(0, U32 * rid + (e2 - 1))])
    (hrid : rid < U32) (hlen : (reference rid).length + p.max_insert_size < U32)
    (hn1 : e1 = s1 + read1.length) (hn2 : e2 = s2 + read2.length)
    (hr1 : 1 ≤ read1.length) (hr2 : p.min_read_length ≤ read2.length)
    (hr2' : 1 ≤ read2.length)
    (hs1 : p.error_threshold ≤ s1) (hs2 : p.error_threshold ≤ s2)
    (hb1 : e1 + p.error_threshold ≤ (reference rid).length)
    (hb2 : e2 + p.error_threshold ≤ (reference rid).length)
    (hfr : s1 ≤ s2) (h16 : e2 < s1 + U16)
    (hw1 : e1 ≤ e2 + (read2.length - p.min_read_length))
    (hw2 : e2 + read2.length ≤ e1 + p.max_insert_size)
    (hN : 1 ≤ p.max_num_best_mappings) (hdrop : 1 ≤ p.drop_repetitive_reads) :
    ∃ r : PairedEndMapping,
      mapPairedEndRead p draw reference read1 read2 positive_candidates1 negative_candidates1
          positive_candidates2 negative_candidates2 buffers =
        appendRecords buffers [(rid, r)] ∧
      r.read_id = read1.id ∧ r.fragment_start_position = s1 ∧ r.fragment_length = e2 - s1 ∧
      r.mapq = 60 ∧ r.positive_alignment_length &&& 1 = 1 := by
  have hU : U32 = 4294967296 := rfl
  obtain ⟨hlow, hhigh, hreach⟩ := window_accepts_FR
    { first_read_direction := Direction.kPositive, max_insert_size := p.max_insert_size,
                             min_overlap_length := p.min_read_length,
                             read1_length := read1.length, read2_length := read2.length }
    rid e1 e2 rfl (by omega) (by omega) hr2 hw1 hw2 hrid
    (by show e1 + p.max_insert_size ≤ U32; omega)
    (by show e2 + read2.length ≤ U32; omega)
  have hg := generate_single_pair p draw read1 read2 reference (U32 * rid + (e1 - 1))
    (U32 * rid + (e2 - 1)) buffers hlow hhigh hreach hN hdrop
  obtain ⟨a1, a2, _, a4, a5, a6, a7, _⟩ := pairedRecord_exact
    (pairedArgs p Direction.kPositive read1 read2 reference [(0, U32 * rid + (e1 - 1))]
      [(0, U32 * rid + (e2 - 1))] 60 (iotaIndices p.max_num_best_mappings) 0 1)
    rid s1 e1 s2 e2 rfl rfl rfl hrid (by show (reference rid).length < U32; omega) hn1 hn2 hr1 hr2' hs1
    hs2 hb1 hb2 (by omega) h16
  refine ⟨(pairedRecord (pairedArgs p Direction.kPositive read1 read2 reference
    [(0, U32 * rid + (e1 - 1))] [(0, U32 * rid + (e2 - 1))] 60
    (iotaIndices p.max_num_best_mappings) 0 1) 0 0).2, ?_, a2, a4, a5, a6, a7⟩
  unfold mapPairedEndRead
  simp only [hv1p, hv1n, hv2p, hv2n]
  have hrec : pairedRecord (pairedArgs p Direction.kPositive read1 read2 reference
      [(0, U32 * rid + (e1 - 1))] [(0, U32 * rid + (e2 - 1))] 60
      (iotaIndices p.max_num_best_mappings) 0 1) 0 0 =
      (rid, (pairedRecord (pairedArgs p Direction.kPositive read1 read2 reference
        [(0, U32 * rid + (e1 - 1))] [(0, U32 * rid + (e2 - 1))] 60
        (iotaIndices p.max_num_best_mappings) 0 1) 0 0).2) := Prod.ext a1 rfl
  rw [if_pos (by simp), hg, hrec]

set_option maxRecDepth 100000 in
theorem paired_exact_match_record_witness :
    ∃ r : PairedEndMapping,
      mapPairedEndRead scenarioParams (fun _ => 0) fragmentReference fragmentRead1
          fragmentRead2 [10] [] [] [199] (fun _ => []) =
        appendRecords (fun _ => []) [(0, r)] ∧
      r.read_id = fragmentRead1.id ∧ r.fragment_start_position = 10 ∧
      r.fragment_length = 200 - 10 ∧ r.mapq = 60 ∧ r.positive_alignment_length &&& 1 = 1 :=
  paired_exact_match_record scenarioParams (fun _ => 0) fragmentReference fragmentRead1
    fragmentRead2 [10] [] [] [199] (fun _ => []) 0 10 30 180 200 (by decide) (by decide)
    (by decide) (by decide) (by decide) (by decide) (by decide) (by decide) (by decide)
    (by decide) (by decide) (by decide) (by decide) (by decide) (by decide) (by decide)
    (by decide) (by decide) (by decide) (by decide) (by decide)

theorem stringFind_some (hay needle : List Nat) (pos k : Nat)
    (h : stringFind hay needle pos = some k) :
    pos ≤ k ∧ k + needle.length ≤ hay.length ∧
      ∀ j, j < needle.length → hay.getD (k + j) 0 = needle.getD j 0 := by
  unfold stringFind at h
  have hm := List.mem_of_mem_head? h
  rw [List.mem_filter] at hm
  obtain ⟨hr, hc⟩ := hm
  simp only [Bool.and_eq_true, decide_eq_true_eq] at hc
  rw [List.mem_range] at hr
  obtain ⟨hp, he⟩ := hc
  refine ⟨hp, by omega, fun j hj => ?_⟩
  have h1 : needle.getD j 0 = ((hay.drop k).take needle.length).getD j 0 := by rw [he]
  rw [h1]
  simp only [List.getD_eq_getElem?_getD, List.getElem?_take, List.getElem?_drop, hj, if_true]

theorem seedStartPosition_occurrence (read1 negative_read2 : List Nat) (si seed_length pos : Nat) :
    SeedOccurrence read1 negative_read2 si seed_length
      (seedStartPosition negative_read2 read1 si seed_length pos) := by
  unfold seedStartPosition
  cases hf : stringFind negative_read2
      ((List.range seed_length).map fun j => read1.getD (si * seed_length + j) 0) pos with
  | none => exact Or.inl rfl
  | some k =>
    obtain ⟨_, h2, h3⟩ := stringFind_some _ _ _ _ hf
    simp only [List.length_map, List.length_range] at h2 h3
    refine Or.inr ⟨k, rfl, h2, fun j hj => ?_⟩
    rw [h3 j hj]
    simp [List.getD_eq_getElem?_getD, List.getElem?_map, List.getElem?_range, hj]

theorem mismatchCount_self (read1 negative_read2 : List Nat) (base lo : Nat) :
    mismatchCount read1 negative_read2 base lo lo = 0 := by
  simp [mismatchCount]

theorem mismatchCount_step (read1 negative_read2 : List Nat) (base lo hi : Nat) (h : lo < hi) :
    mismatchCount read1 negative_read2 base lo hi =
      (if negative_read2.getD (base + lo) 0 ≠ read1.getD lo 0 then 1 else 0) +
        mismatchCount read1 negative_read2 base (lo + 1) hi := by
  unfold mismatchCount
  have hd : hi - lo = (hi - (lo + 1)) + 1 := by omega
  rw [hd, List.range'_succ, List.filter_cons]
  by_cases hc : negative_read2.getD (base + lo) 0 ≠ read1.getD lo 0
  · rw [if_pos (by simpa using hc), if_pos hc, List.length_cons]
    omega
  · rw [if_neg (by simpa using hc), if_neg hc, zero_add]

theorem mismatchCount_split (read1 negative_read2 : List Nat) (base : Nat) :
    ∀ (d lo mid hi : Nat), mid = lo + d → mid ≤ hi →
      mismatchCount read1 negative_read2 base lo hi =
        mismatchCount read1 negative_read2 base lo mid +
          mismatchCount read1 negative_read2 base mid hi := by
  intro d
  induction d with
  | zero =>
    intro lo mid hi hm _
    have : mid = lo := by omega
    subst this
    rw [mismatchCount_self, zero_add]
  | succ d ih =>
    intro lo mid hi hm hle
    rw [mismatchCount_step read1 negative_read2 base lo hi (by omega),
      mismatchCount_step read1 negative_read2 base lo mid (by omega),
      ih (lo + 1) mid hi (by omega) hle]
    omega

theorem mismatchCount_zero (read1 negative_read2 : List Nat) (base lo hi : Nat)
    (h : ∀ t, lo ≤ t → t < hi → negative_read2.getD (base + t) 0 = read1.getD t 0) :
    mismatchCount read1 negative_read2 base lo hi = 0 := by
  unfold mismatchCount
  rw [List.length_eq_zero, List.filter_eq_nil_iff]
  intro t ht
  rw [List.mem_range'_1] at ht
  simp only [decide_eq_true_eq, not_not]
  exact h t ht.1 (by omega)

theorem trimPrefixLoop_spec (read1 negative_read2 : List Nat) (base si seed_length : Nat) :
    ∀ (k i num_errors : Nat), num_errors ≤ 1 →
      (trimPrefixLoop read1 negative_read2 ((base + si * seed_length : Nat) : Int) si
        seed_length k i num_errors).2 = true →
      (trimPrefixLoop read1 negative_read2 ((base + si * seed_length : Nat) : Int) si
        seed_length k i num_errors).1 =
          num_errors + mismatchCount read1 negative_read2 base i (i + k) ∧
      (trimPrefixLoop read1 negative_read2 ((base + si * seed_length : Nat) : Int) si
        seed_length k i num_errors).1 ≤ 1 := by
  intro k
  induction k with
  | zero =>
    intro i num_errors hn _
    simp only [trimPrefixLoop, add_zero, mismatchCount_self]
    exact ⟨trivial, hn⟩
  | succ k ih =>
    intro i num_errors hn hr
    have hidx : (((base + si * seed_length : Nat) : Int) - (si : Int) * (seed_length : Int) +
        (i : Int)).toNat = base + i := by
      push_cast
      omega
    rw [mismatchCount_step read1 negative_read2 base i (i + (k + 1)) (by omega)]
    simp only [trimPrefixLoop, hidx] at hr ⊢
    by_cases hc : negative_read2.getD (base + i) 0 ≠ read1.getD i 0
    · simp only [if_pos hc] at hr ⊢
      by_cases hgt : num_errors + 1 > 1
      · simp only [if_pos hgt] at hr
        exact absurd hr (by simp)
      · simp only [if_neg hgt] at hr ⊢
        obtain ⟨h1, h2⟩ := ih (i + 1) (num_errors + 1) (by omega) hr
        refine ⟨?_, h2⟩
        rw [h1]
        have : i + 1 + k = i + (k + 1) := by omega
        rw [this]
        omega
    · simp only [if_neg hc] at hr ⊢
      have hgt : ¬ num_errors > 1 := by omega
      simp only [if_neg hgt] at hr ⊢
      obtain ⟨h1, h2⟩ := ih (i + 1) num_errors hn hr
      refine ⟨?_, h2⟩
      rw [h1]
      have : i + 1 + k = i + (k + 1) := by omega
      rw [this]
      omega

theorem trimSuffixLoop_spec (read1 negative_read2 : List Nat)
    (read2_length base si seed_length : Nat) (h32 : read2_length < U32) :
    ∀ (k i num_errors : Nat) (can_merge : Bool),
      base + si * seed_length + i ≤ read2_length →
      read2_length ≤ base + si * seed_length + i + k →
      (trimSuffixLoop read1 negative_read2 read2_length ((base + si * seed_length : Nat) : Int)
        si seed_length k i num_errors can_merge).2 = true →
      can_merge = true ∧ (num_errors ≤ 1 →
      (trimSuffixLoop read1 negative_read2 read2_length ((base + si * seed_length : Nat) : Int)
        si seed_length k i num_errors can_merge).1 =
          num_errors + mismatchCount read1 negative_read2 base (si * seed_length + i)
            (read2_length - base) ∧
      (trimSuffixLoop read1 negative_read2 read2_length ((base + si * seed_length : Nat) : Int)
        si seed_length k i num_errors can_merge).1 ≤ 1) := by
  intro k
  induction k with
  | zero =>
    intro i num_errors can_merge h1 h2 hr
    have he : read2_length - base = si * seed_length + i := by omega
    simp only [trimSuffixLoop] at hr ⊢
    rw [he, mismatchCount_self]
    exact ⟨hr, fun hn => ⟨rfl, hn⟩⟩
  | succ k ih =>
    intro i num_errors can_merge h1 h2 hr
    have hidx : (((base + si * seed_length : Nat) : Int) + (i : Int)).toNat =
        base + (si * seed_length + i) := by
      push_cast
      omega
    by_cases hlt : base + si * seed_length + i < read2_length
    · have hcond : ((i : Int) + ((base + si * seed_length : Nat) : Int)) % (U32 : Int) <
          (read2_length : Int) := by
        simp only [U32] at h32 ⊢
        push_cast
        omega
      rw [mismatchCount_step read1 negative_read2 base (si * seed_length + i)
        (read2_length - base) (by omega)]
      simp only [trimSuffixLoop, if_pos hcond, hidx] at hr ⊢
      have hi : si * seed_length + (i + 1) = si * seed_length + i + 1 := by omega
      by_cases hc : negative_read2.getD (base + (si * seed_length + i)) 0 ≠
          read1.getD (si * seed_length + i) 0
      · simp only [if_pos hc] at hr ⊢
        by_cases hgt : num_errors + 1 > 1
        · simp only [if_pos hgt] at hr
          exact absurd hr (by simp)
        · simp only [if_neg hgt] at hr ⊢
          obtain ⟨h0, h3⟩ := ih (i + 1) (num_errors + 1) can_merge (by omega) (by omega) hr
          refine ⟨h0, fun _ => ?_⟩
          obtain ⟨h3, h4⟩ := h3 (by omega)
          refine ⟨?_, h4⟩
          rw [h3, hi]
          omega
      · simp only [if_neg hc] at hr ⊢
        by_cases hgt : num_errors > 1
        · simp only [if_pos hgt] at hr
          exact absurd hr (by simp)
        · simp only [if_neg hgt] at hr ⊢
          obtain ⟨h0, h3⟩ := ih (i + 1) num_errors can_merge (by omega) (by omega) hr
          refine ⟨h0, fun hn => ?_⟩
          obtain ⟨h3, h4⟩ := h3 hn
          refine ⟨?_, h4⟩
          rw [h3, hi]
          omega
    · have hcond : ¬ ((i : Int) + ((base + si * seed_length : Nat) : Int)) % (U32 : Int) <
          (read2_length : Int) := by
        simp only [U32] at h32 ⊢
        push_cast
        omega
      have he : read2_length - base = si * seed_length + i := by omega
      simp only [trimSuffixLoop, if_neg hcond] at hr ⊢
      rw [he, mismatchCount_self]
      exact ⟨hr, fun hn => ⟨rfl, hn⟩⟩

theorem trimWhile_spec (min_overlap_length : Nat) (read1 negative_read2 : List Nat)
    (read2_length si seed_length o o2 : Nat) (hlen : negative_read2.length = read2_length)
    (h32 : read2_length < U32) :
    ∀ (k : Nat) (seed_start_position : Int),
      SeedOccurrence read1 negative_read2 si seed_length seed_start_position →
      trimWhile min_overlap_length read1 negative_read2 read2_length si seed_length k
        seed_start_position = some (o, o2) →
      o2 = o ∧ ∃ seed_start : Nat, si * seed_length ≤ seed_start ∧
        seed_start + seed_length ≤ read2_length ∧
        (∀ j, j < seed_length →
          negative_read2.getD (seed_start + j) 0 = read1.getD (si * seed_length + j) 0) ∧
        o + seed_start = read2_length + si * seed_length ∧ min_overlap_length ≤ o ∧
        mismatchCount read1 negative_read2 (read2_length - o) 0 o ≤ 1 := by
  intro k
  induction k with
  | zero =>
    intro ss _ h
    simp [trimWhile] at h
  | succ k ih =>
    intro ss hocc h
    rw [trimWhile] at h
    split at h
    · rename_i hcond
      obtain ⟨_, c2, c3⟩ := hcond
      rcases hocc with hneg | ⟨ks, hks, hfit, hseed⟩
      · exfalso
        have : (0 : Int) ≤ (si : Int) * (seed_length : Int) := by positivity
        omega
      · subst hks
        have hge : si * seed_length ≤ ks := by
          have : ((si * seed_length : Nat) : Int) ≤ (ks : Int) := by
            push_cast
            exact c3
          exact Int.ofNat_le.mp this
        obtain ⟨base, hbase⟩ : ∃ base, ks = base + si * seed_length := ⟨ks - si * seed_length, by omega⟩
        subst hbase
        simp only at h
        split at h
        · rename_i hm
          obtain ⟨hcm, hs⟩ := trimSuffixLoop_spec read1 negative_read2 read2_length base si
            seed_length h32 read2_length seed_length _ _ (by omega) (by omega) hm
          obtain ⟨hp1, hp2⟩ := trimPrefixLoop_spec read1 negative_read2 base si seed_length
            (seed_length * si) 0 0 (by omega) hcm
          obtain ⟨hs1, hs2⟩ := hs hp2
          obtain ⟨h1, h1'⟩ := Prod.mk.inj (Option.some.inj h)
          have ho2 : o2 = o := by rw [← h1, ← h1']
          have ho : o = read2_length - base := by
            rw [← h1]
            have h2 : ((read2_length : Int) - ((base + si * seed_length : Nat) : Int) +
                (si : Int) * (seed_length : Int)) = ((read2_length - base : Nat) : Int) := by
              push_cast
              omega
            rw [h2]
            simp only [U32] at h32 ⊢
            omega
          have hc2 : min_overlap_length ≤ o := by
            have h2 : ((read2_length : Int) - ((base + si * seed_length : Nat) : Int) +
                (seed_length : Int) * (si : Int)) = ((read2_length - base : Nat) : Int) := by
              push_cast
              have := mul_comm (seed_length : Int) (si : Int)
              omega
            rw [h2] at c2
            simp only [U32] at h32 c2
            omega
          refine ⟨ho2, base + si * seed_length, by omega, by omega, hseed, by omega, hc2, ?_⟩
          have hb : read2_length - o = base := by omega
          rw [hb, ho]
          rw [mismatchCount_split read1 negative_read2 base (si * seed_length) 0
            (si * seed_length) (read2_length - base) (by omega) (by omega),
            mismatchCount_split read1 negative_read2 base seed_length (si * seed_length)
              (si * seed_length + seed_length) (read2_length - base) rfl (by omega)]
          have hz := mismatchCount_zero read1 negative_read2 base (si * seed_length)
            (si * seed_length + seed_length) (fun t ht1 ht2 => by
              have := hseed (t - si * seed_length) (by omega)
              have e1 : base + si * seed_length + (t - si * seed_length) = base + t := by omega
              have e2 : si * seed_length + (t - si * seed_length) = t := by omega
              rw [e1, e2] at this
              exact this)
          have hsl : seed_length * si = si * seed_length := mul_comm _ _
          rw [hsl] at hp1 hs1 hs2
          simp only [zero_add] at hp1
          rw [hz]
          clear c2 c3 hc2 h hm hp2 hseed hz h1 h1' ho2
          omega
        · exact ih _ (seedStartPosition_occurrence _ _ _ _ _) h
    · exact absurd h (by simp)

theorem trimSeed_spec (min_read_length : Nat) (read1 negative_read2 : List Nat)
    (read2_length si o o2 : Nat) (hlen : negative_read2.length = read2_length)
    (h32 : read2_length < U32) (hs : si ≤ 1)
    (h : trimSeed min_read_length read1 negative_read2 read2_length si = some (o, o2)) :
    o2 = o ∧ ∃ seed_start,
      OverlapCheck min_read_length read1 negative_read2 read2_length si seed_start o := by
  unfold trimSeed at h
  obtain ⟨h2, seed_start, h3⟩ := trimWhile_spec min_read_length read1 negative_read2
    read2_length si (min_read_length / 2) o o2 hlen h32 _ _
    (seedStartPosition_occurrence _ _ _ _ _) h
  exact ⟨h2, seed_start, hs, h3⟩

/-- C26: whenever `TrimAdapterForPairedEndRead` trims a pair, both mates are
trimmed to the same length `o`, and `o` passes the overlap check for a seed
number `s ∈ {0, 1}` and a position `seed_start` at which that seed occurs:
`o = read2_length - seed_start + s * L` with `L = min_read_length / 2`,
`o ≥ min_read_length`, and the first `o` bases of read 1 differ from the last
`o` bases of the reverse complement of read 2 in at most one position. When no
seed occurrence passes the check, neither mate is trimmed. -/
theorem TrimAdapterForPairedEndRead_overlap (min_read_length : Nat)
    (read1 negative_read2 : List Nat) (read2_length : Nat)
    (hlen : negative_read2.length = read2_length) (h32 : read2_length < U32) :
    (∀ o1 o2,
      TrimAdapterForPairedEndRead min_read_length read1 negative_read2 read2_length =
        some (o1, o2) →
      o2 = o1 ∧ ∃ s seed_start,
        OverlapCheck min_read_length read1 negative_read2 read2_length s seed_start o1) ∧
    ((¬ ∃ s seed_start o,
        OverlapCheck min_read_length read1 negative_read2 read2_length s seed_start o) →
      TrimAdapterForPairedEndRead min_read_length read1 negative_read2 read2_length = none) := by
  have key : ∀ o1 o2,
      TrimAdapterForPairedEndRead min_read_length read1 negative_read2 read2_length =
        some (o1, o2) →
      o2 = o1 ∧ ∃ s seed_start,
        OverlapCheck min_read_length read1 negative_read2 read2_length s seed_start o1 := by
    intro o1 o2 h
    unfold TrimAdapterForPairedEndRead at h
    cases h0 : trimSeed min_read_length read1 negative_read2 read2_length 0 with
    | some lengths =>
      rw [h0] at h
      simp only at h
      rw [h] at h0
      obtain ⟨h2, seed_start, h3⟩ := trimSeed_spec min_read_length read1 negative_read2
        read2_length 0 o1 o2 hlen h32 (by omega) h0
      exact ⟨h2, 0, seed_start, h3⟩
    | none =>
      rw [h0] at h
      simp only at h
      obtain ⟨h2, seed_start, h3⟩ := trimSeed_spec min_read_length read1 negative_read2
        read2_length 1 o1 o2 hlen h32 (by omega) h
      exact ⟨h2, 1, seed_start, h3⟩
  refine ⟨key, fun hno => ?_⟩
  cases hr : TrimAdapterForPairedEndRead min_read_length read1 negative_read2 read2_length with
  | none => rfl
  | some lengths =>
    obtain ⟨o1, o2⟩ := lengths
    obtain ⟨_, s, seed_start, hc⟩ := key o1 o2 hr
    exact absurd ⟨s, seed_start, o1, hc⟩ hno

theorem TrimAdapterForPairedEndRead_overlap_witness :
    TrimAdapterForPairedEndRead 4 adapterRead1 adapterNegativeRead2 8 = some (6, 6) ∧
      ∃ s seed_start, OverlapCheck 4 adapterRead1 adapterNegativeRead2 8 s seed_start 6 :=
  ⟨by decide,
    ((TrimAdapterForPairedEndRead_overlap 4 adapterRead1 adapterNegativeRead2 8 (by decide)
      (by decide)).1 6 6 (by decide)).2⟩

theorem startScan_range (E : Nat) (m : Int) (VP VN : Nat) (k i : Nat) (acc : Int × Int)
    (hik : i + k ≤ 2 * E) (h0 : 0 ≤ acc.2) (h1 : acc.2 ≤ 2 * (E : Int)) :
    0 ≤ (startScan E m VP VN k i acc).2 ∧ (startScan E m VP VN k i acc).2 ≤ 2 * (E : Int) := by
  induction k generalizing i acc with
  | zero => exact ⟨h0, h1⟩
  | succ k ih =>
      simp only [startScan]
      split
      · exact ih (i + 1) _ (by omega) (by simp only; omega) (by simp only; omega)
      · exact ih (i + 1) _ (by omega) h0 h1

/-- C36: the positions returned by the aligner lie inside the band. When
`BandedAlignPatternToText` does not take its early return, the stored
`mapping_end_position` is `read_length - 1 + j` for an offset `0 ≤ j ≤ 2E`; and
on every input `BandedTraceback` stores a `mapping_start_position` between `0`
and `2E`. -/
theorem aligner_positions_in_band (c2u : Nat → Nat) (E : Nat) (pattern text : List Nat)
    (read_length : Nat) (min_num_errors : Int) :
    (alignLoop c2u E pattern text read_length 0 (initBand c2u E pattern) = none ∨
      ∃ j : Nat, j ≤ 2 * E ∧
        (BandedAlignPatternToText c2u E pattern text read_length).mapping_end_position =
          some ((read_length : Int) - 1 + j)) ∧
    0 ≤ BandedTraceback c2u E min_num_errors pattern text read_length ∧
    BandedTraceback c2u E min_num_errors pattern text read_length ≤ 2 * (E : Int) := by
  refine ⟨?_, ?_⟩
  · cases hs : alignLoop c2u E pattern text read_length 0 (initBand c2u E pattern) with
    | none => exact Or.inl rfl
    | some s =>
        obtain ⟨_, j, hj, _, hj2⟩ :=
          BandedAlignPatternToText_of_loop c2u E pattern text read_length s hs
        exact Or.inr ⟨j, hj, hj2⟩
  · unfold BandedTraceback
    split
    · omega
    · split
      · omega
      · exact startScan_range E min_num_errors _ _ (2 * E) 0 _ (by omega)
          (by simp only; omega) (by simp only; omega)

/-- C33: the key `SortMappingWithoutBarcode`, evaluated in 32-bit unsigned
arithmetic, does not order records by (start, length, mapq): the record that
starts at 256 gets a smaller key than the record that starts at 1, because the
shifts drop the upper 24 bits of `fragment_start_position`. -/
theorem SortMappingWithoutBarcode_drops_start_bits :
    SortMappingWithoutBarcode recordAt256 = 12860 ∧
      SortMappingWithoutBarcode recordAt1 = 16790076 ∧
      SortMappingWithoutBarcode recordAt256 < SortMappingWithoutBarcode recordAt1 ∧
      ¬ startLengthMapqLt recordAt256 recordAt1 ∧ startLengthMapqLt recordAt1 recordAt256 := by
  decide

/-- C37: on a first mate of six bases and a second mate of seven bases whose
reverse complement starts with the first mate, `TrimAdapterForPairedEndRead`
compares `read1[6]`, the byte after the last base, and trims both mates to the
overlap length 7, which exceeds the length of the first mate. -/
theorem TrimAdapterForPairedEndRead_exceeds_read1 :
    shortRead1.length = 6 ∧ longNegativeRead2.length = 7 ∧
      TrimAdapterForPairedEndRead 4 shortRead1 longNegativeRead2 7 = some (7, 7) ∧
      mismatchCount shortRead1 longNegativeRead2 0 0 6 = 0 ∧
      mismatchCount shortRead1 longNegativeRead2 0 6 7 = 1 := by
  decide

theorem singleRecord_window (a : SingleArgs) (m : Int × Nat) :
    (singleRecord a m).2.fragment_start_position =
      ((((singleWindowStart a.error_threshold a.read.length (m.2 % U32) : Nat) : Int) +
        BandedTraceback a.c2u a.error_threshold a.min_num_errors
          ((a.reference ((m.2 / U32) % U32)).drop
            (singleWindowStart a.error_threshold a.read.length (m.2 % U32)))
          (match a.mapping_direction with
            | Direction.kPositive => a.read.sequence
            | Direction.kNegative => a.read.negative_sequence) a.read.length) %
        (U32 : Int)).toNat := rfl

/-- C32: the window handed to `BandedTraceback` can leave the reference. On a
reference of 12 bases, the single-end selector computes the window start
`2^32 - 1` for the alignment that `VerifyCandidates` produces for a read of 4
bases at the left edge (`E = 1`); on a reference of 20 bases, the paired-end
selector computes the window start 12 for the alignment of a read of 6 bases
that ends at position 18 (`E = 2`), so that the window of `6 + 2E` bases ends
at 22; in both cases the error count is 1 and differs from the Hamming count,
so the traceback reads the whole window. -/
theorem traceback_window_leaves_reference :
    ((VerifyCandidates (fun x => x % 5) 1 leftEdgeRead leftEdgeReference [1] [] [] []
        ).positive_mappings = [(1, 3)] ∧
      singleWindowStart 1 leftEdgeRead.length 3 = 4294967295 ∧
      (leftEdgeReference 0).length = 12 ∧
      hammingCount 1 ((leftEdgeReference 0).drop 4294967295) leftEdgeRead.sequence 4 = 3) ∧
    ((VerifyCandidates (fun x => x % 5) 2 rightEdgeRead rightEdgeReference [11] [] [] []
        ).positive_mappings = [(1, 18)] ∧
      verificationWindowStart 2 rightEdgeRead.length (rightEdgeReference 0).length 18 = 12 ∧
      12 + rightEdgeRead.length + 2 * 2 = 22 ∧
      (rightEdgeReference 0).length = 20 ∧
      hammingCount 2 ((rightEdgeReference 0).drop 12) rightEdgeRead.sequence 6 = 6) := by
  decide

theorem nextColumn_ge_min (E : Nat) (cost old : Nat → Nat) (m : Nat)
    (h : ∀ j, j ≤ 2 * E → m ≤ old j) (k : Nat) (hk : k ≤ 2 * E) :
    m ≤ nextColumn E cost old k := by
  induction k with
  | zero =>
      simp only [nextColumn]
      have h0 := h 0 (by omega)
      split
      · have h1 := h 1 (by omega)
        exact le_min (by omega) (by omega)
      · omega
  | succ k ih =>
      simp only [nextColumn]
      have h0 := h (k + 1) hk
      have h2 := ih (by omega)
      refine le_min ?_ (by omega)
      split
      · have h1 := h (k + 2) (by omega)
        exact le_min (by omega) (by omega)
      · omega

theorem bandColumn_min_step (c2u : Nat → Nat) (E : Nat) (pattern text : List Nat) (c k : Nat)
    (hk : k ≤ 2 * E) :
    colMin (bandColumn c2u E pattern text c) (2 * E) ≤ bandColumn c2u E pattern text (c + 1) k :=
  nextColumn_ge_min E _ _ _ (fun j hj => colMin_le _ _ j hj) k hk

theorem bandColumn_min_mono (c2u : Nat → Nat) (E : Nat) (pattern text : List Nat) (c d : Nat) :
    colMin (bandColumn c2u E pattern text c) (2 * E) ≤
      colMin (bandColumn c2u E pattern text (c + d)) (2 * E) := by
  induction d with
  | zero => exact le_refl _
  | succ d ih =>
      obtain ⟨k, hk, hk1⟩ := colMin_attained (bandColumn c2u E pattern text (c + (d + 1))) (2 * E)
      rw [hk1]
      exact le_trans ih (bandColumn_min_step c2u E pattern text (c + d) k hk)

theorem alignLoop_accepts (c2u : Nat → Nat) (hc : ∀ x, c2u x < 5) (E : Nat) (hE : E ≤ 15)
    (pattern text : List Nat) (n : Nat)
    (hd : bandedDistance c2u E pattern text n ≤ E)
    (k i : Nat) (hik : i + k ≤ n) (s : BandState) (h : ExactInv c2u E pattern text i s) :
    ∃ s1, alignLoop c2u E pattern text k i s = some s1 := by
  induction k generalizing i s with
  | zero => exact ⟨s, rfl⟩
  | succ k ih =>
      have hex := columnStep_exact c2u hc E hE pattern text i s h
      simp only [alignLoop]
      obtain ⟨j, hj, hj1⟩ := colMin_attained (bandColumn c2u E pattern text (i + 1)) (2 * E)
      have hcell := hex.cells j hj
      have hmono := bandColumn_min_mono c2u E pattern text (i + 1) (n - (i + 1))
      have hn : i + 1 + (n - (i + 1)) = n := by omega
      rw [hn] at hmono
      unfold bandedDistance at hd
      have hlow := bandVal_lower
        (columnStep E (c2u (pattern.getD (i + 2 * E) 0)) (c2u (text.getD i 0)) s).VP
        (columnStep E (c2u (pattern.getD (i + 2 * E) 0)) (c2u (text.getD i 0)) s).VN
        (columnStep E (c2u (pattern.getD (i + 2 * E) 0))
          (c2u (text.getD i 0)) s).num_errors_at_band_start_position j
      simp only at hcell
      rw [hcell] at hlow
      simp only [bandVal] at hlow
      have hnot : ¬ (columnStep E (c2u (pattern.getD (i + 2 * E) 0))
          (c2u (text.getD i 0)) s).num_errors_at_band_start_position > 3 * (E : Int) := by
        have h1 : (bandColumn c2u E pattern text (i + 1) j : Int) ≤ (E : Int) := by
          have : bandColumn c2u E pattern text (i + 1) j ≤ E := by omega
          exact_mod_cast this
        have h2 : (j : Int) ≤ 2 * (E : Int) := by exact_mod_cast hj
        omega
      rw [if_neg hnot]
      exact ih (i + 1) (by omega) _ hex

/-- C35: early rejection is sound. For `E ≤ 15`, if the banded edit distance of
the text against the pattern (the least cell of the last column over the end
offsets of the band) is at most `E`, the counter at the band start never
exceeds `3E`: the column loop runs to its end, and `BandedAlignPatternToText`
returns that distance, a value of at most `E`, together with an end position. -/
theorem early_rejection_sound (c2u : Nat → Nat) (hc : ∀ x, c2u x < 5)
    (E : Nat) (hE : E ≤ 15) (pattern text : List Nat) (n : Nat)
    (hd : bandedDistance c2u E pattern text n ≤ E) :
    (∃ s, alignLoop c2u E pattern text n 0 (initBand c2u E pattern) = some s) ∧
      (BandedAlignPatternToText c2u E pattern text n).num_errors =
        (bandedDistance c2u E pattern text n : Int) ∧
      (BandedAlignPatternToText c2u E pattern text n).num_errors ≤ (E : Int) ∧
      (BandedAlignPatternToText c2u E pattern text n).num_errors ≠ (E : Int) + 1 ∧
      ∃ p, (BandedAlignPatternToText c2u E pattern text n).mapping_end_position = some p := by
  obtain ⟨s, hs⟩ := alignLoop_accepts c2u hc E hE pattern text n hd n 0 (by omega) _
    (initBand_exact c2u E hE pattern text)
  have hex := alignLoop_exact c2u hc E hE pattern text n 0 _ s
    (initBand_exact c2u E hE pattern text) hs
  rw [Nat.zero_add] at hex
  obtain ⟨hle, j, hj, hj1, hj2⟩ := BandedAlignPatternToText_of_loop c2u E pattern text n s hs
  obtain ⟨k, hk, hk1⟩ := colMin_attained (bandColumn c2u E pattern text n) (2 * E)
  have h1 := hle k hk
  rw [hex.cells k hk] at h1
  have h2 := colMin_le (bandColumn c2u E pattern text n) (2 * E) j hj
  rw [hex.cells j hj] at hj1
  have heq : (BandedAlignPatternToText c2u E pattern text n).num_errors =
      (bandedDistance c2u E pattern text n : Int) := by
    unfold bandedDistance
    rw [hj1]
    rw [hj1, ← hk1] at h1
    have h3 : ((colMin (bandColumn c2u E pattern text n) (2 * E) : Nat) : Int) ≤
        (bandColumn c2u E pattern text n j : Int) := by exact_mod_cast h2
    have h4 : (bandColumn c2u E pattern text n j : Int) ≤
        ((colMin (bandColumn c2u E pattern text n) (2 * E) : Nat) : Int) := h1
    omega
  have hdI : (bandedDistance c2u E pattern text n : Int) ≤ (E : Int) := by exact_mod_cast hd
  refine ⟨⟨s, hs⟩, heq, by omega, by omega, _, hj2⟩

theorem early_rejection_sound_witness :
    bandedDistance (fun x => x % 5) 1 [0, 1, 2, 3] [1, 3] 2 ≤ 1 ∧
      (BandedAlignPatternToText (fun x => x % 5) 1 [0, 1, 2, 3] [1, 3] 2).num_errors ≤
        ((1 : Nat) : Int) :=
  ⟨by decide,
    (early_rejection_sound (fun x => x % 5) (fun x => Nat.mod_lt x (by decide)) 1 (by decide)
      [0, 1, 2, 3] [1, 3] 2 (by decide)).2.2.1⟩

/-- The final scan keeps the first row at which the least count occurs. -/
theorem endScan_first (VP VN : Nat) (num : Int) (bsp : Int) (k i : Nat) (t : ScanState)
    (j0 : Nat) (ht : t.num_errors_at_band_start_position = bandVal VP VN num i)
    (hj0 : j0 ≤ i) (hmin : t.min_num_errors = bandVal VP VN num j0)
    (hend : t.mapping_end_position = bsp + j0)
    (hle : ∀ j, j ≤ i → t.min_num_errors ≤ bandVal VP VN num j)
    (hlt : ∀ j, j < j0 → t.min_num_errors < bandVal VP VN num j) :
    ∃ j, j ≤ i + k ∧ (endScan VP VN bsp k i t).min_num_errors = bandVal VP VN num j ∧
      (endScan VP VN bsp k i t).mapping_end_position = bsp + j ∧
      (∀ j', j' ≤ i + k → (endScan VP VN bsp k i t).min_num_errors ≤ bandVal VP VN num j') ∧
      (∀ j', j' < j → (endScan VP VN bsp k i t).min_num_errors < bandVal VP VN num j') := by
  induction k generalizing i t j0 with
  | zero => exact ⟨j0, hj0, hmin, hend, hle, hlt⟩
  | succ k ih =>
      have hn : t.num_errors_at_band_start_position + (((VP >>> i) &&& 1 : Nat) : Int)
          - (((VN >>> i) &&& 1 : Nat) : Int) = bandVal VP VN num (i + 1) := by
        rw [shiftRight_and_one, shiftRight_and_one, ht]; rfl
      simp only [endScan]
      rw [hn]
      have e : i + (k + 1) = i + 1 + k := by omega
      rw [e]
      split
      · rename_i hlt2
        refine ih (i + 1)
          { num_errors_at_band_start_position := bandVal VP VN num (i + 1),
            min_num_errors := bandVal VP VN num (i + 1),
            mapping_end_position := bsp + 1 + i } (i + 1) rfl (le_refl _) rfl ?_ ?_ ?_
        · show bsp + 1 + (i : Int) = bsp + ((i + 1 : Nat) : Int)
          push_cast
          ring
        · intro j hj
          show bandVal VP VN num (i + 1) ≤ bandVal VP VN num j
          by_cases hji : j = i + 1
          · rw [hji]
          · have := hle j (by omega)
            omega
        · intro j hj
          show bandVal VP VN num (i + 1) < bandVal VP VN num j
          have := hle j (by omega)
          omega
      · rename_i hlt2
        refine ih (i + 1) { t with num_errors_at_band_start_position := bandVal VP VN num (i + 1) }
          j0 rfl (by omega) hmin hend ?_ hlt
        intro j hj
        show t.min_num_errors ≤ bandVal VP VN num j
        by_cases hji : j = i + 1
        · rw [hji]
          omega
        · exact hle j (by omega)

/-- Once the column loop has run to its end, the aligner returns the least cell
of the last column and the first end offset that attains it. -/
theorem BandedAlignPatternToText_first (c2u : Nat → Nat) (hc : ∀ x, c2u x < 5) (E : Nat)
    (hE : E ≤ 15) (pattern text : List Nat) (n : Nat) (s : BandState)
    (hs : alignLoop c2u E pattern text n 0 (initBand c2u E pattern) = some s) :
    ∃ j, j ≤ 2 * E ∧
      (BandedAlignPatternToText c2u E pattern text n).num_errors =
        (bandColumn c2u E pattern text n j : Int) ∧
      (BandedAlignPatternToText c2u E pattern text n).mapping_end_position =
        some ((n : Int) - 1 + j) ∧
      (∀ j', j' ≤ 2 * E →
        bandColumn c2u E pattern text n j ≤ bandColumn c2u E pattern text n j') ∧
      (∀ j', j' < j → bandColumn c2u E pattern text n j < bandColumn c2u E pattern text n j') := by
  have hex := alignLoop_exact c2u hc E hE pattern text n 0 _ s
    (initBand_exact c2u E hE pattern text) hs
  rw [Nat.zero_add] at hex
  obtain ⟨j, hj, h1, h2, h3, h4⟩ := endScan_first s.VP s.VN s.num_errors_at_band_start_position
    ((n : Int) - 1) (2 * E) 0
    { num_errors_at_band_start_position := s.num_errors_at_band_start_position,
      min_num_errors := s.num_errors_at_band_start_position,
      mapping_end_position := (n : Int) - 1 } 0 rfl (le_refl _) rfl (by simp)
    (by
      intro j hj
      have : j = 0 := by omega
      subst this
      exact le_refl _)
    (by intro j hj; omega)
  rw [Nat.zero_add] at hj h3
  unfold BandedAlignPatternToText
  rw [hs]
  simp only
  refine ⟨j, hj, ?_, ?_, ?_, ?_⟩
  · rw [h1, hex.cells j hj]
  · rw [h2]
  · intro j' hj'
    have := h3 j' hj'
    rw [h1, hex.cells j hj, hex.cells j' hj'] at this
    exact_mod_cast this
  · intro j' hj'
    have := h4 j' hj'
    rw [h1, hex.cells j hj, hex.cells j' (by omega)] at this
    exact_mod_cast this

theorem nextColumn_le_horiz (E : Nat) (cost old : Nat → Nat) (k : Nat) (hk : k < 2 * E) :
    nextColumn E cost old k ≤ old (k + 1) + 1 := by
  cases k with
  | zero =>
      simp only [nextColumn, if_pos hk]
      exact min_le_right _ _
  | succ k =>
      simp only [nextColumn, if_pos hk]
      exact le_trans (min_le_left _ _) (min_le_right _ _)

theorem nextColumn_le_vert (E : Nat) (cost old : Nat → Nat) (k : Nat) :
    nextColumn E cost old (k + 1) ≤ nextColumn E cost old k + 1 := by
  simp only [nextColumn]
  exact min_le_right _ _

theorem nextColumn_cases (E : Nat) (cost old : Nat → Nat) (k : Nat) :
    nextColumn E cost old k = old k + cost k ∨
      (k < 2 * E ∧ nextColumn E cost old k = old (k + 1) + 1) ∨
      (∃ k', k = k' + 1 ∧ nextColumn E cost old k = nextColumn E cost old k' + 1) := by
  cases k with
  | zero =>
      simp only [nextColumn]
      split
      · rename_i h
        rcases min_choice (old 0 + cost 0) (old 1 + 1) with h1 | h1
        · exact Or.inl h1
        · exact Or.inr (Or.inl ⟨h, h1⟩)
      · exact Or.inl rfl
  | succ k =>
      simp only [nextColumn]
      rcases min_choice
        (if k + 1 < 2 * E then min (old (k + 1) + cost (k + 1)) (old (k + 2) + 1)
          else old (k + 1) + cost (k + 1)) (nextColumn E cost old k + 1) with h1 | h1
      · rw [h1]
        split
        · rename_i h
          rcases min_choice (old (k + 1) + cost (k + 1)) (old (k + 2) + 1) with h2 | h2
          · exact Or.inl h2
          · exact Or.inr (Or.inl ⟨h, h2⟩)
        · exact Or.inl rfl
      · exact Or.inr (Or.inr ⟨k, rfl, h1⟩)

/-- One column of the exchange inequality between two bands of which the
second starts `d` rows below the first: if it holds for the old columns, it
holds for the new ones. -/
theorem nextColumn_exchange (E d : Nat) (costA oldA costB oldB : Nat → Nat)
    (hcost : ∀ k, costB k = costA (k + d))
    (hold : ∀ k2 k1, k2 < k1 → k1 + d ≤ 2 * E →
      oldA (k2 + d) + oldB k1 ≤ oldA (k1 + d) + oldB k2) :
    ∀ N k2 k1, k1 + k2 ≤ N → k2 < k1 → k1 + d ≤ 2 * E →
      nextColumn E costA oldA (k2 + d) + nextColumn E costB oldB k1 ≤
        nextColumn E costA oldA (k1 + d) + nextColumn E costB oldB k2 := by
  intro N
  induction N with
  | zero =>
      intro k2 k1 hN hlt _
      omega
  | succ N ih =>
      intro k2 k1 hN hlt hband
      have uAd := nextColumn_le_diag E costA oldA (k2 + d)
      have uAh := nextColumn_le_horiz E costA oldA (k2 + d) (by omega)
      have uBd := nextColumn_le_diag E costB oldB k1
      have c1 := hcost k1
      have c2 := hcost k2
      obtain ⟨k1', hk1'⟩ : ∃ k1', k1 = k1' + 1 := ⟨k1 - 1, by omega⟩
      have uBv := nextColumn_le_vert E costB oldB k1'
      rw [← hk1'] at uBv
      -- the vertical case of the first band reduces to the pair (k2, k1 - 1)
      have vertA : nextColumn E costA oldA (k1 + d) = nextColumn E costA oldA (k1' + d) + 1 →
          nextColumn E costA oldA (k2 + d) + nextColumn E costB oldB k1 ≤
            nextColumn E costA oldA (k1 + d) + nextColumn E costB oldB k2 := by
        intro hA
        by_cases hk : k2 = k1'
        · subst hk
          omega
        · have := ih k2 k1' (by omega) (by omega) (by omega)
          omega
      -- the vertical case of the second band reduces to the pair (k2 - 1, k1)
      have vertB : ∀ k2', k2 = k2' + 1 →
          nextColumn E costB oldB k2 = nextColumn E costB oldB k2' + 1 →
          nextColumn E costA oldA (k2 + d) + nextColumn E costB oldB k1 ≤
            nextColumn E costA oldA (k1 + d) + nextColumn E costB oldB k2 := by
        intro k2' hk2' hB
        have := ih k2' k1 (by omega) (by omega) hband
        have uAv := nextColumn_le_vert E costA oldA (k2' + d)
        have e : k2' + d + 1 = k2 + d := by omega
        rw [e] at uAv
        omega
      rcases nextColumn_cases E costA oldA (k1 + d) with hA | ⟨hAk, hA⟩ | ⟨k', hk', hA⟩
      · rcases nextColumn_cases E costB oldB k2 with hB | ⟨_, hB⟩ | ⟨k2', hk2', hB⟩
        · have := hold k2 k1 hlt hband
          omega
        · by_cases hk : k2 + 1 = k1
          · have e : k2 + d + 1 = k1 + d := by omega
            rw [e] at uAh
            rw [hk] at hB
            omega
          · have := hold (k2 + 1) k1 (by omega) hband
            have e : k2 + d + 1 = k2 + 1 + d := by omega
            rw [e] at uAh
            omega
        · exact vertB k2' hk2' hB
      · have uBh := nextColumn_le_horiz E costB oldB k1 (by omega)
        have e1 : k1 + d + 1 = k1 + 1 + d := by omega
        rw [e1] at hA
        rcases nextColumn_cases E costB oldB k2 with hB | ⟨_, hB⟩ | ⟨k2', hk2', hB⟩
        · have := hold k2 (k1 + 1) (by omega) (by omega)
          omega
        · have := hold (k2 + 1) (k1 + 1) (by omega) (by omega)
          have e : k2 + d + 1 = k2 + 1 + d := by omega
          rw [e] at uAh
          omega
        · exact vertB k2' hk2' hB
      · have e : k' = k1' + d := by omega
        rw [e] at hA
        exact vertA hA

theorem getD_drop_zero (l : List Nat) (d i : Nat) : (l.drop d).getD i 0 = l.getD (d + i) 0 := by
  simp [List.getD_eq_getElem?_getD, List.getElem?_drop]

theorem bandCost_drop (c2u : Nat → Nat) (pattern text : List Nat) (d c k : Nat) :
    bandCost c2u (pattern.drop d) text c k = bandCost c2u pattern text c (k + d) := by
  unfold bandCost
  rw [getD_drop_zero]
  have e : d + (c + k) = c + (k + d) := by omega
  rw [e]

/-- The exchange inequality between the band of a pattern and the band of the
same pattern started `d` bases later, in every column. -/
theorem bandColumn_exchange (c2u : Nat → Nat) (E d : Nat) (pattern text : List Nat) :
    ∀ c k2 k1, k2 < k1 → k1 + d ≤ 2 * E →
      bandColumn c2u E pattern text c (k2 + d) + bandColumn c2u E (pattern.drop d) text c k1 ≤
        bandColumn c2u E pattern text c (k1 + d) +
          bandColumn c2u E (pattern.drop d) text c k2 := by
  intro c
  induction c with
  | zero =>
      intro k2 k1 _ _
      exact le_refl _
  | succ c ih =>
      intro k2 k1 hlt hband
      exact nextColumn_exchange E d (bandCost c2u pattern text c) (bandColumn c2u E pattern text c)
        (bandCost c2u (pattern.drop d) text c) (bandColumn c2u E (pattern.drop d) text c)
        (fun k => bandCost_drop c2u pattern text d c k) ih (k1 + k2) k2 k1 (le_refl _) hlt hband

/-- The end of the alignment does not move backwards when the window moves
forwards: if the aligner accepts the text in the window that starts at `d`
bases into the pattern and in the window at its start, the end offset in the
first window is at most `d` plus the end offset in the second. -/
theorem end_offset_monotone (c2u : Nat → Nat) (hc : ∀ x, c2u x < 5) (E : Nat) (hE : E ≤ 15)
    (pattern text : List Nat) (n d : Nat) (p1 p2 : Int)
    (h1 : (BandedAlignPatternToText c2u E pattern text n).mapping_end_position = some p1)
    (h2 : (BandedAlignPatternToText c2u E (pattern.drop d) text n).mapping_end_position =
      some p2) :
    p1 ≤ p2 + d := by
  cases hs1 : alignLoop c2u E pattern text n 0 (initBand c2u E pattern) with
  | none =>
      unfold BandedAlignPatternToText at h1
      rw [hs1] at h1
      exact absurd h1 (by simp)
  | some s1 =>
    cases hs2 : alignLoop c2u E (pattern.drop d) text n 0 (initBand c2u E (pattern.drop d)) with
    | none =>
        unfold BandedAlignPatternToText at h2
        rw [hs2] at h2
        exact absurd h2 (by simp)
    | some s2 =>
        obtain ⟨j1, hj1, _, e1, _, f1⟩ :=
          BandedAlignPatternToText_first c2u hc E hE pattern text n s1 hs1
        obtain ⟨j2, hj2, _, e2, m2, _⟩ :=
          BandedAlignPatternToText_first c2u hc E hE (pattern.drop d) text n s2 hs2
        rw [h1] at e1
        rw [h2] at e2
        have q1 : p1 = (n : Int) - 1 + j1 := Option.some.inj e1
        have q2 : p2 = (n : Int) - 1 + j2 := Option.some.inj e2
        by_contra hcon
        have hgt : j2 + d < j1 := by omega
        obtain ⟨k1, hk1⟩ : ∃ k1, j1 = k1 + d := ⟨j1 - d, by omega⟩
        have hx := bandColumn_exchange c2u E d pattern text n j2 k1 (by omega) (by omega)
        have ha := f1 (j2 + d) hgt
        have hb := m2 k1 (by omega)
        rw [hk1] at ha
        omega

theorem accepted_end_position (c2u : Nat → Nat) (E : Nat) (pattern text : List Nat) (n : Nat)
    (hle : (BandedAlignPatternToText c2u E pattern text n).num_errors ≤ (E : Int)) :
    ∃ j, j ≤ 2 * E ∧
      (BandedAlignPatternToText c2u E pattern text n).mapping_end_position =
        some ((n : Int) - 1 + j) := by
  cases hs : alignLoop c2u E pattern text n 0 (initBand c2u E pattern) with
  | none =>
      unfold BandedAlignPatternToText at hle
      rw [hs] at hle
      simp only at hle
      omega
  | some s =>
      obtain ⟨_, j, hj, _, hj2⟩ := BandedAlignPatternToText_of_loop c2u E pattern text n s hs
      exact ⟨j, hj, hj2⟩

/-- What an accepted candidate stores: for a candidate below `2^64` whose sizes
fit 32 bits, the aligner ran on the window that starts `E` bases before the
start `q` of the candidate, inside the reference, and the stored value is the
reference id in the upper half and `q - E` plus the end offset in the lower. -/
theorem acceptedAlignment_value (c2u : Nat → Nat) (E : Nat) (d : Direction)
    (read : ReadRecord) (reference : Reference) (c : Nat) (a : Int × Nat)
    (hn : 1 ≤ read.length)
    (hfit : (reference ((c / U32) % U32)).length + read.length + E ≤ U32) (h64 : c < U64)
    (h : acceptedAlignment c2u E d read reference c = some a) :
    ∃ (q j : Nat), E ≤ q ∧ q + read.length + E < (reference ((c / U32) % U32)).length ∧
      (q : Int) = candidateStart d read.length c ∧ j ≤ 2 * E ∧
      (BandedAlignPatternToText c2u E ((reference ((c / U32) % U32)).drop (q - E))
        (if d = Direction.kPositive then read.sequence else read.negative_sequence)
        read.length).mapping_end_position = some ((read.length : Int) - 1 + j) ∧
      a.2 = (c / U32) * U32 + (q - E) + (read.length - 1 + j) := by
  obtain ⟨hiff, hpos⟩ := candidateSkipped_iff E reference d read.length c hn hfit
  unfold acceptedAlignment at h
  simp only at h
  cases d
  all_goals
    simp only [reduceCtorEq, if_true, if_false] at h ⊢
    split at h
    · exact absurd h (by simp)
    · rename_i hskip
      have hesc : ¬ _ := fun he => hskip (hiff.mpr he)
      have hq := hpos hesc
      split at h
      · rename_i hle
        simp only [Option.some.injEq] at h
        obtain ⟨j, hj, hj2⟩ := accepted_end_position c2u E _ _ _ hle
        unfold windowEscapes at hesc
        rw [← hq] at hesc
        simp only [not_or, not_lt, ge_iff_le, not_le] at hesc
        refine ⟨_, j, ?_, ?_, hq, hj, hj2, ?_⟩
        · omega
        · omega
        · rw [← h, hj2]
          simp only [Option.getD_some]
          have hlen := hfit
          generalize (reference ((c / U32) % U32)).length = len at hesc hlen
          unfold mappingPosition
          unfold candidateStart at hq
          unfold candidatePosition at hq hesc ⊢
          simp only [U32, U64] at *
          omega
      · exact absurd h (by simp)

theorem accepted_pair_le (c2u : Nat → Nat) (hc : ∀ x, c2u x < 5) (E : Nat) (hE : E ≤ 15)
    (d : Direction) (read : ReadRecord) (reference : Reference) (hn : 1 ≤ read.length)
    (hfit : ∀ rid, (reference rid).length + read.length + E ≤ U32)
    (c c' : Nat) (hcc : c ≤ c') (h64 : c < U64) (h64' : c' < U64) (a a' : Int × Nat)
    (h : acceptedAlignment c2u E d read reference c = some a)
    (h' : acceptedAlignment c2u E d read reference c' = some a') :
    a.2 ≤ a'.2 := by
  obtain ⟨q, j, hq1, hq2, hq3, hj, hend, hval⟩ :=
    acceptedAlignment_value c2u E d read reference c a hn (hfit _) h64 h
  obtain ⟨q', j', hq1', hq2', hq3', hj', hend', hval'⟩ :=
    acceptedAlignment_value c2u E d read reference c' a' hn (hfit _) h64' h'
  have hlen := hfit ((c / U32) % U32)
  have hlen' := hfit ((c' / U32) % U32)
  rw [hval, hval']
  by_cases hr : c / U32 = c' / U32
  · rw [← hr] at hend' hq2' hlen' ⊢
    have hqq : q ≤ q' := by
      have : (q : Int) ≤ (q' : Int) := by
        rw [hq3, hq3']
        unfold candidateStart
        simp only [U32] at hr ⊢
        cases d with
        | kPositive =>
            simp only
            omega
        | kNegative =>
            simp only
            omega
      exact_mod_cast this
    have hdrop : (reference ((c / U32) % U32)).drop (q' - E) =
        ((reference ((c / U32) % U32)).drop (q - E)).drop (q' - q) := by
      rw [List.drop_drop]
      congr 1
      omega
    rw [hdrop] at hend'
    have hmono := end_offset_monotone c2u hc E hE _ _ read.length (q' - q) _ _ hend hend'
    have hc1 : ((q' - q : Nat) : Int) = (q' : Int) - (q : Int) := by omega
    rw [hc1] at hmono
    omega
  · generalize (reference ((c / U32) % U32)).length = len at hq2 hlen
    generalize (reference ((c' / U32) % U32)).length = len' at hq2' hlen'
    simp only [U32] at *
    omega

/-- C31: the alignment list that `VerifyCandidatesOnOneDirection` produces from
an ascending candidate list into an empty vector is ascending in its packed
(reference id, end position) component. The band is taken to fit the 32-bit
registers (`E ≤ 15`), the sizes to fit 32 bits (reference length plus read
length plus `E` at most `2^32`, read not empty) and the candidates to be 64-bit
values. -/
theorem VerifyCandidatesOnOneDirection_ascending (c2u : Nat → Nat) (hc : ∀ x, c2u x < 5)
    (E : Nat) (hE : E ≤ 15) (d : Direction) (read : ReadRecord) (reference : Reference)
    (candidates : List Nat) (st : VerifyState) (hn : 1 ≤ read.length)
    (hfit : ∀ rid, (reference rid).length + read.length + E ≤ U32)
    (h64 : ∀ c, c ∈ candidates → c < U64)
    (hsorted : candidates.Sorted (· ≤ ·)) (hst : st.mappings = []) :
    ((VerifyCandidatesOnOneDirection c2u E d read reference candidates st).mappings.map
      Prod.snd).Sorted (· ≤ ·) := by
  rw [VerifyCandidatesOnOneDirection_eq]
  simp only [hst, List.nil_append]
  unfold List.Sorted at hsorted ⊢
  rw [List.pairwise_map]
  refine List.Pairwise.filterMap (acceptedAlignment c2u E d read reference)
    (R := fun c c' => c ≤ c' ∧ c < U64 ∧ c' < U64) ?_ ?_
  · intro c c' hR a ha a' ha'
    exact accepted_pair_le c2u hc E hE d read reference hn hfit c c' hR.1 hR.2.1 hR.2.2 a a'
      ha ha'
  · exact hsorted.imp_of_mem fun ha hb hab => ⟨hab, h64 _ ha, h64 _ hb⟩

theorem VerifyCandidatesOnOneDirection_ascending_witness :
    ((VerifyCandidatesOnOneDirection (fun x => x % 5) 1 Direction.kPositive readACGT
        referenceTwoHits [1, 2, 7] (initCounters 1 [])).mappings.map Prod.snd) = [4, 4, 9] ∧
      ((VerifyCandidatesOnOneDirection (fun x => x % 5) 1 Direction.kPositive readACGT
        referenceTwoHits [1, 2, 7] (initCounters 1 [])).mappings.map Prod.snd).Sorted (· ≤ ·) :=
  ⟨by decide,
    VerifyCandidatesOnOneDirection_ascending (fun x => x % 5) (fun x => Nat.mod_lt x (by decide))
      1 (by decide) Direction.kPositive readACGT referenceTwoHits [1, 2, 7] (initCounters 1 [])
      (by decide)
      (fun rid => by
        unfold referenceTwoHits
        split <;> decide)
      (by decide) (by decide) rfl⟩

theorem head_filter_range' (p : Nat → Bool) :
    ∀ n lo q, lo ≤ q → q < lo + n → p q = true →
      ∃ k, ((List.range' lo n).filter p).head? = some k ∧ lo ≤ k ∧ k ≤ q ∧ p k = true := by
  intro n
  induction n with
  | zero =>
      intro lo q h1 h2 _
      omega
  | succ n ih =>
      intro lo q h1 h2 hp
      rw [List.range'_succ, List.filter_cons]
      by_cases hlo : p lo = true
      · rw [if_pos hlo]
        exact ⟨lo, rfl, le_refl _, h1, hlo⟩
      · rw [if_neg hlo]
        have hne : lo ≠ q := fun e => hlo (e ▸ hp)
        obtain ⟨k, hk1, hk2, hk3, hk4⟩ := ih (lo + 1) q (by omega) (by omega) hp
        exact ⟨k, hk1, by omega, hk3, hk4⟩

theorem stringFind_complete (hay needle : List Nat) (pos q : Nat) (hq : pos ≤ q)
    (hfit : q + needle.length ≤ hay.length)
    (hm : (hay.drop q).take needle.length = needle) :
    ∃ k, stringFind hay needle pos = some k ∧ pos ≤ k ∧ k ≤ q := by
  unfold stringFind
  rw [List.range_eq_range']
  obtain ⟨k, hk1, _, hk3, hk4⟩ := head_filter_range'
    (fun k => decide (pos ≤ k) && decide ((hay.drop k).take needle.length = needle))
    (hay.length + 1 - needle.length) 0 q (by omega) (by omega) (by simp [hq, hm])
  simp only [Bool.and_eq_true, decide_eq_true_eq] at hk4
  exact ⟨k, hk1, hk4.1, hk3⟩

theorem needle_of_seedAt (read1 negative_read2 : List Nat) (si seed_length q : Nat)
    (h : SeedAt read1 negative_read2 si seed_length q) :
    (negative_read2.drop q).take
        ((List.range seed_length).map fun j => read1.getD (si * seed_length + j) 0).length =
      (List.range seed_length).map fun j => read1.getD (si * seed_length + j) 0 := by
  obtain ⟨h1, h2⟩ := h
  apply List.ext_getElem?
  intro i
  simp only [List.length_map, List.length_range, List.getElem?_take, List.getElem?_drop,
    List.getElem?_map, List.getElem?_range]
  by_cases hi : i < seed_length
  · have hlt : q + i < negative_read2.length := by omega
    have := h2 i hi
    rw [List.getD_eq_getElem?_getD, List.getElem?_eq_getElem hlt] at this
    simp only [Option.getD_some] at this
    simp [hi, List.getElem?_eq_getElem hlt, this]
  · have hnone : (List.range seed_length)[i]? = none :=
      List.getElem?_eq_none (by simp only [List.length_range]; omega)
    simp [hi, hnone]

theorem seedStartPosition_complete (read1 negative_read2 : List Nat)
    (si seed_length pos q : Nat) (hq : pos ≤ q)
    (h : SeedAt read1 negative_read2 si seed_length q) :
    ∃ k : Nat, seedStartPosition negative_read2 read1 si seed_length pos = (k : Int) ∧
      pos ≤ k ∧ k ≤ q ∧ SeedAt read1 negative_read2 si seed_length k := by
  obtain ⟨k, hk, hk1, hk2⟩ := stringFind_complete negative_read2
    ((List.range seed_length).map fun j => read1.getD (si * seed_length + j) 0) pos q hq
    (by simpa using h.1) (needle_of_seedAt read1 negative_read2 si seed_length q h)
  have hocc := seedStartPosition_occurrence read1 negative_read2 si seed_length pos
  unfold seedStartPosition at hocc ⊢
  rw [hk] at hocc ⊢
  refine ⟨k, rfl, hk1, hk2, ?_⟩
  rcases hocc with hneg | ⟨k', hk', h1, h2⟩
  · simp only at hneg
    omega
  · simp only at hk'
    have : k = k' := by omega
    subst this
    exact ⟨h1, h2⟩

theorem trimPrefixLoop_complete (read1 negative_read2 : List Nat) (base si seed_length : Nat) :
    ∀ (k i num_errors : Nat),
      num_errors + mismatchCount read1 negative_read2 base i (i + k) ≤ 1 →
      trimPrefixLoop read1 negative_read2 ((base + si * seed_length : Nat) : Int) si
        seed_length k i num_errors =
          (num_errors + mismatchCount read1 negative_read2 base i (i + k), true) := by
  intro k
  induction k with
  | zero =>
      intro i num_errors _
      simp only [trimPrefixLoop, add_zero, mismatchCount_self]
  | succ k ih =>
      intro i num_errors h
      have hidx : (((base + si * seed_length : Nat) : Int) - (si : Int) * (seed_length : Int) +
          (i : Int)).toNat = base + i := by
        push_cast
        omega
      rw [mismatchCount_step read1 negative_read2 base i (i + (k + 1)) (by omega)] at h ⊢
      have e : i + (k + 1) = i + 1 + k := by omega
      rw [e] at h ⊢
      simp only [trimPrefixLoop, hidx]
      by_cases hc : negative_read2.getD (base + i) 0 ≠ read1.getD i 0
      · simp only [if_pos hc] at h ⊢
        have hgt : ¬ num_errors + 1 > 1 := by omega
        rw [if_neg hgt, ih (i + 1) (num_errors + 1) (by omega)]
        congr 1
        omega
      · simp only [if_neg hc] at h ⊢
        have hgt : ¬ num_errors > 1 := by omega
        rw [if_neg hgt, ih (i + 1) num_errors (by omega)]
        congr 1
        omega

theorem trimSuffixLoop_complete (read1 negative_read2 : List Nat)
    (read2_length base si seed_length : Nat) (h32 : read2_length < U32) :
    ∀ (k i num_errors : Nat),
      base + si * seed_length + i ≤ read2_length →
      read2_length ≤ base + si * seed_length + i + k →
      num_errors + mismatchCount read1 negative_read2 base (si * seed_length + i)
        (read2_length - base) ≤ 1 →
      trimSuffixLoop read1 negative_read2 read2_length ((base + si * seed_length : Nat) : Int)
        si seed_length k i num_errors true =
          (num_errors + mismatchCount read1 negative_read2 base (si * seed_length + i)
            (read2_length - base), true) := by
  intro k
  induction k with
  | zero =>
      intro i num_errors h1 h2 _
      have he : read2_length - base = si * seed_length + i := by omega
      simp only [trimSuffixLoop]
      rw [he, mismatchCount_self, add_zero]
  | succ k ih =>
      intro i num_errors h1 h2 h
      have hidx : (((base + si * seed_length : Nat) : Int) + (i : Int)).toNat =
          base + (si * seed_length + i) := by
        push_cast
        omega
      by_cases hlt : base + si * seed_length + i < read2_length
      · have hcond : ((i : Int) + ((base + si * seed_length : Nat) : Int)) % (U32 : Int) <
            (read2_length : Int) := by
          simp only [U32] at h32 ⊢
          push_cast
          omega
        rw [mismatchCount_step read1 negative_read2 base (si * seed_length + i)
          (read2_length - base) (by omega)] at h ⊢
        have hi : si * seed_length + i + 1 = si * seed_length + (i + 1) := by omega
        rw [hi] at h ⊢
        simp only [trimSuffixLoop, if_pos hcond, hidx]
        by_cases hc : negative_read2.getD (base + (si * seed_length + i)) 0 ≠
            read1.getD (si * seed_length + i) 0
        · simp only [if_pos hc] at h ⊢
          have hgt : ¬ num_errors + 1 > 1 := by omega
          rw [if_neg hgt, ih (i + 1) (num_errors + 1) (by omega) (by omega) (by omega)]
          congr 1
          omega
        · simp only [if_neg hc] at h ⊢
          have hgt : ¬ num_errors > 1 := by omega
          rw [if_neg hgt, ih (i + 1) num_errors (by omega) (by omega) (by omega)]
          congr 1
          omega
      · have hcond : ¬ ((i : Int) + ((base + si * seed_length : Nat) : Int)) % (U32 : Int) <
            (read2_length : Int) := by
          simp only [U32] at h32 ⊢
          push_cast
          omega
        have he : read2_length - base = si * seed_length + i := by omega
        simp only [trimSuffixLoop, if_neg hcond]
        rw [he, mismatchCount_self, add_zero]

theorem trimVerify_complete (read1 negative_read2 : List Nat)
    (read2_length base si seed_length : Nat) (h32 : read2_length < U32)
    (hfit : base + si * seed_length + seed_length ≤ read2_length)
    (hmis : mismatchCount read1 negative_read2 base 0 (read2_length - base) ≤ 1) :
    (trimSuffixLoop read1 negative_read2 read2_length ((base + si * seed_length : Nat) : Int)
      si seed_length read2_length seed_length
      (trimPrefixLoop read1 negative_read2 ((base + si * seed_length : Nat) : Int) si
        seed_length (seed_length * si) 0 0).1
      (trimPrefixLoop read1 negative_read2 ((base + si * seed_length : Nat) : Int) si
        seed_length (seed_length * si) 0 0).2).2 = true := by
  have hsplit1 := mismatchCount_split read1 negative_read2 base (si * seed_length) 0
    (si * seed_length) (read2_length - base) (by omega) (by omega)
  have hsplit2 := mismatchCount_split read1 negative_read2 base seed_length (si * seed_length)
    (si * seed_length + seed_length) (read2_length - base) rfl (by omega)
  have hsl : seed_length * si = si * seed_length := mul_comm _ _
  have hp := trimPrefixLoop_complete read1 negative_read2 base si seed_length
    (seed_length * si) 0 0 (by
      rw [hsl]
      simp only [zero_add]
      omega)
  rw [hp]
  simp only [zero_add]
  rw [hsl]
  have hs := trimSuffixLoop_complete read1 negative_read2 read2_length base si seed_length h32
    read2_length seed_length (mismatchCount read1 negative_read2 base 0 (si * seed_length))
    (by omega) (by omega) (by omega)
  rw [hs]

theorem trimWhile_complete (min_overlap_length : Nat) (read1 negative_read2 : List Nat)
    (read2_length si seed_length q : Nat) (hlen : negative_read2.length = read2_length)
    (h32 : read2_length < U32)
    (hq : SeedAt read1 negative_read2 si seed_length q)
    (hm : min_overlap_length + q ≤ read2_length + si * seed_length)
    (hmis : mismatchCount read1 negative_read2 (q - si * seed_length) 0
      (read2_length - (q - si * seed_length)) ≤ 1)
    (hfirst : ∀ k, SeedAt read1 negative_read2 si seed_length k → si * seed_length ≤ k) :
    ∀ (fuel ks : Nat), SeedAt read1 negative_read2 si seed_length ks → ks ≤ q →
      q < ks + fuel →
      ∃ o, trimWhile min_overlap_length read1 negative_read2 read2_length si seed_length fuel
        (ks : Int) = some (o, o) := by
  intro fuel
  induction fuel with
  | zero =>
      intro ks _ h1 h2
      omega
  | succ fuel ih =>
      intro ks hks h1 h2
      have hge := hfirst ks hks
      have hfit := hks.1
      have hqfit := hq.1
      have hmul : (seed_length : Int) * (si : Int) = ((si * seed_length : Nat) : Int) := by
        push_cast
        ring
      have hmul2 : (si : Int) * (seed_length : Int) = ((si * seed_length : Nat) : Int) := by
        push_cast
        ring
      have hcond : ((ks : Int) % (U32 : Int)).toNat ≠ U64 - 1 ∧
          ((read2_length : Int) - (ks : Int) + (seed_length : Int) * (si : Int)) % (U32 : Int) ≥
            (min_overlap_length : Int) ∧
          (ks : Int) ≥ (si : Int) * (seed_length : Int) := by
        rw [hmul, hmul2]
        simp only [U32, U64] at h32 ⊢
        refine ⟨by omega, by omega, by omega⟩
      rw [trimWhile, if_pos hcond]
      simp only
      split
      · exact ⟨_, rfl⟩
      · rename_i hfalse
        have hne : ks ≠ q := by
          intro e
          subst e
          obtain ⟨base, hbase⟩ : ∃ base, ks = base + si * seed_length :=
            ⟨ks - si * seed_length, by omega⟩
          subst hbase
          have hb : base + si * seed_length - si * seed_length = base := by omega
          rw [hb] at hmis
          exact hfalse (trimVerify_complete read1 negative_read2 read2_length base si
            seed_length h32 (by omega) hmis)
        have hpos : ((ks : Int) + 1).toNat = ks + 1 := by omega
        rw [hpos]
        obtain ⟨k', hk', hk1, hk2, hk3⟩ := seedStartPosition_complete read1 negative_read2 si
          seed_length (ks + 1) q (by omega) hq
        rw [hk']
        exact ih k' hk3 hk2 (by omega)

theorem trimSeed_complete (min_read_length : Nat) (read1 negative_read2 : List Nat)
    (read2_length s q o : Nat) (hlen : negative_read2.length = read2_length)
    (h32 : read2_length < U32)
    (hcheck : OverlapCheck min_read_length read1 negative_read2 read2_length s q o)
    (hfirst : ∀ k, SeedAt read1 negative_read2 s (min_read_length / 2) k →
      s * (min_read_length / 2) ≤ k) :
    ∃ o', trimSeed min_read_length read1 negative_read2 read2_length s = some (o', o') := by
  obtain ⟨_, c2, c3, c4, c5, c6, c7⟩ := hcheck
  have hq : SeedAt read1 negative_read2 s (min_read_length / 2) q := ⟨by omega, c4⟩
  have hb : read2_length - o = q - s * (min_read_length / 2) := by omega
  have ho : o = read2_length - (q - s * (min_read_length / 2)) := by omega
  rw [hb] at c7
  rw [ho] at c7
  unfold trimSeed
  simp only
  obtain ⟨k, hk, _, hk2, hk3⟩ := seedStartPosition_complete read1 negative_read2 s
    (min_read_length / 2) 0 q (by omega) hq
  rw [hk]
  exact trimWhile_complete min_read_length read1 negative_read2 read2_length s
    (min_read_length / 2) q hlen h32 hq (by omega) c7 hfirst (negative_read2.length + 1) k hk3
    hk2 (by omega)

/-- The reach of the seed loop: if for a shift `s ∈ {0, 1}` the seed
`read1[s·L, s·L + L)` occurs at a position `q ≥ s·L` of the reverse complement
of read 2 such that the overlap length `read2_length - q + s·L` is at least
`min_read_length` and the overlap matches read 1 with at most one mismatch, and
that seed has no occurrence at a position below `s·L`, then the pair is
trimmed. An occurrence below `s·L` is the only way a seed hit goes
unverified. -/
theorem TrimAdapterForPairedEndRead_trims (min_read_length : Nat)
    (read1 negative_read2 : List Nat) (read2_length : Nat)
    (hlen : negative_read2.length = read2_length) (h32 : read2_length < U32) (s q o : Nat)
    (hcheck : OverlapCheck min_read_length read1 negative_read2 read2_length s q o)
    (hfirst : ∀ k, SeedAt read1 negative_read2 s (min_read_length / 2) k →
      s * (min_read_length / 2) ≤ k) :
    ∃ o', TrimAdapterForPairedEndRead min_read_length read1 negative_read2 read2_length =
      some (o', o') := by
  unfold TrimAdapterForPairedEndRead
  cases h0 : trimSeed min_read_length read1 negative_read2 read2_length 0 with
  | some lengths =>
      obtain ⟨o1, o2⟩ := lengths
      obtain ⟨h2, _⟩ := trimSeed_spec min_read_length read1 negative_read2 read2_length 0 o1 o2
        hlen h32 (by omega) h0
      subst h2
      exact ⟨o2, rfl⟩
  | none =>
      have hs1 : s = 1 := by
        have hs := hcheck.1
        by_contra hne
        have hs0 : s = 0 := by omega
        subst hs0
        obtain ⟨o', ho'⟩ := trimSeed_complete min_read_length read1 negative_read2 read2_length
          0 q o hlen h32 hcheck hfirst
        rw [h0] at ho'
        exact absurd ho' (by simp)
      subst hs1
      exact trimSeed_complete min_read_length read1 negative_read2 read2_length 1 q o hlen h32
        hcheck hfirst

/-- C34: with `min_read_length_ = 4`, read 1 `TCGTAACC` and the reverse
complement `GTACGTAA` of read 2, the seed hit of the shift 1 at position 4
passes the check of the claim (position `4 ≥ L = 2`, overlap length
`8 - 4 + 2 = 6 ≥ 4`, one mismatch), yet the pair is not trimmed: the seed `GT`
also occurs at position 0, below `L`, and the `while` loop over its occurrences,
which carries the position test in its condition, ends there before the hit at
4 is verified. -/
theorem TrimAdapterForPairedEndRead_misses_hit :
    OverlapCheck 4 missedRead1 missedNegativeRead2 8 1 4 6 ∧
      SeedAt missedRead1 missedNegativeRead2 1 2 0 ∧
      TrimAdapterForPairedEndRead 4 missedRead1 missedNegativeRead2 8 = none := by
  decide

theorem processReads_eq (a : ProcessArgs) (l : List (Nat × Nat)) (b r : Int) :
    processReads a l b r =
      selectReads (fun e => decide (pairSumErrors a.mappings1 a.mappings2 e = a.min_sum_errors))
        a.best_mapping_indices (min a.max_num_best_mappings a.num_best_mappings) l b r := by
  induction l generalizing b r with
  | nil => rfl
  | cons x rest ih =>
      obtain ⟨i1, i2⟩ := x
      simp only [processReads, selectReads, pairSumErrors, decide_eq_true_eq, ih]

theorem singleReads_eq (a : SingleArgs) (l : List (Int × Nat)) (b r : Int) :
    singleReads a l b r =
      selectReads (fun m => decide (m.1 = a.min_num_errors)) a.best_mapping_indices
        (min a.max_num_best_mappings a.num_best_mappings) l b r := by
  induction l generalizing b r with
  | nil => rfl
  | cons x rest ih =>
      simp only [singleReads, selectReads, decide_eq_true_eq, ih]

theorem selectReads_lt {α : Type} (best : α → Bool) (s : List Int) (cap : Int)
    (l : List α) (b r : Int) (taken : List α) (hr0 : 0 ≤ r) (hr : r < cap) :
    (∀ i, i ∈ selectReads best s cap l b r → 0 ≤ i ∧ i < cap) ∧
      r ≤ (selectLoop best s cap l b r taken).2.1 ∧
      (selectLoop best s cap l b r taken).2.1 ≤ cap := by
  induction l generalizing b r taken with
  | nil =>
      refine ⟨fun i hi => ?_, ?_, ?_⟩
      · simp [selectReads] at hi
      · simp [selectLoop]
      · simp only [selectLoop]
        omega
  | cons x rest ih =>
      by_cases hx : best x = true
      · by_cases hbs : b = s.getD r.toNat 0
        · by_cases hT : r + 1 = cap
          · simp only [selectReads, selectLoop, hx, if_true]
            rw [if_pos hbs, if_pos hbs, if_pos hT, if_pos hT]
            refine ⟨fun i hi => ?_, by simp only; omega, by simp only; omega⟩
            simp only [List.mem_singleton] at hi
            omega
          · simp only [selectReads, selectLoop, hx, if_true]
            rw [if_pos hbs, if_pos hbs, if_neg hT, if_neg hT]
            obtain ⟨h1, h2, h3⟩ := ih (b + 1) (r + 1) (taken ++ [x]) (by omega) (by omega)
            refine ⟨fun i hi => ?_, by omega, h3⟩
            simp only [List.mem_cons] at hi
            rcases hi with hi | hi
            · omega
            · exact h1 i hi
        · simp only [selectReads, selectLoop, hx, if_true]
          rw [if_neg hbs, if_neg hbs]
          obtain ⟨h1, h2, h3⟩ := ih (b + 1) r taken hr0 hr
          refine ⟨fun i hi => ?_, h2, h3⟩
          simp only [List.mem_cons] at hi
          rcases hi with hi | hi
          · omega
          · exact h1 i hi
      · have hx' : best x = false := by simpa using hx
        simp only [selectReads, selectLoop, hx', Bool.false_eq_true, if_false]
        exact ih b r taken hr0 hr

theorem selectReads_nil {α : Type} (best : α → Bool) (s : List Int) (cap : Int)
    (l : List α) (b r : Int) (taken : List α) (h : l.filter best = []) :
    selectReads best s cap l b r = [] ∧ (selectLoop best s cap l b r taken).2.1 = r := by
  induction l generalizing b r taken with
  | nil => exact ⟨rfl, rfl⟩
  | cons x rest ih =>
      by_cases hx : best x = true
      · simp [List.filter_cons, hx] at h
      · have hx' : best x = false := by simpa using hx
        simp only [List.filter_cons, hx', Bool.false_eq_true, if_false] at h
        simp only [selectReads, selectLoop, hx', Bool.false_eq_true, if_false]
        exact ih b r taken h

/-- The two passes of a selector: if a best item in either list implies that
the cap is at least 1, every subscript read is in `[0, cap)`. -/
theorem selectReads_two {α : Type} (best1 best2 : α → Bool) (s : List Int) (cap : Int)
    (l1 l2 : List α)
    (hpos : l1.filter best1 ≠ [] ∨ l2.filter best2 ≠ [] → 1 ≤ cap) :
    ∀ i, i ∈ selectReads best1 s cap l1 0 0 ++
        (if (selectLoop best1 s cap l1 0 0 []).2.1 ≠ cap then
          selectReads best2 s cap l2 (selectLoop best1 s cap l1 0 0 []).1
            (selectLoop best1 s cap l1 0 0 []).2.1
        else []) →
      0 ≤ i ∧ i < cap := by
  intro i hi
  rw [List.mem_append] at hi
  by_cases h1 : l1.filter best1 = []
  · obtain ⟨e1, e2⟩ := selectReads_nil best1 s cap l1 0 0 [] h1
    rw [e1, e2] at hi
    rcases hi with hi | hi
    · simp at hi
    · by_cases hc : (0 : Int) ≠ cap
      · rw [if_pos hc] at hi
        by_cases h2 : l2.filter best2 = []
        · rw [(selectReads_nil best2 s cap l2 _ 0 [] h2).1] at hi
          simp at hi
        · have := hpos (Or.inr h2)
          exact (selectReads_lt best2 s cap l2 _ 0 [] (le_refl _) (by omega)).1 i hi
      · rw [if_neg hc] at hi
        simp at hi
  · have hcap := hpos (Or.inl h1)
    obtain ⟨g1, g2, g3⟩ := selectReads_lt best1 s cap l1 0 0 [] (le_refl _) (by omega)
    rcases hi with hi | hi
    · exact g1 i hi
    · by_cases hc : (selectLoop best1 s cap l1 0 0 []).2.1 ≠ cap
      · rw [if_pos hc] at hi
        exact (selectReads_lt best2 s cap l2 _ _ [] g2 (by omega)).1 i hi
      · rw [if_neg hc] at hi
        simp at hi

theorem sample_length (N k : Int) (draw : Nat → Nat) :
    (sampleBestMappingIndices N k draw).length = N.toNat := by
  unfold sampleBestMappingIndices
  simp only []
  split
  · rw [List.length_insertionSort]
    exact (reservoirLoop_inv N draw (k - N).toNat N.toNat (iotaIndices N) (iotaIndices_inv N)).1
  · exact (iotaIndices_inv N).1

/-- C38: in the emission scans of both selectors the subscript
`*num_best_mappings_reported` with which `best_mapping_indices` is read is
always in `[0, N)`, `N = max_num_best_mappings_ ≥ 1` being the size of the
vector, across both passes: for the paired-end selector on any four alignment
lists (the vectors of best pairs start empty), and for the single-end selector
when `num_best_mappings` counts the alignments with `min_num_errors` errors, as
`VerifyCandidates` leaves it. -/
theorem emission_subscripts_in_range (p : SelectorParams) (draw : Nat → Nat)
    (read1 read2 read : ReadRecord) (reference : Reference)
    (pos1 neg1 pos2 neg2 positive_mappings negative_mappings : List (Int × Nat))
    (paired_buffers : Nat → List PairedEndMapping)
    (single_buffers : Nat → List SingleEndMapping)
    (min_num_errors num_best_mappings num_second_best_mappings : Int)
    (hN : 1 ≤ p.max_num_best_mappings)
    (hcount : num_best_mappings =
      ((positive_mappings.filter fun m => decide (m.1 = min_num_errors)).length : Int) +
        ((negative_mappings.filter fun m => decide (m.1 = min_num_errors)).length : Int)) :
    (∀ i, i ∈ pairedEndReads p draw read1 read2 reference pos1 neg1 pos2 neg2 [] []
        paired_buffers → 0 ≤ i ∧ i < p.max_num_best_mappings) ∧
      (∀ i, i ∈ singleEndReads p draw min_num_errors num_best_mappings
        num_second_best_mappings read reference positive_mappings negative_mappings
        single_buffers → 0 ≤ i ∧ i < p.max_num_best_mappings) ∧
      ∀ k, ((sampleBestMappingIndices p.max_num_best_mappings k draw).length : Int) =
        p.max_num_best_mappings := by
  refine ⟨?_, ?_, ?_⟩
  · intro i hi
    unfold pairedEndReads at hi
    simp only at hi
    split at hi
    · have hk := generate_bestCount p read1 read2 pos1 neg1 pos2 neg2
      generalize generateF1R2 p read1 read2 pos1 neg2 [] = f at hi hk
      generalize generateF2R1 p read1 read2 neg1 pos2 [] f = r at hi hk
      have e := processLoop_select
        (pairedArgs p Direction.kPositive read1 read2 reference pos1 neg2
          (mapqPairedEnd r.num_best_mappings r.num_second_best_mappings)
          (sampleBestMappingIndices p.max_num_best_mappings r.num_best_mappings draw)
          r.min_sum_errors r.num_best_mappings) paired_buffers f.best_mappings 0 0 []
      simp only [List.map_nil, appendRecords_nil] at e
      unfold ProcessBestMappingsForPairedEndReadOnOneDirection at hi
      rw [e] at hi
      simp only [processReads_eq] at hi
      simp only [pairedArgs] at hi
      have h := selectReads_two
        (fun e => decide (pairSumErrors pos1 neg2 e = r.min_sum_errors))
        (fun e => decide (pairSumErrors neg1 pos2 e = r.min_sum_errors))
        (sampleBestMappingIndices p.max_num_best_mappings r.num_best_mappings draw)
        (min p.max_num_best_mappings r.num_best_mappings) f.best_mappings r.best_mappings
        (by
          intro hne
          have h1 : 1 ≤ r.num_best_mappings := by
            rw [hk]
            rcases hne with hne | hne
            · have := List.length_pos.mpr hne
              omega
            · have := List.length_pos.mpr hne
              omega
          omega) i hi
      omega
    · simp at hi
  · intro i hi
    unfold singleEndReads at hi
    simp only at hi
    have e := singleLoop_select
      (singleArgs p Direction.kPositive read reference
        (mapqSingleEnd num_best_mappings num_second_best_mappings)
        (sampleBestMappingIndices p.max_num_best_mappings num_best_mappings draw)
        min_num_errors num_best_mappings) single_buffers positive_mappings 0 0 []
    simp only [List.map_nil, appendRecords_nil] at e
    unfold ProcessBestMappingsForSingleEndRead at hi
    rw [e] at hi
    simp only [singleReads_eq] at hi
    simp only [singleArgs] at hi
    rw [min_comm num_best_mappings p.max_num_best_mappings] at hi
    have h := selectReads_two
      (fun m : Int × Nat => decide (m.1 = min_num_errors))
      (fun m : Int × Nat => decide (m.1 = min_num_errors))
      (sampleBestMappingIndices p.max_num_best_mappings num_best_mappings draw)
      (min p.max_num_best_mappings num_best_mappings) positive_mappings negative_mappings
      (by
        intro hne
        have h1 : 1 ≤ num_best_mappings := by
          rw [hcount]
          rcases hne with hne | hne
          · have := List.length_pos.mpr hne
            omega
          · have := List.length_pos.mpr hne
            omega
        omega) i hi
    omega
  · intro k
    rw [sample_length]
    omega

theorem emission_subscripts_in_range_witness :
    (1 : Int) ≤ capParams.max_num_best_mappings ∧
      ∀ i, i ∈ singleEndReads capParams (fun _ => 0) 0 20 0 capRead capReference capMappings []
        (fun _ => []) → 0 ≤ i ∧ i < capParams.max_num_best_mappings :=
  ⟨by decide,
    (emission_subscripts_in_range capParams (fun _ => 0) capRead capRead capRead capReference
      [] [] [] [] capMappings [] (fun _ => []) (fun _ => []) 0 20 0 (by decide)
      (by decide)).2.1⟩

theorem allocSubscripts_inv (overlap : List (Nat × Nat) → Nat → Nat → Nat)
    (sample : Nat → List Nat → Nat) (trees : Nat → List (Nat × Nat))
    (mappings : Nat → List PairedEndMapping) (S : List MultiIndex) (fake : MultiIndex)
    (hS : S ≠ [])
    (hsorted : ∀ i j, i ≤ j → j < S.length → (S.getD i (0, 0, 0)).1 ≤ (S.getD j (0, 0, 0)).1)
    (hsample : ∀ (c : Nat) (weights : List Nat), (∃ x, x ∈ weights ∧ 0 < x) →
      sample c weights < weights.length ∧ 0 < weights.getD (sample c weights) 0)
    (k mi : Nat) (st : AllocState) (hk : mi + k ≤ S.length + 1)
    (h : AllocInv (numOverlaps overlap trees mappings) mappings S fake mi st) :
    ∀ e, e ∈ allocSubscripts overlap sample trees mappings (S ++ [fake]) k mi st →
      e.1 ≤ e.2.1 ∧ e.2.1 < e.2.2 ∧ e.2.2 < (S ++ [fake]).length ∧
        ∀ j, e.1 ≤ j → j < e.2.2 →
          ((S ++ [fake]).getD j (0, 0, 0)).1 = ((S ++ [fake]).getD e.2.1 (0, 0, 0)).1 := by
  induction k generalizing mi st with
  | zero =>
      intro e he
      simp [allocSubscripts] at he
  | succ k ih =>
      intro e he
      unfold allocSubscripts at he
      rw [List.mem_append] at he
      have hSlen : 0 < S.length := List.length_pos.mpr hS
      by_cases hid : ((S ++ [fake]).getD mi (0, 0, 0)).1 = st.previous_read_id
      · rcases he with he | he
        · rw [if_pos hid] at he
          simp at he
        · exact ih (mi + 1) _ (by omega)
            (allocStep_push overlap sample trees mappings S fake mi st h hid) e he
      · rcases he with he | he
        · rw [if_neg hid] at he
          simp only [List.mem_singleton] at he
          have hpos : 0 < mi := by
            by_contra h0
            have h0' : mi = 0 := by omega
            apply hid
            rw [h0', List.getD_append _ _ _ _ hSlen]
            exact (h.fresh h0').symm
          have hlt := h.nonempty hpos
          have hlen := h.weights_length
          have hWlen : (if st.sum_weight = 0 then st.weights.map fun _ => 1
              else st.weights).length = mi - st.start_mapping_index := by
            split
            · rw [List.length_map, hlen]
            · exact hlen
          have hex : ∃ x, x ∈ (if st.sum_weight = 0 then st.weights.map fun _ => 1
              else st.weights) ∧ 0 < x := by
            split
            · obtain ⟨y, hy⟩ := List.exists_mem_of_length_pos (l := st.weights) (by omega)
              exact ⟨1, List.mem_map.mpr ⟨y, hy, rfl⟩, by omega⟩
            · rename_i hne
              by_contra hcon
              apply hne
              have hz : st.weights.sum = 0 := by
                apply List.sum_eq_zero
                intro x hx
                by_contra hx0
                exact hcon ⟨x, hx, by omega⟩
              rw [h.sum, hz]
              rfl
          have hs := (hsample st.num_allocated_multi_mappings _ hex).1
          rw [hWlen] at hs
          rw [he]
          simp only [List.length_append, List.length_singleton]
          refine ⟨by omega, by omega, by omega, fun j hj1 hj2 => ?_⟩
          rw [h.run j hj1 hj2, h.run _ (by omega) (by omega)]
        · exact ih (mi + 1) _ (by omega)
            (allocStep_flush overlap sample trees mappings S fake hS hsorted hsample mi st
              (by omega) h hid) e he

/-- C39: the assertion `multi_mapping_indices.size() > 0` of
`AllocateMultiMappings` holds exactly when a record of the container has MAPQ
below 30; when every record has MAPQ at least 30 (or there is none) the
operation fails the assertion; and when there is a record of MAPQ below 30,
every subscript `start_mapping_index + randomly_assigned_mapping_index` lies in
`[start_mapping_index, mi)`, inside the vector, where all entries carry the
read id of the entry read. `sample` draws as `std::discrete_distribution` does:
it returns an index of positive weight. -/
theorem AllocateMultiMappings_assertion (overlap : List (Nat × Nat) → Nat → Nat → Nat)
    (sample : Nat → List Nat → Nat) (n : Nat) (mappings : Nat → List PairedEndMapping)
    (hsample : ∀ (c : Nat) (weights : List Nat), (∃ x, x ∈ weights ∧ 0 < x) →
      sample c weights < weights.length ∧ 0 < weights.getD (sample c weights) 0) :
    ((sortedMultiIndices n mappings).length > 0 ↔
      ∃ ri mi, ri < n ∧ mi < (mappings ri).length ∧
        ((mappings ri).getD mi default).mapq < 30) ∧
    ((¬ ∃ ri mi, ri < n ∧ mi < (mappings ri).length ∧
        ((mappings ri).getD mi default).mapq < 30) →
      AllocateMultiMappingsAsserted overlap sample n mappings = none) ∧
    ((∃ ri mi, ri < n ∧ mi < (mappings ri).length ∧
        ((mappings ri).getD mi default).mapq < 30) →
      ∀ e, e ∈ allocationSubscripts overlap sample n mappings →
        e.1 ≤ e.2.1 ∧ e.2.1 < e.2.2 ∧
          e.2.2 < (sortedMultiIndices n mappings).length + 1 ∧
          ∀ j, e.1 ≤ j → j < e.2.2 →
            (((sortedMultiIndices n mappings) ++
              [(4294967295, ((sortedMultiIndices n mappings).getLastD (0, 0, 0)).2.1,
                ((sortedMultiIndices n mappings).getLastD (0, 0, 0)).2.2)]).getD j
                  (0, 0, 0)).1 =
            (((sortedMultiIndices n mappings) ++
              [(4294967295, ((sortedMultiIndices n mappings).getLastD (0, 0, 0)).2.1,
                ((sortedMultiIndices n mappings).getLastD (0, 0, 0)).2.2)]).getD e.2.1
                  (0, 0, 0)).1) := by
  have hiff : (sortedMultiIndices n mappings).length > 0 ↔
      ∃ ri mi, ri < n ∧ mi < (mappings ri).length ∧
        ((mappings ri).getD mi default).mapq < 30 := by
    constructor
    · intro hpos
      obtain ⟨t, ht⟩ := List.exists_mem_of_length_pos hpos
      obtain ⟨h1, h2, h3, _⟩ := (mem_sortedMultiIndices n mappings t).mp ht
      exact ⟨t.2.1, t.2.2, h1, h2, h3⟩
    · rintro ⟨ri, mi, h1, h2, h3⟩
      exact List.length_pos_of_mem
        ((mem_sortedMultiIndices n mappings
          (((mappings ri).getD mi default).read_id, ri, mi)).mpr ⟨h1, h2, h3, rfl⟩)
  refine ⟨hiff, fun hnone => ?_, fun hsome e he => ?_⟩
  · unfold AllocateMultiMappingsAsserted
    rw [if_neg (fun hpos => hnone (hiff.mp hpos))]
  · have hS : sortedMultiIndices n mappings ≠ [] := List.length_pos.mp (hiff.mpr hsome)
    unfold allocationSubscripts at he
    simp only [List.length_append, List.length_singleton] at he
    have := allocSubscripts_inv overlap sample (uniqueMappingTrees n mappings) mappings
      (sortedMultiIndices n mappings)
      (4294967295, ((sortedMultiIndices n mappings).getLastD (0, 0, 0)).2.1,
        ((sortedMultiIndices n mappings).getLastD (0, 0, 0)).2.2)
      hS (sortedMultiIndices_ids n mappings) hsample
      ((sortedMultiIndices n mappings).length + 1) 0
      { weights := [], sum_weight := 0,
        previous_read_id := ((sortedMultiIndices n mappings).getD 0 (0, 0, 0)).1,
        start_mapping_index := 0, allocated_multi_mappings_on_diff_ref_seqs := fun _ => [],
        num_allocated_multi_mappings := 0, allocations := [] }
      (by omega)
      { start_le := Nat.le_refl 0
        fresh := fun _ => rfl
        nonempty := fun h => absurd h (Nat.lt_irrefl 0)
        weights_length := rfl
        weights_get := fun j hj => absurd hj (Nat.not_lt_zero j)
        sum := rfl
        run := fun j _ hj => absurd hj (Nat.not_lt_zero j)
        left := fun _ j hj => absurd hj (Nat.not_lt_zero j)
        valid := fun _ e he => by simp at he
        out := (appendRecords_nil _).symm } e he
    simpa only [List.length_append, List.length_singleton] using this

theorem AllocateMultiMappings_assertion_witness :
    allocationSubscripts overlapCount sampleFirstPositive 1 allocationMappings = [(0, 1, 2)] ∧
      (AllocateMultiMappingsAsserted overlapCount sampleFirstPositive 1
        uniqueMappingsOnly).isNone = true ∧
      ((sortedMultiIndices 1 allocationMappings).length > 0 ↔
        ∃ ri mi, ri < 1 ∧ mi < (allocationMappings ri).length ∧
          ((allocationMappings ri).getD mi default).mapq < 30) :=
  ⟨by decide, by decide,
    (AllocateMultiMappings_assertion overlapCount sampleFirstPositive 1 allocationMappings
      sampleFirstPositive_contract).1⟩

end Chromap
